import Mathlib

/-!
# MNFTL: a verification development of the flash translation layer

Shallow embedding of the rmap-based MNFTL engine (`src/mn_ftl_v3.cpp`) and of the
parts of `src/ssd.h` it uses, followed by theorems about the mapping store
(PMD anchors, PMT slot grids, reverse map), the write frontier and the
`read` / `write` / `trim` / `cleanup_block` operations.  The cache-based variant
(`src/FTLs/mn_ftl.cpp`) and the scan-based engine (`src/mn_ftl.cpp`) are embedded
after it, as far as the theorems about them need.

Conventions of the embedding.

* `ulong` values are naturals below `2^64`, `uint` values naturals below `2^32`,
  `long` values integers; the conversions the C++ code performs are the explicit
  functions `toLong`, `toUlong` and `toUint`.
* `std::map` objects are functions into `Option`; `std::vector` objects are lists.
  An out-of-range `operator[]` on a vector, an `operator[]` on a map key that was
  never created followed by an index, a failed `assert` and a division by zero
  are undefined behaviour in the source: the embedded operation returns `none`.
* The collaborators of the engine (Device / Controller, Block manager) are not
  part of the engine; every call to them is represented by the answer it gave
  (`IssueResp`, `BlockResp`, the `Address` filled in by `get_free_page`, the page
  state returned by `Block::get_state`).  The operations take these answers as
  arguments, so a theorem quantified over them holds for every collaborator.
* Simulated times (`double` in the source) are exact rationals.
-/

namespace MnFtl

/-! ## Types of `ssd.h` -/

/-- The enumeration `page_state` of `ssd.h`. -/
inductive page_state where
  | EMPTY | VALID | INVALID
deriving DecidableEq, Repr

/-- The enumeration `event_type` of `ssd.h`. -/
inductive event_type where
  | READ | WRITE | ERASE | MERGE | TRIM
deriving DecidableEq, Repr

/-- The enumeration `status` of `ssd.h`. -/
inductive status where
  | FAILURE | SUCCESS
deriving DecidableEq, Repr

/-- The enumeration `address_valid` of `ssd.h`. -/
inductive address_valid where
  | NONE | PACKAGE | DIE | PLANE | BLOCK | PAGE
deriving DecidableEq, Repr

/-- The data members of `class Address` (`ssd.h`). -/
structure Address where
  package : Nat
  die : Nat
  plane : Nat
  block : Nat
  page : Nat
  real_address : Nat
  valid : address_valid
deriving DecidableEq, Repr

/-- Result of `Address::get_linear_address`, an `ulong`. -/
def Address.get_linear_address (a : Address) : Nat := a.real_address % 18446744073709551616

/-- The data members of `class Event` (`ssd.h`) that the engine reads or writes. -/
structure Event where
  type : event_type
  logical_address : Nat
  size : Nat
  start_time : ℚ
  time_taken : ℚ
  noop : Bool
  address : Address
  replace_address : Address
deriving DecidableEq

/-- The method `Event::set_noop`. -/
def Event.set_noop (e : Event) (value : Bool) : Event := { e with noop := value }

/-- The method `Event::set_address`. -/
def Event.set_address (e : Event) (a : Address) : Event := { e with address := a }

/-- The method `Event::set_replace_address`. -/
def Event.set_replace_address (e : Event) (a : Address) : Event := { e with replace_address := a }

/-- Modelled from the spec: the method `Event::incr_time_taken`, declared in `ssd.h`, whose
body is not among the sources.  Following the event record of the spec (section 6.4,
`incr_time_taken(Δ)`), it adds `time_incr` to the accumulated time. -/
def Event.incr_time_taken (e : Event) (time_incr : ℚ) : Event :=
  { e with time_taken := e.time_taken + time_incr }

/-- The configuration constants and the constructors of `ssd.h` whose bodies are not
part of the engine: `BLOCK_SIZE`, `MNFTL_OOB_SIZE`, `MNFTL_ENTRY_SIZE`,
`OOB_READ_DELAY`, the two-argument constructor `Address(uint address, enum
address_valid valid)` and the value built by the default constructor `Address()`. -/
structure Config where
  BLOCK_SIZE : Nat
  MNFTL_OOB_SIZE : Nat
  MNFTL_ENTRY_SIZE : Nat
  OOB_READ_DELAY : ℚ
  mkAddress : Nat → address_valid → Address
  voidAddress : Address

/-- Modelled from the spec: the constructor `Event(type, logical_address, size, start_time)`,
declared in `ssd.h`, whose body is not among the sources.  Following the event record of the
spec (section 6.4), a new event has accumulated no time, is not a noop and carries
default-constructed addresses. -/
def Event.new (cfg : Config) (type : event_type) (logical_address size : Nat) (start_time : ℚ) :
    Event :=
  { type := type, logical_address := logical_address, size := size, start_time := start_time,
    time_taken := 0, noop := false, address := cfg.voidAddress,
    replace_address := cfg.voidAddress }

/-! ## Machine integers -/

/-- The sentinel `-1` stored in PMD and PMT for "no physical page". -/
def UNMAPPED : Int := -1

/-- Conversion `(long)x` of an `ulong`. -/
def toLong (n : Nat) : Int :=
  if n % 18446744073709551616 < 9223372036854775808 then ((n % 18446744073709551616 : Nat) : Int)
  else ((n % 18446744073709551616 : Nat) : Int) - 18446744073709551616

/-- Conversion `(ulong)x` of a `long`. -/
def toUlong (z : Int) : Nat := (z % 18446744073709551616).toNat

/-- Conversion of a `long` or `ulong` to the `uint` parameter of `Address(uint, …)`. -/
def toUint (z : Int) : Nat := (z % 4294967296).toNat

/-! ## State of the engine -/

/-- The value type `RmapEntry` of `rmap`: the PMT slot `(lbn, pmd, slot)` a physical page
stands for. -/
structure RmapEntry where
  lbn : Nat
  pmd : Nat
  slot : Nat
deriving DecidableEq, Repr

/-- The data members of `FtlImpl_MNftl` used by `src/mn_ftl_v3.cpp`.  The class declaration
is not in `ssd.h`; the members and their types are read off the member functions: `P`, `Q`,
`num_pmd` are `uint`s, the rows of `PMD` and `PMT` are vectors of `long`, the keys of `rmap`
are `ulong` page numbers, `current_blocks` is a set of `long` block numbers. -/
structure FtlImpl_MNftl where
  P : Nat
  Q : Nat
  num_pmd : Nat
  has_current_block : Bool
  current_page_offset : Nat
  current_block : Address
  PMD : Nat → Option (List Int)
  PMT : Nat → Option (List (List Int))
  rmap : Nat → Option RmapEntry
  BML : List Nat
  current_blocks : Finset Int

/-- The counters of `controller.stats` that the engines of `src/mn_ftl_v3.cpp` and
`src/mn_ftl.cpp` increment (`numFTLErase` only by the latter). -/
structure Stats where
  numFTLRead : Int
  numFTLWrite : Int
  numFTLTrim : Int
  valid_page_copies : Int
  numWLRead : Int
  numWLWrite : Int
  numFTLErase : Int
deriving DecidableEq, Repr

/-- One observable action of the engine, in program order. -/
inductive Action where
  | issue (e : Event)
  | get_free_block
  | get_free_page
  | pmd_create (lbn : Nat)
  | pmt_create (lbn : Nat)
  | pmt_store (lbn idx slot : Nat) (v : Int)
  | pmd_store (lbn idx : Nat) (v : Int)
  | rmap_erase (ppn : Nat)
  | rmap_store (ppn : Nat) (e : RmapEntry)
deriving DecidableEq

/-- The engine together with the controller statistics and the trace of actions so far. -/
structure Machine where
  ftl : FtlImpl_MNftl
  stats : Stats
  trace : List Action

/-- What an operation leaves behind: the machine, the event it was given, its return value. -/
structure Outcome (ρ : Type) where
  m : Machine
  event : Event
  ret : ρ

/-- Answer of the Device to `controller.issue(event)`: the status returned and the latency
added to the event. -/
structure IssueResp where
  ret : status
  delay : ℚ
deriving DecidableEq

/-- Answer of `Block_manager::get_free_block(event)`: the block and the time charged to the
event. -/
structure BlockResp where
  blk : Address
  delay : ℚ
deriving DecidableEq

/-- Answers of the collaborators while one valid page of a victim is copied. -/
structure CopyResp where
  rd : IssueResp
  fb : BlockResp
  newAddr : Address
  wr : IssueResp
deriving DecidableEq

/-- The constructor `FtlImpl_MNftl::FtlImpl_MNftl`; `uint` arithmetic, division by zero
undefined. -/
def FtlImpl_MNftl.new (cfg : Config) : Option FtlImpl_MNftl :=
  if cfg.MNFTL_ENTRY_SIZE = 0 then none
  else
    let P := cfg.BLOCK_SIZE
    let Q := cfg.MNFTL_OOB_SIZE / cfg.MNFTL_ENTRY_SIZE
    if Q = 0 then none
    else
      some { P := P, Q := Q, num_pmd := ((P + Q + 4294967296 - 1) % 4294967296) / Q,
             has_current_block := false, current_page_offset := 0,
             current_block := cfg.mkAddress 0 address_valid.NONE,
             PMD := fun _ => none, PMT := fun _ => none, rmap := fun _ => none,
             BML := [], current_blocks := ∅ }

/-- The counters at start-up. -/
def Stats.zero : Stats :=
  { numFTLRead := 0, numFTLWrite := 0, numFTLTrim := 0, valid_page_copies := 0,
    numWLRead := 0, numWLWrite := 0, numFTLErase := 0 }

/-- The machine right after construction of the engine. -/
def Machine.new (cfg : Config) : Option Machine :=
  (FtlImpl_MNftl.new cfg).map (fun f => { ftl := f, stats := Stats.zero, trace := [] })

/-! ## Address decomposition -/

/-- Logical block number: `uint lbn = lpn / P`. -/
def lbn_of (P lpn : Nat) : Nat := (lpn / P) % 4294967296

/-- Block offset: `uint bo = lpn % P`. -/
def bo_of (P lpn : Nat) : Nat := (lpn % P) % 4294967296

/-- Fragment index: `uint pmd_index = bo / Q`. -/
def pmd_index_of (P Q lpn : Nat) : Nat := bo_of P lpn / Q

/-- Slot in the fragment: `uint map_slot = bo % Q`. -/
def map_slot_of (P Q lpn : Nat) : Nat := bo_of P lpn % Q

/-! ## Accessors of the mapping store -/

/-- The expression `PMD[lbn][idx]`; `none` when it is undefined. -/
def PMD_get (f : FtlImpl_MNftl) (lbn idx : Nat) : Option Int :=
  match f.PMD lbn with
  | none => none
  | some row => row[idx]?

/-- The expression `PMT[lbn][idx][slot]`; `none` when it is undefined. -/
def PMT_get (f : FtlImpl_MNftl) (lbn idx slot : Nat) : Option Int :=
  match f.PMT lbn with
  | none => none
  | some grid =>
    match grid[idx]? with
    | none => none
    | some row => row[slot]?

/-- The assignment `PMD[lbn][idx] = v` (used where `PMD[lbn][idx]` is defined). -/
def PMD_set (f : FtlImpl_MNftl) (lbn idx : Nat) (v : Int) : FtlImpl_MNftl :=
  { f with PMD := fun k => if k = lbn then (f.PMD k).map (fun row => row.set idx v) else f.PMD k }

/-- The assignment `PMT[lbn][idx][slot] = v` (used where `PMT[lbn][idx][slot]` is defined). -/
def PMT_set (f : FtlImpl_MNftl) (lbn idx slot : Nat) (v : Int) : FtlImpl_MNftl :=
  { f with PMT := fun k =>
      if k = lbn then (f.PMT k).map (fun grid => grid.set idx ((grid.getD idx []).set slot v))
      else f.PMT k }

/-- The call `rmap.erase(ppn)`. -/
def rmap_erase (f : FtlImpl_MNftl) (ppn : Nat) : FtlImpl_MNftl :=
  { f with rmap := fun k => if k = ppn then none else f.rmap k }

/-- The assignment `rmap[ppn] = e`. -/
def rmap_set (f : FtlImpl_MNftl) (ppn : Nat) (e : RmapEntry) : FtlImpl_MNftl :=
  { f with rmap := fun k => if k = ppn then some e else f.rmap k }

/-- Appends actions to the trace. -/
def Machine.log (m : Machine) (as : List Action) : Machine := { m with trace := m.trace ++ as }

/-- Replaces the engine state. -/
def Machine.setFtl (m : Machine) (f : FtlImpl_MNftl) : Machine := { m with ftl := f }

/-- The call `controller.issue(event)`, answered by `dev`. -/
def issue (m : Machine) (event : Event) (dev : IssueResp) : Outcome status :=
  { m := m.log [Action.issue event], event := event.incr_time_taken dev.delay, ret := dev.ret }

/-! ## Operations of `src/mn_ftl_v3.cpp` -/

/-- The predicate `FtlImpl_MNftl::is_current_block`. -/
def is_current_block (f : FtlImpl_MNftl) (pbn : Int) : Bool := decide (pbn ∈ f.current_blocks)

/-- The method `FtlImpl_MNftl::allocate_new_current_block`; `fb` is the answer of
`Block_manager::get_free_block(event)`. -/
def allocate_new_current_block (m : Machine) (event : Event) (fb : BlockResp) :
    Machine × Event :=
  let current_block : Address := { fb.blk with valid := address_valid.BLOCK }
  let f := m.ftl
  let f1 : FtlImpl_MNftl :=
    { f with current_block := current_block, current_page_offset := 0,
             has_current_block := true,
             current_blocks := insert (current_block.block : Int) f.current_blocks,
             BML := f.BML ++ [current_block.block] }
  ((m.log [Action.get_free_block]).setFtl f1, event.incr_time_taken fb.delay)

/-- The method `FtlImpl_MNftl::alloc_page_in_current_block`; `newAddr` is the address as
filled in by `controller.get_free_page(addr)`.  Returns the linear page number and the
address; undefined when the assertion fails. -/
def alloc_page_in_current_block (m : Machine) (newAddr : Address) :
    Option (Machine × Nat × Address) :=
  if m.ftl.has_current_block then
    some (m.log [Action.get_free_page], newAddr.get_linear_address, newAddr)
  else none

/-- The test `!has_current_block || current_page_offset == P` followed by the call of
`allocate_new_current_block` (in `write` and in `cleanup_block`). -/
def ensure_frontier (m : Machine) (event : Event) (fb : BlockResp) : Machine × Event :=
  if m.ftl.has_current_block = false ∨ m.ftl.current_page_offset = m.ftl.P then
    allocate_new_current_block m event fb
  else (m, event)

/-- The statement `current_page_offset++`. -/
def incr_offset (m : Machine) : Machine :=
  m.setFtl { m.ftl with current_page_offset := m.ftl.current_page_offset + 1 }

/-- The method `FtlImpl_MNftl::read`; `dev` is the answer of the Device to the issue. -/
def read (cfg : Config) (m : Machine) (event : Event) (dev : IssueResp) :
    Option (Outcome status) :=
  let m1 : Machine := { m with stats := { m.stats with numFTLRead := m.stats.numFTLRead + 1 } }
  let f := m1.ftl
  let lpn := event.logical_address
  if f.P = 0 then none
  else
    let lbn := lbn_of f.P lpn
    if f.Q = 0 then none
    else
      let pmd_index := pmd_index_of f.P f.Q lpn
      let map_slot := map_slot_of f.P f.Q lpn
      match f.PMD lbn with
      | none =>
        some (issue m1 ((event.set_noop true).set_address (cfg.mkAddress 0 address_valid.PAGE)) dev)
      | some _ =>
        match PMD_get f lbn pmd_index with
        | none => none
        | some anchor =>
          if anchor = -1 then
            some (issue m1
              ((event.set_noop true).set_address (cfg.mkAddress 0 address_valid.PAGE)) dev)
          else
            let event1 := event.incr_time_taken cfg.OOB_READ_DELAY
            match PMT_get f lbn pmd_index map_slot with
            | none => none
            | some ppn =>
              if ppn = -1 then
                some (issue m1
                  ((event1.set_noop true).set_address (cfg.mkAddress 0 address_valid.PAGE)) dev)
              else
                some (issue m1
                  (event1.set_address (cfg.mkAddress (toUint ppn) address_valid.PAGE)) dev)

/-- The two lazy creations at the start of `write`: `PMD[lbn]` and `PMT[lbn]`. -/
def ensure_rows (m : Machine) (lbn : Nat) : Machine :=
  let f := m.ftl
  let m1 : Machine :=
    match f.PMD lbn with
    | none =>
      (m.log [Action.pmd_create lbn]).setFtl
        { f with PMD := fun k => if k = lbn then some (List.replicate f.num_pmd (-1)) else f.PMD k }
    | some _ => m
  let f1 := m1.ftl
  match f1.PMT lbn with
  | none =>
    (m1.log [Action.pmt_create lbn]).setFtl
      { f1 with PMT := fun k =>
          if k = lbn then some (List.replicate f1.num_pmd (List.replicate f1.Q (-1)))
          else f1.PMT k }
  | some _ => m1

/-- The updates of the mapping store made by `write` once the page is allocated: the
`rmap.erase` of an old page followed by the three assignments to `PMT`, `PMD` and `rmap`. -/
def store_mapping (f : FtlImpl_MNftl) (lbn pmd_index map_slot : Nat) (old_ppn : Int)
    (new_ppn : Nat) : FtlImpl_MNftl :=
  let f1 := if old_ppn ≠ -1 then rmap_erase f (toUlong old_ppn) else f
  rmap_set
    (PMD_set (PMT_set f1 lbn pmd_index map_slot (toLong new_ppn)) lbn pmd_index (toLong new_ppn))
    new_ppn ⟨lbn, pmd_index, map_slot⟩

/-- The actions of `store_mapping`, in program order. -/
def store_mapping_actions (lbn pmd_index map_slot : Nat) (old_ppn : Int) (new_ppn : Nat) :
    List Action :=
  (if old_ppn ≠ -1 then [Action.rmap_erase (toUlong old_ppn)] else []) ++
    [Action.pmt_store lbn pmd_index map_slot (toLong new_ppn),
     Action.pmd_store lbn pmd_index (toLong new_ppn),
     Action.rmap_store new_ppn ⟨lbn, pmd_index, map_slot⟩]

/-- The part of `FtlImpl_MNftl::write` after the lazy creation of the rows: the charge for
the old anchor, the allocation, the update of the mapping and the issue. -/
def write_core (cfg : Config) (m3 : Machine) (event2 : Event) (lbn pmd_index map_slot : Nat)
    (newAddr : Address) (dev : IssueResp) : Option (Outcome status) :=
  match PMD_get m3.ftl lbn pmd_index with
  | none => none
  | some anchor =>
    let event3 := if anchor ≠ -1 then event2.incr_time_taken cfg.OOB_READ_DELAY else event2
    match alloc_page_in_current_block m3 newAddr with
    | none => none
    | some (m4, new_ppn, newAddr1) =>
      let m5 := incr_offset m4
      match PMT_get m5.ftl lbn pmd_index map_slot with
      | none => none
      | some old_ppn =>
        let event4 :=
          if old_ppn ≠ -1 then
            event3.set_replace_address
              (cfg.mkAddress (toUlong old_ppn % 4294967296) address_valid.PAGE)
          else event3
        let m7 :=
          (m5.log (store_mapping_actions lbn pmd_index map_slot old_ppn new_ppn)).setFtl
            (store_mapping m5.ftl lbn pmd_index map_slot old_ppn new_ppn)
        some (issue m7 (event4.set_address newAddr1) dev)

/-- The method `FtlImpl_MNftl::write`; `fb`, `newAddr` and `dev` are the answers of the
Block manager (used only when a new frontier is opened), of `get_free_page` and of the
Device to the issue. -/
def write (cfg : Config) (m : Machine) (event : Event) (fb : BlockResp) (newAddr : Address)
    (dev : IssueResp) : Option (Outcome status) :=
  let m1 : Machine := { m with stats := { m.stats with numFTLWrite := m.stats.numFTLWrite + 1 } }
  let lpn := event.logical_address
  if m1.ftl.P = 0 then none
  else
    let lbn := lbn_of m1.ftl.P lpn
    let m2 := (ensure_frontier m1 event fb).1
    let event2 := (ensure_frontier m1 event fb).2
    if m2.ftl.Q = 0 then none
    else
      let pmd_index := pmd_index_of m2.ftl.P m2.ftl.Q lpn
      let map_slot := map_slot_of m2.ftl.P m2.ftl.Q lpn
      write_core cfg (ensure_rows m2 lbn) event2 lbn pmd_index map_slot newAddr dev

/-- The method `FtlImpl_MNftl::trim`; `dev` is the answer of the Device to the issue. -/
def trim (cfg : Config) (m : Machine) (event : Event) (dev : IssueResp) :
    Option (Outcome status) :=
  let m1 : Machine := { m with stats := { m.stats with numFTLTrim := m.stats.numFTLTrim + 1 } }
  let f := m1.ftl
  let lpn := event.logical_address
  if f.P = 0 then none
  else
    let lbn := lbn_of f.P lpn
    match f.PMD lbn with
    | none => some { m := m1, event := event, ret := status.SUCCESS }
    | some row =>
      if f.Q = 0 then none
      else
        let pmd_index := pmd_index_of f.P f.Q lpn
        let map_slot := map_slot_of f.P f.Q lpn
        let m2 : Option Machine :=
          if pmd_index < row.length then
            match PMT_get f lbn pmd_index map_slot with
            | none => none
            | some old_ppn =>
              if old_ppn ≠ -1 then
                some ((m1.log [Action.rmap_erase (toUlong old_ppn),
                               Action.pmt_store lbn pmd_index map_slot (-1)]).setFtl
                  (PMT_set (rmap_erase f (toUlong old_ppn)) lbn pmd_index map_slot (-1)))
              else some m1
          else some m1
        match m2 with
        | none => none
        | some m3 =>
          some (issue m3
            ((event.set_noop true).set_address (cfg.mkAddress 0 address_valid.PAGE)) dev)

/-- The mapping rewrite of `cleanup_block` for one copied page: the body of
`if (it != rmap.end())`. -/
def remap (m : Machine) (old_ppn new_ppn : Nat) : Option Machine :=
  match m.ftl.rmap old_ppn with
  | none => some m
  | some e =>
    match PMT_get m.ftl e.lbn e.pmd e.slot with
    | none => none
    | some _ =>
      let f1 := PMT_set m.ftl e.lbn e.pmd e.slot (toLong new_ppn)
      match PMD_get f1 e.lbn e.pmd with
      | none => none
      | some _ =>
        let f2 := PMD_set f1 e.lbn e.pmd (toLong new_ppn)
        some ((m.log [Action.pmt_store e.lbn e.pmd e.slot (toLong new_ppn),
                      Action.pmd_store e.lbn e.pmd (toLong new_ppn),
                      Action.rmap_erase old_ppn, Action.rmap_store new_ppn e]).setFtl
          (rmap_set (rmap_erase f2 old_ppn) new_ppn e))

/-- One iteration of the loop of `cleanup_block`, for page index `i` of the victim whose
base is `physical_address`; `st` is what `block->get_state(i)` returned and `r` the answers
of the collaborators during the copy. -/
def cleanup_page (cfg : Config) (physical_address : Int) (i : Nat) (st : page_state)
    (r : CopyResp) (c : Outcome Unit) : Option (Outcome Unit) :=
  if st ≠ page_state.VALID then some c
  else
    let event := c.event
    let old_ppn := toUlong (physical_address + (i : Int))
    let rEv := (Event.new cfg event_type.READ event.logical_address 1 event.start_time).set_address
      (cfg.mkAddress (old_ppn % 4294967296) address_valid.PAGE)
    let o1 := issue c.m rEv r.rd
    let (m2, event2) := ensure_frontier o1.m event r.fb
    match alloc_page_in_current_block m2 r.newAddr with
    | none => none
    | some (m3, new_ppn, newAddr) =>
      let m4 := incr_offset m3
      let wEv := ((Event.new cfg event_type.WRITE event2.logical_address 1
          (event2.start_time + o1.event.time_taken)).set_address newAddr).set_replace_address
            (cfg.mkAddress (old_ppn % 4294967296) address_valid.PAGE)
      let o5 := issue m4 wEv r.wr
      let m6 : Machine :=
        { o5.m with stats := { o5.m.stats with
            valid_page_copies := o5.m.stats.valid_page_copies + 1 } }
      let event3 := event2.incr_time_taken (o1.event.time_taken + o5.event.time_taken)
      match remap m6 old_ppn new_ppn with
      | none => none
      | some m7 =>
        some { m := { m7 with stats := { m7.stats with numWLRead := m7.stats.numWLRead + 1,
                                                       numWLWrite := m7.stats.numWLWrite + 1 } },
               event := event3, ret := () }

/-- The loop of `cleanup_block` over the page indices `0, …, n - 1`, in ascending order;
`get_state i` is what `block->get_state(i)` returned when the loop reached `i` and `resp i`
the answers of the collaborators while page `i` was copied. -/
def cleanup_pages (cfg : Config) (physical_address : Int) (get_state : Nat → page_state)
    (resp : Nat → CopyResp) (c : Outcome Unit) : Nat → Option (Outcome Unit)
  | 0 => some c
  | n + 1 =>
    match cleanup_pages cfg physical_address get_state resp c n with
    | none => none
    | some c1 => cleanup_page cfg physical_address n (get_state n) (resp n) c1

/-- The method `FtlImpl_MNftl::cleanup_block` for the victim `block` with
`block->get_physical_address() = physical_address`. -/
def cleanup_block (cfg : Config) (m : Machine) (event : Event) (physical_address : Int)
    (get_state : Nat → page_state) (resp : Nat → CopyResp) : Option (Outcome Unit) :=
  let event1 := event.incr_time_taken ((m.ftl.num_pmd : ℚ) * cfg.OOB_READ_DELAY)
  match cleanup_pages cfg physical_address get_state resp
      { m := m, event := event1, ret := () } cfg.BLOCK_SIZE with
  | none => none
  | some c =>
    if cfg.BLOCK_SIZE = 0 then none
    else
      let f := c.m.ftl
      let f1 : FtlImpl_MNftl :=
        { f with current_blocks :=
            f.current_blocks.erase (Int.tdiv physical_address (cfg.BLOCK_SIZE : Int)) }
      some { m := c.m.setFtl f1, event := c.event, ret := () }

/-! ## Sequences of operations -/

/-- One call of the engine together with the answers of its collaborators. -/
inductive Op where
  | read (event : Event) (dev : IssueResp)
  | write (event : Event) (fb : BlockResp) (newAddr : Address) (dev : IssueResp)
  | trim (event : Event) (dev : IssueResp)
  | cleanup_block (event : Event) (physical_address : Int) (get_state : Nat → page_state)
      (resp : Nat → CopyResp)

/-- The machine after one call; `none` when the call has undefined behaviour. -/
def step (cfg : Config) (m : Machine) : Op → Option Machine
  | Op.read event dev => (read cfg m event dev).map (fun o => o.m)
  | Op.write event fb newAddr dev => (write cfg m event fb newAddr dev).map (fun o => o.m)
  | Op.trim event dev => (trim cfg m event dev).map (fun o => o.m)
  | Op.cleanup_block event physical_address get_state resp =>
    (cleanup_block cfg m event physical_address get_state resp).map (fun o => o.m)

/-- The machine after a sequence of calls, first call first. -/
def run (cfg : Config) : Machine → List Op → Option Machine
  | m, [] => some m
  | m, op :: ops =>
    match step cfg m op with
    | none => none
    | some m1 => run cfg m1 ops

/-! ## Predicates on engine states -/

/-- A configuration the constructor accepts and whose `uint` arithmetic does not wrap:
`BLOCK_SIZE ≥ 1`, `Q ≥ 1` and `P + Q - 1 < 2^32`. -/
def Config.ok (cfg : Config) : Prop :=
  0 < cfg.BLOCK_SIZE ∧ 0 < cfg.MNFTL_ENTRY_SIZE ∧
    0 < cfg.MNFTL_OOB_SIZE / cfg.MNFTL_ENTRY_SIZE ∧
    cfg.BLOCK_SIZE + cfg.MNFTL_OOB_SIZE / cfg.MNFTL_ENTRY_SIZE - 1 < 4294967296

/-- Well-formed engine state: `P`, `Q ≥ 1` are `uint`s, `num_pmd` covers every fragment
index, PMD and PMT have the same keys, every `PMD[L]` has `num_pmd` entries, every `PMT[L]`
is a `num_pmd × Q` grid of `long` values, and every `rmap` entry names a slot of an existing
row. -/
structure WF (f : FtlImpl_MNftl) : Prop where
  P_pos : 0 < f.P
  P_uint : f.P < 4294967296
  Q_pos : 0 < f.Q
  idx_lt : (f.P - 1) / f.Q < f.num_pmd
  keys : ∀ L, f.PMD L = none ↔ f.PMT L = none
  pmd_len : ∀ L row, f.PMD L = some row → row.length = f.num_pmd
  pmt_len : ∀ L grid, f.PMT L = some grid →
    grid.length = f.num_pmd ∧ ∀ row, row ∈ grid → row.length = f.Q
  pmt_long : ∀ L i s v, PMT_get f L i s = some v →
    -9223372036854775808 ≤ v ∧ v < 9223372036854775808
  rmap_dom : ∀ p e, f.rmap p = some e → f.PMT e.lbn ≠ none ∧ e.pmd < f.num_pmd ∧ e.slot < f.Q

/-- The `ulong` page number `n` is a physical page number: it is not the bit pattern of the
sentinel, `(long)n != -1`. -/
def isPage (n : Nat) : Prop := toLong n ≠ UNMAPPED

/-- No PMT slot of `f` holds the page number `n`. -/
def fresh (f : FtlImpl_MNftl) (n : Nat) : Prop := ∀ L i s, PMT_get f L i s ≠ some (toLong n)

/-- Invariant I1 of the mapping store: for every page number `p` other than the sentinel,
`rmap[p] = (L, i, s)` exactly when `PMT[L][i][s] = p`. -/
def I1 (f : FtlImpl_MNftl) : Prop :=
  ∀ p L i s, p < 18446744073709551616 → toLong p ≠ UNMAPPED →
    (f.rmap p = some ⟨L, i, s⟩ ↔ PMT_get f L i s = some (toLong p))

/-- Every key of `rmap` is the `ulong` of a physical page number. -/
def RmapPages (f : FtlImpl_MNftl) : Prop :=
  ∀ p e, f.rmap p = some e → p < 18446744073709551616 ∧ isPage p

/-- The invariant carried along sequences of calls whose allocations are fresh: the state is
well formed, I1 holds and the keys of `rmap` are page numbers. -/
structure Inv (f : FtlImpl_MNftl) : Prop where
  wf : WF f
  i1 : I1 f
  pages : RmapPages f

/-- The anchor property of one fragment `(L, i)`: if `PMD[L][i]` is not the sentinel, some
slot of `PMT[L][i]` holds it. -/
def I2_at (f : FtlImpl_MNftl) (L i : Nat) : Prop :=
  ∀ a, PMD_get f L i = some a → a ≠ UNMAPPED → ∃ s, PMT_get f L i s = some a

/-- Invariant I2 of the mapping store: the anchor property of every fragment. -/
def I2 (f : FtlImpl_MNftl) : Prop := ∀ L i, I2_at f L i

/-- Invariant I3 of the mapping store: no page number other than the sentinel is held by
two distinct PMT slots. -/
def I3 (f : FtlImpl_MNftl) : Prop :=
  ∀ L i s L1 i1 s1 v, v ≠ UNMAPPED → PMT_get f L i s = some v → PMT_get f L1 i1 s1 = some v →
    L = L1 ∧ i = i1 ∧ s = s1

/-- The page number allocated for a copy or a write is a physical page number that no PMT
slot currently holds. -/
def allocFresh (f : FtlImpl_MNftl) (newAddr : Address) : Prop :=
  isPage newAddr.get_linear_address ∧ fresh f newAddr.get_linear_address

/-- Every page allocated while `cleanup_block` copies the pages `0, …, n - 1` of the victim
satisfies `A` in the state in which it is allocated; `A` also receives the page index. -/
def cleanup_allocs (cfg : Config) (physical_address : Int) (get_state : Nat → page_state)
    (resp : Nat → CopyResp) (c : Outcome Unit) (A : FtlImpl_MNftl → Nat → Address → Prop) :
    Nat → Prop
  | 0 => True
  | n + 1 =>
    cleanup_allocs cfg physical_address get_state resp c A n ∧
    (get_state n = page_state.VALID →
      ∀ c1, cleanup_pages cfg physical_address get_state resp c n = some c1 →
        A c1.m.ftl n (resp n).newAddr)

/-- Every page allocated by the call `op` in state `m` is fresh at the time of its
allocation. -/
def opFresh (cfg : Config) (m : Machine) : Op → Prop
  | Op.read _ _ => True
  | Op.write _ _ newAddr _ => allocFresh m.ftl newAddr
  | Op.trim _ _ => True
  | Op.cleanup_block event physical_address get_state resp =>
    cleanup_allocs cfg physical_address get_state resp
      { m := m, event := event.incr_time_taken ((m.ftl.num_pmd : ℚ) * cfg.OOB_READ_DELAY),
        ret := () }
      (fun f _ a => allocFresh f a) cfg.BLOCK_SIZE

/-- Every page allocated along the sequence of calls is fresh at the time of its
allocation. -/
def runFresh (cfg : Config) : Machine → List Op → Prop
  | _, [] => True
  | m, op :: ops => opFresh cfg m op ∧ ∀ m1, step cfg m op = some m1 → runFresh cfg m1 ops

/-- The call `op` is a `read`, or a `write` or `trim` addressed to a logical page other than
`lpn` whose logical block number fits a `uint`; it is not a `cleanup_block`. -/
def otherLpn (P lpn : Nat) : Op → Prop
  | Op.read _ _ => True
  | Op.write event _ _ _ =>
    event.logical_address ≠ lpn ∧ event.logical_address / P < 4294967296
  | Op.trim event _ =>
    event.logical_address ≠ lpn ∧ event.logical_address / P < 4294967296
  | Op.cleanup_block _ _ _ _ => False

/-- The page allocated by the call `op`, when `op` is a `write`, satisfies `A`. -/
def writeAlloc (A : Nat → Prop) : Op → Prop
  | Op.write _ _ newAddr _ => A newAddr.get_linear_address
  | _ => True

/-- The machine after the calls `ops`, or `m` itself when a call is undefined. -/
def Machine.after (cfg : Config) (m : Machine) (ops : List Op) : Machine :=
  (run cfg m ops).getD m

/-! ## The configuration of the concrete scenarios: `P = 64`, `Q = 8`, `NUM_PMD = 8` -/

/-- A configuration with 64 pages per block and 8 slots per fragment; linear addresses are
split into block and page of a single plane. -/
def cfg64 : Config :=
  { BLOCK_SIZE := 64, MNFTL_OOB_SIZE := 64, MNFTL_ENTRY_SIZE := 8, OOB_READ_DELAY := 1,
    mkAddress := fun a v => ⟨0, 0, 0, a / 64, a % 64, a, v⟩,
    voidAddress := ⟨0, 0, 0, 0, 0, 0, address_valid.NONE⟩ }

/-- The machine right after construction under `cfg64`. -/
def m64 : Machine :=
  { ftl := { P := 64, Q := 8, num_pmd := 8, has_current_block := false,
             current_page_offset := 0, current_block := cfg64.mkAddress 0 address_valid.NONE,
             PMD := fun _ => none, PMT := fun _ => none, rmap := fun _ => none,
             BML := [], current_blocks := ∅ },
    stats := Stats.zero, trace := [] }

/-- A logical event of the driver for page `lpn`, arriving at time `t`. -/
def ev64 (type : event_type) (lpn : Nat) (t : ℚ) : Event := Event.new cfg64 type lpn 1 t

/-- A Device answer: success after `d` time units. -/
def ok64 (d : ℚ) : IssueResp := { ret := status.SUCCESS, delay := d }

/-- The Block manager hands out block `b`. -/
def fb64 (b : Nat) : BlockResp := { blk := cfg64.mkAddress (b * 64) address_valid.BLOCK, delay := 0 }

/-- The page address with linear page number `n`. -/
def pg64 (n : Nat) : Address := cfg64.mkAddress n address_valid.PAGE

/-! ## Observations on traces and on sequences of calls -/

/-- The events handed to `controller.issue` among the actions `tr`, in program order. -/
def issued : List Action → List Event
  | [] => []
  | Action.issue e :: tr => e :: issued tr
  | _ :: tr => issued tr

/-- The number of calls of `Block_manager::get_free_block` among the actions `tr`. -/
def blocks_requested : List Action → Nat
  | [] => 0
  | Action.get_free_block :: tr => blocks_requested tr + 1
  | _ :: tr => blocks_requested tr

/-- The number of `write` calls in a sequence of calls. -/
def num_writes : List Op → Nat
  | [] => 0
  | Op.write _ _ _ _ :: ops => num_writes ops + 1
  | _ :: ops => num_writes ops

/-- The call is a `read`, a `write` or a `trim`. -/
def notCleanup : Op → Prop
  | Op.cleanup_block _ _ _ _ => False
  | _ => True

/-- The call `op` is not a `write` to a logical page of fragment `(L, i)`. -/
def notWriteTo (P Q L i : Nat) : Op → Prop
  | Op.write event _ _ _ =>
    ¬ (lbn_of P event.logical_address = L ∧ pmd_index_of P Q event.logical_address = i)
  | _ => True

/-- Fragment `(L, i)` has no anchor and owns no page: `PMD[L][i]` is absent or UNMAPPED and no
entry of `rmap` names the fragment. -/
def unanchored (f : FtlImpl_MNftl) (L i : Nat) : Prop :=
  (PMD_get f L i = none ∨ PMD_get f L i = some UNMAPPED) ∧
    ∀ p e, f.rmap p = some e → ¬ (e.lbn = L ∧ e.pmd = i)

/-- The number of pages among `0, …, n - 1` of the victim that `block->get_state` reported
VALID. -/
def valid_pages (get_state : Nat → page_state) : Nat → Nat
  | 0 => 0
  | n + 1 => valid_pages get_state n + (if get_state n = page_state.VALID then 1 else 0)

/-- The sum, over the VALID pages among `0, …, n - 1` of the victim, of the time the Device
put on the READ sub-event and on the WRITE sub-event of the copy (both sub-events start with
no accumulated time). -/
def copy_time (get_state : Nat → page_state) (resp : Nat → CopyResp) : Nat → ℚ
  | 0 => 0
  | n + 1 => copy_time get_state resp n +
      (if get_state n = page_state.VALID then (resp n).rd.delay + (resp n).wr.delay else 0)

/-- Page `j` of the victim is VALID when the loop of `cleanup_block` reaches it, and `rmap`
then records it as a page of fragment `(L, i)`. -/
def owns (cfg : Config) (physical_address : Int) (get_state : Nat → page_state)
    (resp : Nat → CopyResp) (c : Outcome Unit) (L i j : Nat) : Prop :=
  get_state j = page_state.VALID ∧
    ∃ c1 s, cleanup_pages cfg physical_address get_state resp c j = some c1 ∧
      c1.m.ftl.rmap (toUlong (physical_address + (j : Int))) = some ⟨L, i, s⟩

/-! ## A device of two planes with two blocks each and one page per block -/

/-- A configuration with one page per block and one slot per fragment; a linear address
names plane `a / 2`, block `a % 2` of that plane, page 0. -/
def cfg2x2 : Config :=
  { BLOCK_SIZE := 1, MNFTL_OOB_SIZE := 8, MNFTL_ENTRY_SIZE := 8, OOB_READ_DELAY := 1,
    mkAddress := fun a v => ⟨0, 0, a / 2, a % 2, 0, a, v⟩,
    voidAddress := ⟨0, 0, 0, 0, 0, 0, address_valid.NONE⟩ }

/-- The machine right after construction under `cfg2x2`. -/
def m2x2 : Machine :=
  { ftl := { P := 1, Q := 1, num_pmd := 1, has_current_block := false,
             current_page_offset := 0, current_block := cfg2x2.mkAddress 0 address_valid.NONE,
             PMD := fun _ => none, PMT := fun _ => none, rmap := fun _ => none,
             BML := [], current_blocks := ∅ },
    stats := Stats.zero, trace := [] }

/-- The answers of the collaborators to one copy under `cfg2x2`: the Block manager hands out
the block with linear address `b`, the copy lands on its only page, the Device charges `rd`
for the READ and `wr` for the WRITE. -/
def copy2x2 (b : Nat) (rd wr : ℚ) : CopyResp :=
  { rd := { ret := status.SUCCESS, delay := rd },
    fb := { blk := cfg2x2.mkAddress b address_valid.BLOCK, delay := 0 },
    newAddr := cfg2x2.mkAddress b address_valid.PAGE,
    wr := { ret := status.SUCCESS, delay := wr } }

/-- The call `write(lpn)` under `cfg2x2` that lands on the page with linear address `b`, the
Block manager handing out that block if a frontier has to be opened. -/
def write2x2 (lpn b : Nat) : Op :=
  Op.write (Event.new cfg2x2 event_type.WRITE lpn 1 0)
    { blk := cfg2x2.mkAddress b address_valid.BLOCK, delay := 0 }
    (cfg2x2.mkAddress b address_valid.PAGE) { ret := status.SUCCESS, delay := 1 }

/-! ## Sequential writes under `cfg64` -/

/-- The calls `write(lpn0), …, write(lpn0 + n - 1)` under `cfg64`, landing on the consecutive
pages `ppn0, …, ppn0 + n - 1` of block `ppn0 / 64`, which the Block manager hands out if a
frontier has to be opened; the Device charges one time unit per write. -/
def seq_writes (lpn0 ppn0 n : Nat) : List Op :=
  (List.range n).map (fun l =>
    Op.write (ev64 event_type.WRITE (lpn0 + l) 0) (fb64 (ppn0 / 64)) (pg64 (ppn0 + l)) (ok64 1))

/-- The page states of block 0 in scenario S5: pages 0 to 31 were overwritten, pages 32 to 63
are VALID. -/
def s5_state (j : Nat) : page_state :=
  if 32 ≤ j then page_state.VALID else page_state.INVALID

/-- The answers of the collaborators in scenario S5: page `j` of block 0 is copied to page
`64 + j`, the next free page of the frontier block 1; the Device charges `rd` per READ and
`wr` per WRITE. -/
def s5_resp (rd wr : ℚ) (j : Nat) : CopyResp :=
  { rd := ok64 rd, fb := fb64 2, newAddr := pg64 (64 + j), wr := ok64 wr }

/-! ## Mutations of the mapping store in the trace -/

/-- The action is a mutation of `PMD`, `PMT` or `rmap`. -/
def Action.is_mutation : Action → Bool
  | Action.pmd_create _ => true
  | Action.pmt_create _ => true
  | Action.pmt_store _ _ _ _ => true
  | Action.pmd_store _ _ _ => true
  | Action.rmap_erase _ => true
  | Action.rmap_store _ _ => true
  | _ => false

/-! ## The sub-events of `cleanup_block` as the specification describes them -/

/-- The READ sub-event of the copy of page `i` of the victim, in the words of the
specification (section 4.4, step 2a): a READ at `old_ppn = physical_base + i`, built for the
logical address and start time of the triggering event.  `Address(old_ppn, PAGE)` takes a
`uint`. -/
def spec_read_sub_event (cfg : Config) (trigger : Event) (physical_address : Int) (i : Nat) :
    Event :=
  { type := event_type.READ, logical_address := trigger.logical_address, size := 1,
    start_time := trigger.start_time, time_taken := 0, noop := false,
    address := cfg.mkAddress (toUlong (physical_address + (i : Int)) % 4294967296)
      address_valid.PAGE,
    replace_address := cfg.voidAddress }

/-- The WRITE sub-event of the copy of page `i` of the victim, in the words of the
specification (section 4.4, step 2d): a WRITE at the newly allocated page with
`replace_address = (old_ppn, PAGE)` and the start time of the triggering event advanced by
the time the Device put on the READ sub-event. -/
def spec_write_sub_event (cfg : Config) (trigger : Event) (physical_address : Int) (i : Nat)
    (r : CopyResp) : Event :=
  { type := event_type.WRITE, logical_address := trigger.logical_address, size := 1,
    start_time := trigger.start_time + r.rd.delay, time_taken := 0, noop := false,
    address := r.newAddr,
    replace_address := cfg.mkAddress (toUlong (physical_address + (i : Int)) % 4294967296)
      address_valid.PAGE }

/-- The sub-events of `cleanup_block` for the page indices `0, …, n - 1`, in the words of the
specification: in ascending order of the index, one READ followed by one WRITE for every index
whose state is VALID, nothing for the others. -/
def spec_copy_events (cfg : Config) (trigger : Event) (physical_address : Int)
    (get_state : Nat → page_state) (resp : Nat → CopyResp) : Nat → List Event
  | 0 => []
  | n + 1 =>
    spec_copy_events cfg trigger physical_address get_state resp n ++
      (if get_state n = page_state.VALID then
        [spec_read_sub_event cfg trigger physical_address n,
         spec_write_sub_event cfg trigger physical_address n (resp n)]
      else [])

/-! ## Predicates for the frame of `cleanup_block` -/

/-- Every mapped slot has an anchor: if `PMT[L][i][s]` is not the sentinel, neither is
`PMD[L][i]`. -/
def anchored (f : FtlImpl_MNftl) : Prop :=
  ∀ L i s v, PMT_get f L i s = some v → v ≠ UNMAPPED →
    ∃ a, PMD_get f L i = some a ∧ a ≠ UNMAPPED

/-- The entry `e` is what `rmap` of `f` records for a page of the victim that is VALID. -/
def moved (cfg : Config) (physical_address : Int) (get_state : Nat → page_state)
    (f : FtlImpl_MNftl) (e : RmapEntry) : Prop :=
  ∃ j, j < cfg.BLOCK_SIZE ∧ get_state j = page_state.VALID ∧
    f.rmap (toUlong (physical_address + (j : Int))) = some e

/-- The condition under which `read` marks the event of the slot `(L, i, s)` noop: `PMD[L]`
is absent, or the anchor `PMD[L][i]` is the sentinel, or the slot `PMT[L][i][s]` is. -/
def read_noop_cond (f : FtlImpl_MNftl) (L i s : Nat) : Prop :=
  f.PMD L = none ∨ PMD_get f L i = some (-1) ∨ PMT_get f L i s = some (-1)

/-- Every slot recorded in `rmap` is mapped and anchored: neither the slot nor the anchor of
its fragment holds the sentinel. -/
def rmap_mapped (f : FtlImpl_MNftl) : Prop :=
  ∀ k e, f.rmap k = some e →
    PMT_get f e.lbn e.pmd e.slot ≠ some (-1) ∧ PMD_get f e.lbn e.pmd ≠ some (-1)

/-! ## The page states of the Device under writes -/

/-- The constructor `Address(uint address, enum address_valid valid)` of the configuration
builds the address with that linear address and that validity, and the default constructor
`Address()` builds an empty address. -/
def Config.addr_ok (cfg : Config) : Prop :=
  (∀ a v, a < 4294967296 →
    (cfg.mkAddress a v).get_linear_address = a ∧ (cfg.mkAddress a v).valid = v) ∧
  cfg.voidAddress.valid = address_valid.NONE

/-- Modelled from the spec: the page states of the Device after it executed the WRITE event
`e`; the Device itself is not among the sources.  Following section 6.2, the page at the
address of the event becomes VALID and, when the event carries a non-empty
`replace_address`, the page at that address becomes INVALID. -/
def dev_write (D : Nat → page_state) (e : Event) : Nat → page_state :=
  fun p =>
    if p = e.address.get_linear_address then page_state.VALID
    else if e.replace_address.valid ≠ address_valid.NONE ∧
        p = e.replace_address.get_linear_address then page_state.INVALID
    else D p

/-- A sequence of `write` calls run against the page states `D` of the Device: each event is
executed by the Device as `write` issued it.  Undefined when a call is undefined or is not a
`write`. -/
def run_writes (cfg : Config) :
    Machine → (Nat → page_state) → List Op → Option (Machine × (Nat → page_state))
  | m, D, [] => some (m, D)
  | m, D, Op.write event fb newAddr dev :: ops =>
    match write cfg m event fb newAddr dev with
    | none => none
    | some o => run_writes cfg o.m (dev_write D o.event) ops
  | _, _, _ :: _ => none

/-- The set of logical page numbers written by a sequence of calls. -/
def written : List Op → Finset Nat
  | [] => ∅
  | Op.write event _ _ _ :: ops => insert event.logical_address (written ops)
  | _ :: ops => written ops

/-- The premises on a sequence of `write` calls run against the Device: every logical
address has `LPN / P < 2^32`, every event arrives without a replace address, and every
allocated page is a `uint` page number that is EMPTY on the Device when it is allocated. -/
def writes_ok (cfg : Config) : Machine → (Nat → page_state) → List Op → Prop
  | _, _, [] => True
  | m, D, Op.write event fb newAddr dev :: ops =>
    event.logical_address / m.ftl.P < 4294967296 ∧
    event.replace_address.valid = address_valid.NONE ∧
    newAddr.get_linear_address < 4294967296 ∧
    D newAddr.get_linear_address = page_state.EMPTY ∧
    ∀ o, write cfg m event fb newAddr dev = some o →
      writes_ok cfg o.m (dev_write D o.event) ops
  | _, _, _ :: _ => False

/-- The invariant of a run of `write` calls against the page states `D` of the Device, with
`W` the logical pages written so far and `V` the pages that are VALID: the engine satisfies
its invariant; `V` has as many elements as `W`; every logical page of `W` has
`LPN / P < 2^32` and its slot holds a page of `V`; every page of `V` is a `uint` held by
some slot; every mapped slot is the slot of a logical page of `W`. -/
structure WritesInv (m : Machine) (D : Nat → page_state) (W V : Finset Nat) : Prop where
  inv : Inv m.ftl
  valid : ∀ p, D p = page_state.VALID ↔ p ∈ V
  card : V.card = W.card
  lpn_lt : ∀ lpn, lpn ∈ W → lpn / m.ftl.P < 4294967296
  page_lt : ∀ p, p ∈ V → p < 4294967296
  slot_of_lpn : ∀ lpn, lpn ∈ W → ∃ p, p ∈ V ∧
    PMT_get m.ftl (lbn_of m.ftl.P lpn) (pmd_index_of m.ftl.P m.ftl.Q lpn)
      (map_slot_of m.ftl.P m.ftl.Q lpn) = some (toLong p)
  lpn_of_slot : ∀ L i s v, PMT_get m.ftl L i s = some v → v ≠ -1 →
    ∃ lpn, lpn ∈ W ∧ L = lbn_of m.ftl.P lpn ∧ i = pmd_index_of m.ftl.P m.ftl.Q lpn ∧
      s = map_slot_of m.ftl.P m.ftl.Q lpn
  slot_of_page : ∀ p, p ∈ V → ∃ L i s, PMT_get m.ftl L i s = some (toLong p)

/-! ## The cache-based variant `FtlImpl_Mnftl` (`src/FTLs/mn_ftl.cpp`) -/

/-- The record `FtlImpl_DftlParent::MPage` of `ssd.h`. -/
structure MPage where
  vpn : Int
  ppn : Int
  create_ts : ℚ
  modified_ts : ℚ
  last_visited_time : ℚ
  cached : Bool
deriving DecidableEq

/-- The data members of `FtlImpl_DftlParent` (`ssd.h`) that `src/FTLs/mn_ftl.cpp` reads or
writes: the container `trans_map`, in the order of its random-access index, and the counter
`cmt`. -/
structure FtlImpl_Mnftl where
  trans_map : List MPage
  cmt : Int

/-- The counters of `controller.stats` that the cache-based variant increments. -/
structure CacheStats where
  numFTLRead : Int
  numFTLWrite : Int
  numFTLTrim : Int
  numCacheHits : Int
  numCacheFaults : Int
  numMemoryRead : Int
  numMemoryWrite : Int
deriving DecidableEq

/-- The cache-based variant together with the controller statistics and the trace of
actions so far. -/
structure CacheMachine where
  ftl : FtlImpl_Mnftl
  stats : CacheStats
  trace : List Action

/-- What an operation of the cache-based variant leaves behind. -/
structure CacheOutcome where
  m : CacheMachine
  event : Event
  ret : status

/-- The constants and the helpers of the cache-based variant whose bodies are not among the
sources: `RAM_READ_DELAY`, `CACHE_DFTL_LIMIT`, the constructor `Address(uint, address_valid)`,
and the methods `get_free_data_page`, `evict_page_from_cache` and `update_translation_map` of
`FtlImpl_DftlParent`, taken as they act on the members above and on the event;
`get_free_data_page` also returns the page number. -/
structure CacheConfig where
  RAM_READ_DELAY : ℚ
  CACHE_DFTL_LIMIT : Nat
  mkAddress : Nat → address_valid → Address
  get_free_data_page : FtlImpl_Mnftl → Event → FtlImpl_Mnftl × Event × Int
  evict_page_from_cache : FtlImpl_Mnftl → Event → FtlImpl_Mnftl × Event
  update_translation_map : MPage → Int → MPage

/-- The call `controller.issue(event)` made by the cache-based variant, answered by `dev`. -/
def cache_issue (m : CacheMachine) (event : Event) (dev : IssueResp) : CacheOutcome :=
  { m := { m with trace := m.trace ++ [Action.issue event] },
    event := event.incr_time_taken dev.delay, ret := dev.ret }

/-- The method `FtlImpl_Mnftl::trim`. -/
def cache_trim (m : CacheMachine) (event : Event) (dev : IssueResp) : CacheOutcome :=
  let event1 := event.set_noop true
  let m1 : CacheMachine :=
    { m with stats := { m.stats with numFTLTrim := m.stats.numFTLTrim + 1 } }
  cache_issue m1 event1 dev

/-- The method `FtlImpl_Mnftl::resolve_mapping_mn`; `dlpn` is a `uint`, the parameter `write`
is not used by the body.  The entry is copied before a possible eviction and the modified
copy is written back at its position. -/
def resolve_mapping_mn (cfg : CacheConfig) (m : CacheMachine) (event : Event) (_write : Bool) :
    CacheMachine × Event :=
  let dlpn := event.logical_address % 4294967296
  if h : m.ftl.trans_map.length ≤ dlpn then (m, event)
  else
    let m_page := m.ftl.trans_map.get ⟨dlpn, Nat.lt_of_not_le h⟩
    if m_page.cached then
      let m_page1 := { m_page with last_visited_time := event.start_time }
      let event1 := event.incr_time_taken cfg.RAM_READ_DELAY
      ({ m with
          stats := { m.stats with numCacheHits := m.stats.numCacheHits + 1 },
          ftl := { m.ftl with trans_map := m.ftl.trans_map.set dlpn m_page1 } }, event1)
    else
      let r :=
        if (cfg.CACHE_DFTL_LIMIT : Int) ≤ m.ftl.cmt then
          cfg.evict_page_from_cache m.ftl event
        else (m.ftl, event)
      let event2 := r.2.incr_time_taken (17 / 10)
      let m_page1 := { m_page with cached := true, last_visited_time := event2.start_time }
      ({ m with
          stats := { m.stats with numCacheFaults := m.stats.numCacheFaults + 1,
                                  numMemoryRead := m.stats.numMemoryRead + 1,
                                  numMemoryWrite := m.stats.numMemoryWrite + 1 },
          ftl := { trans_map := r.1.trans_map.set dlpn m_page1, cmt := r.1.cmt + 1 } },
        event2)

/-- The method `FtlImpl_Mnftl::read`; `dev` is the answer of the Device to the issue. -/
def cache_read (cfg : CacheConfig) (m : CacheMachine) (event : Event) (dev : IssueResp) :
    CacheOutcome :=
  let r := resolve_mapping_mn cfg m event false
  let m1 := r.1
  let event1 := r.2
  let dlpn := event1.logical_address % 4294967296
  let event2 :=
    if h : dlpn < m1.ftl.trans_map.length then
      let current := m1.ftl.trans_map.get ⟨dlpn, h⟩
      if current.ppn ≠ -1 then
        event1.set_address (cfg.mkAddress (toUint current.ppn) address_valid.PAGE)
      else (event1.set_address (cfg.mkAddress 0 address_valid.PAGE)).set_noop true
    else (event1.set_address (cfg.mkAddress 0 address_valid.PAGE)).set_noop true
  let m2 : CacheMachine :=
    { m1 with stats := { m1.stats with numFTLRead := m1.stats.numFTLRead + 1 } }
  cache_issue m2 event2 dev

/-- The method `FtlImpl_Mnftl::write`; `dev` is the answer of the Device to the issue. -/
def cache_write (cfg : CacheConfig) (m : CacheMachine) (event : Event) (dev : IssueResp) :
    CacheOutcome :=
  let g := cfg.get_free_data_page m.ftl event
  let free_page := g.2.2
  let r := resolve_mapping_mn cfg { m with ftl := g.1 } g.2.1 true
  let m1 := r.1
  let event1 := r.2
  let dlpn := event1.logical_address % 4294967296
  if h : m1.ftl.trans_map.length ≤ dlpn then
    { m := m1, event := event1, ret := status.FAILURE }
  else
    let current := m1.ftl.trans_map.get ⟨dlpn, Nat.lt_of_not_le h⟩
    let event2 :=
      if current.ppn ≠ -1 then
        event1.set_replace_address (cfg.mkAddress (toUint current.ppn) address_valid.PAGE)
      else event1
    let current1 := cfg.update_translation_map current free_page
    let event3 := event2.set_address (cfg.mkAddress (toUint free_page) address_valid.PAGE)
    let m2 : CacheMachine :=
      { m1 with
          ftl := { m1.ftl with trans_map := m1.ftl.trans_map.set dlpn current1 },
          stats := { m1.stats with numFTLWrite := m1.stats.numFTLWrite + 1 } }
    cache_issue m2 event3 dev

/-- A configuration of the cache-based variant for the scenarios: the page allocator hands
out page 7 and touches nothing else, the eviction does nothing, `update_translation_map`
stores the page number. -/
def cacheCfg : CacheConfig :=
  { RAM_READ_DELAY := 1, CACHE_DFTL_LIMIT := 4,
    mkAddress := cfg64.mkAddress,
    get_free_data_page := fun f e => (f, e, 7),
    evict_page_from_cache := fun f e => (f, e),
    update_translation_map := fun p n => { p with ppn := n } }

/-- A machine of the cache-based variant with two logical pages, both unmapped and not
cached. -/
def cacheM : CacheMachine :=
  { ftl := { trans_map := [⟨0, -1, 0, 0, 0, false⟩, ⟨1, -1, 0, 0, 0, false⟩], cmt := 0 },
    stats := ⟨0, 0, 0, 0, 0, 0, 0⟩, trace := [] }

/-! ## The scan-based engine (`src/mn_ftl.cpp`)

The file defines the same class `FtlImpl_MNftl`.  Its functions use the members `P`, `Q`,
`num_pmd`, `has_current_block`, `current_page_offset`, `current_block`, `PMD`, `PMT` and
`BML`; they never mention `rmap` or `current_blocks`, which the embedding leaves as they are.
The constructor, `alloc_page_in_current_block` and the lazy creation of the rows in `write`
have the text of their counterparts in `src/mn_ftl_v3.cpp`, so `FtlImpl_MNftl.new`,
`alloc_page_in_current_block`, `incr_offset` and `ensure_rows` stand for both. -/

/-- The method `FtlImpl_MNftl::allocate_new_current_block` of `src/mn_ftl.cpp`; `fb` is the
answer of `Block_manager::get_free_block(event)`. -/
def scan_allocate_new_current_block (m : Machine) (event : Event) (fb : BlockResp) :
    Machine × Event :=
  let current_block : Address := { fb.blk with valid := address_valid.BLOCK }
  let f := m.ftl
  let f1 : FtlImpl_MNftl :=
    { f with current_block := current_block, has_current_block := true,
             current_page_offset := 0, BML := f.BML ++ [current_block.block] }
  ((m.log [Action.get_free_block]).setFtl f1, event.incr_time_taken fb.delay)

/-- The test `!has_current_block || current_page_offset == P` followed by the call of
`allocate_new_current_block` (in `write` and in `cleanup_block` of `src/mn_ftl.cpp`). -/
def scan_ensure_frontier (m : Machine) (event : Event) (fb : BlockResp) : Machine × Event :=
  if m.ftl.has_current_block = false ∨ m.ftl.current_page_offset = m.ftl.P then
    scan_allocate_new_current_block m event fb
  else (m, event)

/-- The method `FtlImpl_MNftl::read` of `src/mn_ftl.cpp`; `dev` is the answer of the Device
to the issue. -/
def scan_read (cfg : Config) (m : Machine) (event : Event) (dev : IssueResp) :
    Option (Outcome status) :=
  let m1 : Machine := { m with stats := { m.stats with numFTLRead := m.stats.numFTLRead + 1 } }
  let f := m1.ftl
  let lpn := event.logical_address
  if f.P = 0 then none
  else
    let lbn := lbn_of f.P lpn
    if f.Q = 0 then none
    else
      let pmd_index := pmd_index_of f.P f.Q lpn
      let map_slot := map_slot_of f.P f.Q lpn
      match f.PMD lbn with
      | none =>
        some (issue m1 ((event.set_noop true).set_address (cfg.mkAddress 0 address_valid.PAGE)) dev)
      | some _ =>
        match PMD_get f lbn pmd_index with
        | none => none
        | some anchor_ppn =>
          if anchor_ppn = -1 then
            some (issue m1
              ((event.set_noop true).set_address (cfg.mkAddress 0 address_valid.PAGE)) dev)
          else
            let event1 := event.incr_time_taken cfg.OOB_READ_DELAY
            match PMT_get f lbn pmd_index map_slot with
            | none => none
            | some ppn =>
              if ppn = -1 then
                some (issue m1
                  ((event1.set_noop true).set_address (cfg.mkAddress 0 address_valid.PAGE)) dev)
              else
                some (issue m1
                  (event1.set_address
                    (cfg.mkAddress (toUlong ppn % 4294967296) address_valid.PAGE)) dev)

/-- The part of `FtlImpl_MNftl::write` of `src/mn_ftl.cpp` after the lazy creation of the
rows: the charge for the old anchor, the allocation, the two assignments to `PMT` and `PMD`
and the issue. -/
def scan_write_core (cfg : Config) (m3 : Machine) (event2 : Event)
    (lbn pmd_index map_slot : Nat) (newAddr : Address) (dev : IssueResp) :
    Option (Outcome status) :=
  match PMD_get m3.ftl lbn pmd_index with
  | none => none
  | some anchor_ppn =>
    let event3 :=
      if anchor_ppn ≠ -1 then event2.incr_time_taken cfg.OOB_READ_DELAY else event2
    match alloc_page_in_current_block m3 newAddr with
    | none => none
    | some (m4, new_ppn, newPageAddr) =>
      let m5 := incr_offset m4
      match PMT_get m5.ftl lbn pmd_index map_slot with
      | none => none
      | some old_ppn =>
        let event4 :=
          if old_ppn ≠ -1 then
            event3.set_replace_address
              (cfg.mkAddress (toUlong old_ppn % 4294967296) address_valid.PAGE)
          else event3
        let m7 :=
          (m5.log [Action.pmt_store lbn pmd_index map_slot (toLong new_ppn),
                   Action.pmd_store lbn pmd_index (toLong new_ppn)]).setFtl
            (PMD_set (PMT_set m5.ftl lbn pmd_index map_slot (toLong new_ppn))
              lbn pmd_index (toLong new_ppn))
        some (issue m7 (event4.set_address newPageAddr) dev)

/-- The method `FtlImpl_MNftl::write` of `src/mn_ftl.cpp`. -/
def scan_write (cfg : Config) (m : Machine) (event : Event) (fb : BlockResp)
    (newAddr : Address) (dev : IssueResp) : Option (Outcome status) :=
  let m1 : Machine := { m with stats := { m.stats with numFTLWrite := m.stats.numFTLWrite + 1 } }
  let lpn := event.logical_address
  if m1.ftl.P = 0 then none
  else
    let lbn := lbn_of m1.ftl.P lpn
    let m2 := (scan_ensure_frontier m1 event fb).1
    let event2 := (scan_ensure_frontier m1 event fb).2
    if m2.ftl.Q = 0 then none
    else
      let pmd_index := pmd_index_of m2.ftl.P m2.ftl.Q lpn
      let map_slot := map_slot_of m2.ftl.P m2.ftl.Q lpn
      scan_write_core cfg (ensure_rows m2 lbn) event2 lbn pmd_index map_slot newAddr dev

/-- The method `FtlImpl_MNftl::trim` of `src/mn_ftl.cpp`: the slot is set to the sentinel
whatever it held. -/
def scan_trim (cfg : Config) (m : Machine) (event : Event) (dev : IssueResp) :
    Option (Outcome status) :=
  let m1 : Machine := { m with stats := { m.stats with numFTLTrim := m.stats.numFTLTrim + 1 } }
  let f := m1.ftl
  let lpn := event.logical_address
  if f.P = 0 then none
  else
    let lbn := lbn_of f.P lpn
    match f.PMD lbn with
    | none => some { m := m1, event := event, ret := status.SUCCESS }
    | some row =>
      if f.Q = 0 then none
      else
        let pmd_index := pmd_index_of f.P f.Q lpn
        let map_slot := map_slot_of f.P f.Q lpn
        let m2 : Option Machine :=
          if pmd_index < row.length then
            match PMT_get f lbn pmd_index map_slot with
            | none => none
            | some _ =>
              some ((m1.log [Action.pmt_store lbn pmd_index map_slot (-1)]).setFtl
                (PMT_set f lbn pmd_index map_slot (-1)))
          else some m1
        match m2 with
        | none => none
        | some m3 =>
          some (issue m3
            ((event.set_noop true).set_address (cfg.mkAddress 0 address_valid.PAGE)) dev)

/-- The innermost loop of the scan of `cleanup_block` (`src/mn_ftl.cpp`): the first index
`slot`, counted from `k`, with `pmt[slot] == v`. -/
def scan_row : List Int → Int → Nat → Option Nat
  | [], _, _ => none
  | x :: xs, v, k => if x = v then some k else scan_row xs v (k + 1)

/-- The middle loop of the scan: the first pair `(idx, slot)`, `idx` counted from `i`, with
`pmts[idx][slot] == v`. -/
def scan_grid : List (List Int) → Int → Nat → Option (Nat × Nat)
  | [], _, _ => none
  | row :: rows, v, i =>
    match scan_row row v 0 with
    | some s => some (i, s)
    | none => scan_grid rows v (i + 1)

/-- The outer loop of the scan, `for (auto &lbn_pair : PMT)`: the keys of the `std::map` are
visited in ascending order; here the next `fuel` candidate keys from `L` on. -/
def scan_keys (PMT : Nat → Option (List (List Int))) (v : Int) :
    Nat → Nat → Option (Nat × Nat × Nat)
  | 0, _ => none
  | fuel + 1, L =>
    match PMT L with
    | none => scan_keys PMT v fuel (L + 1)
    | some grid =>
      match scan_grid grid v 0 with
      | some (i, s) => some (L, i, s)
      | none => scan_keys PMT v fuel (L + 1)

/-- The scan of `cleanup_block` for the value `v`: the first slot `(lbn_scan, idx, slot)`, in
the order of the three nested loops, that holds `v`.  The keys are `uint`s, so the
`2^32` candidates from 0 on are all of them. -/
def scan_find (f : FtlImpl_MNftl) (v : Int) : Option (Nat × Nat × Nat) :=
  scan_keys f.PMT v 4294967296 0

/-- Step 4 of the loop of `cleanup_block` in `src/mn_ftl.cpp`: the scan for `(long)old_ppn`
and, at the first match, the two assignments before `goto mapping_updated`. -/
def scan_remap (m : Machine) (old_ppn new_ppn : Nat) : Option Machine :=
  match scan_find m.ftl (toLong old_ppn) with
  | none => some m
  | some (lbn_scan, idx, slot) =>
    let f1 := PMT_set m.ftl lbn_scan idx slot (toLong new_ppn)
    match PMD_get f1 lbn_scan idx with
    | none => none
    | some _ =>
      some ((m.log [Action.pmt_store lbn_scan idx slot (toLong new_ppn),
                    Action.pmd_store lbn_scan idx (toLong new_ppn)]).setFtl
        (PMD_set f1 lbn_scan idx (toLong new_ppn)))

/-- One iteration of the loop of `cleanup_block` in `src/mn_ftl.cpp`, for page index `i` of
the victim whose base is `physical_address`.  The payload of the WRITE sub-event is not part
of the embedded event. -/
def scan_cleanup_page (cfg : Config) (physical_address : Int) (i : Nat) (st : page_state)
    (r : CopyResp) (c : Outcome Unit) : Option (Outcome Unit) :=
  if st ≠ page_state.VALID then some c
  else
    let event := c.event
    let old_ppn := toUlong (physical_address + (i : Int))
    let readEv :=
      (Event.new cfg event_type.READ event.logical_address 1 event.start_time).set_address
        (cfg.mkAddress (old_ppn % 4294967296) address_valid.PAGE)
    let o1 := issue c.m readEv r.rd
    let (m2, event2) := scan_ensure_frontier o1.m event r.fb
    match alloc_page_in_current_block m2 r.newAddr with
    | none => none
    | some (m3, new_ppn, newPageAddr) =>
      let m4 := incr_offset m3
      let writeEv := ((Event.new cfg event_type.WRITE event2.logical_address 1
          (event2.start_time + o1.event.time_taken)).set_address newPageAddr).set_replace_address
            (cfg.mkAddress (old_ppn % 4294967296) address_valid.PAGE)
      let o5 := issue m4 writeEv r.wr
      let m6 : Machine :=
        { o5.m with stats := { o5.m.stats with
            valid_page_copies := o5.m.stats.valid_page_copies + 1 } }
      let event3 := event2.incr_time_taken (o1.event.time_taken + o5.event.time_taken)
      match scan_remap m6 old_ppn new_ppn with
      | none => none
      | some m7 =>
        some { m := { m7 with stats := { m7.stats with
                        numFTLRead := m7.stats.numFTLRead + 1,
                        numFTLWrite := m7.stats.numFTLWrite + 1,
                        numWLRead := m7.stats.numWLRead + 1,
                        numWLWrite := m7.stats.numWLWrite + 1 } },
               event := event3, ret := () }

/-- The loop of `cleanup_block` in `src/mn_ftl.cpp` over the page indices `0, …, n - 1`. -/
def scan_cleanup_pages (cfg : Config) (physical_address : Int) (get_state : Nat → page_state)
    (resp : Nat → CopyResp) (c : Outcome Unit) : Nat → Option (Outcome Unit)
  | 0 => some c
  | n + 1 =>
    match scan_cleanup_pages cfg physical_address get_state resp c n with
    | none => none
    | some c1 => scan_cleanup_page cfg physical_address n (get_state n) (resp n) c1

/-- The method `FtlImpl_MNftl::cleanup_block` of `src/mn_ftl.cpp`; `er` is the answer of the
Device to the issue of the ERASE event, whose status and latency the method drops. -/
def scan_cleanup_block (cfg : Config) (m : Machine) (event : Event) (physical_address : Int)
    (get_state : Nat → page_state) (resp : Nat → CopyResp) (er : IssueResp) :
    Option (Outcome Unit) :=
  let event1 := event.incr_time_taken ((m.ftl.num_pmd : ℚ) * cfg.OOB_READ_DELAY)
  match scan_cleanup_pages cfg physical_address get_state resp
      { m := m, event := event1, ret := () } cfg.BLOCK_SIZE with
  | none => none
  | some c =>
    let eraseEv :=
      (Event.new cfg event_type.ERASE c.event.logical_address 1
        (c.event.start_time + c.event.time_taken)).set_address
        (cfg.mkAddress (toUlong physical_address % 4294967296) address_valid.PAGE)
    let o := issue c.m eraseEv er
    some { m := { o.m with stats := { o.m.stats with
                    numFTLErase := o.m.stats.numFTLErase + 1 } },
           event := c.event, ret := () }

/-- The machine of the scan-based engine after one call; `er` answers the ERASE of a
`cleanup_block`. -/
def scan_step (cfg : Config) (er : IssueResp) (m : Machine) : Op → Option Machine
  | Op.read event dev => (scan_read cfg m event dev).map (fun o => o.m)
  | Op.write event fb newAddr dev => (scan_write cfg m event fb newAddr dev).map (fun o => o.m)
  | Op.trim event dev => (scan_trim cfg m event dev).map (fun o => o.m)
  | Op.cleanup_block event physical_address get_state resp =>
    (scan_cleanup_block cfg m event physical_address get_state resp er).map (fun o => o.m)

/-- The machine of the scan-based engine after a sequence of calls, first call first; `er k`
answers the ERASE of the `k`-th call. -/
def scan_run (cfg : Config) : Machine → List Op → (Nat → IssueResp) → Option Machine
  | m, [], _ => some m
  | m, op :: ops, er =>
    match scan_step cfg (er 0) m op with
    | none => none
    | some m1 => scan_run cfg m1 ops (fun k => er (k + 1))

/-- The engine state without the members that only `src/mn_ftl_v3.cpp` has: `rmap` and
`current_blocks` emptied. -/
def mapping_part (f : FtlImpl_MNftl) : FtlImpl_MNftl :=
  { f with rmap := fun _ => none, current_blocks := ∅ }

/-- The VALID pages of the victim of a `cleanup_block` call are page numbers. -/
def victim_pages (cfg : Config) : Op → Prop
  | Op.cleanup_block _ physical_address get_state _ =>
    ∀ j, j < cfg.BLOCK_SIZE → get_state j = page_state.VALID →
      isPage (toUlong (physical_address + (j : Int)))
  | _ => True

/-- Every key of PMD is a `uint`, as the key type of the `std::map` demands. -/
def keys_uint (f : FtlImpl_MNftl) : Prop := ∀ L, f.PMD L ≠ none → L < 4294967296

/-- The events other than ERASE events among the events issued to the controller, in
order. -/
def issued_rw (tr : List Action) : List Event :=
  (issued tr).filter (fun e => decide (e.type ≠ event_type.ERASE))

/-- The machine `s` of the scan-based engine and the machine `m` of the rmap-based engine
agree on the members both engines have, and they have issued the same events, ERASE events
apart. -/
def Sim (s m : Machine) : Prop :=
  s.ftl = mapping_part m.ftl ∧ issued_rw s.trace = issued_rw m.trace

/-- A scenario for the comparison of the two engines, with `P = 64` and `Q = 8`:
`write(LPN=5)` to page 0, then block 0 is cleaned and its only VALID page, page 0, is
copied to page 64. -/
def ops_copy : List Op :=
  [Op.write (ev64 event_type.WRITE 5 0) (fb64 0) (pg64 0) (ok64 1),
   Op.cleanup_block (ev64 event_type.WRITE 70 5) 0
     (fun j => if j = 0 then page_state.VALID else page_state.EMPTY)
     (fun _ => { rd := ok64 1, fb := fb64 1, newAddr := pg64 64, wr := ok64 1 })]

/-! ## Lemmas and theorems -/

theorem toUlong_lt (z : Int) : toUlong z < 18446744073709551616 := by
  unfold toUlong; omega

theorem toLong_toUlong (z : Int) (h1 : -9223372036854775808 ≤ z) (h2 : z < 9223372036854775808) :
    toLong (toUlong z) = z := by
  unfold toLong toUlong; split <;> omega

theorem toUlong_toLong (n : Nat) (h : n < 18446744073709551616) : toUlong (toLong n) = n := by
  unfold toLong toUlong; split <;> omega

theorem toLong_range (n : Nat) :
    -9223372036854775808 ≤ toLong n ∧ toLong n < 9223372036854775808 := by
  unfold toLong; split <;> omega

theorem toLong_inj (a b : Nat) (ha : a < 18446744073709551616) (hb : b < 18446744073709551616)
    (h : toLong a = toLong b) : a = b := by
  unfold toLong at h; split at h <;> split at h <;> omega

theorem toUint_toLong (n : Nat) : toUint (toLong n) = n % 4294967296 := by
  unfold toLong toUint; split <;> omega

theorem get_linear_address_lt (a : Address) : a.get_linear_address < 18446744073709551616 := by
  unfold Address.get_linear_address; omega

@[simp]
theorem PMD_get_PMT_set (f : FtlImpl_MNftl) (L i s : Nat) (v : Int) (L1 i1 : Nat) :
    PMD_get (PMT_set f L i s v) L1 i1 = PMD_get f L1 i1 := rfl

@[simp]
theorem PMT_get_PMD_set (f : FtlImpl_MNftl) (L i : Nat) (v : Int) (L1 i1 s1 : Nat) :
    PMT_get (PMD_set f L i v) L1 i1 s1 = PMT_get f L1 i1 s1 := rfl

theorem PMT_get_PMT_set (f : FtlImpl_MNftl) (L i s : Nat) (v : Int) (L1 i1 s1 : Nat) :
    PMT_get (PMT_set f L i s v) L1 i1 s1 =
      if L1 = L ∧ i1 = i ∧ s1 = s then (PMT_get f L i s).map (fun _ => v)
      else PMT_get f L1 i1 s1 := by
  unfold PMT_get PMT_set
  by_cases hL : L1 = L
  · subst hL
    simp only [if_true, true_and]
    cases hg : f.PMT L1 with
    | none => simp
    | some grid =>
      simp only [Option.map_some']
      by_cases hi : i1 = i
      · subst hi
        by_cases hlt : i1 < grid.length
        · simp only [List.getElem?_set, if_true, hlt, true_and]
          rw [List.getElem?_eq_getElem hlt]
          simp only [List.getD_eq_getElem?_getD, List.getElem?_eq_getElem hlt, Option.getD_some]
          by_cases hs : s1 = s
          · subst hs
            simp only [if_true]
            by_cases hs2 : s1 < (grid[i1]).length
            · simp [hs2]
            · simp [hs2, List.getElem?_eq_none (Nat.le_of_not_lt hs2)]
          · simp only [hs, if_false]
            rw [if_neg (Ne.symm hs)]
        · simp [List.getElem?_set, hlt, List.getElem?_eq_none (Nat.le_of_not_lt hlt)]
      · simp only [hi, false_and, if_false]
        rw [List.getElem?_set_ne (Ne.symm hi)]
  · simp [hL]

theorem PMD_get_PMD_set (f : FtlImpl_MNftl) (L i : Nat) (v : Int) (L1 i1 : Nat) :
    PMD_get (PMD_set f L i v) L1 i1 =
      if L1 = L ∧ i1 = i then (PMD_get f L i).map (fun _ => v) else PMD_get f L1 i1 := by
  unfold PMD_get PMD_set
  by_cases hL : L1 = L
  · subst hL
    simp only [if_true, true_and]
    cases hg : f.PMD L1 with
    | none => simp
    | some row =>
      simp only [Option.map_some']
      by_cases hi : i1 = i
      · subst hi
        by_cases hlt : i1 < row.length
        · simp [hlt]
        · simp [hlt, List.getElem?_eq_none (Nat.le_of_not_lt hlt)]
          omega
      · simp only [hi, if_false]
        rw [List.getElem?_set_ne (Ne.symm hi)]
  · simp [hL]

@[simp]
theorem log_ftl (m : Machine) (as : List Action) : (m.log as).ftl = m.ftl := rfl
@[simp]
theorem log_stats (m : Machine) (as : List Action) : (m.log as).stats = m.stats := rfl
@[simp]
theorem log_trace (m : Machine) (as : List Action) : (m.log as).trace = m.trace ++ as := rfl
@[simp]
theorem setFtl_ftl (m : Machine) (f : FtlImpl_MNftl) : (m.setFtl f).ftl = f := rfl
@[simp]
theorem setFtl_stats (m : Machine) (f : FtlImpl_MNftl) : (m.setFtl f).stats = m.stats := rfl
@[simp]
theorem setFtl_trace (m : Machine) (f : FtlImpl_MNftl) : (m.setFtl f).trace = m.trace := rfl

theorem bo_of_lt (P lpn : Nat) (hP : 0 < P) : bo_of P lpn < P := by
  unfold bo_of
  have h1 : lpn % P < P := Nat.mod_lt _ hP
  have h2 : lpn % P % 4294967296 ≤ lpn % P := Nat.mod_le _ _
  omega

theorem pmd_index_lt (f : FtlImpl_MNftl) (h : WF f) (lpn : Nat) :
    pmd_index_of f.P f.Q lpn < f.num_pmd := by
  unfold pmd_index_of
  have h1 := bo_of_lt f.P lpn h.P_pos
  have h2 : bo_of f.P lpn / f.Q ≤ (f.P - 1) / f.Q := Nat.div_le_div_right (by omega)
  have h3 := h.idx_lt
  omega

theorem map_slot_lt (f : FtlImpl_MNftl) (h : WF f) (lpn : Nat) :
    map_slot_of f.P f.Q lpn < f.Q := by
  unfold map_slot_of
  exact Nat.mod_lt _ h.Q_pos

theorem PMD_get_some_of_WF (f : FtlImpl_MNftl) (h : WF f) (L i : Nat) (hL : f.PMD L ≠ none)
    (hi : i < f.num_pmd) : ∃ a, PMD_get f L i = some a := by
  unfold PMD_get
  cases hr : f.PMD L with
  | none => exact absurd hr hL
  | some row =>
    have hl := h.pmd_len L row hr
    exact ⟨row[i], by simp [List.getElem?_eq_getElem (by omega : i < row.length)]⟩

theorem PMT_get_some_of_WF (f : FtlImpl_MNftl) (h : WF f) (L i s : Nat) (hL : f.PMT L ≠ none)
    (hi : i < f.num_pmd) (hs : s < f.Q) : ∃ v, PMT_get f L i s = some v := by
  unfold PMT_get
  cases hr : f.PMT L with
  | none => exact absurd hr hL
  | some grid =>
    obtain ⟨hl, hrow⟩ := h.pmt_len L grid hr
    have hi2 : i < grid.length := by omega
    have hs2 : s < (grid[i]).length := by
      rw [hrow _ (List.getElem_mem hi2)]; exact hs
    exact ⟨(grid[i])[s], by simp [List.getElem?_eq_getElem hi2, List.getElem?_eq_getElem hs2]⟩

theorem PMT_get_dom (f : FtlImpl_MNftl) (h : WF f) (L i s : Nat) (v : Int)
    (hv : PMT_get f L i s = some v) : f.PMT L ≠ none ∧ i < f.num_pmd ∧ s < f.Q := by
  unfold PMT_get at hv
  cases hr : f.PMT L with
  | none => simp [hr] at hv
  | some grid =>
    obtain ⟨hl, hrow⟩ := h.pmt_len L grid hr
    simp only [hr] at hv
    cases hg : grid[i]? with
    | none => simp [hg] at hv
    | some row =>
      simp only [hg] at hv
      have hi2 : i < grid.length := by
        by_contra hc
        rw [List.getElem?_eq_none (by omega)] at hg
        exact absurd hg (by simp)
      have hmem : row ∈ grid := List.getElem?_mem hg
      have hs2 : s < row.length := by
        by_contra hc
        rw [List.getElem?_eq_none (by omega)] at hv
        exact absurd hv (by simp)
      rw [hrow row hmem] at hs2
      exact ⟨by simp, by omega, hs2⟩

theorem PMD_get_dom (f : FtlImpl_MNftl) (h : WF f) (L i : Nat) (a : Int)
    (ha : PMD_get f L i = some a) : f.PMD L ≠ none ∧ i < f.num_pmd := by
  unfold PMD_get at ha
  cases hr : f.PMD L with
  | none => simp [hr] at ha
  | some row =>
    have hl := h.pmd_len L row hr
    simp only [hr] at ha
    have hi2 : i < row.length := by
      by_contra hc
      rw [List.getElem?_eq_none (by omega)] at ha
      exact absurd ha (by simp)
    exact ⟨by simp, by omega⟩

theorem PMT_set_PMT_none (f : FtlImpl_MNftl) (L i s : Nat) (v : Int) (L1 : Nat) :
    (PMT_set f L i s v).PMT L1 = none ↔ f.PMT L1 = none := by
  unfold PMT_set
  by_cases hL : L1 = L
  · subst hL; simp
  · simp [hL]

theorem PMD_set_PMD_none (f : FtlImpl_MNftl) (L i : Nat) (v : Int) (L1 : Nat) :
    (PMD_set f L i v).PMD L1 = none ↔ f.PMD L1 = none := by
  unfold PMD_set
  by_cases hL : L1 = L
  · subst hL; simp
  · simp [hL]

theorem WF_PMT_set (f : FtlImpl_MNftl) (h : WF f) (L i s : Nat) (v : Int)
    (hv : -9223372036854775808 ≤ v ∧ v < 9223372036854775808) : WF (PMT_set f L i s v) where
  P_pos := h.P_pos
  P_uint := h.P_uint
  Q_pos := h.Q_pos
  idx_lt := h.idx_lt
  keys := fun L1 => by
    rw [PMT_set_PMT_none]; exact h.keys L1
  pmd_len := h.pmd_len
  pmt_len := fun L1 grid hg => by
    show grid.length = f.num_pmd ∧ ∀ row, row ∈ grid → row.length = f.Q
    unfold PMT_set at hg
    by_cases hL : L1 = L
    · subst hL
      simp only [if_true] at hg
      cases hr : f.PMT L1 with
      | none => simp [hr] at hg
      | some g0 =>
        obtain ⟨hl, hrow⟩ := h.pmt_len L1 g0 hr
        simp only [hr, Option.map_some', Option.some.injEq] at hg
        subst hg
        refine ⟨by simp [hl], ?_⟩
        intro row hmem
        by_cases hi : i < g0.length
        · rcases List.mem_or_eq_of_mem_set hmem with h1 | h1
          · exact hrow row h1
          · subst h1
            have : g0.getD i [] ∈ g0 := by
              simp only [List.getD_eq_getElem?_getD, List.getElem?_eq_getElem hi,
                Option.getD_some]
              exact List.getElem_mem hi
            rw [List.length_set]
            exact hrow _ this
        · rw [List.set_eq_of_length_le (by omega)] at hmem
          exact hrow row hmem
    · simp only [hL, if_false] at hg
      exact h.pmt_len L1 grid hg
  pmt_long := fun L1 i1 s1 w hw => by
    rw [PMT_get_PMT_set] at hw
    split at hw
    · cases hq : PMT_get f L i s with
      | none => simp [hq] at hw
      | some old =>
        simp only [hq, Option.map_some', Option.some.injEq] at hw
        subst hw; exact hv
    · exact h.pmt_long L1 i1 s1 w hw
  rmap_dom := fun p e he => by
    obtain ⟨h1, h2, h3⟩ := h.rmap_dom p e he
    refine ⟨?_, h2, h3⟩
    intro hc
    exact h1 ((PMT_set_PMT_none f L i s v e.lbn).1 hc)

theorem WF_PMD_set (f : FtlImpl_MNftl) (h : WF f) (L i : Nat) (v : Int) :
    WF (PMD_set f L i v) where
  P_pos := h.P_pos
  P_uint := h.P_uint
  Q_pos := h.Q_pos
  idx_lt := h.idx_lt
  keys := fun L1 => by
    rw [PMD_set_PMD_none]; exact h.keys L1
  pmd_len := fun L1 row hg => by
    show row.length = f.num_pmd
    unfold PMD_set at hg
    by_cases hL : L1 = L
    · subst hL
      simp only [if_true] at hg
      cases hr : f.PMD L1 with
      | none => simp [hr] at hg
      | some r0 =>
        simp only [hr, Option.map_some', Option.some.injEq] at hg
        subst hg
        simp [h.pmd_len L1 r0 hr]
    · simp only [hL, if_false] at hg
      exact h.pmd_len L1 row hg
  pmt_len := h.pmt_len
  pmt_long := h.pmt_long
  rmap_dom := h.rmap_dom

theorem WF_rmap_erase (f : FtlImpl_MNftl) (h : WF f) (k : Nat) : WF (rmap_erase f k) where
  P_pos := h.P_pos
  P_uint := h.P_uint
  Q_pos := h.Q_pos
  idx_lt := h.idx_lt
  keys := h.keys
  pmd_len := h.pmd_len
  pmt_len := h.pmt_len
  pmt_long := h.pmt_long
  rmap_dom := fun p e he => by
    unfold rmap_erase at he
    by_cases hp : p = k
    · simp [hp] at he
    · simp only [hp, if_false] at he
      exact h.rmap_dom p e he

theorem WF_rmap_set (f : FtlImpl_MNftl) (h : WF f) (k : Nat) (e : RmapEntry)
    (he : f.PMT e.lbn ≠ none ∧ e.pmd < f.num_pmd ∧ e.slot < f.Q) : WF (rmap_set f k e) where
  P_pos := h.P_pos
  P_uint := h.P_uint
  Q_pos := h.Q_pos
  idx_lt := h.idx_lt
  keys := h.keys
  pmd_len := h.pmd_len
  pmt_len := h.pmt_len
  pmt_long := h.pmt_long
  rmap_dom := fun p e1 he1 => by
    unfold rmap_set at he1
    by_cases hp : p = k
    · simp only [hp, if_true, Option.some.injEq] at he1
      subst he1; exact he
    · simp only [hp, if_false] at he1
      exact h.rmap_dom p e1 he1

/-- The engine state after `ensure_frontier`, field by field. -/
theorem ensure_frontier_ftl (m : Machine) (event : Event) (fb : BlockResp) :
    (ensure_frontier m event fb).1.ftl.P = m.ftl.P ∧
    (ensure_frontier m event fb).1.ftl.Q = m.ftl.Q ∧
    (ensure_frontier m event fb).1.ftl.num_pmd = m.ftl.num_pmd ∧
    (ensure_frontier m event fb).1.ftl.PMD = m.ftl.PMD ∧
    (ensure_frontier m event fb).1.ftl.PMT = m.ftl.PMT ∧
    (ensure_frontier m event fb).1.ftl.rmap = m.ftl.rmap ∧
    (ensure_frontier m event fb).1.ftl.has_current_block = true := by
  unfold ensure_frontier
  split
  · simp [allocate_new_current_block]
  · rename_i hc
    simp only [not_or] at hc
    simp at hc
    simp [hc.1]

theorem WF_of_fields (f g : FtlImpl_MNftl) (h : WF f) (hP : g.P = f.P) (hQ : g.Q = f.Q)
    (hn : g.num_pmd = f.num_pmd) (hD : g.PMD = f.PMD) (hT : g.PMT = f.PMT)
    (hR : g.rmap = f.rmap) : WF g := by
  have hget : ∀ L i s, PMT_get g L i s = PMT_get f L i s := by
    intro L i s; unfold PMT_get; rw [hT]
  exact
    { P_pos := by rw [hP]; exact h.P_pos
      P_uint := by rw [hP]; exact h.P_uint
      Q_pos := by rw [hQ]; exact h.Q_pos
      idx_lt := by rw [hP, hQ, hn]; exact h.idx_lt
      keys := by rw [hD, hT]; exact h.keys
      pmd_len := by rw [hD, hn]; exact h.pmd_len
      pmt_len := by rw [hT, hn, hQ]; exact h.pmt_len
      pmt_long := fun L i s v hv => h.pmt_long L i s v (by rw [← hget]; exact hv)
      rmap_dom := by rw [hR, hT, hn, hQ]; exact h.rmap_dom }

theorem ensure_rows_of_some (m : Machine) (L : Nat) (row : List Int) (grid : List (List Int))
    (hD : m.ftl.PMD L = some row) (hT : m.ftl.PMT L = some grid) : ensure_rows m L = m := by
  unfold ensure_rows
  simp [hD, hT]

theorem ensure_rows_of_none (m : Machine) (L : Nat) (hD : m.ftl.PMD L = none)
    (hT : m.ftl.PMT L = none) :
    (ensure_rows m L).ftl =
      { m.ftl with
        PMD := fun k => if k = L then some (List.replicate m.ftl.num_pmd (-1)) else m.ftl.PMD k,
        PMT := fun k =>
          if k = L then some (List.replicate m.ftl.num_pmd (List.replicate m.ftl.Q (-1)))
          else m.ftl.PMT k } := by
  unfold ensure_rows
  simp [hD, hT]

/-- The grid access in a freshly created row. -/
theorem replicate_grid_get (n q i s : Nat) (v : Int) :
    (match (List.replicate n (List.replicate q v))[i]? with
      | none => none
      | some row => row[s]?) = if i < n ∧ s < q then some v else none := by
  by_cases hi : i < n
  · by_cases hs : s < q
    · simp [List.getElem?_replicate, hi, hs]
    · simp [List.getElem?_replicate, hi, hs]
  · simp [List.getElem?_replicate, hi]

theorem ensure_rows_view (m : Machine) (h : WF m.ftl) (L : Nat) :
    WF (ensure_rows m L).ftl ∧
    (ensure_rows m L).ftl.PMD L ≠ none ∧
    (ensure_rows m L).ftl.PMT L ≠ none ∧
    (∀ L1 i s, PMT_get (ensure_rows m L).ftl L1 i s =
      if L1 = L ∧ m.ftl.PMT L = none then
        (if i < m.ftl.num_pmd ∧ s < m.ftl.Q then some (-1) else none)
      else PMT_get m.ftl L1 i s) ∧
    (∀ L1 i, PMD_get (ensure_rows m L).ftl L1 i =
      if L1 = L ∧ m.ftl.PMD L = none then (if i < m.ftl.num_pmd then some (-1) else none)
      else PMD_get m.ftl L1 i) ∧
    (∀ L1, L1 ≠ L → (ensure_rows m L).ftl.PMD L1 = m.ftl.PMD L1 ∧
      (ensure_rows m L).ftl.PMT L1 = m.ftl.PMT L1) ∧
    (ensure_rows m L).ftl.P = m.ftl.P ∧ (ensure_rows m L).ftl.Q = m.ftl.Q ∧
    (ensure_rows m L).ftl.num_pmd = m.ftl.num_pmd ∧
    (ensure_rows m L).ftl.rmap = m.ftl.rmap ∧
    (ensure_rows m L).ftl.has_current_block = m.ftl.has_current_block ∧
    (ensure_rows m L).ftl.current_page_offset = m.ftl.current_page_offset ∧
    (ensure_rows m L).ftl.current_block = m.ftl.current_block ∧
    (ensure_rows m L).ftl.BML = m.ftl.BML ∧
    (ensure_rows m L).ftl.current_blocks = m.ftl.current_blocks ∧
    (ensure_rows m L).stats = m.stats := by
  cases hD : m.ftl.PMD L with
  | some row =>
    have hTn : m.ftl.PMT L ≠ none := fun hc => by
      have := (h.keys L).2 hc; rw [hD] at this; exact absurd this (by simp)
    cases hT : m.ftl.PMT L with
    | none => exact absurd hT hTn
    | some grid =>
      rw [ensure_rows_of_some m L row grid hD hT]
      refine ⟨h, by simp [hD], by simp [hT], ?_, ?_, ?_, rfl, rfl, rfl, rfl, rfl, rfl, rfl, rfl,
        rfl, rfl⟩
      · intro L1 i s; simp
      · intro L1 i; simp
      · intro L1 _; exact ⟨rfl, rfl⟩
  | none =>
    have hT : m.ftl.PMT L = none := (h.keys L).1 hD
    have hstats : (ensure_rows m L).stats = m.stats := by
      unfold ensure_rows; simp [hD, hT]
    have heq := ensure_rows_of_none m L hD hT
    have hPMT : ∀ L1 i s, PMT_get (ensure_rows m L).ftl L1 i s =
        if L1 = L ∧ True then
          (if i < m.ftl.num_pmd ∧ s < m.ftl.Q then some (-1) else none)
        else PMT_get m.ftl L1 i s := by
      intro L1 i s
      rw [heq]
      unfold PMT_get
      by_cases hL : L1 = L
      · simp only [hL, if_true, and_self]
        exact replicate_grid_get _ _ _ _ _
      · simp [hL]
    have hPMD : ∀ L1 i, PMD_get (ensure_rows m L).ftl L1 i =
        if L1 = L ∧ True then (if i < m.ftl.num_pmd then some (-1) else none)
        else PMD_get m.ftl L1 i := by
      intro L1 i
      rw [heq]
      unfold PMD_get
      by_cases hL : L1 = L
      · simp [hL, List.getElem?_replicate]
      · simp [hL]
    refine ⟨?_, by rw [heq]; simp, by rw [heq]; simp,
      fun L1 i s => by rw [hPMT]; simp [hT], fun L1 i => by rw [hPMD]; simp, ?_,
      by rw [heq], by rw [heq],
      by rw [heq], by rw [heq], by rw [heq], by rw [heq], by rw [heq], by rw [heq], by rw [heq],
      hstats⟩
    · exact
        { P_pos := by rw [heq]; exact h.P_pos
          P_uint := by rw [heq]; exact h.P_uint
          Q_pos := by rw [heq]; exact h.Q_pos
          idx_lt := by rw [heq]; exact h.idx_lt
          keys := fun L1 => by
            rw [heq]
            by_cases hL : L1 = L
            · simp [hL]
            · simp only [hL, if_false]; exact h.keys L1
          pmd_len := fun L1 row hr => by
            rw [heq] at hr ⊢
            by_cases hL : L1 = L
            · simp only [hL, if_true, Option.some.injEq] at hr
              subst hr; simp
            · simp only [hL, if_false] at hr
              exact h.pmd_len L1 row hr
          pmt_len := fun L1 grid hr => by
            rw [heq] at hr ⊢
            by_cases hL : L1 = L
            · simp only [hL, if_true, Option.some.injEq] at hr
              subst hr
              refine ⟨by simp, ?_⟩
              intro row hmem
              rw [List.eq_of_mem_replicate hmem]; simp
            · simp only [hL, if_false] at hr
              exact h.pmt_len L1 grid hr
          pmt_long := fun L1 i s v hv => by
            rw [hPMT] at hv
            split at hv
            · split at hv
              · simp only [Option.some.injEq] at hv; subst hv; omega
              · exact absurd hv (by simp)
            · exact h.pmt_long L1 i s v hv
          rmap_dom := fun p e he => by
            rw [heq] at he ⊢
            obtain ⟨h1, h2, h3⟩ := h.rmap_dom p e he
            refine ⟨?_, h2, h3⟩
            by_cases hL : e.lbn = L
            · simp [hL]
            · simp only [hL, if_false]; exact h1 }
    · intro L1 hL
      rw [heq]; simp [hL]

theorem store_mapping_view (f : FtlImpl_MNftl) (h : WF f) (lbn idx slot : Nat) (old : Int)
    (new : Nat) (hold : PMT_get f lbn idx slot = some old) (a : Int)
    (hanch : PMD_get f lbn idx = some a) :
    WF (store_mapping f lbn idx slot old new) ∧
    (∀ L i s, PMT_get (store_mapping f lbn idx slot old new) L i s =
      if L = lbn ∧ i = idx ∧ s = slot then some (toLong new) else PMT_get f L i s) ∧
    (∀ L i, PMD_get (store_mapping f lbn idx slot old new) L i =
      if L = lbn ∧ i = idx then some (toLong new) else PMD_get f L i) ∧
    (∀ k, (store_mapping f lbn idx slot old new).rmap k =
      if k = new then some ⟨lbn, idx, slot⟩
      else if old ≠ -1 ∧ k = toUlong old then none else f.rmap k) ∧
    (∀ L, (store_mapping f lbn idx slot old new).PMD L = none ↔ f.PMD L = none) ∧
    (∀ L, L ≠ lbn → (store_mapping f lbn idx slot old new).PMD L = f.PMD L ∧
      (store_mapping f lbn idx slot old new).PMT L = f.PMT L) ∧
    (store_mapping f lbn idx slot old new).P = f.P ∧
    (store_mapping f lbn idx slot old new).Q = f.Q ∧
    (store_mapping f lbn idx slot old new).num_pmd = f.num_pmd ∧
    (store_mapping f lbn idx slot old new).has_current_block = f.has_current_block ∧
    (store_mapping f lbn idx slot old new).current_page_offset = f.current_page_offset ∧
    (store_mapping f lbn idx slot old new).current_block = f.current_block ∧
    (store_mapping f lbn idx slot old new).BML = f.BML ∧
    (store_mapping f lbn idx slot old new).current_blocks = f.current_blocks := by
  obtain ⟨hk, hi, hs⟩ := PMT_get_dom f h lbn idx slot old hold
  -- the state after the conditional erase
  have hf1 : ∀ g : FtlImpl_MNftl, g = (if old ≠ -1 then rmap_erase f (toUlong old) else f) →
      WF g ∧ (∀ L i s, PMT_get g L i s = PMT_get f L i s) ∧
      (∀ L i, PMD_get g L i = PMD_get f L i) ∧ g.PMT = f.PMT ∧ g.PMD = f.PMD ∧
      (∀ k, g.rmap k = if old ≠ -1 ∧ k = toUlong old then none else f.rmap k) ∧
      g.P = f.P ∧ g.Q = f.Q ∧ g.num_pmd = f.num_pmd ∧
      g.has_current_block = f.has_current_block ∧
      g.current_page_offset = f.current_page_offset ∧ g.current_block = f.current_block ∧
      g.BML = f.BML ∧ g.current_blocks = f.current_blocks := by
    intro g hg
    by_cases ho : old ≠ -1
    · rw [if_pos ho] at hg
      subst hg
      refine ⟨WF_rmap_erase f h _, fun _ _ _ => rfl, fun _ _ => rfl, rfl, rfl, ?_, rfl, rfl, rfl,
        rfl, rfl, rfl, rfl, rfl⟩
      intro k
      unfold rmap_erase
      by_cases hkk : k = toUlong old
      · simp [hkk, ho]
      · simp [hkk]
    · rw [if_neg ho] at hg
      subst hg
      refine ⟨h, fun _ _ _ => rfl, fun _ _ => rfl, rfl, rfl, ?_, rfl, rfl, rfl, rfl, rfl, rfl,
        rfl, rfl⟩
      intro k; simp [ho]
  unfold store_mapping
  simp only []
  generalize hg : (if old ≠ -1 then rmap_erase f (toUlong old) else f) = g
  obtain ⟨g1, g2, g3, g4, g5, g6, g7, g8, g9, g10, g11, g12, g13, g14⟩ := hf1 g hg.symm
  have hW1 := WF_PMT_set g g1 lbn idx slot (toLong new) (toLong_range new)
  have hW2 := WF_PMD_set _ hW1 lbn idx (toLong new)
  have hkeyT : ∀ L, (PMT_set g lbn idx slot (toLong new)).PMT L = none ↔ f.PMT L = none := by
    intro L; rw [PMT_set_PMT_none, g4]
  refine ⟨?_, ?_, ?_, ?_, ?_, ?_, g7, g8, g9, g10, g11, g12, g13, g14⟩
  · refine WF_rmap_set _ hW2 new _ ⟨?_, ?_, ?_⟩
    · show (PMT_set g lbn idx slot (toLong new)).PMT lbn ≠ none
      rw [Ne, hkeyT]; exact hk
    · show idx < g.num_pmd
      rw [g9]; exact hi
    · show slot < g.Q
      rw [g8]; exact hs
  · intro L i s
    show PMT_get (PMT_set g lbn idx slot (toLong new)) L i s = _
    rw [PMT_get_PMT_set, g2, g2, hold]
    rfl
  · intro L i
    show PMD_get (PMD_set (PMT_set g lbn idx slot (toLong new)) lbn idx (toLong new)) L i = _
    rw [PMD_get_PMD_set, PMD_get_PMT_set, PMD_get_PMT_set, g3, g3, hanch]
    rfl
  · intro k
    show (if k = new then some _ else g.rmap k) = _
    rw [g6]
  · intro L
    show (PMD_set (PMT_set g lbn idx slot (toLong new)) lbn idx (toLong new)).PMD L = none ↔ _
    rw [PMD_set_PMD_none]
    show g.PMD L = none ↔ _
    rw [g5]
  · intro L hL
    constructor
    · show (if L = lbn then _ else g.PMD L) = _
      rw [if_neg hL, g5]
    · show (if L = lbn then _ else g.PMT L) = _
      rw [if_neg hL, g4]

theorem write_core_view (cfg : Config) (m3 : Machine) (event2 : Event) (lbn idx slot : Nat)
    (newAddr : Address) (dev : IssueResp) (h : WF m3.ftl) (hD : m3.ftl.PMD lbn ≠ none)
    (hi : idx < m3.ftl.num_pmd) (hs : slot < m3.ftl.Q)
    (hcur : m3.ftl.has_current_block = true) :
    ∃ anchor old, PMD_get m3.ftl lbn idx = some anchor ∧
      PMT_get m3.ftl lbn idx slot = some old ∧
      write_core cfg m3 event2 lbn idx slot newAddr dev =
        some (issue
          (((incr_offset (m3.log [Action.get_free_page])).log
              (store_mapping_actions lbn idx slot old newAddr.get_linear_address)).setFtl
            (store_mapping (incr_offset (m3.log [Action.get_free_page])).ftl lbn idx slot old
              newAddr.get_linear_address))
          ((if old ≠ -1 then
              (if anchor ≠ -1 then event2.incr_time_taken cfg.OOB_READ_DELAY
                else event2).set_replace_address
                (cfg.mkAddress (toUlong old % 4294967296) address_valid.PAGE)
            else (if anchor ≠ -1 then event2.incr_time_taken cfg.OOB_READ_DELAY
                else event2)).set_address newAddr) dev) := by
  obtain ⟨anchor, ha⟩ := PMD_get_some_of_WF m3.ftl h lbn idx hD hi
  have hT : m3.ftl.PMT lbn ≠ none := fun hc => hD ((h.keys lbn).2 hc)
  obtain ⟨old, ho⟩ := PMT_get_some_of_WF m3.ftl h lbn idx slot hT hi hs
  refine ⟨anchor, old, ha, ho, ?_⟩
  have ho2 : PMT_get (incr_offset (m3.log [Action.get_free_page])).ftl lbn idx slot = some old := ho
  unfold write_core alloc_page_in_current_block
  simp only [ha, hcur, if_true, ho2]

theorem ensure_frontier_fields (m : Machine) (event : Event) (fb : BlockResp) :
    (ensure_frontier m event fb).1.ftl.current_page_offset =
      (if m.ftl.has_current_block = false ∨ m.ftl.current_page_offset = m.ftl.P then 0
        else m.ftl.current_page_offset) ∧
    (ensure_frontier m event fb).1.ftl.BML =
      (if m.ftl.has_current_block = false ∨ m.ftl.current_page_offset = m.ftl.P then
        m.ftl.BML ++ [fb.blk.block] else m.ftl.BML) ∧
    (ensure_frontier m event fb).1.ftl.current_blocks =
      (if m.ftl.has_current_block = false ∨ m.ftl.current_page_offset = m.ftl.P then
        insert (fb.blk.block : Int) m.ftl.current_blocks else m.ftl.current_blocks) ∧
    (ensure_frontier m event fb).1.ftl.current_block =
      (if m.ftl.has_current_block = false ∨ m.ftl.current_page_offset = m.ftl.P then
        { fb.blk with valid := address_valid.BLOCK } else m.ftl.current_block) ∧
    (ensure_frontier m event fb).2 =
      (if m.ftl.has_current_block = false ∨ m.ftl.current_page_offset = m.ftl.P then
        event.incr_time_taken fb.delay else event) ∧
    (ensure_frontier m event fb).1.stats = m.stats := by
  unfold ensure_frontier
  split <;> simp [allocate_new_current_block]

theorem write_view (cfg : Config) (m : Machine) (event : Event) (fb : BlockResp)
    (newAddr : Address) (dev : IssueResp) (h : WF m.ftl) (lbn idx slot new : Nat)
    (old anchor : Int)
    (hlbn : lbn = lbn_of m.ftl.P event.logical_address)
    (hidx : idx = pmd_index_of m.ftl.P m.ftl.Q event.logical_address)
    (hslot : slot = map_slot_of m.ftl.P m.ftl.Q event.logical_address)
    (hnew : new = newAddr.get_linear_address)
    (hold : old = (PMT_get m.ftl lbn idx slot).getD (-1))
    (hanchor : anchor = (PMD_get m.ftl lbn idx).getD (-1)) :
    ∃ o, write cfg m event fb newAddr dev = some o ∧ WF o.m.ftl ∧
      (∀ L i s, PMT_get o.m.ftl L i s =
        if L = lbn ∧ i = idx ∧ s = slot then some (toLong new)
        else if L = lbn ∧ m.ftl.PMT lbn = none then
          (if i < m.ftl.num_pmd ∧ s < m.ftl.Q then some (-1) else none)
        else PMT_get m.ftl L i s) ∧
      (∀ L i, PMD_get o.m.ftl L i =
        if L = lbn ∧ i = idx then some (toLong new)
        else if L = lbn ∧ m.ftl.PMD lbn = none then
          (if i < m.ftl.num_pmd then some (-1) else none)
        else PMD_get m.ftl L i) ∧
      (∀ k, o.m.ftl.rmap k =
        if k = new then some ⟨lbn, idx, slot⟩
        else if old ≠ -1 ∧ k = toUlong old then none else m.ftl.rmap k) ∧
      o.m.ftl.P = m.ftl.P ∧ o.m.ftl.Q = m.ftl.Q ∧ o.m.ftl.num_pmd = m.ftl.num_pmd ∧
      (∀ L, o.m.ftl.PMD L = none ↔ (L ≠ lbn ∧ m.ftl.PMD L = none)) ∧
      o.event.noop = event.noop ∧ o.event.address = newAddr ∧
      o.event.replace_address =
        (if old ≠ -1 then cfg.mkAddress (toUlong old % 4294967296) address_valid.PAGE
          else event.replace_address) ∧
      o.ret = dev.ret ∧
      o.m.ftl.has_current_block = true ∧
      o.m.ftl.current_page_offset =
        (if m.ftl.has_current_block = false ∨ m.ftl.current_page_offset = m.ftl.P then 0
          else m.ftl.current_page_offset) + 1 ∧
      o.m.ftl.BML =
        (if m.ftl.has_current_block = false ∨ m.ftl.current_page_offset = m.ftl.P then
          m.ftl.BML ++ [fb.blk.block] else m.ftl.BML) ∧
      o.m.ftl.current_blocks =
        (if m.ftl.has_current_block = false ∨ m.ftl.current_page_offset = m.ftl.P then
          insert (fb.blk.block : Int) m.ftl.current_blocks else m.ftl.current_blocks) ∧
      o.event.time_taken = event.time_taken +
        (if m.ftl.has_current_block = false ∨ m.ftl.current_page_offset = m.ftl.P then
          fb.delay else 0) +
        (if anchor ≠ -1 then cfg.OOB_READ_DELAY else 0) + dev.delay := by
  generalize hm1e : ({ m with stats := { m.stats with
    numFTLWrite := m.stats.numFTLWrite + 1 } } : Machine) = m1
  have hf1 : m1.ftl = m.ftl := by rw [← hm1e]
  have hm1 : WF m1.ftl := by rw [hf1]; exact h
  obtain ⟨e1, e2, e3, e4, e5, e6, e7⟩ := ensure_frontier_ftl m1 event fb
  obtain ⟨c1, c2, c3, c4, c5, c6⟩ := ensure_frontier_fields m1 event fb
  have hWF2 : WF (ensure_frontier m1 event fb).1.ftl := WF_of_fields _ _ hm1 e1 e2 e3 e4 e5 e6
  generalize hm2e : (ensure_frontier m1 event fb).1 = m2 at *
  generalize hev2 : (ensure_frontier m1 event fb).2 = event2 at *
  obtain ⟨v1, v2, v3, v4, v5, v6, v7, v8, v9, v10, v11, v12, v13, v14, v15, v16⟩ :=
    ensure_rows_view m2 hWF2 lbn
  generalize hm3e : ensure_rows m2 lbn = m3 at *
  have hi : idx < m3.ftl.num_pmd := by
    rw [v9, e3, hidx, hf1]; exact pmd_index_lt m.ftl h _
  have hs : slot < m3.ftl.Q := by
    rw [v8, e2, hslot, hf1]; exact map_slot_lt m.ftl h _
  have hcur : m3.ftl.has_current_block = true := by rw [v11, e7]
  obtain ⟨anchor1, old1, ha, ho, hw⟩ :=
    write_core_view cfg m3 event2 lbn idx slot newAddr dev v1 v2 hi hs hcur
  have hPMTeq : ∀ L i s, PMT_get m2.ftl L i s = PMT_get m.ftl L i s := by
    intro L i s; unfold PMT_get; rw [e5, hf1]
  have hPMDeq : ∀ L i, PMD_get m2.ftl L i = PMD_get m.ftl L i := by
    intro L i; unfold PMD_get; rw [e4, hf1]
  have hold1 : old1 = old := by
    rw [hold]
    have := v4 lbn idx slot
    rw [ho] at this
    by_cases hn : m2.ftl.PMT lbn = none
    · have hn2 : m.ftl.PMT lbn = none := by rw [← hf1, ← e5]; exact hn
      have hg : PMT_get m.ftl lbn idx slot = none := by unfold PMT_get; simp [hn2]
      rw [hg]
      rw [if_pos ⟨rfl, hn⟩] at this
      rw [if_pos ⟨by rw [← v9]; exact hi, by rw [← v8]; exact hs⟩] at this
      simpa using this
    · rw [if_neg (fun hc => hn hc.2), hPMTeq] at this
      rw [← this]; rfl
  have hanchor1 : anchor1 = anchor := by
    rw [hanchor]
    have := v5 lbn idx
    rw [ha] at this
    by_cases hn : m2.ftl.PMD lbn = none
    · have hn2 : m.ftl.PMD lbn = none := by rw [← hf1, ← e4]; exact hn
      have hg : PMD_get m.ftl lbn idx = none := by unfold PMD_get; simp [hn2]
      rw [hg]
      rw [if_pos ⟨rfl, hn⟩] at this
      rw [if_pos (by rw [← v9]; exact hi)] at this
      simpa using this
    · rw [if_neg (fun hc => hn hc.2), hPMDeq] at this
      rw [← this]; rfl
  subst hold1 hanchor1
  have ho5 : PMT_get (incr_offset (m3.log [Action.get_free_page])).ftl lbn idx slot =
      some old1 := ho
  have ha5 : PMD_get (incr_offset (m3.log [Action.get_free_page])).ftl lbn idx =
      some anchor1 := ha
  have hW5 : WF (incr_offset (m3.log [Action.get_free_page])).ftl :=
    WF_of_fields m3.ftl _ v1 rfl rfl rfl rfl rfl rfl
  obtain ⟨s1, s2, s3, s4, s5, s6, s7, s8, s9, s10, s11, s12, s13, s14⟩ :=
    store_mapping_view _ hW5 lbn idx slot old1 new ho5 anchor1 ha5
  have hwrite : write cfg m event fb newAddr dev =
      write_core cfg m3 event2 lbn idx slot newAddr dev := by
    unfold write
    have hP : m1.ftl.P ≠ 0 := by have := hm1.P_pos; omega
    have hQ : m2.ftl.Q ≠ 0 := by have := hWF2.Q_pos; omega
    have hP2 : m.ftl.P ≠ 0 := by have := h.P_pos; omega
    simp only [hm1e, hP, hP2, if_false, hm2e, hQ, hev2]
    rw [← hlbn, e1, e2, hf1, ← hidx, ← hslot, hm3e]
  rw [hwrite, hw, ← hnew]
  refine ⟨_, rfl, s1, ?_, ?_, ?_, ?_, ?_, ?_, ?_, ?_, ?_, ?_, rfl, ?_, ?_, ?_, ?_, ?_⟩
  · intro L i s
    show PMT_get (store_mapping _ lbn idx slot old1 new) L i s = _
    rw [s2]
    split
    · rfl
    · show PMT_get m3.ftl L i s = _
      rw [v4, hPMTeq, e5, e3, e2, hf1]
  · intro L i
    show PMD_get (store_mapping _ lbn idx slot old1 new) L i = _
    rw [s3]
    split
    · rfl
    · show PMD_get m3.ftl L i = _
      rw [v5, hPMDeq, e4, e3, hf1]
  · intro k
    show (store_mapping _ lbn idx slot old1 new).rmap k = _
    rw [s4]
    show _ = _
    have : (incr_offset (m3.log [Action.get_free_page])).ftl.rmap = m.ftl.rmap := by
      show m3.ftl.rmap = _
      rw [v10, e6, hf1]
    rw [this]
  · show (store_mapping _ lbn idx slot old1 new).P = _
    rw [s7]; show m3.ftl.P = _; rw [v7, e1, hf1]
  · show (store_mapping _ lbn idx slot old1 new).Q = _
    rw [s8]; show m3.ftl.Q = _; rw [v8, e2, hf1]
  · show (store_mapping _ lbn idx slot old1 new).num_pmd = _
    rw [s9]; show m3.ftl.num_pmd = _; rw [v9, e3, hf1]
  · intro L
    show (store_mapping _ lbn idx slot old1 new).PMD L = none ↔ _
    rw [s5]
    show m3.ftl.PMD L = none ↔ _
    by_cases hL : L = lbn
    · subst hL
      constructor
      · intro hc; exact absurd hc v2
      · intro hc; exact absurd rfl hc.1
    · rw [(v6 L hL).1, e4, hf1]
      simp [hL]
  · show (if old1 ≠ -1 then _ else _ : Event).noop = _
    have hE : event2.noop = event.noop := by
      rw [c5]; split <;> rfl
    split <;> split <;> simp [Event.set_address, Event.set_replace_address,
      Event.incr_time_taken, issue, hE]
  · simp [issue, Event.set_address, Event.incr_time_taken]
  · have hE : event2.replace_address = event.replace_address := by
      rw [c5]; split <;> rfl
    by_cases hc : old1 ≠ -1
    · simp only [hc, ne_eq, not_false_eq_true, if_true]
      split <;> simp [issue, Event.set_address, Event.set_replace_address,
        Event.incr_time_taken]
    · simp only [hc, if_false]
      split <;> simp [issue, Event.set_address, Event.set_replace_address,
        Event.incr_time_taken, hE]
  · show (store_mapping _ lbn idx slot old1 new).has_current_block = _
    rw [s10]; exact hcur
  · show (store_mapping _ lbn idx slot old1 new).current_page_offset = _
    rw [s11]
    show m3.ftl.current_page_offset + 1 = _
    rw [v12, c1, hf1]
  · show (store_mapping _ lbn idx slot old1 new).BML = _
    rw [s13]
    show m3.ftl.BML = _
    rw [v14, c2, hf1]
  · show (store_mapping _ lbn idx slot old1 new).current_blocks = _
    rw [s14]
    show m3.ftl.current_blocks = _
    rw [v15, c3, hf1]
  · have hE : event2.time_taken = event.time_taken +
        (if m.ftl.has_current_block = false ∨ m.ftl.current_page_offset = m.ftl.P then
          fb.delay else 0) := by
      rw [c5, hf1]; split <;> simp [Event.incr_time_taken]
    by_cases hc : old1 ≠ -1 <;> by_cases hc2 : anchor1 ≠ -1 <;>
      simp [hc, hc2, issue, Event.set_address, Event.set_replace_address,
        Event.incr_time_taken, hE]

theorem read_view (cfg : Config) (m : Machine) (event : Event) (dev : IssueResp) (h : WF m.ftl)
    (lbn idx slot : Nat)
    (hlbn : lbn = lbn_of m.ftl.P event.logical_address)
    (hidx : idx = pmd_index_of m.ftl.P m.ftl.Q event.logical_address)
    (hslot : slot = map_slot_of m.ftl.P m.ftl.Q event.logical_address) :
    ∃ o e, read cfg m event dev = some o ∧ o.m.ftl = m.ftl ∧
      o.m.trace = m.trace ++ [Action.issue e] ∧ o.event = e.incr_time_taken dev.delay ∧
      o.ret = dev.ret ∧
      ((m.ftl.PMD lbn = none ∨ PMD_get m.ftl lbn idx = some (-1) ∨
          PMT_get m.ftl lbn idx slot = some (-1)) →
        e.noop = true ∧ e.address = cfg.mkAddress 0 address_valid.PAGE) ∧
      (¬ (m.ftl.PMD lbn = none ∨ PMD_get m.ftl lbn idx = some (-1) ∨
          PMT_get m.ftl lbn idx slot = some (-1)) →
        ∃ ppn, PMT_get m.ftl lbn idx slot = some ppn ∧ e.noop = event.noop ∧
          e.address = cfg.mkAddress (toUint ppn) address_valid.PAGE) ∧
      e.time_taken = event.time_taken +
        (if m.ftl.PMD lbn = none ∨ PMD_get m.ftl lbn idx = some (-1) then 0
          else cfg.OOB_READ_DELAY) ∧
      e.replace_address = event.replace_address ∧
      e.logical_address = event.logical_address := by
  have hP : m.ftl.P ≠ 0 := by have := h.P_pos; omega
  have hQ : m.ftl.Q ≠ 0 := by have := h.Q_pos; omega
  have hi := pmd_index_lt m.ftl h event.logical_address
  have hs := map_slot_lt m.ftl h event.logical_address
  rw [← hidx] at hi
  rw [← hslot] at hs
  unfold read
  simp only [hP, hQ, if_false, ← hlbn, ← hidx, ← hslot]
  cases hD : m.ftl.PMD lbn with
  | none =>
    refine ⟨_, _, rfl, rfl, rfl, rfl, rfl, ?_, ?_, ?_, rfl, rfl⟩
    · intro _; exact ⟨rfl, rfl⟩
    · intro hc; exact absurd (Or.inl rfl) hc
    · simp [Event.set_noop, Event.set_address]
  | some row =>
    have hDn : m.ftl.PMD lbn ≠ none := by rw [hD]; simp
    have hTn : m.ftl.PMT lbn ≠ none := fun hc => hDn ((h.keys lbn).2 hc)
    obtain ⟨anchor, ha⟩ := PMD_get_some_of_WF m.ftl h lbn idx hDn hi
    obtain ⟨ppn, hp⟩ := PMT_get_some_of_WF m.ftl h lbn idx slot hTn hi hs
    simp only [ha, hp]
    by_cases h1 : anchor = -1
    · subst h1
      simp only [if_true]
      refine ⟨_, _, rfl, rfl, rfl, rfl, rfl, ?_, ?_, ?_, rfl, rfl⟩
      · intro _; exact ⟨rfl, rfl⟩
      · intro hc; exact absurd (Or.inr (Or.inl trivial)) hc
      · simp [Event.set_noop, Event.set_address]
    · simp only [h1, if_false]
      by_cases h2 : ppn = -1
      · subst h2
        simp only [if_true]
        refine ⟨_, _, rfl, rfl, rfl, rfl, rfl, ?_, ?_, ?_, rfl, rfl⟩
        · intro _; exact ⟨rfl, rfl⟩
        · intro hc; exact absurd (Or.inr (Or.inr trivial)) hc
        · simp [Event.set_noop, Event.set_address, Event.incr_time_taken, h1]
      · simp only [h2, if_false]
        refine ⟨_, _, rfl, rfl, rfl, rfl, rfl, ?_, ?_, ?_, rfl, rfl⟩
        · intro hc
          rcases hc with hc | hc | hc
          · exact absurd hc (by simp)
          · simp only [Option.some.injEq] at hc; exact absurd hc h1
          · simp only [Option.some.injEq] at hc; exact absurd hc h2
        · intro _; exact ⟨ppn, rfl, rfl, rfl⟩
        · simp [Event.set_noop, Event.set_address, Event.incr_time_taken, h1]

theorem trim_view (cfg : Config) (m : Machine) (event : Event) (dev : IssueResp) (h : WF m.ftl)
    (lbn idx slot : Nat)
    (hlbn : lbn = lbn_of m.ftl.P event.logical_address)
    (hidx : idx = pmd_index_of m.ftl.P m.ftl.Q event.logical_address)
    (hslot : slot = map_slot_of m.ftl.P m.ftl.Q event.logical_address) :
    ∃ o, trim cfg m event dev = some o ∧ WF o.m.ftl ∧
      (m.ftl.PMD lbn = none →
        o.m.ftl = m.ftl ∧ o.event = event ∧ o.ret = status.SUCCESS ∧ o.m.trace = m.trace) ∧
      (m.ftl.PMD lbn ≠ none →
        ∃ old, PMT_get m.ftl lbn idx slot = some old ∧
          o.m.ftl = (if old ≠ -1 then
            PMT_set (rmap_erase m.ftl (toUlong old)) lbn idx slot (-1) else m.ftl) ∧
          o.event = ((event.set_noop true).set_address
            (cfg.mkAddress 0 address_valid.PAGE)).incr_time_taken dev.delay ∧
          o.ret = dev.ret ∧
          o.m.trace = m.trace ++
            (if old ≠ -1 then [Action.rmap_erase (toUlong old),
              Action.pmt_store lbn idx slot (-1)] else []) ++
            [Action.issue ((event.set_noop true).set_address
              (cfg.mkAddress 0 address_valid.PAGE))]) := by
  have hP : m.ftl.P ≠ 0 := by have := h.P_pos; omega
  have hQ : m.ftl.Q ≠ 0 := by have := h.Q_pos; omega
  have hi := pmd_index_lt m.ftl h event.logical_address
  have hs := map_slot_lt m.ftl h event.logical_address
  rw [← hidx] at hi
  rw [← hslot] at hs
  unfold trim
  simp only [hP, hQ, if_false, ← hlbn, ← hidx, ← hslot]
  cases hD : m.ftl.PMD lbn with
  | none =>
    refine ⟨_, rfl, h, ?_, ?_⟩
    · intro _; exact ⟨rfl, rfl, rfl, rfl⟩
    · intro hc; exact absurd rfl hc
  | some row =>
    have hDn : m.ftl.PMD lbn ≠ none := by rw [hD]; simp
    have hTn : m.ftl.PMT lbn ≠ none := fun hc => hDn ((h.keys lbn).2 hc)
    obtain ⟨old, hp⟩ := PMT_get_some_of_WF m.ftl h lbn idx slot hTn hi hs
    have hlen : idx < row.length := by rw [h.pmd_len lbn row hD]; exact hi
    simp only [hlen, if_true, hp]
    by_cases ho : old = -1
    · subst ho
      simp only [ne_eq, not_true_eq_false, if_false]
      refine ⟨_, rfl, h, ?_, ?_⟩
      · intro hc; exact absurd hc (by simp)
      · intro _
        exact ⟨-1, rfl, rfl, rfl, rfl, by simp [issue]⟩
    · simp only [ne_eq, ho, not_false_eq_true, if_true]
      refine ⟨_, rfl, ?_, ?_, ?_⟩
      · exact WF_PMT_set _ (WF_rmap_erase m.ftl h _) lbn idx slot (-1) (by omega)
      · intro hc; exact absurd hc (by simp)
      · intro _
        exact ⟨old, rfl, by rw [if_pos ho]; rfl, rfl, rfl, by simp [issue, ho]⟩

theorem remap_view (m : Machine) (h : WF m.ftl) (old new : Nat) :
    ∃ m1, remap m old new = some m1 ∧ WF m1.ftl ∧ m1.stats = m.stats ∧
      (m.ftl.rmap old = none → m1 = m) ∧
      (∀ e, m.ftl.rmap old = some e →
        (∀ L i s, PMT_get m1.ftl L i s =
          if L = e.lbn ∧ i = e.pmd ∧ s = e.slot then some (toLong new)
          else PMT_get m.ftl L i s) ∧
        (∀ L i, PMD_get m1.ftl L i =
          if L = e.lbn ∧ i = e.pmd then some (toLong new) else PMD_get m.ftl L i) ∧
        (∀ k, m1.ftl.rmap k =
          if k = new then some e else if k = old then none else m.ftl.rmap k) ∧
        m1.trace = m.trace ++ [Action.pmt_store e.lbn e.pmd e.slot (toLong new),
          Action.pmd_store e.lbn e.pmd (toLong new), Action.rmap_erase old,
          Action.rmap_store new e]) ∧
      (∀ L, m1.ftl.PMD L = none ↔ m.ftl.PMD L = none) ∧
      m1.ftl.P = m.ftl.P ∧ m1.ftl.Q = m.ftl.Q ∧ m1.ftl.num_pmd = m.ftl.num_pmd ∧
      m1.ftl.has_current_block = m.ftl.has_current_block ∧
      m1.ftl.current_page_offset = m.ftl.current_page_offset ∧
      m1.ftl.current_block = m.ftl.current_block ∧
      m1.ftl.BML = m.ftl.BML ∧ m1.ftl.current_blocks = m.ftl.current_blocks := by
  unfold remap
  cases hr : m.ftl.rmap old with
  | none =>
    refine ⟨m, rfl, h, rfl, fun _ => rfl, ?_, fun _ => Iff.rfl, rfl, rfl, rfl, rfl, rfl, rfl, rfl,
      rfl⟩
    intro e he; exact absurd he (by simp)
  | some e =>
    obtain ⟨hk, hi, hs⟩ := h.rmap_dom old e hr
    obtain ⟨v, hv⟩ := PMT_get_some_of_WF m.ftl h e.lbn e.pmd e.slot hk hi hs
    have hkD : m.ftl.PMD e.lbn ≠ none := fun hc => hk ((h.keys e.lbn).1 hc)
    obtain ⟨a, ha⟩ := PMD_get_some_of_WF m.ftl h e.lbn e.pmd hkD hi
    have ha2 : PMD_get (PMT_set m.ftl e.lbn e.pmd e.slot (toLong new)) e.lbn e.pmd = some a := ha
    simp only [hv, ha2]
    have hW1 := WF_PMT_set m.ftl h e.lbn e.pmd e.slot (toLong new) (toLong_range new)
    have hW2 := WF_PMD_set _ hW1 e.lbn e.pmd (toLong new)
    have hW3 := WF_rmap_erase _ hW2 old
    refine ⟨_, rfl, ?_, rfl, ?_, ?_, ?_, rfl, rfl, rfl, rfl, rfl, rfl, rfl, rfl⟩
    · refine WF_rmap_set _ hW3 new e ⟨?_, hi, hs⟩
      show (PMT_set m.ftl e.lbn e.pmd e.slot (toLong new)).PMT e.lbn ≠ none
      rw [Ne, PMT_set_PMT_none]; exact hk
    · intro hc; exact absurd hc (by simp)
    · intro e1 he1
      simp only [Option.some.injEq] at he1
      subst he1
      refine ⟨?_, ?_, ?_, rfl⟩
      · intro L i s
        show PMT_get (PMT_set m.ftl e.lbn e.pmd e.slot (toLong new)) L i s = _
        rw [PMT_get_PMT_set, hv]; rfl
      · intro L i
        show PMD_get (PMD_set (PMT_set m.ftl e.lbn e.pmd e.slot (toLong new)) e.lbn e.pmd
          (toLong new)) L i = _
        rw [PMD_get_PMD_set, PMD_get_PMT_set, PMD_get_PMT_set, ha]; rfl
      · intro k; rfl
    · intro L
      show (PMD_set (PMT_set m.ftl e.lbn e.pmd e.slot (toLong new)) e.lbn e.pmd
        (toLong new)).PMD L = none ↔ _
      rw [PMD_set_PMD_none]; rfl

/-- The machine in which `cleanup_page` rewrites the mapping of a copied page: the counters,
the trace and the write frontier have moved on, the mapping store has not. -/
theorem cleanup_page_view (cfg : Config) (physical_address : Int) (i : Nat) (st : page_state)
    (r : CopyResp) (c : Outcome Unit) (h : WF c.m.ftl) :
    ∃ c1, cleanup_page cfg physical_address i st r c = some c1 ∧ WF c1.m.ftl ∧
      c1.m.ftl.P = c.m.ftl.P ∧ c1.m.ftl.Q = c.m.ftl.Q ∧ c1.m.ftl.num_pmd = c.m.ftl.num_pmd ∧
      (∀ L, c1.m.ftl.PMD L = none ↔ c.m.ftl.PMD L = none) ∧
      (st ≠ page_state.VALID → c1 = c) ∧
      (st = page_state.VALID →
        (c.m.ftl.rmap (toUlong (physical_address + (i : Int))) = none →
          c1.m.ftl.PMD = c.m.ftl.PMD ∧ c1.m.ftl.PMT = c.m.ftl.PMT ∧
          c1.m.ftl.rmap = c.m.ftl.rmap) ∧
        (∀ e, c.m.ftl.rmap (toUlong (physical_address + (i : Int))) = some e →
          (∀ L j s, PMT_get c1.m.ftl L j s =
            if L = e.lbn ∧ j = e.pmd ∧ s = e.slot then
              some (toLong r.newAddr.get_linear_address)
            else PMT_get c.m.ftl L j s) ∧
          (∀ L j, PMD_get c1.m.ftl L j =
            if L = e.lbn ∧ j = e.pmd then some (toLong r.newAddr.get_linear_address)
            else PMD_get c.m.ftl L j) ∧
          (∀ k, c1.m.ftl.rmap k =
            if k = r.newAddr.get_linear_address then some e
            else if k = toUlong (physical_address + (i : Int)) then none
            else c.m.ftl.rmap k))) := by
  unfold cleanup_page
  by_cases hst : st = page_state.VALID
  · simp only [hst, ne_eq, not_true_eq_false, if_false]
    obtain ⟨e1, e2, e3, e4, e5, e6, e7⟩ := ensure_frontier_ftl
      (issue c.m ((Event.new cfg event_type.READ c.event.logical_address 1
        c.event.start_time).set_address (cfg.mkAddress
          (toUlong (physical_address + (i : Int)) % 4294967296) address_valid.PAGE)) r.rd).m
      c.event r.fb
    have d1 : (ensure_frontier
      (issue c.m ((Event.new cfg event_type.READ c.event.logical_address 1
        c.event.start_time).set_address (cfg.mkAddress
          (toUlong (physical_address + (i : Int)) % 4294967296) address_valid.PAGE)) r.rd).m
      c.event r.fb).1.ftl.P = c.m.ftl.P := e1
    have d2 : (ensure_frontier
      (issue c.m ((Event.new cfg event_type.READ c.event.logical_address 1
        c.event.start_time).set_address (cfg.mkAddress
          (toUlong (physical_address + (i : Int)) % 4294967296) address_valid.PAGE)) r.rd).m
      c.event r.fb).1.ftl.Q = c.m.ftl.Q := e2
    have d3 : (ensure_frontier
      (issue c.m ((Event.new cfg event_type.READ c.event.logical_address 1
        c.event.start_time).set_address (cfg.mkAddress
          (toUlong (physical_address + (i : Int)) % 4294967296) address_valid.PAGE)) r.rd).m
      c.event r.fb).1.ftl.num_pmd = c.m.ftl.num_pmd := e3
    have d4 : (ensure_frontier
      (issue c.m ((Event.new cfg event_type.READ c.event.logical_address 1
        c.event.start_time).set_address (cfg.mkAddress
          (toUlong (physical_address + (i : Int)) % 4294967296) address_valid.PAGE)) r.rd).m
      c.event r.fb).1.ftl.PMD = c.m.ftl.PMD := e4
    have d5 : (ensure_frontier
      (issue c.m ((Event.new cfg event_type.READ c.event.logical_address 1
        c.event.start_time).set_address (cfg.mkAddress
          (toUlong (physical_address + (i : Int)) % 4294967296) address_valid.PAGE)) r.rd).m
      c.event r.fb).1.ftl.PMT = c.m.ftl.PMT := e5
    have d6 : (ensure_frontier
      (issue c.m ((Event.new cfg event_type.READ c.event.logical_address 1
        c.event.start_time).set_address (cfg.mkAddress
          (toUlong (physical_address + (i : Int)) % 4294967296) address_valid.PAGE)) r.rd).m
      c.event r.fb).1.ftl.rmap = c.m.ftl.rmap := e6
    generalize (ensure_frontier
      (issue c.m ((Event.new cfg event_type.READ c.event.logical_address 1
        c.event.start_time).set_address (cfg.mkAddress
          (toUlong (physical_address + (i : Int)) % 4294967296) address_valid.PAGE)) r.rd).m
      c.event r.fb) = mf at *
    generalize (issue c.m ((Event.new cfg event_type.READ c.event.logical_address 1
        c.event.start_time).set_address (cfg.mkAddress
          (toUlong (physical_address + (i : Int)) % 4294967296) address_valid.PAGE)) r.rd) = o1
      at *
    unfold alloc_page_in_current_block
    simp only [e7, if_true]
    generalize hm6 : ({ (issue (incr_offset (mf.1.log [Action.get_free_page]))
        (((Event.new cfg event_type.WRITE mf.2.logical_address 1
          (mf.2.start_time + o1.event.time_taken)).set_address r.newAddr).set_replace_address
          (cfg.mkAddress (toUlong (physical_address + (i : Int)) % 4294967296)
            address_valid.PAGE)) r.wr).m with
        stats := { (issue (incr_offset (mf.1.log [Action.get_free_page]))
          (((Event.new cfg event_type.WRITE mf.2.logical_address 1
            (mf.2.start_time + o1.event.time_taken)).set_address r.newAddr).set_replace_address
            (cfg.mkAddress (toUlong (physical_address + (i : Int)) % 4294967296)
              address_valid.PAGE)) r.wr).m.stats with
          valid_page_copies := (issue (incr_offset (mf.1.log [Action.get_free_page]))
            (((Event.new cfg event_type.WRITE mf.2.logical_address 1
              (mf.2.start_time + o1.event.time_taken)).set_address
                r.newAddr).set_replace_address
              (cfg.mkAddress (toUlong (physical_address + (i : Int)) % 4294967296)
                address_valid.PAGE)) r.wr).m.stats.valid_page_copies + 1 } } : Machine) = m6
    have hf6 : m6.ftl = { mf.1.ftl with
        current_page_offset := mf.1.ftl.current_page_offset + 1 } := by
      rw [← hm6]; rfl
    have g1 : m6.ftl.P = c.m.ftl.P := by rw [hf6]; exact d1
    have g2 : m6.ftl.Q = c.m.ftl.Q := by rw [hf6]; exact d2
    have g3 : m6.ftl.num_pmd = c.m.ftl.num_pmd := by rw [hf6]; exact d3
    have g4 : m6.ftl.PMD = c.m.ftl.PMD := by rw [hf6]; exact d4
    have g5 : m6.ftl.PMT = c.m.ftl.PMT := by rw [hf6]; exact d5
    have g6 : m6.ftl.rmap = c.m.ftl.rmap := by rw [hf6]; exact d6
    have hW6 : WF m6.ftl := WF_of_fields c.m.ftl m6.ftl h g1 g2 g3 g4 g5 g6
    have hPT : ∀ L j s, PMT_get m6.ftl L j s = PMT_get c.m.ftl L j s := by
      intro L j s; unfold PMT_get; rw [g5]
    have hPD : ∀ L j, PMD_get m6.ftl L j = PMD_get c.m.ftl L j := by
      intro L j; unfold PMD_get; rw [g4]
    obtain ⟨m7, hm7, w1, w2, w3, w4, w5, w6, w7, w8, _⟩ :=
      remap_view m6 hW6 (toUlong (physical_address + (i : Int))) r.newAddr.get_linear_address
    simp only [Address.get_linear_address] at hm7 ⊢
    simp only [hm7]
    refine ⟨_, rfl, w1, by rw [← g1]; exact w6, by rw [← g2]; exact w7,
      by rw [← g3]; exact w8, ?_, ?_, ?_⟩
    · intro L
      show m7.ftl.PMD L = none ↔ _
      rw [w5, g4]
    · intro hc; exact hc.elim
    · intro _
      constructor
      · intro hn
        rw [← g6] at hn
        have := w3 hn
        subst this
        exact ⟨g4, g5, g6⟩
      · intro e he
        rw [← g6] at he
        obtain ⟨x1, x2, x3, _⟩ := w4 e he
        refine ⟨?_, ?_, ?_⟩
        · intro L j s
          show PMT_get m7.ftl L j s = _
          rw [x1, hPT]; rfl
        · intro L j
          show PMD_get m7.ftl L j = _
          rw [x2, hPD]; rfl
        · intro k
          show m7.ftl.rmap k = _
          rw [x3, g6]; rfl
  · simp only [hst, ne_eq, not_false_eq_true, if_true]
    refine ⟨c, rfl, h, rfl, rfl, rfl, fun _ => Iff.rfl, fun _ => rfl, ?_⟩
    intro hc; exact hc.elim

theorem toLong_ne_of_ne (a b : Nat) (ha : a < 18446744073709551616)
    (hb : b < 18446744073709551616) (h : a ≠ b) : toLong a ≠ toLong b :=
  fun hc => h (toLong_inj a b ha hb hc)

/-- I1 and the long range of the slots give I3. -/
theorem I3_of_Inv (f : FtlImpl_MNftl) (h : Inv f) : I3 f := by
  intro L i s L1 i1 s1 v hv h1 h2
  obtain ⟨r1, r2⟩ := h.wf.pmt_long L i s v h1
  have hl : toLong (toUlong v) = v := toLong_toUlong v r1 r2
  have hp := toUlong_lt v
  have hne : toLong (toUlong v) ≠ UNMAPPED := by rw [hl]; exact hv
  have e1 := (h.i1 (toUlong v) L i s hp hne).2 (by rw [hl]; exact h1)
  have e2 := (h.i1 (toUlong v) L1 i1 s1 hp hne).2 (by rw [hl]; exact h2)
  rw [e1] at e2
  simp only [Option.some.injEq, RmapEntry.mk.injEq] at e2
  exact e2

theorem Inv_write (cfg : Config) (m : Machine) (event : Event) (fb : BlockResp)
    (newAddr : Address) (dev : IssueResp) (h : Inv m.ftl) (hf : allocFresh m.ftl newAddr) :
    ∃ o, write cfg m event fb newAddr dev = some o ∧ Inv o.m.ftl := by
  obtain ⟨o, ho, w1, w2, w3, w4, _⟩ := write_view cfg m event fb newAddr dev h.wf _ _ _ _ _ _
    rfl rfl rfl rfl rfl rfl
  refine ⟨o, ho, w1, ?_, ?_⟩
  · intro p L i s hp hpne
    have hnew := get_linear_address_lt newAddr
    -- the slot view outside the written slot agrees with the old store on page numbers
    have hE : ∀ L i s,
        ((if L = lbn_of m.ftl.P event.logical_address ∧
            m.ftl.PMT (lbn_of m.ftl.P event.logical_address) = none then
          (if i < m.ftl.num_pmd ∧ s < m.ftl.Q then some (-1) else none)
        else PMT_get m.ftl L i s) = some (toLong p)) ↔ PMT_get m.ftl L i s = some (toLong p) := by
      intro L i s
      split
      · rename_i hc
        have hn : PMT_get m.ftl L i s = none := by
          unfold PMT_get; rw [hc.1, hc.2]
        rw [hn]
        split
        · simp only [Option.some.injEq]
          constructor
          · intro hx; exact absurd hx.symm hpne
          · intro hx; exact absurd hx (by simp)
        · simp
      · exact Iff.rfl
    rw [w4, w2]
    by_cases hpn : p = newAddr.get_linear_address
    · subst hpn
      simp only [if_true]
      constructor
      · intro hx
        simp only [Option.some.injEq, RmapEntry.mk.injEq] at hx
        rw [if_pos ⟨hx.1.symm, hx.2.1.symm, hx.2.2.symm⟩]
      · intro hx
        split at hx
        · rename_i hc
          rw [hc.1, hc.2.1, hc.2.2]
        · rw [hE] at hx
          exact absurd hx (hf.2 L i s)
    · rw [if_neg hpn]
      have hne2 : toLong newAddr.get_linear_address ≠ toLong p :=
        toLong_ne_of_ne _ _ hnew hp (Ne.symm hpn)
      by_cases ht : L = lbn_of m.ftl.P event.logical_address ∧
          i = pmd_index_of m.ftl.P m.ftl.Q event.logical_address ∧
          s = map_slot_of m.ftl.P m.ftl.Q event.logical_address
      · rw [if_pos ht]
        obtain ⟨t1, t2, t3⟩ := ht
        subst t1 t2 t3
        constructor
        · intro hx
          exfalso
          split at hx
          · exact absurd hx (by simp)
          · rename_i hc
            have hslot := (h.i1 p _ _ _ hp hpne).1 hx
            rw [hslot] at hc
            simp only [Option.getD_some] at hc
            apply hc
            refine ⟨hpne, ?_⟩
            rw [toUlong_toLong p hp]
        · intro hx
          simp only [Option.some.injEq] at hx
          exact absurd hx hne2
      · rw [if_neg ht, hE, ← h.i1 p L i s hp hpne]
        split
        · rename_i hc
          constructor
          · intro hx; exact absurd hx (by simp)
          · intro hx
            exfalso
            -- the old page of the written slot is p, so rmap names the written slot
            obtain ⟨hc1, hc2⟩ := hc
            cases hg : PMT_get m.ftl (lbn_of m.ftl.P event.logical_address)
                (pmd_index_of m.ftl.P m.ftl.Q event.logical_address)
                (map_slot_of m.ftl.P m.ftl.Q event.logical_address) with
            | none => rw [hg] at hc1; exact hc1 rfl
            | some old =>
              rw [hg] at hc1 hc2
              simp only [Option.getD_some] at hc1 hc2
              obtain ⟨r1, r2⟩ := h.wf.pmt_long _ _ _ old hg
              have hl : toLong p = old := by rw [hc2]; exact toLong_toUlong old r1 r2
              rw [← hl] at hg
              have := (h.i1 p _ _ _ hp hpne).2 hg
              rw [hx] at this
              simp only [Option.some.injEq, RmapEntry.mk.injEq] at this
              exact ht this
        · exact Iff.rfl
  · intro p e he
    rw [w4] at he
    split at he
    · rename_i hc
      rw [hc]
      exact ⟨get_linear_address_lt newAddr, hf.1⟩
    · split at he
      · exact absurd he (by simp)
      · exact h.pages p e he

theorem Inv_trim (cfg : Config) (m : Machine) (event : Event) (dev : IssueResp)
    (h : Inv m.ftl) : ∃ o, trim cfg m event dev = some o ∧ Inv o.m.ftl := by
  obtain ⟨o, ho, w1, w2, w3⟩ := trim_view cfg m event dev h.wf _ _ _ rfl rfl rfl
  refine ⟨o, ho, ?_⟩
  by_cases hD : m.ftl.PMD (lbn_of m.ftl.P event.logical_address) = none
  · rw [(w2 hD).1]; exact h
  · obtain ⟨old, hold, hftl, _⟩ := w3 hD
    by_cases hone : old ≠ -1
    · rw [if_pos hone] at hftl
      refine ⟨w1, ?_, ?_⟩
      · intro p L i s hp hpne
        rw [hftl, PMT_get_PMT_set]
        show (if p = toUlong old then none else m.ftl.rmap p) = some ⟨L, i, s⟩ ↔ _
        have hPe : ∀ L i s, PMT_get (rmap_erase m.ftl (toUlong old)) L i s =
            PMT_get m.ftl L i s := fun _ _ _ => rfl
        rw [hPe, hPe, hold]
        obtain ⟨r1, r2⟩ := h.wf.pmt_long _ _ _ old hold
        have hl : toLong (toUlong old) = old := toLong_toUlong old r1 r2
        by_cases hpo : p = toUlong old
        · rw [if_pos hpo]
          constructor
          · intro hx; exact absurd hx (by simp)
          · intro hx
            exfalso
            split at hx
            · simp only [Option.map_some', Option.some.injEq] at hx
              exact hpne hx.symm
            · rename_i ht
              have e1 := (h.i1 p L i s hp hpne).2 hx
              have e2 := (h.i1 p _ _ _ hp hpne).2 (by rw [hpo, hl]; exact hold)
              rw [e1] at e2
              simp only [Option.some.injEq, RmapEntry.mk.injEq] at e2
              exact ht e2
        · rw [if_neg hpo]
          split
          · rename_i ht
            obtain ⟨t1, t2, t3⟩ := ht
            subst t1 t2 t3
            constructor
            · intro hx
              exfalso
              have := (h.i1 p _ _ _ hp hpne).1 hx
              rw [hold] at this
              simp only [Option.some.injEq] at this
              apply hpo
              rw [this, toUlong_toLong p hp]
            · intro hx
              simp only [Option.map_some', Option.some.injEq] at hx
              exact absurd hx.symm hpne
          · exact h.i1 p L i s hp hpne
      · intro p e he
        rw [hftl] at he
        have he2 : (if p = toUlong old then none else m.ftl.rmap p) = some e := he
        split at he2
        · exact absurd he2 (by simp)
        · exact h.pages p e he2
    · rw [if_neg hone] at hftl
      rw [hftl]; exact h

theorem Inv_cleanup_page (cfg : Config) (physical_address : Int) (i : Nat) (st : page_state)
    (r : CopyResp) (c : Outcome Unit) (h : Inv c.m.ftl)
    (hf : st = page_state.VALID → allocFresh c.m.ftl r.newAddr) :
    ∃ c1, cleanup_page cfg physical_address i st r c = some c1 ∧ Inv c1.m.ftl := by
  obtain ⟨c1, hc1, w1, _, _, _, _, w6, w7⟩ :=
    cleanup_page_view cfg physical_address i st r c h.wf
  refine ⟨c1, hc1, ?_⟩
  by_cases hst : st = page_state.VALID
  · obtain ⟨x1, x2⟩ := w7 hst
    have hfr := hf hst
    cases hr : c.m.ftl.rmap (toUlong (physical_address + (i : Int))) with
    | none =>
      obtain ⟨y1, y2, y3⟩ := x1 hr
      have hPT : ∀ L j s, PMT_get c1.m.ftl L j s = PMT_get c.m.ftl L j s := by
        intro L j s; unfold PMT_get; rw [y2]
      refine ⟨w1, ?_, ?_⟩
      · intro p L j s hp hpne
        rw [y3, hPT]; exact h.i1 p L j s hp hpne
      · intro p e he
        rw [y3] at he; exact h.pages p e he
    | some e =>
      obtain ⟨y1, y2, y3⟩ := x2 e hr
      obtain ⟨ho1, ho2⟩ := h.pages _ e hr
      have hnew := get_linear_address_lt r.newAddr
      have hslot_e := (h.i1 _ e.lbn e.pmd e.slot ho1 ho2).1 hr
      refine ⟨w1, ?_, ?_⟩
      · intro p L j s hp hpne
        rw [y3, y1]
        by_cases hpn : p = r.newAddr.get_linear_address
        · subst hpn
          simp only [if_true]
          constructor
          · intro hx
            simp only [Option.some.injEq] at hx
            rw [hx]; simp
          · intro hx
            split at hx
            · rename_i hc
              obtain ⟨t1, t2, t3⟩ := hc
              subst t1 t2 t3
              rfl
            · exact absurd hx (hfr.2 L j s)
        · rw [if_neg hpn]
          have hne2 : toLong r.newAddr.get_linear_address ≠ toLong p :=
            toLong_ne_of_ne _ _ hnew hp (Ne.symm hpn)
          by_cases hpo : p = toUlong (physical_address + (i : Int))
          · rw [if_pos hpo]
            constructor
            · intro hx; exact absurd hx (by simp)
            · intro hx
              exfalso
              split at hx
              · simp only [Option.some.injEq] at hx; exact hne2 hx
              · rename_i ht
                have e1 := (h.i1 p L j s hp hpne).2 hx
                rw [hpo, hr] at e1
                simp only [Option.some.injEq] at e1
                apply ht
                rw [e1]; simp
          · rw [if_neg hpo]
            split
            · rename_i ht
              obtain ⟨t1, t2, t3⟩ := ht
              subst t1 t2 t3
              constructor
              · intro hx
                exfalso
                have := (h.i1 p _ _ _ hp hpne).1 hx
                rw [hslot_e] at this
                simp only [Option.some.injEq] at this
                exact hpo (toLong_inj _ _ ho1 hp this).symm
              · intro hx
                simp only [Option.some.injEq] at hx
                exact absurd hx hne2
            · exact h.i1 p L j s hp hpne
      · intro p e1 he1
        rw [y3] at he1
        split at he1
        · rename_i hc
          rw [hc]; exact ⟨hnew, hfr.1⟩
        · split at he1
          · exact absurd he1 (by simp)
          · exact h.pages p e1 he1
  · rw [w6 hst]; exact h

theorem Inv_of_fields (f g : FtlImpl_MNftl) (h : Inv f) (hP : g.P = f.P) (hQ : g.Q = f.Q)
    (hn : g.num_pmd = f.num_pmd) (hD : g.PMD = f.PMD) (hT : g.PMT = f.PMT)
    (hR : g.rmap = f.rmap) : Inv g := by
  have hget : ∀ L i s, PMT_get g L i s = PMT_get f L i s := by
    intro L i s; unfold PMT_get; rw [hT]
  refine ⟨WF_of_fields f g h.wf hP hQ hn hD hT hR, ?_, ?_⟩
  · intro p L i s hp hpne
    rw [hR, hget]; exact h.i1 p L i s hp hpne
  · intro p e he
    rw [hR] at he; exact h.pages p e he

theorem Inv_cleanup_pages (cfg : Config) (physical_address : Int) (get_state : Nat → page_state)
    (resp : Nat → CopyResp) (c : Outcome Unit) (h : Inv c.m.ftl) :
    ∀ n, cleanup_allocs cfg physical_address get_state resp c (fun f _ a => allocFresh f a) n →
      ∃ c1, cleanup_pages cfg physical_address get_state resp c n = some c1 ∧ Inv c1.m.ftl
  | 0, _ => ⟨c, rfl, h⟩
  | n + 1, ha => by
    obtain ⟨ha1, ha2⟩ := ha
    obtain ⟨c1, hc1, hI⟩ := Inv_cleanup_pages cfg physical_address get_state resp c h n ha1
    obtain ⟨c2, hc2, hI2⟩ := Inv_cleanup_page cfg physical_address n (get_state n) (resp n) c1 hI
      (fun hst => ha2 hst c1 hc1)
    refine ⟨c2, ?_, hI2⟩
    show (match cleanup_pages cfg physical_address get_state resp c n with
      | none => none
      | some c1 => cleanup_page cfg physical_address n (get_state n) (resp n) c1) = some c2
    rw [hc1]; exact hc2

theorem Inv_cleanup_block (cfg : Config) (m : Machine) (event : Event) (physical_address : Int)
    (get_state : Nat → page_state) (resp : Nat → CopyResp) (hB : 0 < cfg.BLOCK_SIZE)
    (h : Inv m.ftl)
    (ha : opFresh cfg m (Op.cleanup_block event physical_address get_state resp)) :
    ∃ o, cleanup_block cfg m event physical_address get_state resp = some o ∧ Inv o.m.ftl := by
  obtain ⟨c1, hc1, hI⟩ := Inv_cleanup_pages cfg physical_address get_state resp
    { m := m, event := event.incr_time_taken ((m.ftl.num_pmd : ℚ) * cfg.OOB_READ_DELAY),
      ret := () } h cfg.BLOCK_SIZE ha
  unfold cleanup_block
  simp only [hc1]
  have hB0 : cfg.BLOCK_SIZE ≠ 0 := by omega
  simp only [hB0, if_false]
  exact ⟨_, rfl, Inv_of_fields c1.m.ftl _ hI rfl rfl rfl rfl rfl rfl⟩

theorem Inv_read (cfg : Config) (m : Machine) (event : Event) (dev : IssueResp)
    (h : WF m.ftl) : ∃ o, read cfg m event dev = some o ∧ o.m.ftl = m.ftl := by
  obtain ⟨o, e, ho, hf, _⟩ := read_view cfg m event dev h _ _ _ rfl rfl rfl
  exact ⟨o, ho, hf⟩

theorem Inv_step (cfg : Config) (hB : 0 < cfg.BLOCK_SIZE) (m : Machine) (h : Inv m.ftl)
    (op : Op) (ha : opFresh cfg m op) : ∃ m1, step cfg m op = some m1 ∧ Inv m1.ftl := by
  cases op with
  | read event dev =>
    obtain ⟨o, ho, hf⟩ := Inv_read cfg m event dev h.wf
    exact ⟨o.m, by simp [step, ho], by rw [hf]; exact h⟩
  | write event fb newAddr dev =>
    obtain ⟨o, ho, hI⟩ := Inv_write cfg m event fb newAddr dev h ha
    exact ⟨o.m, by simp [step, ho], hI⟩
  | trim event dev =>
    obtain ⟨o, ho, hI⟩ := Inv_trim cfg m event dev h
    exact ⟨o.m, by simp [step, ho], hI⟩
  | cleanup_block event physical_address get_state resp =>
    obtain ⟨o, ho, hI⟩ := Inv_cleanup_block cfg m event physical_address get_state resp hB h ha
    exact ⟨o.m, by simp [step, ho], hI⟩

theorem Inv_run (cfg : Config) (hB : 0 < cfg.BLOCK_SIZE) :
    ∀ (ops : List Op) (m : Machine), Inv m.ftl → runFresh cfg m ops →
      ∃ m1, run cfg m ops = some m1 ∧ Inv m1.ftl
  | [], m, h, _ => ⟨m, rfl, h⟩
  | op :: ops, m, h, ha => by
    obtain ⟨ha1, ha2⟩ := ha
    obtain ⟨m1, hm1, hI⟩ := Inv_step cfg hB m h op ha1
    obtain ⟨m2, hm2, hI2⟩ := Inv_run cfg hB ops m1 hI (ha2 m1 hm1)
    refine ⟨m2, ?_, hI2⟩
    show (match step cfg m op with
      | none => none
      | some m1 => run cfg m1 ops) = some m2
    rw [hm1]; exact hm2

theorem Inv_new (cfg : Config) (hc : cfg.ok) :
    ∃ m0, Machine.new cfg = some m0 ∧ Inv m0.ftl ∧ m0.ftl.P = cfg.BLOCK_SIZE ∧
      m0.ftl.Q = cfg.MNFTL_OOB_SIZE / cfg.MNFTL_ENTRY_SIZE ∧
      m0.ftl.PMD = (fun _ => none) ∧ m0.ftl.PMT = (fun _ => none) ∧
      m0.ftl.rmap = (fun _ => none) := by
  obtain ⟨h1, h2, h3, h4⟩ := hc
  have hE : cfg.MNFTL_ENTRY_SIZE ≠ 0 := by omega
  have hQ : cfg.MNFTL_OOB_SIZE / cfg.MNFTL_ENTRY_SIZE ≠ 0 := by omega
  unfold Machine.new FtlImpl_MNftl.new
  simp only [hE, hQ, if_false, Option.map_some']
  refine ⟨_, rfl, ⟨?_, ?_, ?_⟩, rfl, rfl, rfl, rfl, rfl⟩
  · refine
      { P_pos := h1
        P_uint := by show cfg.BLOCK_SIZE < 4294967296; omega
        Q_pos := h3
        idx_lt := ?_
        keys := fun _ => ⟨fun _ => rfl, fun _ => rfl⟩
        pmd_len := fun L row hr => by simp at hr
        pmt_len := fun L grid hr => by simp at hr
        pmt_long := fun L i s v hv => by simp [PMT_get] at hv
        rmap_dom := fun p e he => by simp at he }
    show (cfg.BLOCK_SIZE - 1) / (cfg.MNFTL_OOB_SIZE / cfg.MNFTL_ENTRY_SIZE) <
      (cfg.BLOCK_SIZE + cfg.MNFTL_OOB_SIZE / cfg.MNFTL_ENTRY_SIZE + 4294967296 - 1) % 4294967296 /
        (cfg.MNFTL_OOB_SIZE / cfg.MNFTL_ENTRY_SIZE)
    generalize cfg.MNFTL_OOB_SIZE / cfg.MNFTL_ENTRY_SIZE = Q at *
    have e1 : (cfg.BLOCK_SIZE + Q + 4294967296 - 1) % 4294967296 = cfg.BLOCK_SIZE - 1 + Q := by
      omega
    rw [e1, Nat.add_div_right _ h3]
    omega
  · intro p L i s _ _
    simp [PMT_get]
  · intro p e he
    simp at he

theorem decomp_inj (P Q : Nat) (hP : 0 < P) (hP32 : P < 4294967296) (a b : Nat)
    (ha : a / P < 4294967296) (hb : b / P < 4294967296)
    (h1 : lbn_of P a = lbn_of P b) (h2 : pmd_index_of P Q a = pmd_index_of P Q b)
    (h3 : map_slot_of P Q a = map_slot_of P Q b) : a = b := by
  unfold lbn_of at h1
  unfold pmd_index_of at h2
  unfold map_slot_of at h3
  rw [Nat.mod_eq_of_lt ha, Nat.mod_eq_of_lt hb] at h1
  have hbo : bo_of P a = bo_of P b := by
    rw [← Nat.div_add_mod (bo_of P a) Q, ← Nat.div_add_mod (bo_of P b) Q, h2, h3]
  unfold bo_of at hbo
  have l1 : a % P < P := Nat.mod_lt _ hP
  have l2 : b % P < P := Nat.mod_lt _ hP
  have e1 : a % P % 4294967296 = a % P := Nat.mod_eq_of_lt (by omega)
  have e2 : b % P % 4294967296 = b % P := Nat.mod_eq_of_lt (by omega)
  rw [e1, e2] at hbo
  calc a = P * (a / P) + a % P := (Nat.div_add_mod a P).symm
    _ = P * (b / P) + b % P := by rw [h1, hbo]
    _ = b := Nat.div_add_mod b P

/-- What a call other than `cleanup_block` does to one slot and its anchor, when the call is
not addressed to that slot. -/
theorem other_step_frame (cfg : Config) (m : Machine) (h : WF m.ftl) (lpn : Nat)
    (hl : lpn / m.ftl.P < 4294967296) (op : Op) (ho : otherLpn m.ftl.P lpn op) :
    ∃ m1, step cfg m op = some m1 ∧ WF m1.ftl ∧ m1.ftl.P = m.ftl.P ∧ m1.ftl.Q = m.ftl.Q ∧
      m1.ftl.num_pmd = m.ftl.num_pmd ∧
      -- the slot of lpn
      (∀ v, PMT_get m.ftl (lbn_of m.ftl.P lpn) (pmd_index_of m.ftl.P m.ftl.Q lpn)
          (map_slot_of m.ftl.P m.ftl.Q lpn) = some v →
        PMT_get m1.ftl (lbn_of m.ftl.P lpn) (pmd_index_of m.ftl.P m.ftl.Q lpn)
          (map_slot_of m.ftl.P m.ftl.Q lpn) = some v) ∧
      (m.ftl.PMD (lbn_of m.ftl.P lpn) = none →
        m1.ftl.PMD (lbn_of m.ftl.P lpn) = none ∨
        PMT_get m1.ftl (lbn_of m.ftl.P lpn) (pmd_index_of m.ftl.P m.ftl.Q lpn)
          (map_slot_of m.ftl.P m.ftl.Q lpn) = some (-1)) ∧
      (m.ftl.PMD (lbn_of m.ftl.P lpn) ≠ none → m1.ftl.PMD (lbn_of m.ftl.P lpn) ≠ none) ∧
      -- its anchor
      (∀ a, PMD_get m.ftl (lbn_of m.ftl.P lpn) (pmd_index_of m.ftl.P m.ftl.Q lpn) = some a →
        a ≠ -1 → writeAlloc isPage op →
        ∃ a1, PMD_get m1.ftl (lbn_of m.ftl.P lpn) (pmd_index_of m.ftl.P m.ftl.Q lpn) = some a1 ∧
          a1 ≠ -1) ∧
      -- the reverse map
      (∀ k, m.ftl.rmap k = none → writeAlloc (fun n => n ≠ k) op → m1.ftl.rmap k = none) := by
  cases op with
  | read event dev =>
    obtain ⟨o, hr, hf⟩ := Inv_read cfg m event dev h
    refine ⟨o.m, by simp [step, hr], by rw [hf]; exact h, by rw [hf], by rw [hf], by rw [hf],
      ?_, ?_, ?_, ?_, ?_⟩
    · intro v hv; rw [hf]; exact hv
    · intro hn; left; rw [hf]; exact hn
    · intro hn; rw [hf]; exact hn
    · intro a ha hne _; exact ⟨a, by rw [hf]; exact ha, hne⟩
    · intro k hk _; rw [hf]; exact hk
  | cleanup_block event physical_address get_state resp => exact absurd ho (by simp [otherLpn])
  | write event fb newAddr dev =>
    obtain ⟨hne, hb⟩ := ho
    obtain ⟨o, hw, w1, w2, w3, w4, w5, w6, w7, w8, _⟩ :=
      write_view cfg m event fb newAddr dev h _ _ _ _ _ _ rfl rfl rfl rfl rfl rfl
    have hnt : ¬ (lbn_of m.ftl.P lpn = lbn_of m.ftl.P event.logical_address ∧
        pmd_index_of m.ftl.P m.ftl.Q lpn = pmd_index_of m.ftl.P m.ftl.Q event.logical_address ∧
        map_slot_of m.ftl.P m.ftl.Q lpn = map_slot_of m.ftl.P m.ftl.Q event.logical_address) := by
      intro hc
      exact hne (decomp_inj m.ftl.P m.ftl.Q h.P_pos h.P_uint _ _ hl hb
        hc.1 hc.2.1 hc.2.2).symm
    have hi := pmd_index_lt m.ftl h lpn
    have hs := map_slot_lt m.ftl h lpn
    refine ⟨o.m, by simp [step, hw], w1, w5, w6, w7, ?_, ?_, ?_, ?_, ?_⟩
    · intro v hv
      rw [w2, if_neg hnt]
      split
      · rename_i hc
        exfalso
        unfold PMT_get at hv
        rw [hc.1, hc.2] at hv
        exact absurd hv (by simp)
      · exact hv
    · intro hn
      by_cases hL : lbn_of m.ftl.P lpn = lbn_of m.ftl.P event.logical_address
      · right
        rw [w2, if_neg hnt]
        have hT : m.ftl.PMT (lbn_of m.ftl.P event.logical_address) = none := by
          rw [← hL]; exact (h.keys _).1 hn
        rw [if_pos ⟨hL, hT⟩, if_pos ⟨hi, hs⟩]
      · left
        rw [w8]; exact ⟨hL, hn⟩
    · intro hn hc
      rw [w8] at hc
      exact hn hc.2
    · intro a ha hane hpg
      rw [w3]
      split
      · exact ⟨_, rfl, hpg⟩
      · split
        · rename_i hc
          exfalso
          unfold PMD_get at ha
          rw [hc.1, hc.2] at ha
          exact absurd ha (by simp)
        · exact ⟨a, ha, hane⟩
    · intro k hk hnk
      rw [w4, if_neg (Ne.symm hnk)]
      split
      · rfl
      · exact hk
  | trim event dev =>
    obtain ⟨hne, hb⟩ := ho
    obtain ⟨o, ht, w1, w2, w3⟩ := trim_view cfg m event dev h _ _ _ rfl rfl rfl
    have hnt : ¬ (lbn_of m.ftl.P lpn = lbn_of m.ftl.P event.logical_address ∧
        pmd_index_of m.ftl.P m.ftl.Q lpn = pmd_index_of m.ftl.P m.ftl.Q event.logical_address ∧
        map_slot_of m.ftl.P m.ftl.Q lpn = map_slot_of m.ftl.P m.ftl.Q event.logical_address) := by
      intro hc
      exact hne (decomp_inj m.ftl.P m.ftl.Q h.P_pos h.P_uint _ _ hl hb
        hc.1 hc.2.1 hc.2.2).symm
    have key : o.m.ftl = m.ftl ∨ ∃ old, o.m.ftl =
        PMT_set (rmap_erase m.ftl (toUlong old)) (lbn_of m.ftl.P event.logical_address)
          (pmd_index_of m.ftl.P m.ftl.Q event.logical_address)
          (map_slot_of m.ftl.P m.ftl.Q event.logical_address) (-1) := by
      by_cases hD : m.ftl.PMD (lbn_of m.ftl.P event.logical_address) = none
      · left; exact (w2 hD).1
      · obtain ⟨old, _, hf, _⟩ := w3 hD
        by_cases hone : old ≠ -1
        · right; rw [if_pos hone] at hf; exact ⟨old, hf⟩
        · left; rw [if_neg hone] at hf; exact hf
    rcases key with hf | ⟨old, hf⟩
    · refine ⟨o.m, by simp [step, ht], w1, by rw [hf], by rw [hf], by rw [hf], ?_, ?_, ?_, ?_,
        ?_⟩
      · intro v hv; rw [hf]; exact hv
      · intro hn; left; rw [hf]; exact hn
      · intro hn; rw [hf]; exact hn
      · intro a ha hane _; exact ⟨a, by rw [hf]; exact ha, hane⟩
      · intro k hk _; rw [hf]; exact hk
    · refine ⟨o.m, by simp [step, ht], w1, by rw [hf]; rfl, by rw [hf]; rfl, by rw [hf]; rfl,
        ?_, ?_, ?_, ?_, ?_⟩
      · intro v hv
        rw [hf, PMT_get_PMT_set, if_neg hnt]; exact hv
      · intro hn; left
        rw [hf]; exact hn
      · intro hn
        rw [hf]; exact hn
      · intro a ha hane _
        exact ⟨a, by rw [hf]; exact ha, hane⟩
      · intro k hk _
        rw [hf]
        show (if k = toUlong old then none else m.ftl.rmap k) = none
        split
        · rfl
        · exact hk

theorem other_run_frame (cfg : Config) (lpn P Q : Nat) (hl : lpn / P < 4294967296) :
    ∀ (ops : List Op) (m : Machine), WF m.ftl → m.ftl.P = P → m.ftl.Q = Q →
      (∀ op, op ∈ ops → otherLpn P lpn op) →
      ∃ m1, run cfg m ops = some m1 ∧ WF m1.ftl ∧ m1.ftl.P = P ∧ m1.ftl.Q = Q ∧
        (∀ v, PMT_get m.ftl (lbn_of P lpn) (pmd_index_of P Q lpn) (map_slot_of P Q lpn) = some v →
          PMT_get m1.ftl (lbn_of P lpn) (pmd_index_of P Q lpn) (map_slot_of P Q lpn) = some v) ∧
        ((m.ftl.PMD (lbn_of P lpn) = none ∨
            PMT_get m.ftl (lbn_of P lpn) (pmd_index_of P Q lpn) (map_slot_of P Q lpn) =
              some (-1)) →
          (m1.ftl.PMD (lbn_of P lpn) = none ∨
            PMT_get m1.ftl (lbn_of P lpn) (pmd_index_of P Q lpn) (map_slot_of P Q lpn) =
              some (-1))) ∧
        (m.ftl.PMD (lbn_of P lpn) ≠ none → m1.ftl.PMD (lbn_of P lpn) ≠ none) ∧
        ((∃ a, PMD_get m.ftl (lbn_of P lpn) (pmd_index_of P Q lpn) = some a ∧ a ≠ -1) →
          (∀ op, op ∈ ops → writeAlloc isPage op) →
          ∃ a1, PMD_get m1.ftl (lbn_of P lpn) (pmd_index_of P Q lpn) = some a1 ∧ a1 ≠ -1) ∧
        (∀ k, m.ftl.rmap k = none → (∀ op, op ∈ ops → writeAlloc (fun n => n ≠ k) op) →
          m1.ftl.rmap k = none)
  | [], m, h, hP, hQ, _ =>
    ⟨m, rfl, h, hP, hQ, fun _ hv => hv, fun hx => hx, fun hx => hx, fun hx _ => hx,
      fun _ hk _ => hk⟩
  | op :: ops, m, h, hP, hQ, ho => by
    subst hP hQ
    obtain ⟨m1, hs, w1, w2, w3, _, f1, f2, f3, f4, f5⟩ :=
      other_step_frame cfg m h lpn hl op (ho op (List.mem_cons_self _ _))
    obtain ⟨m2, hr, x1, x2, x3, g1, g2, g3, g4, g5⟩ :=
      other_run_frame cfg lpn m.ftl.P m.ftl.Q hl ops m1 w1 w2 w3
        (fun op1 h1 => ho op1 (List.mem_cons_of_mem _ h1))
    refine ⟨m2, ?_, x1, x2, x3, ?_, ?_, ?_, ?_, ?_⟩
    · show (match step cfg m op with
        | none => none
        | some m1 => run cfg m1 ops) = some m2
      rw [hs]; exact hr
    · intro v hv; exact g1 v (f1 v hv)
    · intro hx
      rcases hx with hx | hx
      · exact g2 (f2 hx)
      · exact g2 (Or.inr (f1 _ hx))
    · intro hx; exact g3 (f3 hx)
    · intro hx hall
      obtain ⟨a, ha, hane⟩ := hx
      exact g4 (f4 a ha hane (hall op (List.mem_cons_self _ _)))
        (fun op1 h1 => hall op1 (List.mem_cons_of_mem _ h1))
    · intro k hk hall
      exact g5 k (f5 k hk (hall op (List.mem_cons_self _ _)))
        (fun op1 h1 => hall op1 (List.mem_cons_of_mem _ h1))

theorem cfg64_ok : cfg64.ok := by
  unfold Config.ok cfg64
  decide

theorem new_cfg64 : Machine.new cfg64 = some m64 := rfl

theorem Inv_m64 : Inv m64.ftl := by
  obtain ⟨m0, h0, hI, _⟩ := Inv_new cfg64 cfg64_ok
  rw [new_cfg64] at h0
  simp only [Option.some.injEq] at h0
  rw [h0]; exact hI

theorem WF_m64 : WF m64.ftl := Inv_m64.wf

/-- C1. Write-then-read round trip in the rmap-based engine: in every well-formed engine
state (so `P ≥ 1`, `Q ≥ 1`), for every LPN with `LPN / P < 2^32`, if `write(LPN)` allocates
the physical page `new_ppn` (a page number, not the bit pattern of the sentinel), then after
any interleaving of reads and of writes and trims addressed to other LPNs (with
`LPN / P < 2^32`, the writes allocating page numbers) and no `cleanup_block`, `read(LPN)`
is defined, does not mark the event noop and sets its address to `Address(new_ppn, PAGE)`. -/
theorem C1_write_then_read (cfg : Config) (m : Machine) (hWF : WF m.ftl) (event : Event)
    (fb : BlockResp) (newAddr : Address) (dev : IssueResp)
    (hlpn : event.logical_address / m.ftl.P < 4294967296)
    (hpage : isPage newAddr.get_linear_address) (ops : List Op)
    (hother : ∀ op, op ∈ ops → otherLpn m.ftl.P event.logical_address op)
    (hpages : ∀ op, op ∈ ops → writeAlloc isPage op)
    (revent : Event) (hr : revent.logical_address = event.logical_address) (rdev : IssueResp) :
    ∃ o1 m2 o3, write cfg m event fb newAddr dev = some o1 ∧ run cfg o1.m ops = some m2 ∧
      read cfg m2 revent rdev = some o3 ∧ o3.event.noop = revent.noop ∧
      o3.event.address =
        cfg.mkAddress (newAddr.get_linear_address % 4294967296) address_valid.PAGE := by
  obtain ⟨o1, hw, w1, w2, w3, w4, w5, w6, w7, _⟩ :=
    write_view cfg m event fb newAddr dev hWF _ _ _ _ _ _ rfl rfl rfl rfl rfl rfl
  have hslot := w2 (lbn_of m.ftl.P event.logical_address)
    (pmd_index_of m.ftl.P m.ftl.Q event.logical_address)
    (map_slot_of m.ftl.P m.ftl.Q event.logical_address)
  rw [if_pos ⟨rfl, rfl, rfl⟩] at hslot
  have hanch := w3 (lbn_of m.ftl.P event.logical_address)
    (pmd_index_of m.ftl.P m.ftl.Q event.logical_address)
  rw [if_pos ⟨rfl, rfl⟩] at hanch
  obtain ⟨m2, hrun, x1, x2, x3, g1, _, _, g4, _⟩ :=
    other_run_frame cfg event.logical_address m.ftl.P m.ftl.Q hlpn ops o1.m w1 w5 w6 hother
  have hslot2 := g1 _ hslot
  obtain ⟨a1, ha1, hane⟩ := g4 ⟨_, hanch, hpage⟩ hpages
  obtain ⟨o3, e, hrd, _, _, hev, _, _, r2, _⟩ :=
    read_view cfg m2 revent rdev x1 _ _ _ rfl rfl rfl
  rw [x2, x3, hr] at r2
  have hDn : m2.ftl.PMD (lbn_of m.ftl.P event.logical_address) ≠ none := by
    intro hc
    unfold PMD_get at ha1
    rw [hc] at ha1
    exact absurd ha1 (by simp)
  have hncond : ¬ (m2.ftl.PMD (lbn_of m.ftl.P event.logical_address) = none ∨
      PMD_get m2.ftl (lbn_of m.ftl.P event.logical_address)
        (pmd_index_of m.ftl.P m.ftl.Q event.logical_address) = some (-1) ∨
      PMT_get m2.ftl (lbn_of m.ftl.P event.logical_address)
        (pmd_index_of m.ftl.P m.ftl.Q event.logical_address)
        (map_slot_of m.ftl.P m.ftl.Q event.logical_address) = some (-1)) := by
    intro hc
    rcases hc with hc | hc | hc
    · exact hDn hc
    · rw [ha1] at hc
      simp only [Option.some.injEq] at hc
      exact hane hc
    · rw [hslot2] at hc
      simp only [Option.some.injEq] at hc
      exact hpage hc
  obtain ⟨ppn, hp, hn, haddr⟩ := r2 hncond
  rw [hslot2] at hp
  simp only [Option.some.injEq] at hp
  subst hp
  refine ⟨o1, m2, o3, hw, hrun, hrd, ?_, ?_⟩
  · rw [hev]; exact hn
  · rw [hev]
    show e.address = _
    rw [haddr, toUint_toLong]

/-- Witness of C1: `write(LPN=0)` then `read(LPN=0)` with `P = 64`, `Q = 8`. -/
theorem C1_write_then_read_witness :
    ∃ o1 m2 o3, write cfg64 m64 (ev64 event_type.WRITE 0 0) (fb64 0) (pg64 0) (ok64 1) = some o1 ∧
      run cfg64 o1.m [] = some m2 ∧
      read cfg64 m2 (ev64 event_type.READ 0 100) (ok64 1) = some o3 ∧
      o3.event.noop = (ev64 event_type.READ 0 100).noop ∧
      o3.event.address =
        cfg64.mkAddress ((pg64 0).get_linear_address % 4294967296) address_valid.PAGE :=
  C1_write_then_read cfg64 m64 WF_m64 (ev64 event_type.WRITE 0 0) (fb64 0) (pg64 0) (ok64 1)
    (by decide) (by unfold isPage; decide) [] (by intro op h; cases h) (by intro op h; cases h)
    (ev64 event_type.READ 0 100) rfl (ok64 1)

theorem WF_cleanup_pages (cfg : Config) (physical_address : Int) (get_state : Nat → page_state)
    (resp : Nat → CopyResp) (c : Outcome Unit) (h : WF c.m.ftl) :
    ∀ n, ∃ c1, cleanup_pages cfg physical_address get_state resp c n = some c1 ∧
      WF c1.m.ftl ∧ c1.m.ftl.P = c.m.ftl.P ∧ c1.m.ftl.Q = c.m.ftl.Q ∧
      c1.m.ftl.num_pmd = c.m.ftl.num_pmd
  | 0 => ⟨c, rfl, h, rfl, rfl, rfl⟩
  | n + 1 => by
    obtain ⟨c1, hc1, hW, p1, p2, p3⟩ :=
      WF_cleanup_pages cfg physical_address get_state resp c h n
    obtain ⟨c2, hc2, hW2, q1, q2, q3, _⟩ :=
      cleanup_page_view cfg physical_address n (get_state n) (resp n) c1 hW
    refine ⟨c2, ?_, hW2, by rw [q1, p1], by rw [q2, p2], by rw [q3, p3]⟩
    show (match cleanup_pages cfg physical_address get_state resp c n with
      | none => none
      | some c1 => cleanup_page cfg physical_address n (get_state n) (resp n) c1) = some c2
    rw [hc1]; exact hc2

/-- The result of `cleanup_block` in terms of the loop over the pages. -/
theorem cleanup_block_eq (cfg : Config) (m : Machine) (event : Event) (physical_address : Int)
    (get_state : Nat → page_state) (resp : Nat → CopyResp) (hB : 0 < cfg.BLOCK_SIZE)
    (c : Outcome Unit)
    (hc : cleanup_pages cfg physical_address get_state resp
      { m := m, event := event.incr_time_taken ((m.ftl.num_pmd : ℚ) * cfg.OOB_READ_DELAY),
        ret := () } cfg.BLOCK_SIZE = some c) :
    ∃ o, cleanup_block cfg m event physical_address get_state resp = some o ∧
      o.m.ftl.PMD = c.m.ftl.PMD ∧ o.m.ftl.PMT = c.m.ftl.PMT ∧ o.m.ftl.rmap = c.m.ftl.rmap ∧
      o.m.ftl.P = c.m.ftl.P ∧ o.m.ftl.Q = c.m.ftl.Q ∧ o.m.ftl.num_pmd = c.m.ftl.num_pmd ∧
      o.event = c.event ∧
      o.m.ftl.current_blocks =
        c.m.ftl.current_blocks.erase (Int.tdiv physical_address (cfg.BLOCK_SIZE : Int)) := by
  unfold cleanup_block
  simp only [hc]
  have hB0 : cfg.BLOCK_SIZE ≠ 0 := by omega
  simp only [hB0, if_false]
  exact ⟨_, rfl, rfl, rfl, rfl, rfl, rfl, rfl, rfl, rfl⟩

theorem WF_step (cfg : Config) (hB : 0 < cfg.BLOCK_SIZE) (m : Machine) (h : WF m.ftl)
    (op : Op) : ∃ m1, step cfg m op = some m1 ∧ WF m1.ftl := by
  cases op with
  | read event dev =>
    obtain ⟨o, ho, hf⟩ := Inv_read cfg m event dev h
    exact ⟨o.m, by simp [step, ho], by rw [hf]; exact h⟩
  | write event fb newAddr dev =>
    obtain ⟨o, ho, hW, _⟩ :=
      write_view cfg m event fb newAddr dev h _ _ _ _ _ _ rfl rfl rfl rfl rfl rfl
    exact ⟨o.m, by simp [step, ho], hW⟩
  | trim event dev =>
    obtain ⟨o, ho, hW, _⟩ := trim_view cfg m event dev h _ _ _ rfl rfl rfl
    exact ⟨o.m, by simp [step, ho], hW⟩
  | cleanup_block event physical_address get_state resp =>
    obtain ⟨c, hc, hW, _⟩ := WF_cleanup_pages cfg physical_address get_state resp
      { m := m, event := event.incr_time_taken ((m.ftl.num_pmd : ℚ) * cfg.OOB_READ_DELAY),
        ret := () } h cfg.BLOCK_SIZE
    obtain ⟨o, ho, e1, e2, e3, e4, e5, e6, _⟩ :=
      cleanup_block_eq cfg m event physical_address get_state resp hB c hc
    exact ⟨o.m, by simp [step, ho], WF_of_fields c.m.ftl o.m.ftl hW e4 e5 e6 e1 e2 e3⟩

theorem WF_run (cfg : Config) (hB : 0 < cfg.BLOCK_SIZE) :
    ∀ (ops : List Op) (m : Machine), WF m.ftl → ∃ m1, run cfg m ops = some m1 ∧ WF m1.ftl
  | [], m, h => ⟨m, rfl, h⟩
  | op :: ops, m, h => by
    obtain ⟨m1, hm1, hW⟩ := WF_step cfg hB m h op
    obtain ⟨m2, hm2, hW2⟩ := WF_run cfg hB ops m1 hW
    refine ⟨m2, ?_, hW2⟩
    show (match step cfg m op with
      | none => none
      | some m1 => run cfg m1 ops) = some m2
    rw [hm1]; exact hm2

theorem WF_after (cfg : Config) (hB : 0 < cfg.BLOCK_SIZE) (m : Machine) (h : WF m.ftl)
    (ops : List Op) : WF (Machine.after cfg m ops).ftl := by
  obtain ⟨m1, hm1, hW⟩ := WF_run cfg hB ops m h
  unfold Machine.after
  rw [hm1]; exact hW

/-- C6. `read` in the rmap-based engine, in a well-formed state: the event is issued to the
Device exactly once (the trace grows by the single action `issue e`, and the Device only adds
latency to it); it is marked noop with the sentinel address `Address(0, PAGE)` when `PMD[LBN]`
is absent, or `PMD[LBN][PMD_INDEX] = UNMAPPED`, or `PMT[LBN][PMD_INDEX][MAP_SLOT] = UNMAPPED`;
in every other case the noop flag is left as it was and the address is
`Address(PMT[LBN][PMD_INDEX][MAP_SLOT], PAGE)`.  For an event that arrives not marked noop
this is an equivalence. -/
theorem C6_read_noop_iff (cfg : Config) (m : Machine) (event : Event) (dev : IssueResp)
    (hWF : WF m.ftl) :
    ∃ o e, read cfg m event dev = some o ∧
      o.m.trace = m.trace ++ [Action.issue e] ∧
      o.event.noop = e.noop ∧ o.event.address = e.address ∧
      ((m.ftl.PMD (lbn_of m.ftl.P event.logical_address) = none ∨
          PMD_get m.ftl (lbn_of m.ftl.P event.logical_address)
            (pmd_index_of m.ftl.P m.ftl.Q event.logical_address) = some UNMAPPED ∨
          PMT_get m.ftl (lbn_of m.ftl.P event.logical_address)
            (pmd_index_of m.ftl.P m.ftl.Q event.logical_address)
            (map_slot_of m.ftl.P m.ftl.Q event.logical_address) = some UNMAPPED) →
        o.event.noop = true ∧ o.event.address = cfg.mkAddress 0 address_valid.PAGE) ∧
      (¬ (m.ftl.PMD (lbn_of m.ftl.P event.logical_address) = none ∨
          PMD_get m.ftl (lbn_of m.ftl.P event.logical_address)
            (pmd_index_of m.ftl.P m.ftl.Q event.logical_address) = some UNMAPPED ∨
          PMT_get m.ftl (lbn_of m.ftl.P event.logical_address)
            (pmd_index_of m.ftl.P m.ftl.Q event.logical_address)
            (map_slot_of m.ftl.P m.ftl.Q event.logical_address) = some UNMAPPED) →
        o.event.noop = event.noop ∧
        ∃ ppn, PMT_get m.ftl (lbn_of m.ftl.P event.logical_address)
            (pmd_index_of m.ftl.P m.ftl.Q event.logical_address)
            (map_slot_of m.ftl.P m.ftl.Q event.logical_address) = some ppn ∧
          o.event.address = cfg.mkAddress (toUint ppn) address_valid.PAGE) ∧
      (event.noop = false →
        ((o.event.noop = true ∧ o.event.address = cfg.mkAddress 0 address_valid.PAGE) ↔
          (m.ftl.PMD (lbn_of m.ftl.P event.logical_address) = none ∨
            PMD_get m.ftl (lbn_of m.ftl.P event.logical_address)
              (pmd_index_of m.ftl.P m.ftl.Q event.logical_address) = some UNMAPPED ∨
            PMT_get m.ftl (lbn_of m.ftl.P event.logical_address)
              (pmd_index_of m.ftl.P m.ftl.Q event.logical_address)
              (map_slot_of m.ftl.P m.ftl.Q event.logical_address) = some UNMAPPED))) := by
  obtain ⟨o, e, hrd, _, htr, hev, _, r1, r2, _⟩ :=
    read_view cfg m event dev hWF _ _ _ rfl rfl rfl
  have hn : o.event.noop = e.noop := by rw [hev]; rfl
  have ha : o.event.address = e.address := by rw [hev]; rfl
  refine ⟨o, e, hrd, htr, hn, ha, ?_, ?_, ?_⟩
  · intro hc
    rw [hn, ha]; exact r1 hc
  · intro hc
    obtain ⟨ppn, hp, h1, h2⟩ := r2 hc
    rw [hn, ha]
    exact ⟨h1, ppn, hp, h2⟩
  · intro hf
    constructor
    · intro hx
      by_contra hc
      obtain ⟨ppn, _, h1, _⟩ := r2 hc
      rw [hn, h1, hf] at hx
      exact absurd hx.1 (by simp)
    · intro hc
      rw [hn, ha]; exact r1 hc

/-- Witness of C6: the unmapped read `read(LPN=1000)` on the fresh engine, `P = 64`, `Q = 8`. -/
theorem C6_read_noop_iff_witness :
    ∃ o e, read cfg64 m64 (ev64 event_type.READ 1000 0) (ok64 1) = some o ∧
      o.m.trace = m64.trace ++ [Action.issue e] ∧ o.event.noop = true ∧
      o.event.address = cfg64.mkAddress 0 address_valid.PAGE := by
  obtain ⟨o, e, h1, h2, _, _, h5, _⟩ :=
    C6_read_noop_iff cfg64 m64 (ev64 event_type.READ 1000 0) (ok64 1) WF_m64
  exact ⟨o, e, h1, h2, h5 (Or.inl rfl)⟩

/-- C7. Postcondition of `write` in the rmap-based engine: in every well-formed state and for
every LPN with decomposition `(LBN, PMD_INDEX, MAP_SLOT)`, when the allocator returns
`new_ppn` the write is defined and afterwards `PMT[LBN][PMD_INDEX][MAP_SLOT] = (long)new_ppn`,
`PMD[LBN][PMD_INDEX] = (long)new_ppn`, `rmap[new_ppn] = (LBN, PMD_INDEX, MAP_SLOT)` and the
address of the event is the allocated page; `(long)new_ppn` is `new_ppn` itself below
`2^63`. -/
theorem C7_write_post (cfg : Config) (m : Machine) (event : Event) (fb : BlockResp)
    (newAddr : Address) (dev : IssueResp) (hWF : WF m.ftl) :
    ∃ o, write cfg m event fb newAddr dev = some o ∧
      PMT_get o.m.ftl (lbn_of m.ftl.P event.logical_address)
        (pmd_index_of m.ftl.P m.ftl.Q event.logical_address)
        (map_slot_of m.ftl.P m.ftl.Q event.logical_address) =
          some (toLong newAddr.get_linear_address) ∧
      PMD_get o.m.ftl (lbn_of m.ftl.P event.logical_address)
        (pmd_index_of m.ftl.P m.ftl.Q event.logical_address) =
          some (toLong newAddr.get_linear_address) ∧
      o.m.ftl.rmap newAddr.get_linear_address =
        some ⟨lbn_of m.ftl.P event.logical_address,
          pmd_index_of m.ftl.P m.ftl.Q event.logical_address,
          map_slot_of m.ftl.P m.ftl.Q event.logical_address⟩ ∧
      o.event.address = newAddr ∧
      (newAddr.get_linear_address < 9223372036854775808 →
        toLong newAddr.get_linear_address = (newAddr.get_linear_address : Int)) := by
  obtain ⟨o, hw, _, w2, w3, w4, _, _, _, _, _, w9, _⟩ :=
    write_view cfg m event fb newAddr dev hWF _ _ _ _ _ _ rfl rfl rfl rfl rfl rfl
  refine ⟨o, hw, ?_, ?_, ?_, w9, ?_⟩
  · rw [w2, if_pos ⟨rfl, rfl, rfl⟩]
  · rw [w3, if_pos ⟨rfl, rfl⟩]
  · rw [w4, if_pos rfl]
  · intro hlt
    have := get_linear_address_lt newAddr
    unfold toLong
    rw [Nat.mod_eq_of_lt this, if_pos hlt]

/-- Witness of C7: `write(LPN=0)` on the fresh engine with `P = 64`, `Q = 8`; afterwards
`PMD[0][0]` is the allocated page 0, not the sentinel. -/
theorem C7_write_post_witness :
    ∃ o, write cfg64 m64 (ev64 event_type.WRITE 0 0) (fb64 0) (pg64 0) (ok64 1) = some o ∧
      PMD_get o.m.ftl 0 0 = some 0 ∧ PMT_get o.m.ftl 0 0 0 = some 0 ∧
      o.event.address = pg64 0 := by
  obtain ⟨o, h1, h2, h3, _, h5, _⟩ :=
    C7_write_post cfg64 m64 (ev64 event_type.WRITE 0 0) (fb64 0) (pg64 0) (ok64 1) WF_m64
  exact ⟨o, h1, h3, h2, h5⟩

/-- The state of the scenarios after a first `write` of page `lpn < 64` to the fresh engine
`m64`, the allocator answering page number `n`. -/
theorem after_first_write (lpn n : Nat) (t d : ℚ) (hl : lpn < 64) (hn : n < 4294967296) :
    WF (Machine.after cfg64 m64
      [Op.write (ev64 event_type.WRITE lpn t) (fb64 0) (pg64 n) (ok64 d)]).ftl ∧
    (Machine.after cfg64 m64
      [Op.write (ev64 event_type.WRITE lpn t) (fb64 0) (pg64 n) (ok64 d)]).ftl.P = 64 ∧
    (Machine.after cfg64 m64
      [Op.write (ev64 event_type.WRITE lpn t) (fb64 0) (pg64 n) (ok64 d)]).ftl.Q = 8 ∧
    PMT_get (Machine.after cfg64 m64
      [Op.write (ev64 event_type.WRITE lpn t) (fb64 0) (pg64 n) (ok64 d)]).ftl 0 (lpn / 8)
        (lpn % 8) = some (n : Int) ∧
    PMD_get (Machine.after cfg64 m64
      [Op.write (ev64 event_type.WRITE lpn t) (fb64 0) (pg64 n) (ok64 d)]).ftl 0 (lpn / 8) =
        some (n : Int) ∧
    (Machine.after cfg64 m64
      [Op.write (ev64 event_type.WRITE lpn t) (fb64 0) (pg64 n) (ok64 d)]).ftl.rmap n =
        some ⟨0, lpn / 8, lpn % 8⟩ := by
  obtain ⟨o, hw, w1, w2, w3, w4, w5, w6, _⟩ :=
    write_view cfg64 m64 (ev64 event_type.WRITE lpn t) (fb64 0) (pg64 n) (ok64 d) WF_m64
      _ _ _ _ _ _ rfl rfl rfl rfl rfl rfl
  have hafter : Machine.after cfg64 m64
      [Op.write (ev64 event_type.WRITE lpn t) (fb64 0) (pg64 n) (ok64 d)] = o.m := by
    have hs : step cfg64 m64
        (Op.write (ev64 event_type.WRITE lpn t) (fb64 0) (pg64 n) (ok64 d)) = some o.m := by
      show Option.map (fun o => o.m) (write cfg64 m64 _ _ _ _) = some o.m
      rw [hw]; rfl
    show (match step cfg64 m64
        (Op.write (ev64 event_type.WRITE lpn t) (fb64 0) (pg64 n) (ok64 d)) with
      | none => none
      | some m1 => run cfg64 m1 []).getD m64 = o.m
    rw [hs]; rfl
  have e1 : lbn_of m64.ftl.P (ev64 event_type.WRITE lpn t).logical_address = 0 := by
    show lpn / 64 % 4294967296 = 0
    omega
  have e2 : pmd_index_of m64.ftl.P m64.ftl.Q (ev64 event_type.WRITE lpn t).logical_address =
      lpn / 8 := by
    show lpn % 64 % 4294967296 / 8 = lpn / 8
    omega
  have e3 : map_slot_of m64.ftl.P m64.ftl.Q (ev64 event_type.WRITE lpn t).logical_address =
      lpn % 8 := by
    show lpn % 64 % 4294967296 % 8 = lpn % 8
    omega
  have e4 : (pg64 n).get_linear_address = n := by
    show n % 18446744073709551616 = n
    omega
  have e5 : toLong n = (n : Int) := by
    unfold toLong; split <;> omega
  rw [e1, e2, e3, e4, e5] at w2
  rw [e1, e2, e4, e5] at w3
  rw [e1, e2, e3, e4] at w4
  rw [hafter]
  refine ⟨w1, w5, w6, ?_, ?_, ?_⟩
  · rw [w2, if_pos ⟨rfl, rfl, rfl⟩]
  · rw [w3, if_pos ⟨rfl, rfl⟩]
  · rw [w4, if_pos rfl]

/-- C8. Overwrite in the rmap-based engine, in a well-formed state: when `write(LPN)` finds
the slot mapped to `old_ppn != UNMAPPED`, the `replace_address` of the event is set to
`Address((ulong)old_ppn, PAGE)` and, when the allocated page differs from `old_ppn`, `rmap`
no longer contains `old_ppn` after the write; when the slot was unmapped (no row yet, or the
sentinel), `replace_address` is left as it was and no `rmap` entry is removed: every key
other than the new page keeps its value. -/
theorem C8_overwrite (cfg : Config) (m : Machine) (event : Event) (fb : BlockResp)
    (newAddr : Address) (dev : IssueResp) (hWF : WF m.ftl) :
    ∃ o, write cfg m event fb newAddr dev = some o ∧
      (∀ old, PMT_get m.ftl (lbn_of m.ftl.P event.logical_address)
          (pmd_index_of m.ftl.P m.ftl.Q event.logical_address)
          (map_slot_of m.ftl.P m.ftl.Q event.logical_address) = some old → old ≠ UNMAPPED →
        o.event.replace_address =
          cfg.mkAddress (toUlong old % 4294967296) address_valid.PAGE ∧
        (newAddr.get_linear_address ≠ toUlong old → o.m.ftl.rmap (toUlong old) = none)) ∧
      ((PMT_get m.ftl (lbn_of m.ftl.P event.logical_address)
          (pmd_index_of m.ftl.P m.ftl.Q event.logical_address)
          (map_slot_of m.ftl.P m.ftl.Q event.logical_address) = none ∨
        PMT_get m.ftl (lbn_of m.ftl.P event.logical_address)
          (pmd_index_of m.ftl.P m.ftl.Q event.logical_address)
          (map_slot_of m.ftl.P m.ftl.Q event.logical_address) = some UNMAPPED) →
        o.event.replace_address = event.replace_address ∧
        ∀ k, k ≠ newAddr.get_linear_address → o.m.ftl.rmap k = m.ftl.rmap k) := by
  obtain ⟨o, hw, _, _, _, w4, _, _, _, _, _, _, w10, _⟩ :=
    write_view cfg m event fb newAddr dev hWF _ _ _ _ _ _ rfl rfl rfl rfl rfl rfl
  refine ⟨o, hw, ?_, ?_⟩
  · intro old hold hne
    rw [hold] at w4 w10
    simp only [Option.getD_some] at w4 w10
    have hne1 : old ≠ -1 := hne
    constructor
    · rw [w10, if_pos hne1]
    · intro hk
      rw [w4, if_neg (Ne.symm hk), if_pos ⟨hne1, rfl⟩]
  · intro hc
    have hold : (PMT_get m.ftl (lbn_of m.ftl.P event.logical_address)
        (pmd_index_of m.ftl.P m.ftl.Q event.logical_address)
        (map_slot_of m.ftl.P m.ftl.Q event.logical_address)).getD (-1) = -1 := by
      rcases hc with hc | hc
      · rw [hc]; rfl
      · rw [hc]; rfl
    rw [hold] at w4 w10
    constructor
    · rw [w10, if_neg (by simp)]
    · intro k hk
      rw [w4, if_neg hk, if_neg (by simp)]

/-- Witness of C8: `write(LPN=5)` twice with `P = 64`, `Q = 8`, the allocator answering page 0
and then page 1: the second event replaces page 0, `rmap` no longer contains page 0 and
`PMT[0][0][5]` is page 1. -/
theorem C8_overwrite_witness :
    ∃ o, write cfg64
        (Machine.after cfg64 m64
          [Op.write (ev64 event_type.WRITE 5 0) (fb64 0) (pg64 0) (ok64 1)])
        (ev64 event_type.WRITE 5 10) (fb64 1) (pg64 1) (ok64 1) = some o ∧
      o.event.replace_address = pg64 0 ∧ o.m.ftl.rmap 0 = none ∧
      PMT_get o.m.ftl 0 0 5 = some 1 := by
  obtain ⟨a1, a2, a3, a4, _⟩ := after_first_write 5 0 0 1 (by decide) (by decide)
  obtain ⟨o, h1, h2, _⟩ := C8_overwrite cfg64
    (Machine.after cfg64 m64 [Op.write (ev64 event_type.WRITE 5 0) (fb64 0) (pg64 0) (ok64 1)])
    (ev64 event_type.WRITE 5 10) (fb64 1) (pg64 1) (ok64 1) a1
  obtain ⟨o2, g1, _, g2, _⟩ := write_view cfg64
    (Machine.after cfg64 m64 [Op.write (ev64 event_type.WRITE 5 0) (fb64 0) (pg64 0) (ok64 1)])
    (ev64 event_type.WRITE 5 10) (fb64 1) (pg64 1) (ok64 1) a1 _ _ _ _ _ _
    rfl rfl rfl rfl rfl rfl
  rw [h1] at g1
  simp only [Option.some.injEq] at g1
  subst g1
  rw [a2, a3] at h2 g2
  have h3 := h2 0 a4 (by decide)
  exact ⟨o, h1, h3.1, h3.2 (by decide), by rw [g2]; rfl⟩

/-- C10. Trim idempotence in the rmap-based engine: in every well-formed state and for every
LPN, a second `trim(LPN)` right after a first one is defined, leaves the whole engine state
(PMD, PMT, rmap, write frontier, BML, current_blocks) as the first trim left it, and returns
`SUCCESS` whenever the Device answers `SUCCESS` to the noop event. -/
theorem C10_trim_idempotent (cfg : Config) (m : Machine) (event1 : Event) (dev1 : IssueResp)
    (event2 : Event) (dev2 : IssueResp) (hWF : WF m.ftl)
    (hl : event2.logical_address = event1.logical_address) :
    ∃ o1 o2, trim cfg m event1 dev1 = some o1 ∧ trim cfg o1.m event2 dev2 = some o2 ∧
      o2.m.ftl = o1.m.ftl ∧ (dev2.ret = status.SUCCESS → o2.ret = status.SUCCESS) := by
  obtain ⟨o1, h1, w1, w2, w3⟩ := trim_view cfg m event1 dev1 hWF _ _ _ rfl rfl rfl
  obtain ⟨o2, h2, _, x2, x3⟩ := trim_view cfg o1.m event2 dev2 w1 _ _ _ rfl rfl rfl
  refine ⟨o1, o2, h1, h2, ?_⟩
  by_cases hD : m.ftl.PMD (lbn_of m.ftl.P event1.logical_address) = none
  · obtain ⟨hf, _⟩ := w2 hD
    have hD2 : o1.m.ftl.PMD (lbn_of o1.m.ftl.P event2.logical_address) = none := by
      rw [hf, hl]; exact hD
    obtain ⟨hf2, _, hr, _⟩ := x2 hD2
    exact ⟨hf2, fun _ => hr⟩
  · obtain ⟨old, hold, hf, _⟩ := w3 hD
    have hP : o1.m.ftl.P = m.ftl.P := by
      rw [hf]; split <;> rfl
    have hQ : o1.m.ftl.Q = m.ftl.Q := by
      rw [hf]; split <;> rfl
    have hD2 : o1.m.ftl.PMD (lbn_of o1.m.ftl.P event2.logical_address) ≠ none := by
      rw [hP, hl, hf]
      split
      · exact hD
      · exact hD
    obtain ⟨old2, hold2, hf2, _, hr, _⟩ := x3 hD2
    rw [hP, hQ, hl] at hold2
    have hold2' : old2 = -1 := by
      rw [hf] at hold2
      by_cases hone : old ≠ -1
      · rw [if_pos hone, PMT_get_PMT_set, if_pos ⟨rfl, rfl, rfl⟩] at hold2
        have : PMT_get (rmap_erase m.ftl (toUlong old)) (lbn_of m.ftl.P event1.logical_address)
            (pmd_index_of m.ftl.P m.ftl.Q event1.logical_address)
            (map_slot_of m.ftl.P m.ftl.Q event1.logical_address) = some old := hold
        rw [this] at hold2
        simp only [Option.map_some', Option.some.injEq] at hold2
        exact hold2.symm
      · rw [if_neg hone, hold] at hold2
        simp only [Option.some.injEq] at hold2
        rw [← hold2]
        by_contra hc; exact hone hc
    rw [hold2', if_neg (by simp)] at hf2
    exact ⟨hf2, fun hs => by rw [hr]; exact hs⟩

/-- Witness of C10: `write(7)`, `trim(7)`, `trim(7)` with `P = 64`, `Q = 8`. -/
theorem C10_trim_idempotent_witness :
    ∃ o1 o2, trim cfg64
        (Machine.after cfg64 m64
          [Op.write (ev64 event_type.WRITE 7 0) (fb64 0) (pg64 0) (ok64 1)])
        (ev64 event_type.TRIM 7 1) (ok64 1) = some o1 ∧
      trim cfg64 o1.m (ev64 event_type.TRIM 7 2) (ok64 1) = some o2 ∧
      o2.m.ftl = o1.m.ftl ∧ ((ok64 1).ret = status.SUCCESS → o2.ret = status.SUCCESS) :=
  C10_trim_idempotent cfg64
    (Machine.after cfg64 m64 [Op.write (ev64 event_type.WRITE 7 0) (fb64 0) (pg64 0) (ok64 1)])
    (ev64 event_type.TRIM 7 1) (ok64 1) (ev64 event_type.TRIM 7 2) (ok64 1)
    (after_first_write 7 0 0 1 (by decide) (by decide)).1 rfl

theorem I2_at_write (cfg : Config) (m : Machine) (event : Event) (fb : BlockResp)
    (newAddr : Address) (dev : IssueResp) (h : WF m.ftl) (L i : Nat) (hI : I2_at m.ftl L i) :
    ∃ o, write cfg m event fb newAddr dev = some o ∧ I2_at o.m.ftl L i := by
  obtain ⟨o, hw, _, w2, w3, _⟩ :=
    write_view cfg m event fb newAddr dev h _ _ _ _ _ _ rfl rfl rfl rfl rfl rfl
  refine ⟨o, hw, ?_⟩
  intro a ha hane
  rw [w3] at ha
  split at ha
  · rename_i hc
    simp only [Option.some.injEq] at ha
    refine ⟨map_slot_of m.ftl.P m.ftl.Q event.logical_address, ?_⟩
    rw [w2, if_pos ⟨hc.1, hc.2, rfl⟩, ha]
  · rename_i hc
    split at ha
    · split at ha
      · simp only [Option.some.injEq] at ha
        exact absurd ha.symm hane
      · exact absurd ha (by simp)
    · rename_i hc2
      obtain ⟨s, hs⟩ := hI a ha hane
      refine ⟨s, ?_⟩
      rw [w2, if_neg (fun hx => hc ⟨hx.1, hx.2.1⟩)]
      split
      · rename_i hc3
        exfalso
        unfold PMT_get at hs
        rw [hc3.1, hc3.2] at hs
        exact absurd hs (by simp)
      · exact hs

theorem I2_at_trim (cfg : Config) (m : Machine) (event : Event) (dev : IssueResp)
    (h : WF m.ftl) (L i : Nat) (hI : I2_at m.ftl L i)
    (hne : ¬ (L = lbn_of m.ftl.P event.logical_address ∧
      i = pmd_index_of m.ftl.P m.ftl.Q event.logical_address)) :
    ∃ o, trim cfg m event dev = some o ∧ I2_at o.m.ftl L i := by
  obtain ⟨o, ht, _, w2, w3⟩ := trim_view cfg m event dev h _ _ _ rfl rfl rfl
  refine ⟨o, ht, ?_⟩
  by_cases hD : m.ftl.PMD (lbn_of m.ftl.P event.logical_address) = none
  · rw [(w2 hD).1]; exact hI
  · obtain ⟨old, _, hf, _⟩ := w3 hD
    rw [hf]
    split
    · intro a ha hane
      obtain ⟨s, hs⟩ := hI a ha hane
      refine ⟨s, ?_⟩
      rw [PMT_get_PMT_set, if_neg (fun hx => hne ⟨hx.1, hx.2.1⟩)]
      exact hs
    · exact hI

theorem I2_at_cleanup_page (cfg : Config) (physical_address : Int) (n : Nat) (st : page_state)
    (r : CopyResp) (c : Outcome Unit) (h : WF c.m.ftl) (L i : Nat) (hI : I2_at c.m.ftl L i) :
    ∃ c1, cleanup_page cfg physical_address n st r c = some c1 ∧ WF c1.m.ftl ∧
      I2_at c1.m.ftl L i := by
  obtain ⟨c1, hc1, w1, _, _, _, _, w6, w7⟩ :=
    cleanup_page_view cfg physical_address n st r c h
  refine ⟨c1, hc1, w1, ?_⟩
  by_cases hst : st = page_state.VALID
  · obtain ⟨x1, x2⟩ := w7 hst
    cases hr : c.m.ftl.rmap (toUlong (physical_address + (n : Int))) with
    | none =>
      obtain ⟨y1, y2, _⟩ := x1 hr
      intro a ha hane
      have ha2 : PMD_get c.m.ftl L i = some a := by
        unfold PMD_get at ha ⊢; rw [← y1]; exact ha
      obtain ⟨s, hs⟩ := hI a ha2 hane
      exact ⟨s, by unfold PMT_get at hs ⊢; rw [y2]; exact hs⟩
    | some e =>
      obtain ⟨y1, y2, _⟩ := x2 e hr
      intro a ha hane
      rw [y2] at ha
      split at ha
      · rename_i hc
        simp only [Option.some.injEq] at ha
        refine ⟨e.slot, ?_⟩
        rw [y1, if_pos ⟨hc.1, hc.2, rfl⟩, ha]
      · rename_i hc
        obtain ⟨s, hs⟩ := hI a ha hane
        refine ⟨s, ?_⟩
        rw [y1, if_neg (fun hx => hc ⟨hx.1, hx.2.1⟩)]
        exact hs
  · rw [w6 hst]; exact hI

theorem I2_at_cleanup_pages (cfg : Config) (physical_address : Int)
    (get_state : Nat → page_state) (resp : Nat → CopyResp) (c : Outcome Unit)
    (h : WF c.m.ftl) (L i : Nat) (hI : I2_at c.m.ftl L i) :
    ∀ n, ∃ c1, cleanup_pages cfg physical_address get_state resp c n = some c1 ∧
      WF c1.m.ftl ∧ I2_at c1.m.ftl L i
  | 0 => ⟨c, rfl, h, hI⟩
  | n + 1 => by
    obtain ⟨c1, hc1, hW, hI1⟩ :=
      I2_at_cleanup_pages cfg physical_address get_state resp c h L i hI n
    obtain ⟨c2, hc2, hW2, hI2⟩ :=
      I2_at_cleanup_page cfg physical_address n (get_state n) (resp n) c1 hW L i hI1
    refine ⟨c2, ?_, hW2, hI2⟩
    show (match cleanup_pages cfg physical_address get_state resp c n with
      | none => none
      | some c1 => cleanup_page cfg physical_address n (get_state n) (resp n) c1) = some c2
    rw [hc1]; exact hc2

theorem I2_at_of_fields (f g : FtlImpl_MNftl) (L i : Nat) (h : I2_at f L i)
    (hD : g.PMD = f.PMD) (hT : g.PMT = f.PMT) : I2_at g L i := by
  intro a ha hane
  have ha2 : PMD_get f L i = some a := by
    unfold PMD_get at ha ⊢; rw [← hD]; exact ha
  obtain ⟨s, hs⟩ := h a ha2 hane
  exact ⟨s, by unfold PMT_get at hs ⊢; rw [hT]; exact hs⟩

theorem step_first_write (lpn n : Nat) (t d : ℚ) :
    step cfg64 m64 (Op.write (ev64 event_type.WRITE lpn t) (fb64 0) (pg64 n) (ok64 d)) =
      some (Machine.after cfg64 m64
        [Op.write (ev64 event_type.WRITE lpn t) (fb64 0) (pg64 n) (ok64 d)]) := by
  obtain ⟨m1, hm1, _⟩ := WF_step cfg64 (by decide) m64 WF_m64
    (Op.write (ev64 event_type.WRITE lpn t) (fb64 0) (pg64 n) (ok64 d))
  have : Machine.after cfg64 m64
      [Op.write (ev64 event_type.WRITE lpn t) (fb64 0) (pg64 n) (ok64 d)] = m1 := by
    show (match step cfg64 m64
        (Op.write (ev64 event_type.WRITE lpn t) (fb64 0) (pg64 n) (ok64 d)) with
      | none => none
      | some m1 => run cfg64 m1 []).getD m64 = m1
    rw [hm1]; rfl
  rw [this]; exact hm1

/-- Every slot of the engine after a first write holds the written page or the sentinel. -/
theorem after_first_write_slots (lpn n : Nat) (t d : ℚ) (hl : lpn < 64)
    (hn : n < 4294967296) (L i s : Nat) (v : Int)
    (hv : PMT_get (Machine.after cfg64 m64
      [Op.write (ev64 event_type.WRITE lpn t) (fb64 0) (pg64 n) (ok64 d)]).ftl L i s = some v) :
    (L = 0 ∧ i = lpn / 8 ∧ s = lpn % 8 ∧ v = (n : Int)) ∨ v = -1 := by
  obtain ⟨o, hw, w1, w2, _⟩ :=
    write_view cfg64 m64 (ev64 event_type.WRITE lpn t) (fb64 0) (pg64 n) (ok64 d) WF_m64
      _ _ _ _ _ _ rfl rfl rfl rfl rfl rfl
  have hs := step_first_write lpn n t d
  have hs2 : step cfg64 m64
      (Op.write (ev64 event_type.WRITE lpn t) (fb64 0) (pg64 n) (ok64 d)) = some o.m := by
    show Option.map (fun o => o.m) (write cfg64 m64 _ _ _ _) = some o.m
    rw [hw]; rfl
  rw [hs2] at hs
  simp only [Option.some.injEq] at hs
  rw [← hs, w2] at hv
  have e1 : lbn_of m64.ftl.P (ev64 event_type.WRITE lpn t).logical_address = 0 := by
    show lpn / 64 % 4294967296 = 0
    omega
  have e2 : pmd_index_of m64.ftl.P m64.ftl.Q (ev64 event_type.WRITE lpn t).logical_address =
      lpn / 8 := by
    show lpn % 64 % 4294967296 / 8 = lpn / 8
    omega
  have e3 : map_slot_of m64.ftl.P m64.ftl.Q (ev64 event_type.WRITE lpn t).logical_address =
      lpn % 8 := by
    show lpn % 64 % 4294967296 % 8 = lpn % 8
    omega
  have e4 : (pg64 n).get_linear_address = n := by
    show n % 18446744073709551616 = n
    omega
  have e5 : toLong n = (n : Int) := by
    unfold toLong; split <;> omega
  rw [e1, e2, e3, e4, e5] at hv
  split at hv
  · rename_i hc
    simp only [Option.some.injEq] at hv
    left; exact ⟨hc.1, hc.2.1, hc.2.2, hv.symm⟩
  · split at hv
    · split at hv
      · simp only [Option.some.injEq] at hv
        right; exact hv.symm
      · exact absurd hv (by simp)
    · exfalso
      have : PMT_get m64.ftl L i s = none := rfl
      rw [this] at hv
      exact absurd hv (by simp)

/-- C2. Mapping / reverse-map consistency (I1, P1) is an invariant of the rmap-based engine:
for an accepted configuration the empty engine exists and, after every sequence of `read`,
`write`, `trim` and `cleanup_block` calls in which each newly allocated page is a page number
that no PMT slot currently holds, the sequence is defined and, for every page number `p`
other than the sentinel, `rmap[p] = (L, i, s)` if and only if `PMT[L][i][s] = p`. -/
theorem C2_rmap_consistency (cfg : Config) (hc : cfg.ok) (ops : List Op) :
    ∃ m0, Machine.new cfg = some m0 ∧
      (runFresh cfg m0 ops → ∃ m, run cfg m0 ops = some m ∧ I1 m.ftl) := by
  obtain ⟨m0, h0, hI, _⟩ := Inv_new cfg hc
  refine ⟨m0, h0, fun hf => ?_⟩
  obtain ⟨m, hm, hI2⟩ := Inv_run cfg hc.1 ops m0 hI hf
  exact ⟨m, hm, hI2.i1⟩

/-- Witness of C2: `write(LPN=5)` to page 0, then `trim(LPN=5)`, with `P = 64`, `Q = 8`. -/
theorem C2_rmap_consistency_witness :
    ∃ m, run cfg64 m64 [Op.write (ev64 event_type.WRITE 5 0) (fb64 0) (pg64 0) (ok64 1),
        Op.trim (ev64 event_type.TRIM 5 1) (ok64 1)] = some m ∧ I1 m.ftl := by
  obtain ⟨m0, h0, h⟩ := C2_rmap_consistency cfg64 cfg64_ok
    [Op.write (ev64 event_type.WRITE 5 0) (fb64 0) (pg64 0) (ok64 1),
      Op.trim (ev64 event_type.TRIM 5 1) (ok64 1)]
  rw [new_cfg64] at h0
  simp only [Option.some.injEq] at h0
  subst h0
  refine h ⟨⟨by unfold isPage; decide, fun L i s => by simp [PMT_get, m64]⟩, fun m1 _ => ?_⟩
  exact ⟨trivial, fun _ _ => trivial⟩

/-- C4. Uniqueness of physical pages (I3, P2): for an accepted configuration the empty engine
exists and, after every sequence of `read`, `write`, `trim` and `cleanup_block` calls in which
each newly allocated page is a page number that no PMT slot currently holds, the sequence is
defined and no page number other than the sentinel is held by two distinct PMT slots. -/
theorem C4_unique_pages (cfg : Config) (hc : cfg.ok) (ops : List Op) :
    ∃ m0, Machine.new cfg = some m0 ∧
      (runFresh cfg m0 ops → ∃ m, run cfg m0 ops = some m ∧ I3 m.ftl) := by
  obtain ⟨m0, h0, hI, _⟩ := Inv_new cfg hc
  refine ⟨m0, h0, fun hf => ?_⟩
  obtain ⟨m, hm, hI2⟩ := Inv_run cfg hc.1 ops m0 hI hf
  exact ⟨m, hm, I3_of_Inv m.ftl hI2⟩

/-- Witness of C4: `write(LPN=5)` to page 0, then `read(LPN=5)`, with `P = 64`, `Q = 8`. -/
theorem C4_unique_pages_witness :
    ∃ m, run cfg64 m64 [Op.write (ev64 event_type.WRITE 5 0) (fb64 0) (pg64 0) (ok64 1),
        Op.read (ev64 event_type.READ 5 1) (ok64 1)] = some m ∧ I3 m.ftl := by
  obtain ⟨m0, h0, h⟩ := C4_unique_pages cfg64 cfg64_ok
    [Op.write (ev64 event_type.WRITE 5 0) (fb64 0) (pg64 0) (ok64 1),
      Op.read (ev64 event_type.READ 5 1) (ok64 1)]
  rw [new_cfg64] at h0
  simp only [Option.some.injEq] at h0
  subst h0
  refine h ⟨⟨by unfold isPage; decide, fun L i s => by simp [PMT_get, m64]⟩, fun m1 _ => ?_⟩
  exact ⟨trivial, fun _ _ => trivial⟩

/-- C3, counterexample. With `P = 64`, `Q = 8`, after `write(LPN=7)` (allocated page 0)
followed by `trim(LPN=7)` the anchor `PMD[0][0]` is still page 0 while no slot of `PMT[0][0]`
holds page 0: the anchor invariant I2 fails. -/
theorem C3_anchor_counterexample :
    ∃ m, run cfg64 m64 [Op.write (ev64 event_type.WRITE 7 0) (fb64 0) (pg64 0) (ok64 1),
        Op.trim (ev64 event_type.TRIM 7 1) (ok64 1)] = some m ∧
      PMD_get m.ftl 0 0 = some 0 ∧ (∀ s, PMT_get m.ftl 0 0 s ≠ some 0) ∧ ¬ I2 m.ftl := by
  obtain ⟨a1, a2, a3, a4, a5, _⟩ := after_first_write 7 0 0 1 (by decide) (by decide)
  have hslots := after_first_write_slots 7 0 0 1 (by decide) (by decide)
  have hstep := step_first_write 7 0 0 1
  generalize Machine.after cfg64 m64
    [Op.write (ev64 event_type.WRITE 7 0) (fb64 0) (pg64 0) (ok64 1)] = mA at *
  obtain ⟨o, ht, _, _, w3⟩ := trim_view cfg64 mA (ev64 event_type.TRIM 7 1) (ok64 1) a1 _ _ _
    rfl rfl rfl
  rw [a2, a3] at w3
  have hD : mA.ftl.PMD (lbn_of 64 (ev64 event_type.TRIM 7 1).logical_address) ≠ none := by
    intro hc
    have : PMD_get mA.ftl 0 0 = none := by
      unfold PMD_get
      have e : lbn_of 64 (ev64 event_type.TRIM 7 1).logical_address = 0 := by decide
      rw [e] at hc
      rw [hc]
    rw [this] at a5
    exact absurd a5 (by simp)
  obtain ⟨old, hold, hf, _⟩ := w3 hD
  have e1 : lbn_of 64 (ev64 event_type.TRIM 7 1).logical_address = 0 := by decide
  have e2 : pmd_index_of 64 8 (ev64 event_type.TRIM 7 1).logical_address = 0 := by decide
  have e3 : map_slot_of 64 8 (ev64 event_type.TRIM 7 1).logical_address = 7 := by decide
  rw [e1, e2, e3] at hold hf
  have a4' : PMT_get mA.ftl 0 0 7 = some 0 := a4
  rw [a4'] at hold
  simp only [Option.some.injEq] at hold
  subst hold
  rw [if_pos (by decide)] at hf
  have hrun : run cfg64 m64 [Op.write (ev64 event_type.WRITE 7 0) (fb64 0) (pg64 0) (ok64 1),
      Op.trim (ev64 event_type.TRIM 7 1) (ok64 1)] = some o.m := by
    show (match step cfg64 m64
        (Op.write (ev64 event_type.WRITE 7 0) (fb64 0) (pg64 0) (ok64 1)) with
      | none => none
      | some m1 => run cfg64 m1 [Op.trim (ev64 event_type.TRIM 7 1) (ok64 1)]) = some o.m
    rw [hstep]
    show (match step cfg64 mA (Op.trim (ev64 event_type.TRIM 7 1) (ok64 1)) with
      | none => none
      | some m1 => run cfg64 m1 []) = some o.m
    have : step cfg64 mA (Op.trim (ev64 event_type.TRIM 7 1) (ok64 1)) = some o.m := by
      show Option.map (fun o => o.m) (trim cfg64 mA _ _) = some o.m
      rw [ht]; rfl
    rw [this]; rfl
  have hanchor : PMD_get o.m.ftl 0 0 = some 0 := by
    rw [hf]; exact a5
  have hnoslot : ∀ s, PMT_get o.m.ftl 0 0 s ≠ some 0 := by
    intro s hs
    rw [hf, PMT_get_PMT_set] at hs
    split at hs
    · have : PMT_get (rmap_erase mA.ftl (toUlong 0)) 0 0 7 = some 0 := a4
      rw [this] at hs
      simp at hs
    · rename_i hc
      have hs2 : PMT_get mA.ftl 0 0 s = some 0 := hs
      rcases hslots 0 0 s 0 hs2 with hx | hx
      · exact hc ⟨rfl, rfl, hx.2.2.1⟩
      · exact absurd hx (by decide)
  refine ⟨o.m, hrun, hanchor, hnoslot, ?_⟩
  intro hI
  obtain ⟨s, hs⟩ := hI 0 0 0 hanchor (by decide)
  exact hnoslot s hs

/-- C3, amended. Anchor property in the rmap-based engine: it holds for every fragment of the
empty engine; and in a well-formed state every call is defined and every `read`, `write` and
`cleanup_block`, as well as every `trim` addressed to another fragment, preserves the anchor
property of the fragment `(L, i)`: if `PMD[L][i] != UNMAPPED` then some slot of `PMT[L][i]`
holds `PMD[L][i]`.  (A `trim` addressed to the fragment itself may break it.) -/
theorem C3_anchor_preserved (cfg : Config) (hB : 0 < cfg.BLOCK_SIZE) :
    (∀ m0, Machine.new cfg = some m0 → I2 m0.ftl) ∧
    (∀ (m : Machine) (op : Op) (L i : Nat), WF m.ftl → I2_at m.ftl L i →
      (∀ event dev, op = Op.trim event dev →
        ¬ (L = lbn_of m.ftl.P event.logical_address ∧
          i = pmd_index_of m.ftl.P m.ftl.Q event.logical_address)) →
      ∃ m1, step cfg m op = some m1 ∧ I2_at m1.ftl L i) := by
  constructor
  · intro m0 h0 L i a ha
    unfold Machine.new FtlImpl_MNftl.new at h0
    split at h0
    · exact absurd h0 (by simp)
    · simp only [] at h0
      split at h0
      · exact absurd h0 (by simp)
      · simp only [Option.map_some', Option.some.injEq] at h0
        subst h0
        simp [PMD_get] at ha
  · intro m op L i hWF hI hop
    cases op with
    | read event dev =>
      obtain ⟨o, ho, hf⟩ := Inv_read cfg m event dev hWF
      exact ⟨o.m, by simp [step, ho], by rw [hf]; exact hI⟩
    | write event fb newAddr dev =>
      obtain ⟨o, ho, hI2⟩ := I2_at_write cfg m event fb newAddr dev hWF L i hI
      exact ⟨o.m, by simp [step, ho], hI2⟩
    | trim event dev =>
      obtain ⟨o, ho, hI2⟩ := I2_at_trim cfg m event dev hWF L i hI (hop event dev rfl)
      exact ⟨o.m, by simp [step, ho], hI2⟩
    | cleanup_block event physical_address get_state resp =>
      obtain ⟨c, hc, _, hI2⟩ := I2_at_cleanup_pages cfg physical_address get_state resp
        { m := m, event := event.incr_time_taken ((m.ftl.num_pmd : ℚ) * cfg.OOB_READ_DELAY),
          ret := () } hWF L i hI cfg.BLOCK_SIZE
      obtain ⟨o, ho, e1, e2, _⟩ :=
        cleanup_block_eq cfg m event physical_address get_state resp hB c hc
      exact ⟨o.m, by simp [step, ho], I2_at_of_fields c.m.ftl o.m.ftl L i hI2 e1 e2⟩

/-- Witness of C3 (amended): with `P = 64`, `Q = 8`, `write(LPN=7)` on the fresh engine keeps
the anchor property of fragment `(0, 0)`. -/
theorem C3_anchor_preserved_witness :
    I2 m64.ftl ∧
    ∃ m1, step cfg64 m64
        (Op.write (ev64 event_type.WRITE 7 0) (fb64 0) (pg64 0) (ok64 1)) = some m1 ∧
      I2_at m1.ftl 0 0 :=
  ⟨(C3_anchor_preserved cfg64 (by decide)).1 m64 new_cfg64,
   (C3_anchor_preserved cfg64 (by decide)).2 m64
     (Op.write (ev64 event_type.WRITE 7 0) (fb64 0) (pg64 0) (ok64 1)) 0 0 WF_m64
     (fun a ha => by simp [PMD_get, m64] at ha)
     (fun event dev h => by cases h)⟩

theorem toUlong_add_inj (pa : Int) (j k : Nat) (hj : j < 4294967296) (hk : k < 4294967296)
    (h : toUlong (pa + (j : Int)) = toUlong (pa + (k : Int))) : j = k := by
  unfold toUlong at h
  omega

/-- The loop of `cleanup_block` over a victim whose copies go to fresh pages outside the
victim: progress after the first `n` pages. -/
theorem cleanup_pages_progress (cfg : Config) (hB32 : cfg.BLOCK_SIZE ≤ 4294967296)
    (m : Machine) (hI : Inv m.ftl) (event0 : Event) (pa : Int) (get_state : Nat → page_state)
    (resp : Nat → CopyResp)
    (hvict : ∀ j, j < cfg.BLOCK_SIZE → get_state j = page_state.VALID →
      isPage (toUlong (pa + (j : Int)))) :
    ∀ n, n ≤ cfg.BLOCK_SIZE →
      cleanup_allocs cfg pa get_state resp { m := m, event := event0, ret := () }
        (fun f _ a => allocFresh f a ∧
          ∀ k, k < cfg.BLOCK_SIZE → a.get_linear_address ≠ toUlong (pa + (k : Int))) n →
      ∃ c, cleanup_pages cfg pa get_state resp { m := m, event := event0, ret := () } n =
          some c ∧ Inv c.m.ftl ∧
        (∀ j, j < n → get_state j = page_state.VALID →
          (∀ e, m.ftl.rmap (toUlong (pa + (j : Int))) = some e →
            PMT_get c.m.ftl e.lbn e.pmd e.slot =
              some (toLong (resp j).newAddr.get_linear_address) ∧
            c.m.ftl.rmap (resp j).newAddr.get_linear_address = some e) ∧
          c.m.ftl.rmap (toUlong (pa + (j : Int))) = none ∧
          (∀ L i s, PMT_get c.m.ftl L i s ≠ some (toLong (toUlong (pa + (j : Int))))) ∧
          (∀ k, k < cfg.BLOCK_SIZE →
            (resp j).newAddr.get_linear_address ≠ toUlong (pa + (k : Int)))) ∧
        (∀ j, n ≤ j → j < cfg.BLOCK_SIZE →
          c.m.ftl.rmap (toUlong (pa + (j : Int))) = m.ftl.rmap (toUlong (pa + (j : Int))))
  | 0, _, _ => ⟨_, rfl, hI, fun j hj => absurd hj (by omega), fun _ _ _ => rfl⟩
  | n + 1, hn, ha => by
    obtain ⟨ha1, ha2⟩ := ha
    obtain ⟨c1, hc1, hI1, hA, hBk⟩ :=
      cleanup_pages_progress cfg hB32 m hI event0 pa get_state resp hvict n (by omega) ha1
    obtain ⟨c2, hc2, _, _, _, _, _, w6, w7⟩ :=
      cleanup_page_view cfg pa n (get_state n) (resp n) c1 hI1.wf
    have hrun : cleanup_pages cfg pa get_state resp { m := m, event := event0, ret := () }
        (n + 1) = some c2 := by
      show (match cleanup_pages cfg pa get_state resp { m := m, event := event0, ret := () } n
        with
        | none => none
        | some c1 => cleanup_page cfg pa n (get_state n) (resp n) c1) = some c2
      rw [hc1]; exact hc2
    by_cases hst : get_state n = page_state.VALID
    · obtain ⟨hfr, hout⟩ := ha2 hst c1 hc1
      obtain ⟨c2', hc2', hI2⟩ := Inv_cleanup_page cfg pa n (get_state n) (resp n) c1 hI1
        (fun _ => hfr)
      rw [hc2] at hc2'
      simp only [Option.some.injEq] at hc2'
      subst hc2'
      obtain ⟨x1, x2⟩ := w7 hst
      have holdn : toUlong (pa + (n : Int)) < 18446744073709551616 := toUlong_lt _
      have hpgn : isPage (toUlong (pa + (n : Int))) := hvict n (by omega) hst
      have hnewn := get_linear_address_lt (resp n).newAddr
      have hBn := hBk n (Nat.le_refl n) (by omega)
      cases hr : c1.m.ftl.rmap (toUlong (pa + (n : Int))) with
      | none =>
        obtain ⟨y1, y2, y3⟩ := x1 hr
        have hPT : ∀ L j s, PMT_get c2.m.ftl L j s = PMT_get c1.m.ftl L j s := by
          intro L j s; unfold PMT_get; rw [y2]
        refine ⟨c2, hrun, hI2, ?_, ?_⟩
        · intro j hj hvj
          by_cases hjn : j = n
          · subst hjn
            refine ⟨?_, ?_, ?_, hout⟩
            · intro e he
              rw [← hBn, hr] at he
              exact absurd he (by simp)
            · rw [y3]; exact hr
            · intro L i s hs
              rw [hPT] at hs
              have := (hI1.i1 _ L i s holdn hpgn).2 hs
              rw [hr] at this
              exact absurd this (by simp)
          · obtain ⟨a1, a2, a3, a4⟩ := hA j (by omega) hvj
            refine ⟨?_, ?_, ?_, a4⟩
            · intro e he
              obtain ⟨b1, b2⟩ := a1 e he
              exact ⟨by rw [hPT]; exact b1, by rw [y3]; exact b2⟩
            · rw [y3]; exact a2
            · intro L i s; rw [hPT]; exact a3 L i s
        · intro j hj1 hj2
          rw [y3]; exact hBk j (by omega) hj2
      | some e =>
        obtain ⟨y1, y2, y3⟩ := x2 e hr
        have hslot_e : PMT_get c1.m.ftl e.lbn e.pmd e.slot =
            some (toLong (toUlong (pa + (n : Int)))) :=
          (hI1.i1 _ e.lbn e.pmd e.slot holdn hpgn).1 hr
        have hne_new_old : ∀ k, k < cfg.BLOCK_SIZE →
            toLong (resp n).newAddr.get_linear_address ≠ toLong (toUlong (pa + (k : Int))) :=
          fun k hk => toLong_ne_of_ne _ _ hnewn (toUlong_lt _) (hout k hk)
        refine ⟨c2, hrun, hI2, ?_, ?_⟩
        · intro j hj hvj
          by_cases hjn : j = n
          · subst hjn
            refine ⟨?_, ?_, ?_, hout⟩
            · intro e1 he1
              rw [← hBn, hr] at he1
              simp only [Option.some.injEq] at he1
              subst he1
              exact ⟨by rw [y1, if_pos ⟨rfl, rfl, rfl⟩], by rw [y3, if_pos rfl]⟩
            · rw [y3, if_neg (fun hx => hout j (by omega) hx.symm), if_pos rfl]
            · intro L i s hs
              rw [y1] at hs
              split at hs
              · simp only [Option.some.injEq] at hs
                exact hne_new_old j (by omega) hs
              · rename_i hc
                have := (hI1.i1 _ L i s holdn hpgn).2 hs
                rw [hr] at this
                simp only [Option.some.injEq] at this
                apply hc
                rw [this]; exact ⟨rfl, rfl, rfl⟩
          · obtain ⟨a1, a2, a3, a4⟩ := hA j (by omega) hvj
            have hjlt : j < cfg.BLOCK_SIZE := by omega
            have holdne : toUlong (pa + (j : Int)) ≠ toUlong (pa + (n : Int)) := by
              intro hx
              exact hjn (toUlong_add_inj pa j n (by omega) (by omega) hx)
            refine ⟨?_, ?_, ?_, a4⟩
            · intro e1 he1
              obtain ⟨b1, b2⟩ := a1 e1 he1
              have hnot : ¬ (e1.lbn = e.lbn ∧ e1.pmd = e.pmd ∧ e1.slot = e.slot) := by
                intro hx
                rw [hx.1, hx.2.1, hx.2.2, hslot_e] at b1
                simp only [Option.some.injEq] at b1
                have := toLong_inj _ _ holdn (get_linear_address_lt _) b1
                exact a4 n (by omega) this.symm
              constructor
              · rw [y1, if_neg hnot]; exact b1
              · have hnn : (resp j).newAddr.get_linear_address ≠
                    (resp n).newAddr.get_linear_address := by
                  intro hx
                  rw [hx] at b1
                  exact hfr.2 _ _ _ b1
                rw [y3, if_neg hnn, if_neg (a4 n (by omega))]
                exact b2
            · rw [y3, if_neg (fun hx => hout j hjlt hx.symm), if_neg holdne]
              exact a2
            · intro L i s hs
              rw [y1] at hs
              split at hs
              · simp only [Option.some.injEq] at hs
                exact hne_new_old j hjlt hs
              · exact a3 L i s hs
        · intro j hj1 hj2
          have holdne : toUlong (pa + (j : Int)) ≠ toUlong (pa + (n : Int)) := by
            intro hx
            have := toUlong_add_inj pa j n (by omega) (by omega) hx
            omega
          rw [y3, if_neg (fun hx => hout j hj2 hx.symm), if_neg holdne]
          exact hBk j (by omega) hj2
    · have hc12 : c2 = c1 := w6 hst
      subst hc12
      refine ⟨c2, hrun, hI1, ?_, ?_⟩
      · intro j hj hvj
        by_cases hjn : j = n
        · subst hjn; exact absurd hvj hst
        · exact hA j (by omega) hvj
      · intro j hj1 hj2
        exact hBk j (by omega) hj2

theorem cleanup_allocs_of_forall (cfg : Config) (pa : Int) (get_state : Nat → page_state)
    (resp : Nat → CopyResp) (c : Outcome Unit) (A : FtlImpl_MNftl → Nat → Address → Prop) :
    ∀ N, (∀ n, n < N → get_state n = page_state.VALID →
        ∀ c1, cleanup_pages cfg pa get_state resp c n = some c1 →
          A c1.m.ftl n (resp n).newAddr) →
      cleanup_allocs cfg pa get_state resp c A N
  | 0, _ => trivial
  | N + 1, h =>
    ⟨cleanup_allocs_of_forall cfg pa get_state resp c A N
        (fun n hn => h n (by omega)),
      h N (by omega)⟩

/-- C5. Relocation postcondition of `cleanup_block` (P7) in the rmap-based engine.  In a state
that satisfies the invariants of the engine (well formed, I1, keys of `rmap` are page
numbers), for a victim `V` of `BLOCK_SIZE ≤ 2^32` pages whose VALID pages are page numbers,
if every page allocated during the call is fresh when it is allocated and lies outside `V`,
then `cleanup_block(V)` is defined and, for each page `old_ppn` of `V` that was VALID: if
`rmap[old_ppn] = (L, i, s)` held on entry then afterwards `PMT[L][i][s]` is the new page that
page was copied to, `rmap` maps that new page to `(L, i, s)` and `rmap` no longer contains
`old_ppn`; and in every case no PMT slot holds `old_ppn` afterwards. -/
theorem C5_cleanup_relocation (cfg : Config) (hB : 0 < cfg.BLOCK_SIZE)
    (hB32 : cfg.BLOCK_SIZE ≤ 4294967296) (m : Machine) (hI : Inv m.ftl) (event : Event)
    (pa : Int) (get_state : Nat → page_state) (resp : Nat → CopyResp)
    (hvict : ∀ j, j < cfg.BLOCK_SIZE → get_state j = page_state.VALID →
      isPage (toUlong (pa + (j : Int))))
    (halloc : cleanup_allocs cfg pa get_state resp
      { m := m, event := event.incr_time_taken ((m.ftl.num_pmd : ℚ) * cfg.OOB_READ_DELAY),
        ret := () }
      (fun f _ a => allocFresh f a ∧
        ∀ k, k < cfg.BLOCK_SIZE → a.get_linear_address ≠ toUlong (pa + (k : Int)))
      cfg.BLOCK_SIZE) :
    ∃ o, cleanup_block cfg m event pa get_state resp = some o ∧
      ∀ j, j < cfg.BLOCK_SIZE → get_state j = page_state.VALID →
        (∀ e, m.ftl.rmap (toUlong (pa + (j : Int))) = some e →
          PMT_get o.m.ftl e.lbn e.pmd e.slot =
            some (toLong (resp j).newAddr.get_linear_address) ∧
          o.m.ftl.rmap (resp j).newAddr.get_linear_address = some e ∧
          o.m.ftl.rmap (toUlong (pa + (j : Int))) = none) ∧
        (∀ L i s, PMT_get o.m.ftl L i s ≠ some (toLong (toUlong (pa + (j : Int))))) := by
  obtain ⟨c, hc, _, hA, _⟩ := cleanup_pages_progress cfg hB32 m hI
    (event.incr_time_taken ((m.ftl.num_pmd : ℚ) * cfg.OOB_READ_DELAY)) pa get_state resp hvict
    cfg.BLOCK_SIZE (Nat.le_refl _) halloc
  obtain ⟨o, ho, e1, e2, e3, _⟩ := cleanup_block_eq cfg m event pa get_state resp hB c hc
  have hPT : ∀ L i s, PMT_get o.m.ftl L i s = PMT_get c.m.ftl L i s := by
    intro L i s; unfold PMT_get; rw [e2]
  refine ⟨o, ho, ?_⟩
  intro j hj hv
  obtain ⟨a1, a2, a3, _⟩ := hA j hj hv
  constructor
  · intro e he
    obtain ⟨b1, b2⟩ := a1 e he
    exact ⟨by rw [hPT]; exact b1, by rw [e3]; exact b2, by rw [e3]; exact a2⟩
  · intro L i s
    rw [hPT]; exact a3 L i s

theorem Inv_after_first_write (lpn n : Nat) (t d : ℚ) (hn : n < 9223372036854775808) :
    Inv (Machine.after cfg64 m64
      [Op.write (ev64 event_type.WRITE lpn t) (fb64 0) (pg64 n) (ok64 d)]).ftl := by
  have hfresh : allocFresh m64.ftl (pg64 n) := by
    constructor
    · show toLong (n % 18446744073709551616) ≠ -1
      unfold toLong; split <;> omega
    · intro L i s; simp [PMT_get, m64]
  obtain ⟨o, ho, hI⟩ := Inv_write cfg64 m64 (ev64 event_type.WRITE lpn t) (fb64 0) (pg64 n)
    (ok64 d) Inv_m64 hfresh
  have hs := step_first_write lpn n t d
  have hs2 : step cfg64 m64
      (Op.write (ev64 event_type.WRITE lpn t) (fb64 0) (pg64 n) (ok64 d)) = some o.m := by
    show Option.map (fun o => o.m) (write cfg64 m64 _ _ _ _) = some o.m
    rw [ho]; rfl
  rw [hs2] at hs
  simp only [Option.some.injEq] at hs
  rw [← hs]; exact hI

/-- Witness of C5: with `P = 64`, `Q = 8`, after `write(LPN=5)` to page 0, block 0 is cleaned;
its only VALID page, page 0, is copied to page 64: afterwards `PMT[0][0][5]` is page 64,
`rmap[64] = (0, 0, 5)`, `rmap` has no entry for page 0 and no slot holds page 0. -/
theorem C5_cleanup_relocation_witness :
    ∃ o, cleanup_block cfg64
        (Machine.after cfg64 m64
          [Op.write (ev64 event_type.WRITE 5 0) (fb64 0) (pg64 0) (ok64 1)])
        (ev64 event_type.WRITE 70 5) 0
        (fun j => if j = 0 then page_state.VALID else page_state.EMPTY)
        (fun _ => { rd := ok64 1, fb := fb64 1, newAddr := pg64 64, wr := ok64 1 }) = some o ∧
      PMT_get o.m.ftl 0 0 5 = some 64 ∧ o.m.ftl.rmap 64 = some ⟨0, 0, 5⟩ ∧
      o.m.ftl.rmap 0 = none ∧ ∀ L i s, PMT_get o.m.ftl L i s ≠ some 0 := by
  obtain ⟨_, _, _, _, _, hr⟩ := after_first_write 5 0 0 1 (by decide) (by decide)
  have hslots := after_first_write_slots 5 0 0 1 (by decide) (by decide)
  obtain ⟨o, ho, h⟩ := C5_cleanup_relocation cfg64 (by decide) (by decide)
    (Machine.after cfg64 m64 [Op.write (ev64 event_type.WRITE 5 0) (fb64 0) (pg64 0) (ok64 1)])
    (Inv_after_first_write 5 0 0 1 (by decide)) (ev64 event_type.WRITE 70 5) 0
    (fun j => if j = 0 then page_state.VALID else page_state.EMPTY)
    (fun _ => { rd := ok64 1, fb := fb64 1, newAddr := pg64 64, wr := ok64 1 })
    (by
      intro j hj _
      show toLong (toUlong (0 + (j : Int))) ≠ -1
      have hj' : j < 64 := hj
      unfold toLong toUlong
      split <;> omega)
    (by
      apply cleanup_allocs_of_forall
      intro n _ hv c1 hc1
      have hn0 : n = 0 := by
        by_contra hne
        simp [hne] at hv
      subst hn0
      simp only [cleanup_pages, Option.some.injEq] at hc1
      subst hc1
      refine ⟨⟨by unfold isPage; decide, ?_⟩, ?_⟩
      · intro L i s hs
        rcases hslots L i s _ hs with hx | hx
        · exact absurd hx.2.2.2 (by decide)
        · exact absurd hx (by decide)
      · intro k hk
        show 64 % 18446744073709551616 ≠ toUlong (0 + (k : Int))
        have hk' : k < 64 := hk
        unfold toUlong
        omega)
  obtain ⟨h1, h2⟩ := h 0 (by decide) (by simp)
  obtain ⟨b1, b2, b3⟩ := h1 ⟨0, 0, 5⟩ hr
  exact ⟨o, ho, b1, b2, b3, h2⟩

/-- C9, counterexample. With `P = 64`, `Q = 8`: (1) on the fresh engine, `trim(LPN=0)`, then a
`write` to the other logical page `LPN = 2^38` (whose logical block number `2^32` is
truncated to `0`, so it shares the slot of LPN 0), then `read(LPN=0)`: the read is not
marked noop and is addressed to the page just written; (2) after `write(LPN=7)` to page 3,
`trim(LPN=7)` and a `write(LPN=8)` for which the allocator answers page 3 again, `rmap`
contains page 3, the page the slot of LPN 7 held before the trim. -/
theorem C9_trim_then_read_counterexample :
    (∃ o1 m2 o3, trim cfg64 m64 (ev64 event_type.TRIM 0 0) (ok64 1) = some o1 ∧
      run cfg64 o1.m
        [Op.write (ev64 event_type.WRITE 274877906944 1) (fb64 0) (pg64 5) (ok64 1)] =
          some m2 ∧
      read cfg64 m2 (ev64 event_type.READ 0 2) (ok64 1) = some o3 ∧
      o3.event.noop = false ∧ o3.event.address = pg64 5) ∧
    (∃ o1 m2, PMT_get (Machine.after cfg64 m64
          [Op.write (ev64 event_type.WRITE 7 0) (fb64 0) (pg64 3) (ok64 1)]).ftl 0 0 7 =
        some 3 ∧
      trim cfg64 (Machine.after cfg64 m64
          [Op.write (ev64 event_type.WRITE 7 0) (fb64 0) (pg64 3) (ok64 1)])
        (ev64 event_type.TRIM 7 1) (ok64 1) = some o1 ∧
      run cfg64 o1.m [Op.write (ev64 event_type.WRITE 8 2) (fb64 0) (pg64 3) (ok64 1)] =
        some m2 ∧
      m2.ftl.rmap 3 = some ⟨0, 1, 0⟩) := by
  constructor
  · obtain ⟨o1, ht, w1, w2, _⟩ :=
      trim_view cfg64 m64 (ev64 event_type.TRIM 0 0) (ok64 1) WF_m64 _ _ _ rfl rfl rfl
    obtain ⟨hf, _⟩ := w2 rfl
    have hW1 : WF o1.m.ftl := w1
    obtain ⟨o2, hw, x1, x2, x3, _, x5, x6, _⟩ :=
      write_view cfg64 o1.m (ev64 event_type.WRITE 274877906944 1) (fb64 0) (pg64 5) (ok64 1)
        hW1 _ _ _ _ _ _ rfl rfl rfl rfl rfl rfl
    rw [hf] at x2 x3 x5 x6
    have hslot : PMT_get o2.m.ftl 0 0 0 = some 5 := by
      rw [x2]; rfl
    have hanch : PMD_get o2.m.ftl 0 0 = some 5 := by
      rw [x3]; rfl
    obtain ⟨o3, e, hrd, _, _, hev, _, _, r2, _⟩ :=
      read_view cfg64 o2.m (ev64 event_type.READ 0 2) (ok64 1) x1 _ _ _ rfl rfl rfl
    rw [x5, x6] at r2
    have e1 : lbn_of m64.ftl.P (ev64 event_type.READ 0 2).logical_address = 0 := by decide
    have e2 : pmd_index_of m64.ftl.P m64.ftl.Q (ev64 event_type.READ 0 2).logical_address =
        0 := by decide
    have e3 : map_slot_of m64.ftl.P m64.ftl.Q (ev64 event_type.READ 0 2).logical_address =
        0 := by decide
    rw [e1, e2, e3, hslot, hanch] at r2
    have hD : o2.m.ftl.PMD 0 ≠ none := by
      intro hc
      unfold PMD_get at hanch
      rw [hc] at hanch
      exact absurd hanch (by simp)
    obtain ⟨ppn, hp, hn, haddr⟩ := r2 (by
      intro hc
      rcases hc with hc | hc | hc
      · exact hD hc
      · exact absurd hc (by decide)
      · exact absurd hc (by decide))
    simp only [Option.some.injEq] at hp
    subst hp
    refine ⟨o1, o2.m, o3, ht, ?_, hrd, ?_, ?_⟩
    · show (match step cfg64 o1.m
          (Op.write (ev64 event_type.WRITE 274877906944 1) (fb64 0) (pg64 5) (ok64 1)) with
        | none => none
        | some m1 => run cfg64 m1 []) = some o2.m
      have : step cfg64 o1.m
          (Op.write (ev64 event_type.WRITE 274877906944 1) (fb64 0) (pg64 5) (ok64 1)) =
          some o2.m := by
        show Option.map (fun o => o.m) (write cfg64 o1.m _ _ _ _) = some o2.m
        rw [hw]; rfl
      rw [this]; rfl
    · rw [hev]; exact hn
    · rw [hev]
      show e.address = _
      rw [haddr]; rfl
  · obtain ⟨a1, a2, a3, a4, a5, _⟩ := after_first_write 7 3 0 1 (by decide) (by decide)
    generalize Machine.after cfg64 m64
      [Op.write (ev64 event_type.WRITE 7 0) (fb64 0) (pg64 3) (ok64 1)] = mA at *
    obtain ⟨o1, ht, w1, _, _⟩ :=
      trim_view cfg64 mA (ev64 event_type.TRIM 7 1) (ok64 1) a1 _ _ _ rfl rfl rfl
    have hP : o1.m.ftl.P = 64 := by
      obtain ⟨m1, hs, _, p1, _⟩ := other_step_frame cfg64 mA a1 1000
        (by rw [a2]; decide) (Op.trim (ev64 event_type.TRIM 7 1) (ok64 1))
        (by rw [a2]; exact ⟨by decide, by decide⟩)
      have : step cfg64 mA (Op.trim (ev64 event_type.TRIM 7 1) (ok64 1)) = some o1.m := by
        show Option.map (fun o => o.m) (trim cfg64 mA _ _) = some o1.m
        rw [ht]; rfl
      rw [this] at hs
      simp only [Option.some.injEq] at hs
      rw [hs, p1, a2]
    have hQ : o1.m.ftl.Q = 8 := by
      obtain ⟨m1, hs, _, _, p2, _⟩ := other_step_frame cfg64 mA a1 1000
        (by rw [a2]; decide) (Op.trim (ev64 event_type.TRIM 7 1) (ok64 1))
        (by rw [a2]; exact ⟨by decide, by decide⟩)
      have : step cfg64 mA (Op.trim (ev64 event_type.TRIM 7 1) (ok64 1)) = some o1.m := by
        show Option.map (fun o => o.m) (trim cfg64 mA _ _) = some o1.m
        rw [ht]; rfl
      rw [this] at hs
      simp only [Option.some.injEq] at hs
      rw [hs, p2, a3]
    obtain ⟨o2, hw, _, _, _, x4, _⟩ :=
      write_view cfg64 o1.m (ev64 event_type.WRITE 8 2) (fb64 0) (pg64 3) (ok64 1)
        w1 _ _ _ _ _ _ rfl rfl rfl rfl rfl rfl
    rw [hP, hQ] at x4
    refine ⟨o1, o2.m, a4, ht, ?_, ?_⟩
    · show (match step cfg64 o1.m
          (Op.write (ev64 event_type.WRITE 8 2) (fb64 0) (pg64 3) (ok64 1)) with
        | none => none
        | some m1 => run cfg64 m1 []) = some o2.m
      have : step cfg64 o1.m
          (Op.write (ev64 event_type.WRITE 8 2) (fb64 0) (pg64 3) (ok64 1)) = some o2.m := by
        show Option.map (fun o => o.m) (write cfg64 o1.m _ _ _ _) = some o2.m
        rw [hw]; rfl
      rw [this]; rfl
    · rw [x4]; rfl

/-- C9, amended. Trim then read (P5) in the rmap-based engine: in every well-formed state, for
every LPN with `LPN / P < 2^32`, after `trim(LPN)` and any interleaving of reads and of trims
and writes to other LPNs with `LPN / P < 2^32` (no write to LPN, no `cleanup_block`),
`read(LPN)` is defined, marks the event noop and addresses the sentinel page; the slot
`PMT[LBN][PMD_INDEX][MAP_SLOT]` is `UNMAPPED` when the row of LBN exists; and `rmap` does not
contain the page the slot held before the trim, provided no interleaved write was allocated
that page. -/
theorem C9_trim_then_read (cfg : Config) (m : Machine) (hWF : WF m.ftl) (event : Event)
    (dev : IssueResp) (hlpn : event.logical_address / m.ftl.P < 4294967296) (ops : List Op)
    (hother : ∀ op, op ∈ ops → otherLpn m.ftl.P event.logical_address op)
    (revent : Event) (hr : revent.logical_address = event.logical_address) (rdev : IssueResp) :
    ∃ o1 m2 o3, trim cfg m event dev = some o1 ∧ run cfg o1.m ops = some m2 ∧
      read cfg m2 revent rdev = some o3 ∧
      o3.event.noop = true ∧ o3.event.address = cfg.mkAddress 0 address_valid.PAGE ∧
      (m2.ftl.PMD (lbn_of m.ftl.P event.logical_address) ≠ none →
        PMT_get m2.ftl (lbn_of m.ftl.P event.logical_address)
          (pmd_index_of m.ftl.P m.ftl.Q event.logical_address)
          (map_slot_of m.ftl.P m.ftl.Q event.logical_address) = some UNMAPPED) ∧
      (∀ old, PMT_get m.ftl (lbn_of m.ftl.P event.logical_address)
          (pmd_index_of m.ftl.P m.ftl.Q event.logical_address)
          (map_slot_of m.ftl.P m.ftl.Q event.logical_address) = some old → old ≠ UNMAPPED →
        (∀ op, op ∈ ops → writeAlloc (fun n => n ≠ toUlong old) op) →
        m2.ftl.rmap (toUlong old) = none) := by
  obtain ⟨o1, ht, w1, w2, w3⟩ := trim_view cfg m event dev hWF _ _ _ rfl rfl rfl
  -- the state after the trim
  have key : o1.m.ftl.P = m.ftl.P ∧ o1.m.ftl.Q = m.ftl.Q ∧
      (o1.m.ftl.PMD (lbn_of m.ftl.P event.logical_address) = none ∨
        PMT_get o1.m.ftl (lbn_of m.ftl.P event.logical_address)
          (pmd_index_of m.ftl.P m.ftl.Q event.logical_address)
          (map_slot_of m.ftl.P m.ftl.Q event.logical_address) = some (-1)) ∧
      (∀ old, PMT_get m.ftl (lbn_of m.ftl.P event.logical_address)
          (pmd_index_of m.ftl.P m.ftl.Q event.logical_address)
          (map_slot_of m.ftl.P m.ftl.Q event.logical_address) = some old → old ≠ -1 →
        o1.m.ftl.rmap (toUlong old) = none) := by
    by_cases hD : m.ftl.PMD (lbn_of m.ftl.P event.logical_address) = none
    · obtain ⟨hf, _⟩ := w2 hD
      rw [hf]
      refine ⟨rfl, rfl, Or.inl hD, ?_⟩
      intro old hold _
      exfalso
      unfold PMT_get at hold
      rw [(hWF.keys _).1 hD] at hold
      exact absurd hold (by simp)
    · obtain ⟨old, hold, hf, _⟩ := w3 hD
      rw [hf]
      by_cases hone : old ≠ -1
      · rw [if_pos hone]
        refine ⟨rfl, rfl, Or.inr ?_, ?_⟩
        · rw [PMT_get_PMT_set, if_pos ⟨rfl, rfl, rfl⟩]
          have : PMT_get (rmap_erase m.ftl (toUlong old))
              (lbn_of m.ftl.P event.logical_address)
              (pmd_index_of m.ftl.P m.ftl.Q event.logical_address)
              (map_slot_of m.ftl.P m.ftl.Q event.logical_address) = some old := hold
          rw [this]; rfl
        · intro old1 hold1 _
          rw [hold] at hold1
          simp only [Option.some.injEq] at hold1
          subst hold1
          show (if toUlong old = toUlong old then none else m.ftl.rmap (toUlong old)) = none
          rw [if_pos rfl]
      · rw [if_neg hone]
        have hm1 : old = -1 := by
          by_contra hc; exact hone hc
        refine ⟨rfl, rfl, Or.inr (by rw [hold, hm1]), ?_⟩
        intro old1 hold1 hne1
        rw [hold] at hold1
        simp only [Option.some.injEq] at hold1
        rw [← hold1] at hne1
        exact absurd hm1 hne1
  obtain ⟨k1, k2, k3, k4⟩ := key
  obtain ⟨m2, hrun, x1, x2, x3, _, g2, _, _, g5⟩ :=
    other_run_frame cfg event.logical_address m.ftl.P m.ftl.Q hlpn ops o1.m w1 k1 k2 hother
  have hk := g2 k3
  obtain ⟨o3, e, hrd, _, _, hev, _, r1, _⟩ :=
    read_view cfg m2 revent rdev x1 _ _ _ rfl rfl rfl
  rw [x2, x3, hr] at r1
  have hcond : m2.ftl.PMD (lbn_of m.ftl.P event.logical_address) = none ∨
      PMD_get m2.ftl (lbn_of m.ftl.P event.logical_address)
        (pmd_index_of m.ftl.P m.ftl.Q event.logical_address) = some (-1) ∨
      PMT_get m2.ftl (lbn_of m.ftl.P event.logical_address)
        (pmd_index_of m.ftl.P m.ftl.Q event.logical_address)
        (map_slot_of m.ftl.P m.ftl.Q event.logical_address) = some (-1) := by
    rcases hk with hk | hk
    · exact Or.inl hk
    · exact Or.inr (Or.inr hk)
  obtain ⟨n1, n2⟩ := r1 hcond
  refine ⟨o1, m2, o3, ht, hrun, hrd, ?_, ?_, ?_, ?_⟩
  · rw [hev]; exact n1
  · rw [hev]; exact n2
  · intro hD
    rcases hk with hk | hk
    · exact absurd hk hD
    · exact hk
  · intro old hold hne hall
    exact g5 (toUlong old) (k4 old hold hne) hall

/-- Witness of C9 (amended): `write(7)`, `trim(7)`, `trim(7)`, `read(7)` with `P = 64`,
`Q = 8`. -/
theorem C9_trim_then_read_witness :
    ∃ o1 m2 o3, trim cfg64
        (Machine.after cfg64 m64
          [Op.write (ev64 event_type.WRITE 7 0) (fb64 0) (pg64 0) (ok64 1)])
        (ev64 event_type.TRIM 7 1) (ok64 1) = some o1 ∧
      run cfg64 o1.m [Op.read (ev64 event_type.READ 9 2) (ok64 1)] = some m2 ∧
      read cfg64 m2 (ev64 event_type.READ 7 3) (ok64 1) = some o3 ∧
      o3.event.noop = true ∧ o3.event.address = cfg64.mkAddress 0 address_valid.PAGE ∧
      m2.ftl.rmap 0 = none := by
  obtain ⟨a1, a2, a3, a4, _⟩ := after_first_write 7 0 0 1 (by decide) (by decide)
  obtain ⟨o1, m2, o3, h1, h2, h3, h4, h5, _, h7⟩ := C9_trim_then_read cfg64
    (Machine.after cfg64 m64 [Op.write (ev64 event_type.WRITE 7 0) (fb64 0) (pg64 0) (ok64 1)])
    a1 (ev64 event_type.TRIM 7 1) (ok64 1) (by rw [a2]; decide)
    [Op.read (ev64 event_type.READ 9 2) (ok64 1)]
    (by intro op hop; simp only [List.mem_singleton] at hop; subst hop; trivial)
    (ev64 event_type.READ 7 3) rfl (ok64 1)
  rw [a2, a3] at h7
  exact ⟨o1, m2, o3, h1, h2, h3, h4, h5,
    h7 0 a4 (by decide)
      (by intro op hop; simp only [List.mem_singleton] at hop; subst hop; trivial)⟩

/-- The actions of the frontier test: one `get_free_block` exactly when a block is opened. -/
theorem ensure_frontier_trace (m : Machine) (event : Event) (fb : BlockResp) :
    (ensure_frontier m event fb).1.trace = m.trace ++
      (if m.ftl.has_current_block = false ∨ m.ftl.current_page_offset = m.ftl.P then
        [Action.get_free_block] else []) := by
  unfold ensure_frontier allocate_new_current_block
  by_cases hc : m.ftl.has_current_block = false ∨ m.ftl.current_page_offset = m.ftl.P
  · simp only [hc, if_true]; rfl
  · simp only [hc, if_false, List.append_nil]

/-- The actions of the two lazy creations at the start of `write`. -/
theorem ensure_rows_trace (m : Machine) (L : Nat) :
    (ensure_rows m L).trace = m.trace ++
      (if m.ftl.PMD L = none then [Action.pmd_create L] else []) ++
      (if m.ftl.PMT L = none then [Action.pmt_create L] else []) := by
  unfold ensure_rows
  cases hD : m.ftl.PMD L <;> cases hT : m.ftl.PMT L <;>
    simp [Machine.log, Machine.setFtl, hD, hT]

/-- The event of the frontier test keeps every field but the accumulated time. -/
theorem ensure_frontier_event (m : Machine) (event : Event) (fb : BlockResp) :
    (ensure_frontier m event fb).2 =
      { event with time_taken := event.time_taken +
        (if m.ftl.has_current_block = false ∨ m.ftl.current_page_offset = m.ftl.P then
          fb.delay else 0) } := by
  unfold ensure_frontier allocate_new_current_block
  by_cases hc : m.ftl.has_current_block = false ∨ m.ftl.current_page_offset = m.ftl.P
  · simp only [hc, if_true]; rfl
  · simp only [hc, if_false, add_zero]

/-- One copy of the loop of `cleanup_block`: the frontier, the counters, the accumulated
time of the triggering event and the actions, in program order. -/
theorem cleanup_page_extra (cfg : Config) (physical_address : Int) (i : Nat) (r : CopyResp)
    (c : Outcome Unit) (h : WF c.m.ftl) :
    ∃ c1, cleanup_page cfg physical_address i page_state.VALID r c = some c1 ∧
      c1.event = { c.event with time_taken := c.event.time_taken +
        (if c.m.ftl.has_current_block = false ∨ c.m.ftl.current_page_offset = c.m.ftl.P then
          r.fb.delay else 0) + (r.rd.delay + r.wr.delay) } ∧
      c1.m.ftl.has_current_block = true ∧
      c1.m.ftl.current_page_offset =
        (if c.m.ftl.has_current_block = false ∨ c.m.ftl.current_page_offset = c.m.ftl.P then 0
          else c.m.ftl.current_page_offset) + 1 ∧
      c1.m.ftl.BML =
        (if c.m.ftl.has_current_block = false ∨ c.m.ftl.current_page_offset = c.m.ftl.P then
          c.m.ftl.BML ++ [r.fb.blk.block] else c.m.ftl.BML) ∧
      c1.m.ftl.current_blocks =
        (if c.m.ftl.has_current_block = false ∨ c.m.ftl.current_page_offset = c.m.ftl.P then
          insert (r.fb.blk.block : Int) c.m.ftl.current_blocks else c.m.ftl.current_blocks) ∧
      c1.m.trace = c.m.trace ++
        [Action.issue ((Event.new cfg event_type.READ c.event.logical_address 1
          c.event.start_time).set_address (cfg.mkAddress
            (toUlong (physical_address + (i : Int)) % 4294967296) address_valid.PAGE))] ++
        (if c.m.ftl.has_current_block = false ∨ c.m.ftl.current_page_offset = c.m.ftl.P then
          [Action.get_free_block] else []) ++
        [Action.get_free_page,
         Action.issue (((Event.new cfg event_type.WRITE c.event.logical_address 1
          (c.event.start_time + r.rd.delay)).set_address r.newAddr).set_replace_address
            (cfg.mkAddress (toUlong (physical_address + (i : Int)) % 4294967296)
              address_valid.PAGE))] ++
        (match c.m.ftl.rmap (toUlong (physical_address + (i : Int))) with
          | none => []
          | some e =>
            [Action.pmt_store e.lbn e.pmd e.slot (toLong r.newAddr.get_linear_address),
             Action.pmd_store e.lbn e.pmd (toLong r.newAddr.get_linear_address),
             Action.rmap_erase (toUlong (physical_address + (i : Int))),
             Action.rmap_store r.newAddr.get_linear_address e]) ∧
      c1.m.stats = { c.m.stats with
        valid_page_copies := c.m.stats.valid_page_copies + 1,
        numWLRead := c.m.stats.numWLRead + 1,
        numWLWrite := c.m.stats.numWLWrite + 1 } := by
  unfold cleanup_page
  simp only [ne_eq, not_true_eq_false, if_false]
  generalize hX : ensure_frontier
      (issue c.m ((Event.new cfg event_type.READ c.event.logical_address 1
        c.event.start_time).set_address (cfg.mkAddress
          (toUlong (physical_address + (i : Int)) % 4294967296) address_valid.PAGE)) r.rd).m
      c.event r.fb = X
  have e := ensure_frontier_ftl
      (issue c.m ((Event.new cfg event_type.READ c.event.logical_address 1
        c.event.start_time).set_address (cfg.mkAddress
          (toUlong (physical_address + (i : Int)) % 4294967296) address_valid.PAGE)) r.rd).m
      c.event r.fb
  have f := ensure_frontier_fields
      (issue c.m ((Event.new cfg event_type.READ c.event.logical_address 1
        c.event.start_time).set_address (cfg.mkAddress
          (toUlong (physical_address + (i : Int)) % 4294967296) address_valid.PAGE)) r.rd).m
      c.event r.fb
  have t := ensure_frontier_trace
      (issue c.m ((Event.new cfg event_type.READ c.event.logical_address 1
        c.event.start_time).set_address (cfg.mkAddress
          (toUlong (physical_address + (i : Int)) % 4294967296) address_valid.PAGE)) r.rd).m
      c.event r.fb
  have v := ensure_frontier_event
      (issue c.m ((Event.new cfg event_type.READ c.event.logical_address 1
        c.event.start_time).set_address (cfg.mkAddress
          (toUlong (physical_address + (i : Int)) % 4294967296) address_valid.PAGE)) r.rd).m
      c.event r.fb
  rw [hX] at e f t v
  simp only [issue, Machine.log] at e f t v
  obtain ⟨e1, e2, e3, e4, e5, e6, e7⟩ := e
  obtain ⟨f1, f2, f3, f4, -, f6⟩ := f
  obtain ⟨m2, event2⟩ := X
  simp only at e1 e2 e3 e4 e5 e6 e7 f1 f2 f3 f4 f6 t v ⊢
  unfold alloc_page_in_current_block
  simp only [e7, if_true]
  subst v
  simp only [issue, Machine.log, incr_offset, Machine.setFtl, Event.incr_time_taken, Event.new,
    Event.set_address, Event.set_replace_address, zero_add]
  have hW6 : WF ({ m2.ftl with current_page_offset := m2.ftl.current_page_offset + 1 } :
      FtlImpl_MNftl) := WF_of_fields c.m.ftl _ h e1 e2 e3 e4 e5 e6
  obtain ⟨m7, hm7, -, w2, w3, w4, -, -, -, -, w9, w10, -, w12, w13⟩ := remap_view
    ({ ftl := { m2.ftl with current_page_offset := m2.ftl.current_page_offset + 1 },
       stats := { m2.stats with valid_page_copies := m2.stats.valid_page_copies + 1 },
       trace := m2.trace ++ [Action.get_free_page] ++
         [Action.issue
            { type := event_type.WRITE, logical_address := c.event.logical_address, size := 1,
              start_time := c.event.start_time + r.rd.delay, time_taken := 0, noop := false,
              address := r.newAddr,
              replace_address :=
                cfg.mkAddress (toUlong (physical_address + (i : Int)) % 4294967296)
                  address_valid.PAGE }] } : Machine) hW6
    (toUlong (physical_address + (i : Int))) r.newAddr.get_linear_address
  simp only at hm7 w2 w3 w4 w9 w10 w12 w13
  simp only [hm7]
  refine ⟨_, rfl, rfl, ?_, ?_, ?_, ?_, ?_, ?_⟩
  · show m7.ftl.has_current_block = true
    rw [w9]; exact e7
  · show m7.ftl.current_page_offset = _
    rw [w10, f1]
  · show m7.ftl.BML = _
    rw [w12, f2]
  · show m7.ftl.current_blocks = _
    rw [w13, f3]
  · show m7.trace = _
    rw [e6] at w3 w4
    cases hr : c.m.ftl.rmap (toUlong (physical_address + (i : Int))) with
    | none =>
      have := w3 hr
      subst this
      simp only [t, List.append_nil, List.append_assoc, List.cons_append, List.nil_append]
      rfl
    | some e0 =>
      obtain ⟨-, -, -, x4⟩ := w4 e0 hr
      rw [x4]
      simp only [t, List.append_assoc, List.cons_append, List.nil_append]
      rfl
  · simp only [w2, f6]

theorem issued_append (a b : List Action) : issued (a ++ b) = issued a ++ issued b := by
  induction a with
  | nil => rfl
  | cons x xs ih => cases x <;> simp [issued, ih]

theorem blocks_requested_append (a b : List Action) :
    blocks_requested (a ++ b) = blocks_requested a + blocks_requested b := by
  induction a with
  | nil => simp [blocks_requested]
  | cons x xs ih =>
    cases x <;> simp [blocks_requested, ih]
    omega

/-- A page that is not VALID is skipped by the loop of `cleanup_block`. -/
theorem cleanup_page_skip (cfg : Config) (pa : Int) (i : Nat) (st : page_state) (r : CopyResp)
    (c : Outcome Unit) (hst : st ≠ page_state.VALID) :
    cleanup_page cfg pa i st r c = some c := by
  unfold cleanup_page
  simp only [hst, ne_eq, not_false_eq_true, if_true]

/-- One more iteration of the loop of `cleanup_block`. -/
theorem cleanup_pages_succ (cfg : Config) (pa : Int) (get_state : Nat → page_state)
    (resp : Nat → CopyResp) (c : Outcome Unit) (n : Nat) (c1 : Outcome Unit)
    (h : cleanup_pages cfg pa get_state resp c n = some c1) :
    cleanup_pages cfg pa get_state resp c (n + 1) =
      cleanup_page cfg pa n (get_state n) (resp n) c1 := by
  show (match cleanup_pages cfg pa get_state resp c n with
    | none => none
    | some c1 => cleanup_page cfg pa n (get_state n) (resp n) c1) = _
  rw [h]

/-- Induction along the loop of `cleanup_block`: a property that holds on entry, is kept when
a page is skipped and is kept by every copy holds after `n` iterations, and the loop is
defined. -/
theorem cleanup_pages_induct (cfg : Config) (pa : Int) (get_state : Nat → page_state)
    (resp : Nat → CopyResp) (c : Outcome Unit) (h : WF c.m.ftl)
    (R : Nat → Outcome Unit → Prop) (h0 : R 0 c)
    (hskip : ∀ n c1, WF c1.m.ftl → cleanup_pages cfg pa get_state resp c n = some c1 →
      R n c1 → get_state n ≠ page_state.VALID → R (n + 1) c1)
    (hcopy : ∀ n c1 c2, WF c1.m.ftl → cleanup_pages cfg pa get_state resp c n = some c1 →
      R n c1 → get_state n = page_state.VALID →
      cleanup_page cfg pa n page_state.VALID (resp n) c1 = some c2 → R (n + 1) c2) :
    ∀ n, ∃ c1, cleanup_pages cfg pa get_state resp c n = some c1 ∧ WF c1.m.ftl ∧ R n c1
  | 0 => ⟨c, rfl, h, h0⟩
  | n + 1 => by
    obtain ⟨c1, hc1, hW, hR⟩ := cleanup_pages_induct cfg pa get_state resp c h R h0 hskip hcopy n
    by_cases hst : get_state n = page_state.VALID
    · obtain ⟨c2, hc2, hW2, _⟩ := cleanup_page_view cfg pa n (get_state n) (resp n) c1 hW
      refine ⟨c2, ?_, hW2, ?_⟩
      · rw [cleanup_pages_succ cfg pa get_state resp c n c1 hc1]; exact hc2
      · rw [hst] at hc2
        exact hcopy n c1 c2 hW hc1 hR hst hc2
    · refine ⟨c1, ?_, hW, hskip n c1 hW hc1 hR hst⟩
      rw [cleanup_pages_succ cfg pa get_state resp c n c1 hc1]
      exact cleanup_page_skip cfg pa n (get_state n) (resp n) c1 hst

/-- The result of `cleanup_block` from the result of its loop. -/
theorem cleanup_block_some (cfg : Config) (m : Machine) (event : Event) (pa : Int)
    (get_state : Nat → page_state) (resp : Nat → CopyResp) (hB : 0 < cfg.BLOCK_SIZE)
    (c : Outcome Unit)
    (hc : cleanup_pages cfg pa get_state resp
      { m := m, event := event.incr_time_taken ((m.ftl.num_pmd : ℚ) * cfg.OOB_READ_DELAY),
        ret := () } cfg.BLOCK_SIZE = some c) :
    cleanup_block cfg m event pa get_state resp =
      some { m := c.m.setFtl { c.m.ftl with current_blocks :=
                c.m.ftl.current_blocks.erase (Int.tdiv pa (cfg.BLOCK_SIZE : Int)) },
             event := c.event, ret := () } := by
  unfold cleanup_block
  simp only [hc]
  rw [if_neg (by omega)]

/-- The write frontier along the loop of `cleanup_block`: `P` is constant, the offset stays
within `[0, P]` and keys of `current_blocks` are only added. -/
theorem cleanup_pages_frontier (cfg : Config) (pa : Int) (get_state : Nat → page_state)
    (resp : Nat → CopyResp) (c : Outcome Unit) (h : WF c.m.ftl) :
    ∀ n, ∃ c1, cleanup_pages cfg pa get_state resp c n = some c1 ∧ WF c1.m.ftl ∧
      (c1.m.ftl.P = c.m.ftl.P ∧
        (c.m.ftl.current_page_offset ≤ c.m.ftl.P →
          c1.m.ftl.current_page_offset ≤ c1.m.ftl.P) ∧
        (∀ k, k ∈ c.m.ftl.current_blocks → k ∈ c1.m.ftl.current_blocks)) := by
  apply cleanup_pages_induct cfg pa get_state resp c h
    (fun _ c1 => c1.m.ftl.P = c.m.ftl.P ∧
      (c.m.ftl.current_page_offset ≤ c.m.ftl.P → c1.m.ftl.current_page_offset ≤ c1.m.ftl.P) ∧
      (∀ k, k ∈ c.m.ftl.current_blocks → k ∈ c1.m.ftl.current_blocks))
  · exact ⟨rfl, fun hle => hle, fun _ hk => hk⟩
  · intro n c1 _ _ hR _; exact hR
  · intro n c1 c2 hW _ hR _ hc2
    obtain ⟨c3, hc3, _, -, q3, -, q5, -, -⟩ := cleanup_page_extra cfg pa n (resp n) c1 hW
    obtain ⟨c4, hc4, _, p1, _⟩ :=
      cleanup_page_view cfg pa n page_state.VALID (resp n) c1 hW
    rw [hc2] at hc3 hc4
    simp only [Option.some.injEq] at hc3 hc4
    subst hc3; subst hc4
    obtain ⟨r1, r2, r3⟩ := hR
    refine ⟨by rw [p1, r1], ?_, ?_⟩
    · intro hle
      have hle1 := r2 hle
      have hpos := hW.P_pos
      rw [q3, p1]
      by_cases hA : c1.m.ftl.has_current_block = false ∨
          c1.m.ftl.current_page_offset = c1.m.ftl.P
      · rw [if_pos hA]; omega
      · rw [if_neg hA]
        have : c1.m.ftl.current_page_offset ≠ c1.m.ftl.P := fun hh => hA (Or.inr hh)
        omega
    · intro k hk
      rw [q5]
      by_cases hA : c1.m.ftl.has_current_block = false ∨
          c1.m.ftl.current_page_offset = c1.m.ftl.P
      · rw [if_pos hA]; exact Finset.mem_insert_of_mem (r3 k hk)
      · rw [if_neg hA]; exact r3 k hk

/-- The actions of the loop of `cleanup_block`: every event it hands to the Device is a READ
or a WRITE. -/
theorem cleanup_pages_trace (cfg : Config) (pa : Int) (get_state : Nat → page_state)
    (resp : Nat → CopyResp) (c : Outcome Unit) (h : WF c.m.ftl) :
    ∀ n, ∃ c1, cleanup_pages cfg pa get_state resp c n = some c1 ∧ WF c1.m.ftl ∧
      ∃ sfx, c1.m.trace = c.m.trace ++ sfx ∧
        ∀ e, e ∈ issued sfx → e.type = event_type.READ ∨ e.type = event_type.WRITE := by
  apply cleanup_pages_induct cfg pa get_state resp c h
    (fun _ c1 => ∃ sfx, c1.m.trace = c.m.trace ++ sfx ∧
        ∀ e, e ∈ issued sfx → e.type = event_type.READ ∨ e.type = event_type.WRITE)
  · exact ⟨[], by simp, fun e he => by simp [issued] at he⟩
  · intro n c1 _ _ hR _; exact hR
  · intro n c1 c2 hW _ hR _ hc2
    obtain ⟨c3, hc3, _, -, -, -, -, q6, -⟩ := cleanup_page_extra cfg pa n (resp n) c1 hW
    rw [hc2] at hc3
    simp only [Option.some.injEq] at hc3
    subst hc3
    obtain ⟨sfx, hs, hty⟩ := hR
    rw [hs] at q6
    simp only [List.append_assoc] at q6
    refine ⟨_, q6, ?_⟩
    intro e he
    simp only [issued_append, List.mem_append] at he
    rcases he with he | he | he | he | he
    · exact hty e he
    · simp only [issued, List.mem_singleton] at he
      subst he; exact Or.inl rfl
    · by_cases hA : c1.m.ftl.has_current_block = false ∨
          c1.m.ftl.current_page_offset = c1.m.ftl.P
      · rw [if_pos hA] at he; simp [issued] at he
      · rw [if_neg hA] at he; simp [issued] at he
    · simp only [issued, List.mem_singleton] at he
      subst he; exact Or.inr rfl
    · cases hr : c1.m.ftl.rmap (toUlong (pa + (n : Int))) with
      | none => rw [hr] at he; simp [issued] at he
      | some e0 => rw [hr] at he; simp [issued] at he

theorem cfg2x2_ok : cfg2x2.ok := by
  unfold Config.ok cfg2x2
  decide

theorem new_cfg2x2 : Machine.new cfg2x2 = some m2x2 := rfl

theorem WF_m2x2 : WF m2x2.ftl := by
  obtain ⟨m0, h0, hI, _⟩ := Inv_new cfg2x2 cfg2x2_ok
  rw [new_cfg2x2] at h0
  simp only [Option.some.injEq] at h0
  rw [h0]; exact hI.wf

/-- The machine after a single call, when the call is defined. -/
theorem after_single (cfg : Config) (m m1 : Machine) (op : Op) (h : step cfg m op = some m1) :
    Machine.after cfg m [op] = m1 := by
  show (match step cfg m op with
    | none => none
    | some m1 => run cfg m1 []).getD m = m1
  rw [h]; rfl

/-- The state of the scenarios under `cfg2x2` after a first `write(0)` to the fresh engine
that lands on the page with linear address `b`. -/
theorem after_write2x2 (b : Nat) (hb : b < 4) :
    WF (Machine.after cfg2x2 m2x2 [write2x2 0 b]).ftl ∧
    PMT_get (Machine.after cfg2x2 m2x2 [write2x2 0 b]).ftl 0 0 0 = some (b : Int) ∧
    PMD_get (Machine.after cfg2x2 m2x2 [write2x2 0 b]).ftl 0 0 = some (b : Int) ∧
    (Machine.after cfg2x2 m2x2 [write2x2 0 b]).ftl.rmap b = some ⟨0, 0, 0⟩ ∧
    (Machine.after cfg2x2 m2x2 [write2x2 0 b]).ftl.has_current_block = true ∧
    (Machine.after cfg2x2 m2x2 [write2x2 0 b]).ftl.current_page_offset = 1 ∧
    (Machine.after cfg2x2 m2x2 [write2x2 0 b]).ftl.P = 1 ∧
    (Machine.after cfg2x2 m2x2 [write2x2 0 b]).ftl.current_blocks = {((b % 2 : Nat) : Int)} ∧
    (Machine.after cfg2x2 m2x2 [write2x2 0 b]).ftl.BML = [b % 2] := by
  obtain ⟨o, hw, w1, w2, w3, w4, w5, _, _, _, _, _, _, _, w13, w14, w15, w16, _⟩ :=
    write_view cfg2x2 m2x2 (Event.new cfg2x2 event_type.WRITE 0 1 0)
      { blk := cfg2x2.mkAddress b address_valid.BLOCK, delay := 0 }
      (cfg2x2.mkAddress b address_valid.PAGE) { ret := status.SUCCESS, delay := 1 } WF_m2x2
      _ _ _ _ _ _ rfl rfl rfl rfl rfl rfl
  have hafter : Machine.after cfg2x2 m2x2 [write2x2 0 b] = o.m := by
    apply after_single
    show Option.map (fun o => o.m) (write cfg2x2 m2x2 _ _ _ _) = some o.m
    rw [hw]; rfl
  rw [hafter]
  have hlin : (cfg2x2.mkAddress b address_valid.PAGE).get_linear_address = b := by
    show b % 18446744073709551616 = b
    omega
  have hlong : toLong b = (b : Int) := by
    unfold toLong
    split <;> omega
  rw [hlin] at w2 w3 w4
  refine ⟨w1, ?_, ?_, ?_, w13, ?_, w5, ?_, ?_⟩
  · rw [w2 0 0 0, ← hlong]; rfl
  · rw [w3 0 0, ← hlong]; rfl
  · rw [w4 b, if_pos rfl]; rfl
  · rw [w14]; rfl
  · rw [w16]; rfl
  · rw [w15]; rfl

/-- The actions of `cleanup_block`: the call is defined and every event it hands to the
Device is the READ or the WRITE of a copy. -/
theorem cleanup_block_trace (cfg : Config) (hB : 0 < cfg.BLOCK_SIZE) (m : Machine)
    (h : WF m.ftl) (event : Event) (pa : Int) (get_state : Nat → page_state)
    (resp : Nat → CopyResp) :
    ∃ o sfx, cleanup_block cfg m event pa get_state resp = some o ∧
      o.m.trace = m.trace ++ sfx ∧
      ∀ e, e ∈ issued sfx → e.type = event_type.READ ∨ e.type = event_type.WRITE := by
  obtain ⟨c, hc, _, sfx, hs, hty⟩ := cleanup_pages_trace cfg pa get_state resp
    { m := m, event := event.incr_time_taken ((m.ftl.num_pmd : ℚ) * cfg.OOB_READ_DELAY),
      ret := () } h cfg.BLOCK_SIZE
  exact ⟨_, sfx, cleanup_block_some cfg m event pa get_state resp hB c hc, hs, hty⟩

/-- C11. The rmap-based `cleanup_block` (`src/mn_ftl_v3.cpp`) does not erase the victim: in
every well-formed state and for every victim the call is defined, and among the events it
hands to the Device (the READ and the WRITE of each copy) there is no ERASE event, whereas
the specification asks for exactly one, issued after the last relocation. -/
theorem C11_cleanup_issues_no_erase (cfg : Config) (hB : 0 < cfg.BLOCK_SIZE) (m : Machine)
    (h : WF m.ftl) (event : Event) (pa : Int) (get_state : Nat → page_state)
    (resp : Nat → CopyResp) :
    ∃ o sfx, cleanup_block cfg m event pa get_state resp = some o ∧
      o.m.trace = m.trace ++ sfx ∧
      ∀ e, e ∈ issued sfx → e.type ≠ event_type.ERASE := by
  obtain ⟨o, sfx, ho, hs, hty⟩ := cleanup_block_trace cfg hB m h event pa get_state resp
  refine ⟨o, sfx, ho, hs, ?_⟩
  intro e he hE
  rcases hty e he with h1 | h1 <;> rw [h1] at hE <;> cases hE

/-- C11 at a concrete input, under `cfg2x2`: after `write(0)` landed on page 0 (block 0),
`cleanup_block` of block 0, whose page is VALID and is copied to page 1, hands no ERASE event
to the Device. -/
theorem C11_cleanup_issues_no_erase_witness :
    0 < cfg2x2.BLOCK_SIZE ∧ WF (Machine.after cfg2x2 m2x2 [write2x2 0 0]).ftl ∧
    ∃ o sfx, cleanup_block cfg2x2 (Machine.after cfg2x2 m2x2 [write2x2 0 0])
        (Event.new cfg2x2 event_type.WRITE 1 1 5) 0 (fun _ => page_state.VALID)
        (fun _ => copy2x2 1 1 1) = some o ∧
      o.m.trace = (Machine.after cfg2x2 m2x2 [write2x2 0 0]).trace ++ sfx ∧
      ∀ e, e ∈ issued sfx → e.type ≠ event_type.ERASE :=
  ⟨by decide, (after_write2x2 0 (by decide)).1,
    C11_cleanup_issues_no_erase cfg2x2 (by decide) _ (after_write2x2 0 (by decide)).1 _ 0 _ _⟩

/-- The keys of `current_blocks` across `cleanup_block`: the call is defined, the key
`physical_address / BLOCK_SIZE` is absent afterwards and every other key that was present
on entry is still present. -/
theorem cleanup_block_keys (cfg : Config) (hB : 0 < cfg.BLOCK_SIZE) (m : Machine)
    (h : WF m.ftl) (event : Event) (pa : Int) (get_state : Nat → page_state)
    (resp : Nat → CopyResp) :
    ∃ o, cleanup_block cfg m event pa get_state resp = some o ∧
      Int.tdiv pa (cfg.BLOCK_SIZE : Int) ∉ o.m.ftl.current_blocks ∧
      ∀ k, k ∈ m.ftl.current_blocks → k ≠ Int.tdiv pa (cfg.BLOCK_SIZE : Int) →
        k ∈ o.m.ftl.current_blocks := by
  obtain ⟨c, hc, _, _, _, hsub⟩ := cleanup_pages_frontier cfg pa get_state resp
    { m := m, event := event.incr_time_taken ((m.ftl.num_pmd : ℚ) * cfg.OOB_READ_DELAY),
      ret := () } h cfg.BLOCK_SIZE
  refine ⟨_, cleanup_block_some cfg m event pa get_state resp hB c hc, ?_, ?_⟩
  · show Int.tdiv pa (cfg.BLOCK_SIZE : Int) ∉
      c.m.ftl.current_blocks.erase (Int.tdiv pa (cfg.BLOCK_SIZE : Int))
    exact Finset.not_mem_erase _ _
  · intro k hk hne
    show k ∈ c.m.ftl.current_blocks.erase (Int.tdiv pa (cfg.BLOCK_SIZE : Int))
    exact Finset.mem_erase.mpr ⟨hne, hsub k hk⟩

/-- C12. The rmap-based `cleanup_block` erases the key `physical_address / BLOCK_SIZE` from
`current_blocks`, not the key `current_block.block` that `allocate_new_current_block`
inserted: in every well-formed state the call is defined and every key of `current_blocks`
other than `physical_address / BLOCK_SIZE` is still a current block afterwards.  On a device
with more than one plane the two keys differ, so the key under which the victim was recorded
stays in `current_blocks`, whereas the specification says it is removed. -/
theorem C12_stale_frontier_key (cfg : Config) (hB : 0 < cfg.BLOCK_SIZE) (m : Machine)
    (h : WF m.ftl) (event : Event) (pa : Int) (get_state : Nat → page_state)
    (resp : Nat → CopyResp) (k : Int) (hk : is_current_block m.ftl k = true)
    (hne : k ≠ Int.tdiv pa (cfg.BLOCK_SIZE : Int)) :
    ∃ o, cleanup_block cfg m event pa get_state resp = some o ∧
      is_current_block o.m.ftl k = true ∧
      is_current_block o.m.ftl (Int.tdiv pa (cfg.BLOCK_SIZE : Int)) = false := by
  obtain ⟨o, ho, h1, h2⟩ := cleanup_block_keys cfg hB m h event pa get_state resp
  refine ⟨o, ho, ?_, ?_⟩
  · unfold is_current_block at hk ⊢
    simp only [decide_eq_true_eq] at hk ⊢
    exact h2 k hk hne
  · unfold is_current_block
    simp only [decide_eq_false_iff_not]
    exact h1

/-- C12 at a concrete input, under `cfg2x2` (two planes of two blocks, one page per block):
`write(0)` opens block 0 of plane 1, whose page has linear address 2, and records it under
the key 0; `cleanup_block` of that block, copying its page to block 1 of plane 0, erases
the key 2, and the key 0 is still in `current_blocks` afterwards. -/
theorem C12_stale_frontier_key_witness :
    0 < cfg2x2.BLOCK_SIZE ∧ WF (Machine.after cfg2x2 m2x2 [write2x2 0 2]).ftl ∧
    is_current_block (Machine.after cfg2x2 m2x2 [write2x2 0 2]).ftl 0 = true ∧
    (0 : Int) ≠ Int.tdiv 2 (cfg2x2.BLOCK_SIZE : Int) ∧
    ∃ o, cleanup_block cfg2x2 (Machine.after cfg2x2 m2x2 [write2x2 0 2])
        (Event.new cfg2x2 event_type.WRITE 1 1 5) 2 (fun _ => page_state.VALID)
        (fun _ => copy2x2 1 1 1) = some o ∧
      is_current_block o.m.ftl 0 = true ∧
      is_current_block o.m.ftl (Int.tdiv 2 (cfg2x2.BLOCK_SIZE : Int)) = false := by
  have hk : is_current_block (Machine.after cfg2x2 m2x2 [write2x2 0 2]).ftl 0 = true := by
    unfold is_current_block
    rw [(after_write2x2 2 (by decide)).2.2.2.2.2.2.2.1]
    decide
  exact ⟨by decide, (after_write2x2 2 (by decide)).1, hk, by decide,
    C12_stale_frontier_key cfg2x2 (by decide) _ (after_write2x2 2 (by decide)).1 _ 2 _ _ 0 hk
      (by decide)⟩

/-- The counter `valid_page_copies` along the loop of `cleanup_block`: one more per VALID
page. -/
theorem cleanup_pages_copies (cfg : Config) (pa : Int) (get_state : Nat → page_state)
    (resp : Nat → CopyResp) (c : Outcome Unit) (h : WF c.m.ftl) :
    ∀ n, ∃ c1, cleanup_pages cfg pa get_state resp c n = some c1 ∧ WF c1.m.ftl ∧
      c1.m.stats.valid_page_copies = c.m.stats.valid_page_copies + valid_pages get_state n := by
  apply cleanup_pages_induct cfg pa get_state resp c h
    (fun n c1 => c1.m.stats.valid_page_copies =
      c.m.stats.valid_page_copies + valid_pages get_state n)
  · show _ = _ + ((0 : Nat) : Int)
    simp
  · intro n c1 _ _ hR hst
    show _ = _ + ((valid_pages get_state n + (if get_state n = page_state.VALID then 1 else 0) :
      Nat) : Int)
    rw [if_neg hst, hR]; rfl
  · intro n c1 c2 hW _ hR hst hc2
    obtain ⟨c3, hc3, _, -, -, -, -, -, q7⟩ := cleanup_page_extra cfg pa n (resp n) c1 hW
    rw [hc2] at hc3
    simp only [Option.some.injEq] at hc3
    subst hc3
    show _ = _ + ((valid_pages get_state n + (if get_state n = page_state.VALID then 1 else 0) :
      Nat) : Int)
    rw [if_pos hst, q7]
    show c1.m.stats.valid_page_copies + 1 = _
    rw [hR]; push_cast; omega

/-- The counter `valid_page_copies` across `cleanup_block`. -/
theorem cleanup_block_copies (cfg : Config) (hB : 0 < cfg.BLOCK_SIZE) (m : Machine)
    (h : WF m.ftl) (event : Event) (pa : Int) (get_state : Nat → page_state)
    (resp : Nat → CopyResp) :
    ∃ o, cleanup_block cfg m event pa get_state resp = some o ∧
      o.m.stats.valid_page_copies =
        m.stats.valid_page_copies + valid_pages get_state cfg.BLOCK_SIZE := by
  obtain ⟨c, hc, _, hcp⟩ := cleanup_pages_copies cfg pa get_state resp
    { m := m, event := event.incr_time_taken ((m.ftl.num_pmd : ℚ) * cfg.OOB_READ_DELAY),
      ret := () } h cfg.BLOCK_SIZE
  exact ⟨_, cleanup_block_some cfg m event pa get_state resp hB c hc, hcp⟩

/-- C13, counterexample.  Under `cfg2x2`, after `write(0)` landed on page 0 of block 0, block
0 is a current block; `cleanup_block` of block 0, whose page is VALID and is copied to page 1,
does not abort: it returns, one page was copied and `PMT[0][0][0]` changed from page 0 to
page 1. -/
theorem C13_frontier_protection_counterexample :
    is_current_block (Machine.after cfg2x2 m2x2 [write2x2 0 0]).ftl
      (Int.tdiv 0 (cfg2x2.BLOCK_SIZE : Int)) = true ∧
    PMT_get (Machine.after cfg2x2 m2x2 [write2x2 0 0]).ftl 0 0 0 = some 0 ∧
    ∃ o, cleanup_block cfg2x2 (Machine.after cfg2x2 m2x2 [write2x2 0 0])
        (Event.new cfg2x2 event_type.WRITE 1 1 5) 0 (fun _ => page_state.VALID)
        (fun _ => copy2x2 1 1 1) = some o ∧
      o.m.stats.valid_page_copies =
        (Machine.after cfg2x2 m2x2 [write2x2 0 0]).stats.valid_page_copies + 1 ∧
      PMT_get o.m.ftl 0 0 0 = some 1 := by
  obtain ⟨hW, hT, _, hr, _, _, _, hcb, _⟩ := after_write2x2 0 (by decide)
  refine ⟨?_, hT, ?_⟩
  · unfold is_current_block
    rw [hcb]
    decide
  · obtain ⟨c1, hc1, _, _, _, _, _, _, hv⟩ := cleanup_page_view cfg2x2 0 0 page_state.VALID
      (copy2x2 1 1 1)
      { m := Machine.after cfg2x2 m2x2 [write2x2 0 0],
        event := (Event.new cfg2x2 event_type.WRITE 1 1 5).incr_time_taken
          (((Machine.after cfg2x2 m2x2 [write2x2 0 0]).ftl.num_pmd : ℚ) *
            cfg2x2.OOB_READ_DELAY),
        ret := () } hW
    obtain ⟨c2, hc2, _, -, -, -, -, -, q7⟩ := cleanup_page_extra cfg2x2 0 0 (copy2x2 1 1 1)
      { m := Machine.after cfg2x2 m2x2 [write2x2 0 0],
        event := (Event.new cfg2x2 event_type.WRITE 1 1 5).incr_time_taken
          (((Machine.after cfg2x2 m2x2 [write2x2 0 0]).ftl.num_pmd : ℚ) *
            cfg2x2.OOB_READ_DELAY),
        ret := () } hW
    rw [hc1] at hc2
    simp only [Option.some.injEq] at hc2
    subst hc2
    have hloop : cleanup_pages cfg2x2 0 (fun _ => page_state.VALID) (fun _ => copy2x2 1 1 1)
        { m := Machine.after cfg2x2 m2x2 [write2x2 0 0],
          event := (Event.new cfg2x2 event_type.WRITE 1 1 5).incr_time_taken
            (((Machine.after cfg2x2 m2x2 [write2x2 0 0]).ftl.num_pmd : ℚ) *
              cfg2x2.OOB_READ_DELAY),
          ret := () } cfg2x2.BLOCK_SIZE = some c1 := by
      show cleanup_pages cfg2x2 0 _ _ _ (0 + 1) = some c1
      rw [cleanup_pages_succ cfg2x2 0 _ _ _ 0 _ rfl]
      exact hc1
    refine ⟨_, cleanup_block_some cfg2x2 _ _ 0 _ _ (by decide) c1 hloop, ?_, ?_⟩
    · show c1.m.stats.valid_page_copies = _
      rw [q7]
    · show PMT_get c1.m.ftl 0 0 0 = some 1
      have hr0 : (Machine.after cfg2x2 m2x2 [write2x2 0 0]).ftl.rmap
          (toUlong (0 + ((0 : Nat) : Int))) = some ⟨0, 0, 0⟩ := hr
      obtain ⟨x1, _, _⟩ := (hv rfl).2 _ hr0
      rw [x1 0 0 0]
      rfl

/-- C13, amended.  The rmap-based `cleanup_block` has no frontier check: in every well-formed
state and for every victim, also one whose block id `physical_address / BLOCK_SIZE` is in
`current_blocks`, the call does not abort; it returns having copied every VALID page of the
victim (`valid_page_copies` grows by their number), and on return that block id is not a
current block.  Keeping a frontier out of the victims is left to the caller, which can ask
`is_current_block`. -/
theorem C13_cleanup_has_no_frontier_check (cfg : Config) (hB : 0 < cfg.BLOCK_SIZE)
    (m : Machine) (h : WF m.ftl) (event : Event) (pa : Int) (get_state : Nat → page_state)
    (resp : Nat → CopyResp) :
    ∃ o, cleanup_block cfg m event pa get_state resp = some o ∧
      o.m.stats.valid_page_copies =
        m.stats.valid_page_copies + valid_pages get_state cfg.BLOCK_SIZE ∧
      is_current_block o.m.ftl (Int.tdiv pa (cfg.BLOCK_SIZE : Int)) = false := by
  obtain ⟨o, ho, hcp⟩ := cleanup_block_copies cfg hB m h event pa get_state resp
  obtain ⟨o1, ho1, hk, _⟩ := cleanup_block_keys cfg hB m h event pa get_state resp
  rw [ho] at ho1
  simp only [Option.some.injEq] at ho1
  subst ho1
  refine ⟨o, ho, hcp, ?_⟩
  unfold is_current_block
  simp only [decide_eq_false_iff_not]
  exact hk

/-- C13, amended, at a concrete input under `cfg2x2`: after `write(0)` landed on page 0 of
block 0, block 0 is a current block, and `cleanup_block` of block 0 returns with one page
copied and block 0 no longer a current block. -/
theorem C13_cleanup_has_no_frontier_check_witness :
    0 < cfg2x2.BLOCK_SIZE ∧ WF (Machine.after cfg2x2 m2x2 [write2x2 0 0]).ftl ∧
    is_current_block (Machine.after cfg2x2 m2x2 [write2x2 0 0]).ftl
      (Int.tdiv 0 (cfg2x2.BLOCK_SIZE : Int)) = true ∧
    ∃ o, cleanup_block cfg2x2 (Machine.after cfg2x2 m2x2 [write2x2 0 0])
        (Event.new cfg2x2 event_type.WRITE 1 1 5) 0 (fun _ => page_state.VALID)
        (fun _ => copy2x2 1 1 1) = some o ∧
      o.m.stats.valid_page_copies =
        (Machine.after cfg2x2 m2x2 [write2x2 0 0]).stats.valid_page_copies +
          valid_pages (fun _ => page_state.VALID) cfg2x2.BLOCK_SIZE ∧
      is_current_block o.m.ftl (Int.tdiv 0 (cfg2x2.BLOCK_SIZE : Int)) = false := by
  have hk : is_current_block (Machine.after cfg2x2 m2x2 [write2x2 0 0]).ftl
      (Int.tdiv 0 (cfg2x2.BLOCK_SIZE : Int)) = true := by
    unfold is_current_block
    rw [(after_write2x2 0 (by decide)).2.2.2.2.2.2.2.1]
    decide
  exact ⟨by decide, (after_write2x2 0 (by decide)).1, hk,
    C13_cleanup_has_no_frontier_check cfg2x2 (by decide) _ (after_write2x2 0 (by decide)).1
      _ 0 _ _⟩

/-- Ownership of the page the loop of `cleanup_block` has reached, read off the state the
loop is in. -/
theorem owns_iff (cfg : Config) (pa : Int) (get_state : Nat → page_state)
    (resp : Nat → CopyResp) (c : Outcome Unit) (L i n : Nat) (c1 : Outcome Unit)
    (hc1 : cleanup_pages cfg pa get_state resp c n = some c1) :
    owns cfg pa get_state resp c L i n ↔
      get_state n = page_state.VALID ∧
        ∃ s, c1.m.ftl.rmap (toUlong (pa + (n : Int))) = some ⟨L, i, s⟩ := by
  unfold owns
  constructor
  · rintro ⟨hv, c2, s, hc2, hr⟩
    rw [hc1] at hc2
    simp only [Option.some.injEq] at hc2
    subst hc2
    exact ⟨hv, s, hr⟩
  · rintro ⟨hv, s, hr⟩
    exact ⟨hv, c1, s, hc1, hr⟩

/-- The anchors along the loop of `cleanup_block`: after `n` iterations the anchor of a
fragment is the new page of the last page below `n` it owned, and is unchanged when it owned
none. -/
theorem cleanup_pages_anchor (cfg : Config) (pa : Int) (get_state : Nat → page_state)
    (resp : Nat → CopyResp) (c : Outcome Unit) (h : WF c.m.ftl) :
    ∀ n, ∃ c1, cleanup_pages cfg pa get_state resp c n = some c1 ∧ WF c1.m.ftl ∧
      ∀ L i,
        (∀ j, j < n → owns cfg pa get_state resp c L i j →
          (∀ k, j < k → k < n → ¬ owns cfg pa get_state resp c L i k) →
          PMD_get c1.m.ftl L i = some (toLong (resp j).newAddr.get_linear_address)) ∧
        ((∀ j, j < n → ¬ owns cfg pa get_state resp c L i j) →
          PMD_get c1.m.ftl L i = PMD_get c.m.ftl L i) := by
  apply cleanup_pages_induct cfg pa get_state resp c h
    (fun n c1 => ∀ L i,
        (∀ j, j < n → owns cfg pa get_state resp c L i j →
          (∀ k, j < k → k < n → ¬ owns cfg pa get_state resp c L i k) →
          PMD_get c1.m.ftl L i = some (toLong (resp j).newAddr.get_linear_address)) ∧
        ((∀ j, j < n → ¬ owns cfg pa get_state resp c L i j) →
          PMD_get c1.m.ftl L i = PMD_get c.m.ftl L i))
  · intro L i
    exact ⟨fun j hj => absurd hj (by omega), fun _ => rfl⟩
  · intro n c1 _ hc1 hR hst L i
    have hno : ¬ owns cfg pa get_state resp c L i n := fun ho => hst ho.1
    obtain ⟨r1, r2⟩ := hR L i
    constructor
    · intro j hj ho hlast
      have hjn : j < n := by
        rcases Nat.lt_succ_iff_lt_or_eq.mp hj with hlt | heq
        · exact hlt
        · subst heq; exact absurd ho hno
      exact r1 j hjn ho (fun k hk1 hk2 => hlast k hk1 (by omega))
    · intro hnone
      exact r2 (fun j hj => hnone j (by omega))
  · intro n c1 c2 hW hc1 hR hst hc2 L i
    obtain ⟨c3, hc3, _, _, _, _, _, _, hv⟩ :=
      cleanup_page_view cfg pa n page_state.VALID (resp n) c1 hW
    rw [hc2] at hc3
    simp only [Option.some.injEq] at hc3
    subst hc3
    obtain ⟨v1, v2⟩ := hv rfl
    obtain ⟨r1, r2⟩ := hR L i
    have hown := owns_iff cfg pa get_state resp c L i n c1 hc1
    -- the anchor of `(L, i)` after the copy of page `n`
    have hpmd : (owns cfg pa get_state resp c L i n →
          PMD_get c2.m.ftl L i = some (toLong (resp n).newAddr.get_linear_address)) ∧
        (¬ owns cfg pa get_state resp c L i n →
          PMD_get c2.m.ftl L i = PMD_get c1.m.ftl L i) := by
      cases hr : c1.m.ftl.rmap (toUlong (pa + (n : Int))) with
      | none =>
        obtain ⟨x1, _, _⟩ := v1 hr
        constructor
        · intro ho
          obtain ⟨_, s, hs⟩ := hown.mp ho
          rw [hr] at hs
          cases hs
        · intro _
          unfold PMD_get
          rw [x1]
      | some e =>
        obtain ⟨_, x2, _⟩ := v2 e hr
        constructor
        · intro ho
          obtain ⟨_, s, hs⟩ := hown.mp ho
          rw [hr] at hs
          simp only [Option.some.injEq] at hs
          subst hs
          rw [x2 L i, if_pos ⟨rfl, rfl⟩]
        · intro hno
          rw [x2 L i, if_neg]
          rintro ⟨hL, hi⟩
          apply hno
          apply hown.mpr
          refine ⟨hst, e.slot, ?_⟩
          rw [hr, hL, hi]
    constructor
    · intro j hj ho hlast
      rcases Nat.lt_succ_iff_lt_or_eq.mp hj with hlt | heq
      · have hno : ¬ owns cfg pa get_state resp c L i n := hlast n hlt (by omega)
        rw [hpmd.2 hno]
        exact r1 j hlt ho (fun k hk1 hk2 => hlast k hk1 (by omega))
      · subst heq
        exact hpmd.1 ho
    · intro hnone
      rw [hpmd.2 (hnone n (by omega))]
      exact r2 (fun j hj => hnone j (by omega))

/-- While the copies land outside the victim, the `rmap` entries of the pages the loop of
`cleanup_block` has not reached yet are those on entry. -/
theorem cleanup_pages_rmap_frame (cfg : Config) (hB32 : cfg.BLOCK_SIZE ≤ 4294967296)
    (pa : Int) (get_state : Nat → page_state) (resp : Nat → CopyResp) (c : Outcome Unit)
    (h : WF c.m.ftl)
    (hout : ∀ j k, j < cfg.BLOCK_SIZE → k < cfg.BLOCK_SIZE →
      get_state j = page_state.VALID →
      (resp j).newAddr.get_linear_address ≠ toUlong (pa + (k : Int))) :
    ∀ n, ∃ c1, cleanup_pages cfg pa get_state resp c n = some c1 ∧ WF c1.m.ftl ∧
      ∀ j, n ≤ j → j < cfg.BLOCK_SIZE →
        c1.m.ftl.rmap (toUlong (pa + (j : Int))) = c.m.ftl.rmap (toUlong (pa + (j : Int))) := by
  apply cleanup_pages_induct cfg pa get_state resp c h
    (fun n c1 => ∀ j, n ≤ j → j < cfg.BLOCK_SIZE →
        c1.m.ftl.rmap (toUlong (pa + (j : Int))) = c.m.ftl.rmap (toUlong (pa + (j : Int))))
  · intro j _ _; rfl
  · intro n c1 _ _ hR _ j hj1 hj2
    exact hR j (by omega) hj2
  · intro n c1 c2 hW _ hR hst hc2 j hj1 hj2
    obtain ⟨c3, hc3, _, _, _, _, _, _, hv⟩ :=
      cleanup_page_view cfg pa n page_state.VALID (resp n) c1 hW
    rw [hc2] at hc3
    simp only [Option.some.injEq] at hc3
    subst hc3
    obtain ⟨v1, v2⟩ := hv rfl
    rw [← hR j (by omega) hj2]
    cases hr : c1.m.ftl.rmap (toUlong (pa + (n : Int))) with
    | none =>
      obtain ⟨_, _, x3⟩ := v1 hr
      rw [x3]
    | some e =>
      obtain ⟨_, _, x3⟩ := v2 e hr
      rw [x3, if_neg, if_neg]
      · intro heq
        have := toUlong_add_inj pa j n (by omega) (by omega) heq
        omega
      · intro heq
        exact hout n j (by omega) hj2 hst heq.symm

/-- C14. Cleanup anchor rule of the rmap-based engine.  In every well-formed state and for
every victim, `cleanup_block` is defined; its loop treats the pages in ascending offset order
(iteration `n + 1` continues from the state iteration `n` left); for every fragment `(L, i)`,
if page `j` of the victim is the highest-offset page that is VALID and recorded by `rmap` as a
page of `(L, i)` when the loop reaches it, then on return `PMD[L][i]` is the page that page
`j` was copied to, and if no page of the victim is such a page then `PMD[L][i]` is as on
entry.  When the victim has at most `2^32` pages and every copy lands outside the victim,
"recorded by `rmap` when the loop reaches it" is the same as "recorded by `rmap` on
entry". -/
theorem C14_cleanup_anchor_rule (cfg : Config) (hB : 0 < cfg.BLOCK_SIZE) (m : Machine)
    (h : WF m.ftl) (event : Event) (pa : Int) (get_state : Nat → page_state)
    (resp : Nat → CopyResp) :
    ∃ o, cleanup_block cfg m event pa get_state resp = some o ∧
      (∀ c n, cleanup_pages cfg pa get_state resp c (n + 1) =
        (cleanup_pages cfg pa get_state resp c n).bind
          (cleanup_page cfg pa n (get_state n) (resp n))) ∧
      (∀ L i,
        (∀ j, j < cfg.BLOCK_SIZE →
          owns cfg pa get_state resp
            { m := m,
              event := event.incr_time_taken ((m.ftl.num_pmd : ℚ) * cfg.OOB_READ_DELAY),
              ret := () } L i j →
          (∀ k, j < k → k < cfg.BLOCK_SIZE →
            ¬ owns cfg pa get_state resp
              { m := m,
                event := event.incr_time_taken ((m.ftl.num_pmd : ℚ) * cfg.OOB_READ_DELAY),
                ret := () } L i k) →
          PMD_get o.m.ftl L i = some (toLong (resp j).newAddr.get_linear_address)) ∧
        ((∀ j, j < cfg.BLOCK_SIZE →
            ¬ owns cfg pa get_state resp
              { m := m,
                event := event.incr_time_taken ((m.ftl.num_pmd : ℚ) * cfg.OOB_READ_DELAY),
                ret := () } L i j) →
          PMD_get o.m.ftl L i = PMD_get m.ftl L i)) ∧
      (cfg.BLOCK_SIZE ≤ 4294967296 →
        (∀ j k, j < cfg.BLOCK_SIZE → k < cfg.BLOCK_SIZE →
          get_state j = page_state.VALID →
          (resp j).newAddr.get_linear_address ≠ toUlong (pa + (k : Int))) →
        ∀ L i j, j < cfg.BLOCK_SIZE →
          (owns cfg pa get_state resp
              { m := m,
                event := event.incr_time_taken ((m.ftl.num_pmd : ℚ) * cfg.OOB_READ_DELAY),
                ret := () } L i j ↔
            get_state j = page_state.VALID ∧
              ∃ s, m.ftl.rmap (toUlong (pa + (j : Int))) = some ⟨L, i, s⟩)) := by
  obtain ⟨c, hc, _, hanch⟩ := cleanup_pages_anchor cfg pa get_state resp
    { m := m, event := event.incr_time_taken ((m.ftl.num_pmd : ℚ) * cfg.OOB_READ_DELAY),
      ret := () } h cfg.BLOCK_SIZE
  refine ⟨_, cleanup_block_some cfg m event pa get_state resp hB c hc, ?_, ?_, ?_⟩
  · intro c0 n
    show (match cleanup_pages cfg pa get_state resp c0 n with
      | none => none
      | some c1 => cleanup_page cfg pa n (get_state n) (resp n) c1) = _
    cases cleanup_pages cfg pa get_state resp c0 n <;> rfl
  · intro L i
    exact hanch L i
  · intro hB32 hout L i j hj
    obtain ⟨c1, hc1, _, hfr⟩ := cleanup_pages_rmap_frame cfg hB32 pa get_state resp
      { m := m, event := event.incr_time_taken ((m.ftl.num_pmd : ℚ) * cfg.OOB_READ_DELAY),
        ret := () } h hout j
    rw [owns_iff cfg pa get_state resp _ L i j c1 hc1, hfr j (Nat.le_refl j) hj]

theorem read_ftl_of_some (cfg : Config) (m : Machine) (event : Event) (dev : IssueResp)
    (o : Outcome status) (h : read cfg m event dev = some o) : o.m.ftl = m.ftl := by
  unfold read at h
  simp only [issue, Machine.log] at h
  repeat' split at h
  all_goals first
    | exact Option.noConfusion h
    | (simp only [Option.some.injEq] at h; subst h; rfl)

theorem trim_frontier_of_some (cfg : Config) (m : Machine) (event : Event) (dev : IssueResp)
    (o : Outcome status) (h : trim cfg m event dev = some o) :
    o.m.ftl.P = m.ftl.P ∧ o.m.ftl.current_page_offset = m.ftl.current_page_offset := by
  unfold trim at h
  simp only [issue, Machine.log, Machine.setFtl, PMT_set, rmap_erase] at h
  repeat' split at h
  all_goals first
    | exact Option.noConfusion h
    | (simp only [Option.some.injEq] at h; subst h; exact ⟨rfl, rfl⟩)
    | skip
  rename_i hm3
  simp only [Option.some.injEq] at h
  subst h
  repeat' split at hm3
  all_goals first
    | exact Option.noConfusion hm3
    | (simp only [Option.some.injEq] at hm3; subst hm3; exact ⟨rfl, rfl⟩)

theorem ensure_rows_frontier (m : Machine) (L : Nat) :
    (ensure_rows m L).ftl.P = m.ftl.P ∧
      (ensure_rows m L).ftl.current_page_offset = m.ftl.current_page_offset := by
  unfold ensure_rows
  cases hD : m.ftl.PMD L <;> cases hT : m.ftl.PMT L <;>
    simp [Machine.log, Machine.setFtl, hD, hT]

theorem store_mapping_frontier (f : FtlImpl_MNftl) (lbn idx slot : Nat) (old : Int)
    (new : Nat) :
    (store_mapping f lbn idx slot old new).P = f.P ∧
      (store_mapping f lbn idx slot old new).current_page_offset = f.current_page_offset := by
  unfold store_mapping
  by_cases ho : old ≠ -1
  · simp only [if_pos ho]; exact ⟨rfl, rfl⟩
  · simp only [if_neg ho]; exact ⟨rfl, rfl⟩

theorem write_frontier_of_some (cfg : Config) (m : Machine) (event : Event) (fb : BlockResp)
    (newAddr : Address) (dev : IssueResp) (o : Outcome status)
    (h : write cfg m event fb newAddr dev = some o) :
    o.m.ftl.P = m.ftl.P ∧
      o.m.ftl.current_page_offset =
        (if m.ftl.has_current_block = false ∨ m.ftl.current_page_offset = m.ftl.P then 0
          else m.ftl.current_page_offset) + 1 := by
  unfold write at h
  simp only at h
  split at h
  · exact Option.noConfusion h
  split at h
  · exact Option.noConfusion h
  unfold write_core at h
  simp only at h
  split at h
  · exact Option.noConfusion h
  unfold alloc_page_in_current_block at h
  split at h
  · exact Option.noConfusion h
  rename_i halloc
  split at halloc
  · simp only [Option.some.injEq, Prod.mk.injEq] at halloc
    obtain ⟨hm4, _, _⟩ := halloc
    subst hm4
    split at h
    · exact Option.noConfusion h
    simp only [Option.some.injEq] at h
    subst h
    obtain ⟨s1, s2⟩ := store_mapping_frontier
      (incr_offset ((ensure_rows (ensure_frontier
        { m with stats := { m.stats with numFTLWrite := m.stats.numFTLWrite + 1 } }
        event fb).1 (lbn_of m.ftl.P event.logical_address)).log [Action.get_free_page])).ftl
      (lbn_of m.ftl.P event.logical_address)
      (pmd_index_of (ensure_frontier
        { m with stats := { m.stats with numFTLWrite := m.stats.numFTLWrite + 1 } }
        event fb).1.ftl.P (ensure_frontier
        { m with stats := { m.stats with numFTLWrite := m.stats.numFTLWrite + 1 } }
        event fb).1.ftl.Q event.logical_address)
      (map_slot_of (ensure_frontier
        { m with stats := { m.stats with numFTLWrite := m.stats.numFTLWrite + 1 } }
        event fb).1.ftl.P (ensure_frontier
        { m with stats := { m.stats with numFTLWrite := m.stats.numFTLWrite + 1 } }
        event fb).1.ftl.Q event.logical_address) _ newAddr.get_linear_address
    obtain ⟨r1, r2⟩ := ensure_rows_frontier (ensure_frontier
        { m with stats := { m.stats with numFTLWrite := m.stats.numFTLWrite + 1 } }
        event fb).1 (lbn_of m.ftl.P event.logical_address)
    obtain ⟨e1, _⟩ := ensure_frontier_ftl
        { m with stats := { m.stats with numFTLWrite := m.stats.numFTLWrite + 1 } } event fb
    obtain ⟨f1, _⟩ := ensure_frontier_fields
        { m with stats := { m.stats with numFTLWrite := m.stats.numFTLWrite + 1 } } event fb
    constructor
    · refine Eq.trans ?_ (Eq.trans s1 (Eq.trans r1 e1))
      rename_i hl _ _ _ _ _ _
      subst hl
      rfl
    · rename_i hl _ _ _ _ _ _
      subst hl
      refine Eq.trans s2 ?_
      show (ensure_rows _ _).ftl.current_page_offset + 1 = _
      rw [r2, f1]
  · exact Option.noConfusion halloc

theorem remap_frontier_of_some (m : Machine) (old new : Nat) (m1 : Machine)
    (h : remap m old new = some m1) :
    m1.ftl.P = m.ftl.P ∧ m1.ftl.current_page_offset = m.ftl.current_page_offset := by
  unfold remap at h
  split at h
  · simp only [Option.some.injEq] at h; subst h; exact ⟨rfl, rfl⟩
  · split at h
    · exact Option.noConfusion h
    · simp only at h
      split at h
      · exact Option.noConfusion h
      · simp only [Option.some.injEq] at h; subst h; exact ⟨rfl, rfl⟩

theorem cleanup_page_frontier_of_some (cfg : Config) (pa : Int) (i : Nat) (st : page_state)
    (r : CopyResp) (c c1 : Outcome Unit) (h : cleanup_page cfg pa i st r c = some c1) :
    c1.m.ftl.P = c.m.ftl.P ∧
      c1.m.ftl.current_page_offset =
        (if st = page_state.VALID then
          (if c.m.ftl.has_current_block = false ∨ c.m.ftl.current_page_offset = c.m.ftl.P
            then 0 else c.m.ftl.current_page_offset) + 1
        else c.m.ftl.current_page_offset) := by
  unfold cleanup_page at h
  by_cases hst : st = page_state.VALID
  · simp only [hst, ne_eq, not_true_eq_false, if_false] at h
    rw [if_pos hst]
    obtain ⟨e1, _⟩ := ensure_frontier_ftl
      (issue c.m ((Event.new cfg event_type.READ c.event.logical_address 1
        c.event.start_time).set_address (cfg.mkAddress
          (toUlong (pa + (i : Int)) % 4294967296) address_valid.PAGE)) r.rd).m
      c.event r.fb
    obtain ⟨f1, _⟩ := ensure_frontier_fields
      (issue c.m ((Event.new cfg event_type.READ c.event.logical_address 1
        c.event.start_time).set_address (cfg.mkAddress
          (toUlong (pa + (i : Int)) % 4294967296) address_valid.PAGE)) r.rd).m
      c.event r.fb
    generalize ensure_frontier
      (issue c.m ((Event.new cfg event_type.READ c.event.logical_address 1
        c.event.start_time).set_address (cfg.mkAddress
          (toUlong (pa + (i : Int)) % 4294967296) address_valid.PAGE)) r.rd).m
      c.event r.fb = X at h e1 f1
    obtain ⟨m2, event2⟩ := X
    simp only [issue, Machine.log] at e1 f1
    simp only at h
    unfold alloc_page_in_current_block at h
    split at h
    · exact Option.noConfusion h
    rename_i halloc
    split at halloc
    · simp only [Option.some.injEq, Prod.mk.injEq] at halloc
      obtain ⟨hm4, _, _⟩ := halloc
      subst hm4
      split at h
      · exact Option.noConfusion h
      rename_i m7 hm7
      simp only [Option.some.injEq] at h
      subst h
      obtain ⟨s1, s2⟩ := remap_frontier_of_some _ _ _ _ hm7
      constructor
      · exact Eq.trans s1 e1
      · refine Eq.trans s2 ?_
        show m2.ftl.current_page_offset + 1 = _
        rw [f1]
    · exact Option.noConfusion halloc
  · simp only [hst, ne_eq, not_false_eq_true, if_true, Option.some.injEq] at h
    subst h
    rw [if_neg hst]
    exact ⟨rfl, rfl⟩

theorem cleanup_pages_pred (cfg : Config) (pa : Int) (get_state : Nat → page_state)
    (resp : Nat → CopyResp) (c : Outcome Unit) (n : Nat) (c2 : Outcome Unit)
    (h : cleanup_pages cfg pa get_state resp c (n + 1) = some c2) :
    ∃ c1, cleanup_pages cfg pa get_state resp c n = some c1 ∧
      cleanup_page cfg pa n (get_state n) (resp n) c1 = some c2 := by
  cases hc : cleanup_pages cfg pa get_state resp c n with
  | none =>
    have : cleanup_pages cfg pa get_state resp c (n + 1) = none := by
      show (match cleanup_pages cfg pa get_state resp c n with
        | none => none
        | some c1 => cleanup_page cfg pa n (get_state n) (resp n) c1) = none
      rw [hc]
    rw [this] at h
    exact Option.noConfusion h
  | some c1 =>
    rw [cleanup_pages_succ cfg pa get_state resp c n c1 hc] at h
    exact ⟨c1, rfl, h⟩

theorem cleanup_pages_frontier_of_some (cfg : Config) (pa : Int)
    (get_state : Nat → page_state) (resp : Nat → CopyResp) (c : Outcome Unit)
    (hP : 0 < c.m.ftl.P) :
    ∀ n c1, cleanup_pages cfg pa get_state resp c n = some c1 →
      c1.m.ftl.P = c.m.ftl.P ∧
        (c.m.ftl.current_page_offset ≤ c.m.ftl.P →
          c1.m.ftl.current_page_offset ≤ c1.m.ftl.P)
  | 0, c1, h => by
    simp only [cleanup_pages, Option.some.injEq] at h
    subst h
    exact ⟨rfl, fun hle => hle⟩
  | n + 1, c2, h => by
    obtain ⟨c1, hc1, hc2⟩ := cleanup_pages_pred cfg pa get_state resp c n c2 h
    obtain ⟨r1, r2⟩ := cleanup_pages_frontier_of_some cfg pa get_state resp c hP n c1 hc1
    obtain ⟨s1, s2⟩ := cleanup_page_frontier_of_some cfg pa n (get_state n) (resp n) c1 c2 hc2
    refine ⟨by rw [s1, r1], ?_⟩
    intro hle
    have hle1 := r2 hle
    rw [s2, s1]
    by_cases hst : get_state n = page_state.VALID
    · rw [if_pos hst]
      by_cases hA : c1.m.ftl.has_current_block = false ∨
          c1.m.ftl.current_page_offset = c1.m.ftl.P
      · rw [if_pos hA]; omega
      · rw [if_neg hA]
        have : c1.m.ftl.current_page_offset ≠ c1.m.ftl.P := fun hh => hA (Or.inr hh)
        omega
    · rw [if_neg hst]; exact hle1

theorem cleanup_block_frontier_of_some (cfg : Config) (m : Machine) (event : Event) (pa : Int)
    (get_state : Nat → page_state) (resp : Nat → CopyResp) (o : Outcome Unit)
    (h : cleanup_block cfg m event pa get_state resp = some o) :
    ∃ c, cleanup_pages cfg pa get_state resp
        { m := m, event := event.incr_time_taken ((m.ftl.num_pmd : ℚ) * cfg.OOB_READ_DELAY),
          ret := () } cfg.BLOCK_SIZE = some c ∧
      o.m.ftl.P = c.m.ftl.P ∧ o.m.ftl.current_page_offset = c.m.ftl.current_page_offset := by
  unfold cleanup_block at h
  simp only at h
  split at h
  · exact Option.noConfusion h
  · rename_i c hc
    split at h
    · exact Option.noConfusion h
    · simp only [Option.some.injEq] at h
      subst h
      exact ⟨c, hc, rfl, rfl⟩

theorem step_frontier_of_some (cfg : Config) (m : Machine) (op : Op) (m1 : Machine)
    (hP : 0 < m.ftl.P) (h : step cfg m op = some m1) :
    m1.ftl.P = m.ftl.P ∧
      (m.ftl.current_page_offset ≤ m.ftl.P → m1.ftl.current_page_offset ≤ m1.ftl.P) := by
  cases op with
  | read event dev =>
    simp only [step, Option.map_eq_some'] at h
    obtain ⟨o, ho, rfl⟩ := h
    rw [read_ftl_of_some cfg m event dev o ho]
    exact ⟨rfl, fun hle => hle⟩
  | trim event dev =>
    simp only [step, Option.map_eq_some'] at h
    obtain ⟨o, ho, rfl⟩ := h
    obtain ⟨t1, t2⟩ := trim_frontier_of_some cfg m event dev o ho
    rw [t1, t2]
    exact ⟨rfl, fun hle => hle⟩
  | write event fb newAddr dev =>
    simp only [step, Option.map_eq_some'] at h
    obtain ⟨o, ho, rfl⟩ := h
    obtain ⟨t1, t2⟩ := write_frontier_of_some cfg m event fb newAddr dev o ho
    rw [t1, t2]
    refine ⟨rfl, fun hle => ?_⟩
    by_cases hA : m.ftl.has_current_block = false ∨ m.ftl.current_page_offset = m.ftl.P
    · rw [if_pos hA]; omega
    · rw [if_neg hA]
      have : m.ftl.current_page_offset ≠ m.ftl.P := fun hh => hA (Or.inr hh)
      omega
  | cleanup_block event pa get_state resp =>
    simp only [step, Option.map_eq_some'] at h
    obtain ⟨o, ho, rfl⟩ := h
    obtain ⟨c, hc, t1, t2⟩ := cleanup_block_frontier_of_some cfg m event pa get_state resp o ho
    obtain ⟨r1, r2⟩ := cleanup_pages_frontier_of_some cfg pa get_state resp _ hP _ c hc
    rw [t1, t2]
    exact ⟨r1, r2⟩

theorem run_frontier_of_some (cfg : Config) :
    ∀ (ops : List Op) (m m1 : Machine), 0 < m.ftl.P → run cfg m ops = some m1 →
      m1.ftl.P = m.ftl.P ∧
        (m.ftl.current_page_offset ≤ m.ftl.P → m1.ftl.current_page_offset ≤ m1.ftl.P)
  | [], m, m1, _, h => by
    simp only [run, Option.some.injEq] at h
    subst h
    exact ⟨rfl, fun hle => hle⟩
  | op :: ops, m, m1, hP, h => by
    cases hs : step cfg m op with
    | none =>
      have : run cfg m (op :: ops) = none := by
        show (match step cfg m op with
          | none => none
          | some m1 => run cfg m1 ops) = none
        rw [hs]
      rw [this] at h
      exact Option.noConfusion h
    | some m2 =>
      have hr : run cfg m (op :: ops) = run cfg m2 ops := by
        show (match step cfg m op with
          | none => none
          | some m1 => run cfg m1 ops) = _
        rw [hs]
      rw [hr] at h
      obtain ⟨s1, s2⟩ := step_frontier_of_some cfg m op m2 hP hs
      obtain ⟨r1, r2⟩ := run_frontier_of_some cfg ops m2 m1 (by rw [s1]; exact hP) h
      exact ⟨by rw [r1, s1], fun hle => r2 (s2 hle)⟩

theorem new_frontier (cfg : Config) (m0 : Machine) (h : Machine.new cfg = some m0) :
    m0.ftl.P = cfg.BLOCK_SIZE ∧ m0.ftl.current_page_offset = 0 := by
  unfold Machine.new FtlImpl_MNftl.new at h
  simp only at h
  split at h
  · exact Option.noConfusion h
  · split at h
    · exact Option.noConfusion h
    · simp only [Option.map_some', Option.some.injEq] at h
      subst h
      exact ⟨rfl, rfl⟩

/-- Under an accepted configuration the engine can be constructed and every sequence of
calls is defined. -/
theorem run_total (cfg : Config) (hok : cfg.ok) :
    ∃ m0, Machine.new cfg = some m0 ∧ WF m0.ftl ∧ m0.ftl.P = cfg.BLOCK_SIZE ∧
      ∀ ops, ∃ m, run cfg m0 ops = some m ∧ WF m.ftl := by
  obtain ⟨m0, h0, hI, hP, _⟩ := Inv_new cfg hok
  exact ⟨m0, h0, hI.wf, hP, fun ops => WF_run cfg hok.1 ops m0 hI.wf⟩

/-- C15. Write-frontier bound (I4/P3) of the rmap-based engine, for `P = BLOCK_SIZE ≥ 1`.
In every state `m` reached from the constructed engine by a sequence of `read`, `write`,
`trim` and `cleanup_block` calls, `current_page_offset ≤ P` (it is unsigned, so `0 ≤` holds
by type).  From such a state, `read` and `trim` leave the offset as it is; `write` leaves it
at `(if the frontier test fires then 0 else the offset on entry) + 1`; each iteration of the
loop of `cleanup_block` leaves it unchanged for a page that is not VALID and at
`(if the frontier test fires then 0 else the offset before the copy) + 1` for a VALID page,
and the end of `cleanup_block` does not touch it.  So the offset returns to 0 only when
`!has_current_block || current_page_offset == P` holds, which is where
`allocate_new_current_block` is called, and every page allocation adds exactly 1.  Under an
accepted configuration (`Config.ok`) the engine can be constructed and every call sequence is
defined, so such states exist. -/
theorem C15_frontier_bound (cfg : Config) (hP : 0 < cfg.BLOCK_SIZE) :
    (∀ m0 ops m, Machine.new cfg = some m0 → run cfg m0 ops = some m →
      m.ftl.P = cfg.BLOCK_SIZE ∧ m.ftl.current_page_offset ≤ m.ftl.P ∧
      (∀ event dev o, read cfg m event dev = some o →
        o.m.ftl.current_page_offset = m.ftl.current_page_offset) ∧
      (∀ event dev o, trim cfg m event dev = some o →
        o.m.ftl.current_page_offset = m.ftl.current_page_offset) ∧
      (∀ event fb newAddr dev o, write cfg m event fb newAddr dev = some o →
        o.m.ftl.current_page_offset =
          (if m.ftl.has_current_block = false ∨ m.ftl.current_page_offset = m.ftl.P then 0
            else m.ftl.current_page_offset) + 1) ∧
      (∀ event pa get_state resp n c1 c2,
        cleanup_pages cfg pa get_state resp { m := m, event := event, ret := () } n =
          some c1 →
        cleanup_pages cfg pa get_state resp { m := m, event := event, ret := () } (n + 1) =
          some c2 →
        c1.m.ftl.current_page_offset ≤ c1.m.ftl.P ∧
        c2.m.ftl.current_page_offset =
          (if get_state n = page_state.VALID then
            (if c1.m.ftl.has_current_block = false ∨
                c1.m.ftl.current_page_offset = c1.m.ftl.P then 0
              else c1.m.ftl.current_page_offset) + 1
          else c1.m.ftl.current_page_offset)) ∧
      (∀ event pa get_state resp o, cleanup_block cfg m event pa get_state resp = some o →
        ∃ c, cleanup_pages cfg pa get_state resp
            { m := m,
              event := event.incr_time_taken ((m.ftl.num_pmd : ℚ) * cfg.OOB_READ_DELAY),
              ret := () } cfg.BLOCK_SIZE = some c ∧
          o.m.ftl.current_page_offset = c.m.ftl.current_page_offset)) ∧
    (cfg.ok → ∃ m0, Machine.new cfg = some m0 ∧ ∀ ops, ∃ m, run cfg m0 ops = some m) := by
  constructor
  · intro m0 ops m h0 hm
    obtain ⟨n1, n2⟩ := new_frontier cfg m0 h0
    have hP0 : 0 < m0.ftl.P := by rw [n1]; exact hP
    obtain ⟨r1, r2⟩ := run_frontier_of_some cfg ops m0 m hP0 hm
    have hle : m.ftl.current_page_offset ≤ m.ftl.P := r2 (by rw [n2]; exact Nat.zero_le _)
    have hPm : 0 < m.ftl.P := by rw [r1]; exact hP0
    refine ⟨by rw [r1, n1], hle, ?_, ?_, ?_, ?_, ?_⟩
    · intro event dev o ho
      rw [read_ftl_of_some cfg m event dev o ho]
    · intro event dev o ho
      exact (trim_frontier_of_some cfg m event dev o ho).2
    · intro event fb newAddr dev o ho
      exact (write_frontier_of_some cfg m event fb newAddr dev o ho).2
    · intro event pa get_state resp n c1 c2 hc1 hc2
      rw [cleanup_pages_succ cfg pa get_state resp _ n c1 hc1] at hc2
      obtain ⟨_, q2⟩ := cleanup_pages_frontier_of_some cfg pa get_state resp
        { m := m, event := event, ret := () } hPm n c1 hc1
      exact ⟨q2 hle,
        (cleanup_page_frontier_of_some cfg pa n (get_state n) (resp n) c1 c2 hc2).2⟩
    · intro event pa get_state resp o ho
      obtain ⟨c, hc, _, t2⟩ :=
        cleanup_block_frontier_of_some cfg m event pa get_state resp o ho
      exact ⟨c, hc, t2⟩
  · intro hok
    obtain ⟨m0, h0, _, _, htot⟩ := run_total cfg hok
    exact ⟨m0, h0, fun ops => (htot ops).imp (fun _ hm => hm.1)⟩

/-- C15 at a concrete input, under `cfg64`: the state after the 65 sequential writes
`write(0), …, write(64)` exists and its offset is at most `P`. -/
theorem C15_frontier_bound_witness :
    0 < cfg64.BLOCK_SIZE ∧
    ∃ m, run cfg64 m64 (seq_writes 0 0 64 ++ seq_writes 64 64 1) = some m ∧
      m.ftl.P = cfg64.BLOCK_SIZE ∧ m.ftl.current_page_offset ≤ m.ftl.P := by
  obtain ⟨hA, hT⟩ := C15_frontier_bound cfg64 (by decide)
  obtain ⟨m0, h0, htot⟩ := hT cfg64_ok
  rw [new_cfg64] at h0
  simp only [Option.some.injEq] at h0
  subst h0
  obtain ⟨m, hm⟩ := htot (seq_writes 0 0 64 ++ seq_writes 64 64 1)
  obtain ⟨a1, a2, _⟩ := hA m64 _ m new_cfg64 hm
  exact ⟨by decide, m, hm, a1, a2⟩

/-- The actions of `write`, in program order: the request of a block when the frontier test
fires, the lazy creation of the two rows, the allocation of the page, the updates of the
mapping store and the single issue to the Device. -/
theorem write_trace (cfg : Config) (m : Machine) (event : Event) (fb : BlockResp)
    (newAddr : Address) (dev : IssueResp) (h : WF m.ftl) (lbn idx slot : Nat) (old : Int)
    (hlbn : lbn = lbn_of m.ftl.P event.logical_address)
    (hidx : idx = pmd_index_of m.ftl.P m.ftl.Q event.logical_address)
    (hslot : slot = map_slot_of m.ftl.P m.ftl.Q event.logical_address)
    (hold : old = (PMT_get m.ftl lbn idx slot).getD (-1)) :
    ∃ o ev, write cfg m event fb newAddr dev = some o ∧
      o.event = ev.incr_time_taken dev.delay ∧
      o.m.trace = m.trace ++
        (if m.ftl.has_current_block = false ∨ m.ftl.current_page_offset = m.ftl.P then
          [Action.get_free_block] else []) ++
        (if m.ftl.PMD lbn = none then [Action.pmd_create lbn] else []) ++
        (if m.ftl.PMT lbn = none then [Action.pmt_create lbn] else []) ++
        [Action.get_free_page] ++
        store_mapping_actions lbn idx slot old newAddr.get_linear_address ++
        [Action.issue ev] := by
  generalize hm1e : ({ m with stats := { m.stats with
    numFTLWrite := m.stats.numFTLWrite + 1 } } : Machine) = m1
  have hf1 : m1.ftl = m.ftl := by rw [← hm1e]
  have ht1 : m1.trace = m.trace := by rw [← hm1e]
  have hm1 : WF m1.ftl := by rw [hf1]; exact h
  obtain ⟨e1, e2, e3, e4, e5, e6, e7⟩ := ensure_frontier_ftl m1 event fb
  have et := ensure_frontier_trace m1 event fb
  have hWF2 : WF (ensure_frontier m1 event fb).1.ftl := WF_of_fields _ _ hm1 e1 e2 e3 e4 e5 e6
  generalize hm2e : (ensure_frontier m1 event fb).1 = m2 at *
  generalize hev2 : (ensure_frontier m1 event fb).2 = event2 at *
  obtain ⟨v1, v2, v3, v4, v5, v6, v7, v8, v9, v10, v11, v12, v13, v14, v15, v16⟩ :=
    ensure_rows_view m2 hWF2 lbn
  have vt := ensure_rows_trace m2 lbn
  generalize hm3e : ensure_rows m2 lbn = m3 at *
  have hi : idx < m3.ftl.num_pmd := by
    rw [v9, e3, hidx, hf1]; exact pmd_index_lt m.ftl h _
  have hs : slot < m3.ftl.Q := by
    rw [v8, e2, hslot, hf1]; exact map_slot_lt m.ftl h _
  have hcur : m3.ftl.has_current_block = true := by rw [v11, e7]
  obtain ⟨anchor1, old1, ha, ho, hw⟩ :=
    write_core_view cfg m3 event2 lbn idx slot newAddr dev v1 v2 hi hs hcur
  have hPMTeq : ∀ L i s, PMT_get m2.ftl L i s = PMT_get m.ftl L i s := by
    intro L i s; unfold PMT_get; rw [e5, hf1]
  have hold1 : old1 = old := by
    rw [hold]
    have := v4 lbn idx slot
    rw [ho] at this
    by_cases hn : m2.ftl.PMT lbn = none
    · have hn2 : m.ftl.PMT lbn = none := by rw [← hf1, ← e5]; exact hn
      have hg : PMT_get m.ftl lbn idx slot = none := by unfold PMT_get; simp [hn2]
      rw [hg]
      rw [if_pos ⟨rfl, hn⟩] at this
      rw [if_pos ⟨by rw [← v9]; exact hi, by rw [← v8]; exact hs⟩] at this
      simpa using this
    · rw [if_neg (fun hc => hn hc.2), hPMTeq] at this
      rw [← this]; rfl
  subst hold1
  have hwrite : write cfg m event fb newAddr dev =
      write_core cfg m3 event2 lbn idx slot newAddr dev := by
    unfold write
    have hP : m1.ftl.P ≠ 0 := by have := hm1.P_pos; omega
    have hQ : m2.ftl.Q ≠ 0 := by have := hWF2.Q_pos; omega
    have hP2 : m.ftl.P ≠ 0 := by have := h.P_pos; omega
    simp only [hm1e, hP, hP2, if_false, hm2e, hQ, hev2]
    rw [← hlbn, e1, e2, hf1, ← hidx, ← hslot, hm3e]
  rw [hwrite, hw]
  refine ⟨_, _, rfl, rfl, ?_⟩
  show ((m3.trace ++ [Action.get_free_page]) ++
    store_mapping_actions lbn idx slot old1 newAddr.get_linear_address) ++ [Action.issue _] = _
  rw [vt, et, ht1, e4, e5, hf1]

/-- The number of blocks requested across `write`: one more exactly when the frontier test
fires. -/
theorem write_blocks_requested (cfg : Config) (m : Machine) (event : Event) (fb : BlockResp)
    (newAddr : Address) (dev : IssueResp) (h : WF m.ftl) :
    ∃ o, write cfg m event fb newAddr dev = some o ∧
      blocks_requested o.m.trace = blocks_requested m.trace +
        (if m.ftl.has_current_block = false ∨ m.ftl.current_page_offset = m.ftl.P then 1
          else 0) := by
  obtain ⟨o, ev, ho, _, ht⟩ := write_trace cfg m event fb newAddr dev h _ _ _ _ rfl rfl rfl rfl
  refine ⟨o, ho, ?_⟩
  rw [ht]
  simp only [blocks_requested_append]
  have h1 : ∀ L, blocks_requested
      (if m.ftl.PMD L = none then [Action.pmd_create L] else []) = 0 := by
    intro L; split <;> rfl
  have h2 : ∀ L, blocks_requested
      (if m.ftl.PMT L = none then [Action.pmt_create L] else []) = 0 := by
    intro L; split <;> rfl
  have h3 : ∀ L i s old new, blocks_requested (store_mapping_actions L i s old new) = 0 := by
    intro L i s old new
    unfold store_mapping_actions
    rw [blocks_requested_append]
    split <;> rfl
  have h4 : blocks_requested
      (if m.ftl.has_current_block = false ∨ m.ftl.current_page_offset = m.ftl.P then
        [Action.get_free_block] else []) =
      (if m.ftl.has_current_block = false ∨ m.ftl.current_page_offset = m.ftl.P then 1
        else 0) := by
    split <;> rfl
  rw [h1, h2, h3, h4]
  rfl

theorem new_fields (cfg : Config) (m0 : Machine) (h : Machine.new cfg = some m0) :
    m0.ftl.has_current_block = false ∧ m0.ftl.BML = [] ∧ m0.trace = [] ∧
      m0.ftl.current_page_offset = 0 ∧ m0.ftl.current_blocks = ∅ := by
  unfold Machine.new FtlImpl_MNftl.new at h
  simp only at h
  split at h
  · exact Option.noConfusion h
  · split at h
    · exact Option.noConfusion h
    · simp only [Option.map_some', Option.some.injEq] at h
      subst h
      exact ⟨rfl, rfl, rfl, rfl, rfl⟩

/-- One `write` in a state that `k` writes have filled sequentially: the frontier blocks
opened so far are full except the last, which holds the remaining pages. -/
theorem fill_write (cfg : Config) (m : Machine) (h : WF m.ftl) (k : Nat)
    (hreq : blocks_requested m.trace = m.ftl.BML.length)
    (h0 : k = 0 → m.ftl.has_current_block = false ∧ m.ftl.BML.length = 0)
    (h1 : 1 ≤ k → m.ftl.has_current_block = true ∧ 1 ≤ m.ftl.current_page_offset ∧
      m.ftl.current_page_offset ≤ m.ftl.P ∧ 1 ≤ m.ftl.BML.length ∧
      k = m.ftl.P * (m.ftl.BML.length - 1) + m.ftl.current_page_offset)
    (event : Event) (fb : BlockResp) (newAddr : Address) (dev : IssueResp) :
    ∃ o, write cfg m event fb newAddr dev = some o ∧ WF o.m.ftl ∧ o.m.ftl.P = m.ftl.P ∧
      blocks_requested o.m.trace = o.m.ftl.BML.length ∧
      o.m.ftl.has_current_block = true ∧ 1 ≤ o.m.ftl.current_page_offset ∧
      o.m.ftl.current_page_offset ≤ o.m.ftl.P ∧ 1 ≤ o.m.ftl.BML.length ∧
      k + 1 = o.m.ftl.P * (o.m.ftl.BML.length - 1) + o.m.ftl.current_page_offset := by
  obtain ⟨o, hw, w1, _, _, _, w5, _, _, _, _, _, _, _, w13, w14, w15, _, _⟩ :=
    write_view cfg m event fb newAddr dev h _ _ _ _ _ _ rfl rfl rfl rfl rfl rfl
  obtain ⟨o1, hw1, hb⟩ := write_blocks_requested cfg m event fb newAddr dev h
  rw [hw] at hw1
  simp only [Option.some.injEq] at hw1
  subst hw1
  have hpos := h.P_pos
  by_cases hA : m.ftl.has_current_block = false ∨ m.ftl.current_page_offset = m.ftl.P
  · have hc : o.m.ftl.current_page_offset = 1 := by rw [w14, if_pos hA]
    have hl : o.m.ftl.BML.length = m.ftl.BML.length + 1 := by
      rw [w15, if_pos hA, List.length_append, List.length_singleton]
    have hr : blocks_requested o.m.trace = m.ftl.BML.length + 1 := by
      rw [hb, if_pos hA, hreq]
    refine ⟨o, hw, w1, w5, by rw [hr, hl], w13, by rw [hc], by rw [hc, w5]; exact hpos,
      by rw [hl]; omega, ?_⟩
    rw [hc, hl, w5, Nat.add_sub_cancel]
    rcases Nat.eq_zero_or_pos k with hk | hk
    · obtain ⟨_, a2⟩ := h0 hk
      rw [a2, hk, Nat.mul_zero]
    · obtain ⟨a1, _, _, a4, a5⟩ := h1 hk
      have hcp : m.ftl.current_page_offset = m.ftl.P := by
        rcases hA with hA | hA
        · rw [a1] at hA; cases hA
        · exact hA
      rw [hcp] at a5
      obtain ⟨q, hq⟩ : ∃ q, m.ftl.BML.length = q + 1 := ⟨m.ftl.BML.length - 1, by omega⟩
      rw [hq] at a5 ⊢
      rw [Nat.add_sub_cancel] at a5
      rw [Nat.mul_succ]
      omega
  · have hc : o.m.ftl.current_page_offset = m.ftl.current_page_offset + 1 := by
      rw [w14, if_neg hA]
    have hl : o.m.ftl.BML.length = m.ftl.BML.length := by rw [w15, if_neg hA]
    have hr : blocks_requested o.m.trace = m.ftl.BML.length := by
      rw [hb, if_neg hA, hreq]; rfl
    have hk : 1 ≤ k := by
      rcases Nat.eq_zero_or_pos k with hk | hk
      · exact absurd (Or.inl (h0 hk).1) hA
      · exact hk
    obtain ⟨_, a2, a3, a4, a5⟩ := h1 hk
    have hne : m.ftl.current_page_offset ≠ m.ftl.P := fun hh => hA (Or.inr hh)
    refine ⟨o, hw, w1, w5, by rw [hr, hl], w13, by rw [hc]; omega, by rw [hc, w5]; omega,
      by rw [hl]; exact a4, ?_⟩
    rw [hc, hl, w5]
    omega

/-- The call `read` leaves the frontier alone and requests no block. -/
theorem read_frame (cfg : Config) (m : Machine) (h : WF m.ftl) (event : Event)
    (dev : IssueResp) :
    ∃ o, read cfg m event dev = some o ∧ o.m.ftl = m.ftl ∧
      blocks_requested o.m.trace = blocks_requested m.trace := by
  obtain ⟨o, e, ho, hf, ht, _⟩ := read_view cfg m event dev h _ _ _ rfl rfl rfl
  refine ⟨o, ho, hf, ?_⟩
  rw [ht, blocks_requested_append]
  rfl

/-- The call `trim` leaves the frontier alone and requests no block. -/
theorem trim_frame (cfg : Config) (m : Machine) (h : WF m.ftl) (event : Event)
    (dev : IssueResp) :
    ∃ o, trim cfg m event dev = some o ∧ WF o.m.ftl ∧ o.m.ftl.P = m.ftl.P ∧
      o.m.ftl.has_current_block = m.ftl.has_current_block ∧
      o.m.ftl.current_page_offset = m.ftl.current_page_offset ∧
      o.m.ftl.BML = m.ftl.BML ∧ o.m.ftl.current_blocks = m.ftl.current_blocks ∧
      blocks_requested o.m.trace = blocks_requested m.trace := by
  obtain ⟨o, ho, hW, t1, t2⟩ := trim_view cfg m event dev h _ _ _ rfl rfl rfl
  refine ⟨o, ho, hW, ?_⟩
  by_cases hD : m.ftl.PMD (lbn_of m.ftl.P event.logical_address) = none
  · obtain ⟨hf, _, _, ht⟩ := t1 hD
    rw [hf, ht]
    exact ⟨rfl, rfl, rfl, rfl, rfl, rfl⟩
  · obtain ⟨old, _, hf, _, _, ht⟩ := t2 hD
    rw [hf, ht]
    by_cases ho : old ≠ -1
    · rw [if_pos ho, if_pos ho]
      refine ⟨rfl, rfl, rfl, rfl, rfl, ?_⟩
      simp only [blocks_requested_append]
      rfl
    · rw [if_neg ho, if_neg ho]
      refine ⟨rfl, rfl, rfl, rfl, rfl, ?_⟩
      simp only [blocks_requested_append]
      rfl

/-- A sequence of `read`, `write` and `trim` calls in a state that `k` writes have filled
sequentially: afterwards `k + num_writes ops` writes have. -/
theorem fill_run (cfg : Config) :
    ∀ (ops : List Op) (m : Machine) (k : Nat), WF m.ftl →
      (∀ op, op ∈ ops → notCleanup op) →
      blocks_requested m.trace = m.ftl.BML.length →
      (k = 0 → m.ftl.has_current_block = false ∧ m.ftl.BML.length = 0) →
      (1 ≤ k → m.ftl.has_current_block = true ∧ 1 ≤ m.ftl.current_page_offset ∧
        m.ftl.current_page_offset ≤ m.ftl.P ∧ 1 ≤ m.ftl.BML.length ∧
        k = m.ftl.P * (m.ftl.BML.length - 1) + m.ftl.current_page_offset) →
      ∃ m1, run cfg m ops = some m1 ∧ WF m1.ftl ∧ m1.ftl.P = m.ftl.P ∧
        blocks_requested m1.trace = m1.ftl.BML.length ∧
        (k + num_writes ops = 0 → m1.ftl.has_current_block = false ∧ m1.ftl.BML.length = 0) ∧
        (1 ≤ k + num_writes ops →
          m1.ftl.has_current_block = true ∧ 1 ≤ m1.ftl.current_page_offset ∧
          m1.ftl.current_page_offset ≤ m1.ftl.P ∧ 1 ≤ m1.ftl.BML.length ∧
          k + num_writes ops =
            m1.ftl.P * (m1.ftl.BML.length - 1) + m1.ftl.current_page_offset)
  | [], m, k, h, _, hreq, h0, h1 => ⟨m, rfl, h, rfl, hreq, h0, h1⟩
  | op :: ops, m, k, h, hnc, hreq, h0, h1 => by
    have hnc1 : ∀ op1, op1 ∈ ops → notCleanup op1 :=
      fun op1 hm => hnc op1 (List.mem_cons_of_mem _ hm)
    have hrun : ∀ m2, step cfg m op = some m2 → run cfg m (op :: ops) = run cfg m2 ops := by
      intro m2 hs
      show (match step cfg m op with
        | none => none
        | some m1 => run cfg m1 ops) = _
      rw [hs]
    cases op with
    | read event dev =>
      obtain ⟨o, ho, hf, hb⟩ := read_frame cfg m h event dev
      have hs : step cfg m (Op.read event dev) = some o.m := by
        show Option.map (fun o => o.m) (read cfg m event dev) = some o.m
        rw [ho]; rfl
      obtain ⟨m1, hm1, r⟩ := fill_run cfg ops o.m k (by rw [hf]; exact h) hnc1
        (by rw [hb, hf]; exact hreq) (by rw [hf]; exact h0) (by rw [hf]; exact h1)
      rw [hf] at r
      exact ⟨m1, by rw [hrun o.m hs]; exact hm1, r⟩
    | trim event dev =>
      obtain ⟨o, ho, hW, t1, t2, t3, t4, _, hb⟩ := trim_frame cfg m h event dev
      have hs : step cfg m (Op.trim event dev) = some o.m := by
        show Option.map (fun o => o.m) (trim cfg m event dev) = some o.m
        rw [ho]; rfl
      obtain ⟨m1, hm1, r⟩ := fill_run cfg ops o.m k hW hnc1
        (by rw [hb, t4]; exact hreq) (by rw [t2, t4]; exact h0)
        (by rw [t1, t2, t3, t4]; exact h1)
      rw [t1] at r
      exact ⟨m1, by rw [hrun o.m hs]; exact hm1, r⟩
    | write event fb newAddr dev =>
      obtain ⟨o, ho, hW, w1, w2, w3, w4, w5, w6, w7⟩ :=
        fill_write cfg m h k hreq h0 h1 event fb newAddr dev
      have hs : step cfg m (Op.write event fb newAddr dev) = some o.m := by
        show Option.map (fun o => o.m) (write cfg m event fb newAddr dev) = some o.m
        rw [ho]; rfl
      obtain ⟨m1, hm1, r1, r2, r3, r4, r5⟩ := fill_run cfg ops o.m (k + 1) hW hnc1 w2
        (fun hk => absurd hk (by omega)) (fun _ => ⟨w3, w4, w5, w6, w7⟩)
      have hn : k + 1 + num_writes ops =
          k + num_writes (Op.write event fb newAddr dev :: ops) := by
        show _ = k + (num_writes ops + 1)
        omega
      rw [hn] at r4 r5
      exact ⟨m1, by rw [hrun o.m hs]; exact hm1, r1, by rw [r2, w1], r3, r4, r5⟩
    | cleanup_block event pa get_state resp =>
      exact absurd (hnc _ (List.mem_cons_self _ _)) (fun hc => hc)

/-- The arithmetic of a sequential fill: `k` pages written into blocks of `P` pages, all full
but the last, which holds `cpo` pages, occupy `⌈k / P⌉` blocks. -/
theorem ceil_of_fill (P len cpo k : Nat) (hP : 0 < P) (h1 : 1 ≤ cpo) (h2 : cpo ≤ P)
    (h3 : 1 ≤ len) (h4 : k = P * (len - 1) + cpo) :
    (k + P - 1) / P = len ∧ k - P * ((k + P - 1) / P - 1) = cpo := by
  obtain ⟨q, hq⟩ : ∃ q, len = q + 1 := ⟨len - 1, by omega⟩
  subst hq
  rw [Nat.add_sub_cancel] at h4
  have hk : k + P - 1 = P * (q + 1) + (cpo - 1) := by
    rw [Nat.mul_succ]; omega
  have hd : (k + P - 1) / P = q + 1 := by
    rw [hk, Nat.mul_add_div hP, Nat.div_eq_of_lt (by omega)]
  refine ⟨hd, ?_⟩
  rw [hd, Nat.add_sub_cancel]
  omega

theorem seq_writes_notCleanup (lpn0 ppn0 n : Nat) :
    ∀ op, op ∈ seq_writes lpn0 ppn0 n → notCleanup op := by
  intro op hop
  unfold seq_writes at hop
  obtain ⟨l, _, rfl⟩ := List.mem_map.mp hop
  trivial

theorem num_writes_append (a b : List Op) :
    num_writes (a ++ b) = num_writes a + num_writes b := by
  induction a with
  | nil => simp [num_writes]
  | cons x xs ih =>
    cases x <;> simp [num_writes, ih]
    omega

theorem num_writes_seq_writes (lpn0 ppn0 n : Nat) : num_writes (seq_writes lpn0 ppn0 n) = n := by
  unfold seq_writes
  induction n with
  | zero => rfl
  | succ n ih =>
    rw [List.range_succ, List.map_append, num_writes_append, ih]
    rfl

/-- C16. Sequential fill (S4, generalised) in the rmap-based engine.  Under an accepted
configuration (`P = BLOCK_SIZE ≥ 1`, `Q ≥ 1`, no wrap of `P + Q - 1`), the engine can be
constructed and, for every sequence of `read`, `write` and `trim` calls (no `cleanup_block`)
that contains `n ≥ 1` writes, to arbitrary LPNs, the sequence is defined and afterwards
`BML` has length `⌈n / P⌉ = (n + P - 1) / P`, exactly that many calls of `get_free_block`
were made, and `current_page_offset = n - P * (⌈n / P⌉ - 1)`. -/
theorem C16_sequential_fill (cfg : Config) (hok : cfg.ok) (ops : List Op)
    (hnc : ∀ op, op ∈ ops → notCleanup op) (hn : 1 ≤ num_writes ops) :
    ∃ m0 m, Machine.new cfg = some m0 ∧ run cfg m0 ops = some m ∧
      m.ftl.BML.length = (num_writes ops + cfg.BLOCK_SIZE - 1) / cfg.BLOCK_SIZE ∧
      blocks_requested m.trace = (num_writes ops + cfg.BLOCK_SIZE - 1) / cfg.BLOCK_SIZE ∧
      m.ftl.current_page_offset =
        num_writes ops -
          cfg.BLOCK_SIZE * ((num_writes ops + cfg.BLOCK_SIZE - 1) / cfg.BLOCK_SIZE - 1) := by
  obtain ⟨m0, h0, hW, hP, _⟩ := run_total cfg hok
  obtain ⟨n1, n2, n3, _⟩ := new_fields cfg m0 h0
  obtain ⟨m, hm, _, r1, r2, _, r4⟩ := fill_run cfg ops m0 0 hW hnc
    (by rw [n3, n2]; rfl) (fun _ => ⟨n1, by rw [n2]; rfl⟩) (fun hk => absurd hk (by omega))
  rw [Nat.zero_add] at r4
  obtain ⟨_, a2, a3, a4, a5⟩ := r4 hn
  rw [r1, hP] at a3 a5
  obtain ⟨c1, c2⟩ := ceil_of_fill cfg.BLOCK_SIZE m.ftl.BML.length m.ftl.current_page_offset
    (num_writes ops) hok.1 a2 a3 a4 a5
  exact ⟨m0, m, h0, hm, c1.symm, by rw [r2, c1], c2.symm⟩

/-- C16 at the concrete inputs of scenario S4, under `cfg64` (`P = 64`): after the writes of
LPN 0 to 63 one block is open and requested and the offset is 64; after the write of LPN 64
as well, two blocks and the offset is 1. -/
theorem C16_sequential_fill_witness :
    (∃ m, run cfg64 m64 (seq_writes 0 0 64) = some m ∧ m.ftl.BML.length = 1 ∧
      blocks_requested m.trace = 1 ∧ m.ftl.current_page_offset = 64) ∧
    (∃ m, run cfg64 m64 (seq_writes 0 0 64 ++ seq_writes 64 64 1) = some m ∧
      m.ftl.BML.length = 2 ∧ blocks_requested m.trace = 2 ∧
      m.ftl.current_page_offset = 1) := by
  have hn1 : num_writes (seq_writes 0 0 64) = 64 := num_writes_seq_writes 0 0 64
  have hn2 : num_writes (seq_writes 0 0 64 ++ seq_writes 64 64 1) = 65 := by
    rw [num_writes_append, num_writes_seq_writes, num_writes_seq_writes]
  constructor
  · obtain ⟨m0, m, h0, hm, a1, a2, a3⟩ := C16_sequential_fill cfg64 cfg64_ok
      (seq_writes 0 0 64) (seq_writes_notCleanup 0 0 64) (by rw [hn1]; decide)
    rw [new_cfg64] at h0
    simp only [Option.some.injEq] at h0
    subst h0
    rw [hn1] at a1 a2 a3
    exact ⟨m, hm, a1, a2, a3⟩
  · obtain ⟨m0, m, h0, hm, a1, a2, a3⟩ := C16_sequential_fill cfg64 cfg64_ok
      (seq_writes 0 0 64 ++ seq_writes 64 64 1)
      (by
        intro op hop
        rcases List.mem_append.mp hop with h | h
        · exact seq_writes_notCleanup 0 0 64 op h
        · exact seq_writes_notCleanup 64 64 1 op h)
      (by rw [hn2]; decide)
    rw [new_cfg64] at h0
    simp only [Option.some.injEq] at h0
    subst h0
    rw [hn2] at a1 a2 a3
    exact ⟨m, hm, a1, a2, a3⟩

/-- C17. Read latency accounting in the rmap-based engine.  In every well-formed state `read`
is defined and hands exactly one event `e` to the Device; when it is issued, `e` carries the
accumulated time of the incoming event plus exactly one `OOB_READ_DELAY` if `PMD[LBN]` exists
and `PMD[LBN][PMD_INDEX] ≠ UNMAPPED` (the slot of PMT plays no part), and plus nothing
otherwise; the Device then adds its own latency.  When `PMD[LBN]` is absent, as for every LPN
on a fresh engine, nothing is added, the event is issued as a noop and the engine state is
unchanged. -/
theorem C17_read_latency (cfg : Config) (m : Machine) (event : Event) (dev : IssueResp)
    (h : WF m.ftl) :
    ∃ o e, read cfg m event dev = some o ∧
      o.m.trace = m.trace ++ [Action.issue e] ∧
      o.event = e.incr_time_taken dev.delay ∧
      e.time_taken = event.time_taken +
        (if m.ftl.PMD (lbn_of m.ftl.P event.logical_address) ≠ none ∧
            PMD_get m.ftl (lbn_of m.ftl.P event.logical_address)
              (pmd_index_of m.ftl.P m.ftl.Q event.logical_address) ≠ some UNMAPPED
          then cfg.OOB_READ_DELAY else 0) ∧
      o.m.ftl = m.ftl ∧
      (m.ftl.PMD (lbn_of m.ftl.P event.logical_address) = none →
        e.time_taken = event.time_taken ∧ e.noop = true) := by
  obtain ⟨o, e, ho, hf, ht, hev, _, hno, _, htime, _⟩ :=
    read_view cfg m event dev h _ _ _ rfl rfl rfl
  have hcond : (m.ftl.PMD (lbn_of m.ftl.P event.logical_address) ≠ none ∧
        PMD_get m.ftl (lbn_of m.ftl.P event.logical_address)
          (pmd_index_of m.ftl.P m.ftl.Q event.logical_address) ≠ some UNMAPPED) ↔
      ¬ (m.ftl.PMD (lbn_of m.ftl.P event.logical_address) = none ∨
        PMD_get m.ftl (lbn_of m.ftl.P event.logical_address)
          (pmd_index_of m.ftl.P m.ftl.Q event.logical_address) = some (-1)) := by
    show _ ↔ ¬ (_ ∨ _ = some UNMAPPED)
    tauto
  refine ⟨o, e, ho, ht, hev, ?_, hf, ?_⟩
  · rw [htime]
    by_cases hc : m.ftl.PMD (lbn_of m.ftl.P event.logical_address) = none ∨
        PMD_get m.ftl (lbn_of m.ftl.P event.logical_address)
          (pmd_index_of m.ftl.P m.ftl.Q event.logical_address) = some (-1)
    · rw [if_pos hc, if_neg (fun hx => (hcond.mp hx) hc)]
    · rw [if_neg hc, if_pos (hcond.mpr hc)]
  · intro hn
    refine ⟨?_, (hno (Or.inl hn)).1⟩
    rw [htime, if_pos (Or.inl hn), add_zero]

/-- C17 at the concrete input of scenario S2: on the fresh engine under `cfg64`,
`read(LPN = 1000)` arriving with no accumulated time is issued as a noop with
`time_taken = 0`, and the engine state is unchanged. -/
theorem C17_read_latency_witness :
    WF m64.ftl ∧
    ∃ o e, read cfg64 m64 (ev64 event_type.READ 1000 0) (ok64 3) = some o ∧
      o.m.trace = [Action.issue e] ∧ e.time_taken = 0 ∧ e.noop = true ∧
      o.m.ftl = m64.ftl := by
  obtain ⟨o, e, ho, ht, _, _, hf, hfresh⟩ :=
    C17_read_latency cfg64 m64 (ev64 event_type.READ 1000 0) (ok64 3) WF_m64
  obtain ⟨h1, h2⟩ := hfresh rfl
  exact ⟨WF_m64, o, e, ho, ht, h1, h2, hf⟩

/-- A `write` to another fragment keeps fragment `(L, i)` unanchored. -/
theorem unanchored_write (cfg : Config) (m : Machine) (h : WF m.ftl) (L i : Nat)
    (hU : unanchored m.ftl L i) (event : Event) (fb : BlockResp) (newAddr : Address)
    (dev : IssueResp)
    (hne : ¬ (lbn_of m.ftl.P event.logical_address = L ∧
      pmd_index_of m.ftl.P m.ftl.Q event.logical_address = i)) :
    ∃ o, write cfg m event fb newAddr dev = some o ∧ WF o.m.ftl ∧ o.m.ftl.P = m.ftl.P ∧
      o.m.ftl.Q = m.ftl.Q ∧ unanchored o.m.ftl L i := by
  obtain ⟨o, hw, w1, _, w3, w4, w5, w6, _⟩ :=
    write_view cfg m event fb newAddr dev h _ _ _ _ _ _ rfl rfl rfl rfl rfl rfl
  refine ⟨o, hw, w1, w5, w6, ?_, ?_⟩
  · rw [w3 L i, if_neg (fun hc => hne ⟨hc.1.symm, hc.2.symm⟩)]
    split
    · split
      · exact Or.inr rfl
      · exact Or.inl rfl
    · exact hU.1
  · intro p e hp
    rw [w4 p] at hp
    split at hp
    · simp only [Option.some.injEq] at hp
      subst hp
      exact hne
    · split at hp
      · cases hp
      · exact hU.2 p e hp

/-- A `trim` keeps fragment `(L, i)` unanchored. -/
theorem unanchored_trim (cfg : Config) (m : Machine) (h : WF m.ftl) (L i : Nat)
    (hU : unanchored m.ftl L i) (event : Event) (dev : IssueResp) :
    ∃ o, trim cfg m event dev = some o ∧ WF o.m.ftl ∧ o.m.ftl.P = m.ftl.P ∧
      o.m.ftl.Q = m.ftl.Q ∧ unanchored o.m.ftl L i := by
  obtain ⟨o, ho, hW, t1, t2⟩ := trim_view cfg m event dev h _ _ _ rfl rfl rfl
  refine ⟨o, ho, hW, ?_⟩
  by_cases hD : m.ftl.PMD (lbn_of m.ftl.P event.logical_address) = none
  · obtain ⟨hf, _⟩ := t1 hD
    rw [hf]
    exact ⟨rfl, rfl, hU⟩
  · obtain ⟨old, _, hf, _⟩ := t2 hD
    rw [hf]
    by_cases ho : old ≠ -1
    · rw [if_pos ho]
      refine ⟨rfl, rfl, hU.1, ?_⟩
      intro p e hp
      have hp1 : (if p = toUlong old then none else m.ftl.rmap p) = some e := hp
      split at hp1
      · cases hp1
      · exact hU.2 p e hp1
    · rw [if_neg ho]
      exact ⟨rfl, rfl, hU⟩

/-- The loop of `cleanup_block` keeps fragment `(L, i)` unanchored. -/
theorem unanchored_cleanup_pages (cfg : Config) (pa : Int) (get_state : Nat → page_state)
    (resp : Nat → CopyResp) (c : Outcome Unit) (h : WF c.m.ftl) (L i : Nat)
    (hU : unanchored c.m.ftl L i) :
    ∀ n, ∃ c1, cleanup_pages cfg pa get_state resp c n = some c1 ∧ WF c1.m.ftl ∧
      (c1.m.ftl.P = c.m.ftl.P ∧ c1.m.ftl.Q = c.m.ftl.Q ∧ unanchored c1.m.ftl L i) := by
  apply cleanup_pages_induct cfg pa get_state resp c h
    (fun _ c1 => c1.m.ftl.P = c.m.ftl.P ∧ c1.m.ftl.Q = c.m.ftl.Q ∧ unanchored c1.m.ftl L i)
  · exact ⟨rfl, rfl, hU⟩
  · intro n c1 _ _ hR _; exact hR
  · intro n c1 c2 hW _ hR _ hc2
    obtain ⟨c3, hc3, _, p1, p2, _, _, _, hv⟩ :=
      cleanup_page_view cfg pa n page_state.VALID (resp n) c1 hW
    rw [hc2] at hc3
    simp only [Option.some.injEq] at hc3
    subst hc3
    obtain ⟨v1, v2⟩ := hv rfl
    obtain ⟨r1, r2, r3⟩ := hR
    refine ⟨by rw [p1, r1], by rw [p2, r2], ?_⟩
    cases hr : c1.m.ftl.rmap (toUlong (pa + (n : Int))) with
    | none =>
      obtain ⟨x1, _, x3⟩ := v1 hr
      refine ⟨?_, ?_⟩
      · unfold PMD_get
        rw [x1]
        exact r3.1
      · rw [x3]; exact r3.2
    | some e =>
      obtain ⟨_, x2, x3⟩ := v2 e hr
      have hne : ¬ (e.lbn = L ∧ e.pmd = i) := r3.2 _ e hr
      refine ⟨?_, ?_⟩
      · rw [x2 L i, if_neg (fun hc => hne ⟨hc.1.symm, hc.2.symm⟩)]
        exact r3.1
      · intro p e1 hp
        rw [x3 p] at hp
        split at hp
        · simp only [Option.some.injEq] at hp
          subst hp
          exact hne
        · split at hp
          · cases hp
          · exact r3.2 p e1 hp

/-- In a well-formed state a sequence of calls is defined and `Machine.after` is its
result. -/
theorem run_eq_after (cfg : Config) (hB : 0 < cfg.BLOCK_SIZE) (m : Machine) (h : WF m.ftl)
    (ops : List Op) : run cfg m ops = some (Machine.after cfg m ops) := by
  obtain ⟨m1, hm1, _⟩ := WF_run cfg hB ops m h
  unfold Machine.after
  rw [hm1]; rfl

/-- `cleanup_block` keeps fragment `(L, i)` unanchored. -/
theorem unanchored_cleanup_block (cfg : Config) (hB : 0 < cfg.BLOCK_SIZE) (m : Machine)
    (h : WF m.ftl) (L i : Nat) (hU : unanchored m.ftl L i) (event : Event) (pa : Int)
    (get_state : Nat → page_state) (resp : Nat → CopyResp) :
    ∃ o, cleanup_block cfg m event pa get_state resp = some o ∧ WF o.m.ftl ∧
      o.m.ftl.P = m.ftl.P ∧ o.m.ftl.Q = m.ftl.Q ∧ unanchored o.m.ftl L i := by
  obtain ⟨c, hc, hW, r1, r2, r3⟩ := unanchored_cleanup_pages cfg pa get_state resp
    { m := m, event := event.incr_time_taken ((m.ftl.num_pmd : ℚ) * cfg.OOB_READ_DELAY),
      ret := () } h L i hU cfg.BLOCK_SIZE
  refine ⟨_, cleanup_block_some cfg m event pa get_state resp hB c hc, ?_, r1, r2, r3⟩
  exact WF_of_fields c.m.ftl _ hW rfl rfl rfl rfl rfl rfl

/-- Calls other than a `write` to fragment `(L, i)` keep the fragment unanchored. -/
theorem unanchored_run (cfg : Config) (hB : 0 < cfg.BLOCK_SIZE) (L i : Nat) :
    ∀ (ops : List Op) (m : Machine), WF m.ftl → unanchored m.ftl L i →
      (∀ op, op ∈ ops → notWriteTo m.ftl.P m.ftl.Q L i op) →
      ∃ m1, run cfg m ops = some m1 ∧ WF m1.ftl ∧ unanchored m1.ftl L i
  | [], m, h, hU, _ => ⟨m, rfl, h, hU⟩
  | op :: ops, m, h, hU, hnw => by
    have hrun : ∀ m2, step cfg m op = some m2 → run cfg m (op :: ops) = run cfg m2 ops := by
      intro m2 hs
      show (match step cfg m op with
        | none => none
        | some m1 => run cfg m1 ops) = _
      rw [hs]
    have hstep : ∃ m2, step cfg m op = some m2 ∧ WF m2.ftl ∧ m2.ftl.P = m.ftl.P ∧
        m2.ftl.Q = m.ftl.Q ∧ unanchored m2.ftl L i := by
      cases op with
      | read event dev =>
        obtain ⟨o, ho, hf, _⟩ := read_frame cfg m h event dev
        refine ⟨o.m, ?_, by rw [hf]; exact h, by rw [hf], by rw [hf], by rw [hf]; exact hU⟩
        show Option.map (fun o => o.m) (read cfg m event dev) = some o.m
        rw [ho]; rfl
      | trim event dev =>
        obtain ⟨o, ho, r⟩ := unanchored_trim cfg m h L i hU event dev
        refine ⟨o.m, ?_, r⟩
        show Option.map (fun o => o.m) (trim cfg m event dev) = some o.m
        rw [ho]; rfl
      | write event fb newAddr dev =>
        obtain ⟨o, ho, r⟩ := unanchored_write cfg m h L i hU event fb newAddr dev
          (hnw _ (List.mem_cons_self _ _))
        refine ⟨o.m, ?_, r⟩
        show Option.map (fun o => o.m) (write cfg m event fb newAddr dev) = some o.m
        rw [ho]; rfl
      | cleanup_block event pa get_state resp =>
        obtain ⟨o, ho, r⟩ := unanchored_cleanup_block cfg hB m h L i hU event pa get_state resp
        refine ⟨o.m, ?_, r⟩
        show Option.map (fun o => o.m) (cleanup_block cfg m event pa get_state resp) = some o.m
        rw [ho]; rfl
    obtain ⟨m2, hs, hW2, hP2, hQ2, hU2⟩ := hstep
    obtain ⟨m1, hm1, r⟩ := unanchored_run cfg hB L i ops m2 hW2 hU2
      (by
        intro op1 hop1
        rw [hP2, hQ2]
        exact hnw op1 (List.mem_cons_of_mem _ hop1))
    exact ⟨m1, by rw [hrun m2 hs]; exact hm1, r⟩

/-- C18. Write latency accounting in the rmap-based engine.  In every well-formed state
`write` is defined and the accumulated time of the event grows by what the Block manager
charged (when a frontier block is opened), by exactly one `OOB_READ_DELAY` if and only if
`PMD[LBN][PMD_INDEX] ≠ UNMAPPED` on entry (an absent `PMD[LBN]` is created with UNMAPPED
entries), and by what the Device charged.  If the state was reached from the constructed
engine by calls none of which is a `write` to the fragment `(LBN, PMD_INDEX)`, the anchor is
UNMAPPED on entry, so this first write to the fragment adds no `OOB_READ_DELAY`. -/
theorem C18_write_latency (cfg : Config) (m : Machine) (h : WF m.ftl) (event : Event)
    (fb : BlockResp) (newAddr : Address) (dev : IssueResp) :
    ∃ o, write cfg m event fb newAddr dev = some o ∧
      o.event.time_taken = event.time_taken +
        (if m.ftl.has_current_block = false ∨ m.ftl.current_page_offset = m.ftl.P then
          fb.delay else 0) +
        (if (PMD_get m.ftl (lbn_of m.ftl.P event.logical_address)
              (pmd_index_of m.ftl.P m.ftl.Q event.logical_address)).getD UNMAPPED ≠ UNMAPPED
          then cfg.OOB_READ_DELAY else 0) + dev.delay ∧
      (cfg.ok → ∀ m0 ops, Machine.new cfg = some m0 → run cfg m0 ops = some m →
        (∀ op, op ∈ ops → notWriteTo cfg.BLOCK_SIZE (cfg.MNFTL_OOB_SIZE / cfg.MNFTL_ENTRY_SIZE)
          (lbn_of m.ftl.P event.logical_address)
          (pmd_index_of m.ftl.P m.ftl.Q event.logical_address) op) →
        (PMD_get m.ftl (lbn_of m.ftl.P event.logical_address)
          (pmd_index_of m.ftl.P m.ftl.Q event.logical_address)).getD UNMAPPED = UNMAPPED ∧
        o.event.time_taken = event.time_taken +
          (if m.ftl.has_current_block = false ∨ m.ftl.current_page_offset = m.ftl.P then
            fb.delay else 0) + dev.delay) := by
  obtain ⟨o, hw, _, _, _, _, _, _, _, _, _, _, _, _, _, _, _, _, htime⟩ :=
    write_view cfg m event fb newAddr dev h _ _ _ _ _ _ rfl rfl rfl rfl rfl rfl
  refine ⟨o, hw, htime, ?_⟩
  intro hok m0 ops h0 hm hnw
  obtain ⟨m0', h0', hI, hP, hQ, hD, _, hR⟩ := Inv_new cfg hok
  rw [h0] at h0'
  simp only [Option.some.injEq] at h0'
  subst h0'
  have hU0 : unanchored m0.ftl (lbn_of m.ftl.P event.logical_address)
      (pmd_index_of m.ftl.P m.ftl.Q event.logical_address) := by
    refine ⟨Or.inl ?_, ?_⟩
    · unfold PMD_get; rw [hD]
    · intro p e hp
      rw [hR] at hp
      cases hp
  obtain ⟨m1, hm1, _, hU⟩ := unanchored_run cfg hok.1 _ _ ops m0 hI.wf hU0
    (by rw [hP, hQ]; exact hnw)
  rw [hm] at hm1
  simp only [Option.some.injEq] at hm1
  subst hm1
  have hanchor : (PMD_get m.ftl (lbn_of m.ftl.P event.logical_address)
      (pmd_index_of m.ftl.P m.ftl.Q event.logical_address)).getD UNMAPPED = UNMAPPED := by
    rcases hU.1 with hx | hx <;> rw [hx] <;> rfl
  refine ⟨hanchor, ?_⟩
  have hz : (if (PMD_get m.ftl (lbn_of m.ftl.P event.logical_address)
      (pmd_index_of m.ftl.P m.ftl.Q event.logical_address)).getD (-1) ≠ -1
      then cfg.OOB_READ_DELAY else 0) = 0 := if_neg (fun hc => hc hanchor)
  rw [htime, hz, add_zero]

/-- C18 at concrete inputs, under `cfg64`: after a first `write(5)` (fragment `(0, 0)`), a
`write(8)`, the first write to fragment `(0, 1)`, costs the Device time 2 and no
`OOB_READ_DELAY`, whereas a `write(6)`, to the anchored fragment `(0, 0)`, costs one
`OOB_READ_DELAY = 1` more. -/
theorem C18_write_latency_witness :
    WF (Machine.after cfg64 m64
      [Op.write (ev64 event_type.WRITE 5 0) (fb64 0) (pg64 0) (ok64 1)]).ftl ∧
    (∃ o, write cfg64 (Machine.after cfg64 m64
          [Op.write (ev64 event_type.WRITE 5 0) (fb64 0) (pg64 0) (ok64 1)])
        (ev64 event_type.WRITE 8 0) (fb64 0) (pg64 1) (ok64 2) = some o ∧
      o.event.time_taken = 2) ∧
    (∃ o, write cfg64 (Machine.after cfg64 m64
          [Op.write (ev64 event_type.WRITE 5 0) (fb64 0) (pg64 0) (ok64 1)])
        (ev64 event_type.WRITE 6 0) (fb64 0) (pg64 1) (ok64 2) = some o ∧
      o.event.time_taken = 3) := by
  obtain ⟨hW, hP, hQ, _, hD, _⟩ := after_first_write 5 0 0 1 (by decide) (by decide)
  refine ⟨hW, ?_, ?_⟩
  · obtain ⟨o, ho, _, hfirst⟩ := C18_write_latency cfg64 _ hW
      (ev64 event_type.WRITE 8 0) (fb64 0) (pg64 1) (ok64 2)
    obtain ⟨_, ht⟩ := hfirst cfg64_ok m64 _ new_cfg64
      (run_eq_after cfg64 (by decide) m64 WF_m64 _)
      (by
        intro op hop
        rw [List.mem_singleton] at hop
        subst hop
        rw [hP, hQ]
        show ¬ (_ ∧ _)
        decide)
    refine ⟨o, ho, ?_⟩
    rw [ht]
    show (0 : ℚ) + (if _ then (0 : ℚ) else 0) + 2 = 2
    rw [ite_self]
    norm_num
  · obtain ⟨o, ho, ht, _⟩ := C18_write_latency cfg64 _ hW
      (ev64 event_type.WRITE 6 0) (fb64 0) (pg64 1) (ok64 2)
    refine ⟨o, ho, ?_⟩
    rw [ht, hP, hQ]
    have h0 : lbn_of 64 (ev64 event_type.WRITE 6 0).logical_address = 0 := by decide
    have h1 : pmd_index_of 64 8 (ev64 event_type.WRITE 6 0).logical_address = 5 / 8 := by
      decide
    rw [h0, h1, hD]
    show (0 : ℚ) + (if _ then (0 : ℚ) else 0) + (if _ then (1 : ℚ) else 0) + 2 = 3
    rw [ite_self, if_pos (by decide)]
    norm_num

/-- The number of blocks requested across one copy of `cleanup_block`: one more exactly when
the frontier test fires. -/
theorem cleanup_page_blocks (cfg : Config) (pa : Int) (i : Nat) (r : CopyResp)
    (c : Outcome Unit) (h : WF c.m.ftl) :
    ∃ c1, cleanup_page cfg pa i page_state.VALID r c = some c1 ∧
      blocks_requested c1.m.trace = blocks_requested c.m.trace +
        (if c.m.ftl.has_current_block = false ∨ c.m.ftl.current_page_offset = c.m.ftl.P
          then 1 else 0) := by
  obtain ⟨c1, hc1, _, _, _, _, _, q6, _⟩ := cleanup_page_extra cfg pa i r c h
  refine ⟨c1, hc1, ?_⟩
  rw [q6]
  simp only [blocks_requested_append]
  have h4 : blocks_requested
      (if c.m.ftl.has_current_block = false ∨ c.m.ftl.current_page_offset = c.m.ftl.P then
        [Action.get_free_block] else []) =
      (if c.m.ftl.has_current_block = false ∨ c.m.ftl.current_page_offset = c.m.ftl.P then 1
        else 0) := by
    split <;> rfl
  rw [h4]
  cases c.m.ftl.rmap (toUlong (pa + (i : Int))) <;> rfl

theorem valid_pages_le_succ (get_state : Nat → page_state) (n : Nat) :
    valid_pages get_state n ≤ valid_pages get_state (n + 1) := by
  show _ ≤ valid_pages get_state n + _
  omega

/-- The accumulated time of the triggering event along the loop of `cleanup_block`: as long
as no block has been requested it has grown by the time of the READ and WRITE sub-events of
the VALID pages; and no block is requested when the open frontier block has room for every
VALID page. -/
theorem cleanup_pages_time (cfg : Config) (pa : Int) (get_state : Nat → page_state)
    (resp : Nat → CopyResp) (c : Outcome Unit) (h : WF c.m.ftl) :
    ∀ n, ∃ c1, cleanup_pages cfg pa get_state resp c n = some c1 ∧ WF c1.m.ftl ∧
      (c1.m.ftl.P = c.m.ftl.P ∧
        blocks_requested c.m.trace ≤ blocks_requested c1.m.trace ∧
        (blocks_requested c1.m.trace = blocks_requested c.m.trace →
          c1.event.time_taken = c.event.time_taken + copy_time get_state resp n) ∧
        (c.m.ftl.has_current_block = true →
          c.m.ftl.current_page_offset + valid_pages get_state n ≤ c.m.ftl.P →
          c1.m.ftl.has_current_block = true ∧
          c1.m.ftl.current_page_offset =
            c.m.ftl.current_page_offset + valid_pages get_state n ∧
          blocks_requested c1.m.trace = blocks_requested c.m.trace)) := by
  apply cleanup_pages_induct cfg pa get_state resp c h
    (fun n c1 => c1.m.ftl.P = c.m.ftl.P ∧
        blocks_requested c.m.trace ≤ blocks_requested c1.m.trace ∧
        (blocks_requested c1.m.trace = blocks_requested c.m.trace →
          c1.event.time_taken = c.event.time_taken + copy_time get_state resp n) ∧
        (c.m.ftl.has_current_block = true →
          c.m.ftl.current_page_offset + valid_pages get_state n ≤ c.m.ftl.P →
          c1.m.ftl.has_current_block = true ∧
          c1.m.ftl.current_page_offset =
            c.m.ftl.current_page_offset + valid_pages get_state n ∧
          blocks_requested c1.m.trace = blocks_requested c.m.trace))
  · refine ⟨rfl, Nat.le_refl _, fun _ => ?_, fun hh _ => ⟨hh, rfl, rfl⟩⟩
    show _ = _ + (0 : ℚ)
    rw [add_zero]
  · intro n c1 _ _ hR hst
    obtain ⟨r1, r2, r3, r4⟩ := hR
    have hvp : valid_pages get_state (n + 1) = valid_pages get_state n := by
      show valid_pages get_state n + _ = _
      rw [if_neg hst]; rfl
    have hct : copy_time get_state resp (n + 1) = copy_time get_state resp n := by
      show copy_time get_state resp n + _ = _
      rw [if_neg hst, add_zero]
    rw [hvp, hct]
    exact ⟨r1, r2, r3, r4⟩
  · intro n c1 c2 hW _ hR hst hc2
    obtain ⟨c3, hc3, q1, q2, q3, _⟩ := cleanup_page_extra cfg pa n (resp n) c1 hW
    obtain ⟨c4, hc4, hb⟩ := cleanup_page_blocks cfg pa n (resp n) c1 hW
    obtain ⟨c5, hc5, _, p1, _⟩ :=
      cleanup_page_view cfg pa n page_state.VALID (resp n) c1 hW
    rw [hc2] at hc3 hc4 hc5
    simp only [Option.some.injEq] at hc3 hc4 hc5
    subst hc3; subst hc4; subst hc5
    obtain ⟨r1, r2, r3, r4⟩ := hR
    have hvp : valid_pages get_state (n + 1) = valid_pages get_state n + 1 := by
      show valid_pages get_state n + _ = _
      rw [if_pos hst]
    have hct : copy_time get_state resp (n + 1) =
        copy_time get_state resp n + ((resp n).rd.delay + (resp n).wr.delay) := by
      show copy_time get_state resp n + _ = _
      rw [if_pos hst]
    refine ⟨by rw [p1, r1], ?_, ?_, ?_⟩
    · rw [hb]; omega
    · intro heq
      rw [hb] at heq
      by_cases hA : c1.m.ftl.has_current_block = false ∨
          c1.m.ftl.current_page_offset = c1.m.ftl.P
      · rw [if_pos hA] at heq; omega
      · rw [if_neg hA] at heq
        rw [q1, hct]
        show c1.event.time_taken + (if _ then _ else _) + _ = _
        rw [if_neg hA, add_zero, r3 (by omega), add_assoc]
    · intro hhas hle
      rw [hvp] at hle
      obtain ⟨s1, s2, s3⟩ := r4 hhas (by omega)
      have hA : ¬ (c1.m.ftl.has_current_block = false ∨
          c1.m.ftl.current_page_offset = c1.m.ftl.P) := by
        rintro (hx | hx)
        · rw [s1] at hx; cases hx
        · rw [s2, r1] at hx; omega
      refine ⟨q2, ?_, ?_⟩
      · rw [q3, if_neg hA, s2, hvp]; omega
      · rw [hb, if_neg hA, s3]; rfl

/-- The accumulated time of the triggering event across `cleanup_block`. -/
theorem cleanup_block_time (cfg : Config) (hB : 0 < cfg.BLOCK_SIZE) (m : Machine)
    (h : WF m.ftl) (event : Event) (pa : Int) (get_state : Nat → page_state)
    (resp : Nat → CopyResp) :
    ∃ o, cleanup_block cfg m event pa get_state resp = some o ∧
      blocks_requested m.trace ≤ blocks_requested o.m.trace ∧
      (blocks_requested o.m.trace = blocks_requested m.trace →
        o.event.time_taken = event.time_taken + (m.ftl.num_pmd : ℚ) * cfg.OOB_READ_DELAY +
          copy_time get_state resp cfg.BLOCK_SIZE) ∧
      (m.ftl.has_current_block = true →
        m.ftl.current_page_offset + valid_pages get_state cfg.BLOCK_SIZE ≤ m.ftl.P →
        blocks_requested o.m.trace = blocks_requested m.trace) := by
  obtain ⟨c, hc, _, _, r2, r3, r4⟩ := cleanup_pages_time cfg pa get_state resp
    { m := m, event := event.incr_time_taken ((m.ftl.num_pmd : ℚ) * cfg.OOB_READ_DELAY),
      ret := () } h cfg.BLOCK_SIZE
  refine ⟨_, cleanup_block_some cfg m event pa get_state resp hB c hc, r2, r3,
    fun hh hle => (r4 hh hle).2.2⟩

/-- When the Device charges the same for every READ and for every WRITE, the time of the
copies is the number of VALID pages times the sum of the two charges. -/
theorem copy_time_const (get_state : Nat → page_state) (resp : Nat → CopyResp) (rd wr : ℚ)
    (hrd : ∀ j, (resp j).rd.delay = rd) (hwr : ∀ j, (resp j).wr.delay = wr) :
    ∀ n, copy_time get_state resp n = (valid_pages get_state n : ℚ) * (rd + wr)
  | 0 => by
    show (0 : ℚ) = ((0 : Nat) : ℚ) * _
    simp
  | n + 1 => by
    show copy_time get_state resp n + _ =
      ((valid_pages get_state n + _ : Nat) : ℚ) * _
    rw [copy_time_const get_state resp rd wr hrd hwr n, hrd, hwr]
    by_cases hst : get_state n = page_state.VALID
    · rw [if_pos hst, if_pos hst]; push_cast; ring
    · rw [if_neg hst, if_neg hst]; push_cast; ring

/-- The geometry `P`, `Q`, `num_pmd` of the engine is the same after every call. -/
theorem static_step (cfg : Config) (hB : 0 < cfg.BLOCK_SIZE) (m : Machine) (h : WF m.ftl)
    (op : Op) :
    ∃ m1, step cfg m op = some m1 ∧ WF m1.ftl ∧ m1.ftl.P = m.ftl.P ∧ m1.ftl.Q = m.ftl.Q ∧
      m1.ftl.num_pmd = m.ftl.num_pmd := by
  cases op with
  | read event dev =>
    obtain ⟨o, ho, hf, _⟩ := read_frame cfg m h event dev
    refine ⟨o.m, ?_, by rw [hf]; exact h, by rw [hf], by rw [hf], by rw [hf]⟩
    show Option.map (fun o => o.m) (read cfg m event dev) = some o.m
    rw [ho]; rfl
  | trim event dev =>
    obtain ⟨o, ho, hW, t1, t2⟩ := trim_view cfg m event dev h _ _ _ rfl rfl rfl
    refine ⟨o.m, ?_, hW, ?_⟩
    · show Option.map (fun o => o.m) (trim cfg m event dev) = some o.m
      rw [ho]; rfl
    · by_cases hD : m.ftl.PMD (lbn_of m.ftl.P event.logical_address) = none
      · obtain ⟨hf, _⟩ := t1 hD
        rw [hf]
        exact ⟨rfl, rfl, rfl⟩
      · obtain ⟨old, _, hf, _⟩ := t2 hD
        rw [hf]
        split <;> exact ⟨rfl, rfl, rfl⟩
  | write event fb newAddr dev =>
    obtain ⟨o, hw, w1, _, _, _, w5, w6, w7, _⟩ :=
      write_view cfg m event fb newAddr dev h _ _ _ _ _ _ rfl rfl rfl rfl rfl rfl
    refine ⟨o.m, ?_, w1, w5, w6, w7⟩
    show Option.map (fun o => o.m) (write cfg m event fb newAddr dev) = some o.m
    rw [hw]; rfl
  | cleanup_block event pa get_state resp =>
    obtain ⟨c, hc, hW, p1, p2, p3⟩ := WF_cleanup_pages cfg pa get_state resp
      { m := m, event := event.incr_time_taken ((m.ftl.num_pmd : ℚ) * cfg.OOB_READ_DELAY),
        ret := () } h cfg.BLOCK_SIZE
    have ho := cleanup_block_some cfg m event pa get_state resp hB c hc
    show ∃ m1, Option.map (fun o => o.m) (cleanup_block cfg m event pa get_state resp) =
      some m1 ∧ _
    rw [ho]
    exact ⟨_, rfl, WF_of_fields c.m.ftl _ hW rfl rfl rfl rfl rfl rfl, p1, p2, p3⟩

theorem static_run (cfg : Config) (hB : 0 < cfg.BLOCK_SIZE) :
    ∀ (ops : List Op) (m : Machine), WF m.ftl →
      ∃ m1, run cfg m ops = some m1 ∧ WF m1.ftl ∧ m1.ftl.P = m.ftl.P ∧ m1.ftl.Q = m.ftl.Q ∧
        m1.ftl.num_pmd = m.ftl.num_pmd
  | [], m, h => ⟨m, rfl, h, rfl, rfl, rfl⟩
  | op :: ops, m, h => by
    obtain ⟨m2, hs, hW2, a1, a2, a3⟩ := static_step cfg hB m h op
    obtain ⟨m1, hm1, hW1, b1, b2, b3⟩ := static_run cfg hB ops m2 hW2
    refine ⟨m1, ?_, hW1, by rw [b1, a1], by rw [b2, a2], by rw [b3, a3]⟩
    show (match step cfg m op with
      | none => none
      | some m1 => run cfg m1 ops) = some m1
    rw [hs]; exact hm1

/-- The state of scenario S5 under `cfg64`, after the writes of LPN 0 to 63 filled block 0
and the overwrites of LPN 0 to 31 went to block 1: the frontier is open at offset 32. -/
theorem s5_frontier :
    WF (Machine.after cfg64 m64 (seq_writes 0 0 64 ++ seq_writes 0 64 32)).ftl ∧
    (Machine.after cfg64 m64 (seq_writes 0 0 64 ++ seq_writes 0 64 32)).ftl.P = 64 ∧
    (Machine.after cfg64 m64 (seq_writes 0 0 64 ++ seq_writes 0 64 32)).ftl.num_pmd = 8 ∧
    (Machine.after cfg64 m64
      (seq_writes 0 0 64 ++ seq_writes 0 64 32)).ftl.has_current_block = true ∧
    (Machine.after cfg64 m64
      (seq_writes 0 0 64 ++ seq_writes 0 64 32)).ftl.current_page_offset = 32 := by
  have hnc : ∀ op, op ∈ seq_writes 0 0 64 ++ seq_writes 0 64 32 → notCleanup op := by
    intro op hop
    rcases List.mem_append.mp hop with h | h
    · exact seq_writes_notCleanup 0 0 64 op h
    · exact seq_writes_notCleanup 0 64 32 op h
  have hn : num_writes (seq_writes 0 0 64 ++ seq_writes 0 64 32) = 96 := by
    rw [num_writes_append, num_writes_seq_writes, num_writes_seq_writes]
  obtain ⟨m, hm, hW, r1, _, _, r4⟩ := fill_run cfg64 _ m64 0 WF_m64 hnc rfl
    (fun _ => ⟨rfl, rfl⟩) (fun hk => absurd hk (by omega))
  obtain ⟨m', hm', _, _, _, s3⟩ := static_run cfg64 (by decide) _ m64 WF_m64
  rw [hm] at hm'
  simp only [Option.some.injEq] at hm'
  subst hm'
  have hafter : Machine.after cfg64 m64 (seq_writes 0 0 64 ++ seq_writes 0 64 32) = m := by
    unfold Machine.after
    rw [hm]; rfl
  rw [hafter]
  rw [Nat.zero_add, hn] at r4
  obtain ⟨a1, a2, a3, a4, a5⟩ := r4 (by omega)
  have hP : m.ftl.P = 64 := r1
  rw [hP] at a3 a5
  exact ⟨hW, hP, s3, a1, by omega⟩

theorem valid_pages_s5 : valid_pages s5_state 64 = 32 := by decide

theorem copy_time_s5 (rd wr : ℚ) : copy_time s5_state (s5_resp rd wr) 64 = 32 * (rd + wr) := by
  rw [copy_time_const s5_state (s5_resp rd wr) rd wr (fun _ => rfl) (fun _ => rfl) 64,
    valid_pages_s5]
  norm_num

/-- C19. Cleanup latency accrual in the rmap-based engine, with delays as exact rationals.
In every well-formed state and for every victim, `cleanup_block` is defined and never lowers
the number of blocks requested from the Block manager; when no block is requested during the
call (no new frontier block has to be allocated), the accumulated time of the triggering
event grows by exactly `NUM_PMD * OOB_READ_DELAY` plus the sum, over the VALID pages of the
victim, of the time of the READ sub-event and of the WRITE sub-event as the Device returned
them.  No block is requested, in particular, when a frontier block is open and has room for
every VALID page of the victim. -/
theorem C19_cleanup_latency (cfg : Config) (hB : 0 < cfg.BLOCK_SIZE) (m : Machine)
    (h : WF m.ftl) (event : Event) (pa : Int) (get_state : Nat → page_state)
    (resp : Nat → CopyResp) :
    ∃ o, cleanup_block cfg m event pa get_state resp = some o ∧
      blocks_requested m.trace ≤ blocks_requested o.m.trace ∧
      (blocks_requested o.m.trace = blocks_requested m.trace →
        o.event.time_taken = event.time_taken + (m.ftl.num_pmd : ℚ) * cfg.OOB_READ_DELAY +
          copy_time get_state resp cfg.BLOCK_SIZE) ∧
      (m.ftl.has_current_block = true →
        m.ftl.current_page_offset + valid_pages get_state cfg.BLOCK_SIZE ≤ m.ftl.P →
        blocks_requested o.m.trace = blocks_requested m.trace) :=
  cleanup_block_time cfg hB m h event pa get_state resp

/-- C19 at the concrete input of scenario S5, under `cfg64` with `OOB_READ_DELAY = 1`: after
the writes of LPN 0 to 63 and the overwrites of LPN 0 to 31, `cleanup_block` of block 0 (32
VALID pages), the Device charging 1 per READ and 2 per WRITE and the triggering event arriving
with accumulated time 3, requests no block and leaves the accumulated time at
`3 + 8 * 1 + 32 * (1 + 2) = 107`. -/
theorem C19_cleanup_latency_witness :
    0 < cfg64.BLOCK_SIZE ∧
    WF (Machine.after cfg64 m64 (seq_writes 0 0 64 ++ seq_writes 0 64 32)).ftl ∧
    ∃ o, cleanup_block cfg64 (Machine.after cfg64 m64 (seq_writes 0 0 64 ++ seq_writes 0 64 32))
        ((ev64 event_type.WRITE 200 7).incr_time_taken 3) 0 s5_state (s5_resp 1 2) = some o ∧
      blocks_requested o.m.trace = blocks_requested
        (Machine.after cfg64 m64 (seq_writes 0 0 64 ++ seq_writes 0 64 32)).trace ∧
      o.event.time_taken = 107 := by
  obtain ⟨hW, hP, hN, hhas, hcpo⟩ := s5_frontier
  obtain ⟨o, ho, _, htime, hroom⟩ := C19_cleanup_latency cfg64 (by decide) _ hW
    ((ev64 event_type.WRITE 200 7).incr_time_taken 3) 0 s5_state (s5_resp 1 2)
  have hreq := hroom hhas (by
    rw [hcpo, hP]
    show 32 + valid_pages s5_state 64 ≤ 64
    rw [valid_pages_s5])
  refine ⟨by decide, hW, o, ho, hreq, ?_⟩
  rw [htime hreq, hN]
  show (0 + 3 : ℚ) + ((8 : Nat) : ℚ) * 1 + copy_time s5_state (s5_resp 1 2) 64 = 107
  rw [copy_time_s5]
  norm_num

/-- C20. The rmap-based `cleanup_block` charges no erase, evaluated on scenario S5 under
`cfg64` (`P = 64`, `Q = 8`, `NUM_PMD = 8`, `OOB_READ_DELAY = 1`): after the writes of LPN 0
to 63 and the overwrites of LPN 0 to 31, block 0 has `k = 32` VALID pages; with a Device that
charges exactly `PAGE_READ_DELAY = 1` per READ and `PAGE_WRITE_DELAY = 2` per WRITE (and
would charge `BLOCK_ERASE_DELAY = 5` per ERASE), `cleanup_block` of block 0 hands no ERASE to
the Device and the accumulated time of the triggering event grows by exactly
`8 * 1 + 32 * (1 + 2) = 104`, which is below the bound `104 + 5` of the specification. -/
theorem C20_cleanup_latency_without_erase :
    (Machine.after cfg64 m64 (seq_writes 0 0 64 ++ seq_writes 0 64 32)).ftl.num_pmd = 8 ∧
    valid_pages s5_state cfg64.BLOCK_SIZE = 32 ∧
    ∃ o sfx, cleanup_block cfg64
        (Machine.after cfg64 m64 (seq_writes 0 0 64 ++ seq_writes 0 64 32))
        (ev64 event_type.WRITE 200 7) 0 s5_state (s5_resp 1 2) = some o ∧
      o.m.trace =
        (Machine.after cfg64 m64 (seq_writes 0 0 64 ++ seq_writes 0 64 32)).trace ++ sfx ∧
      (∀ e, e ∈ issued sfx → e.type ≠ event_type.ERASE) ∧
      o.event.time_taken =
        (ev64 event_type.WRITE 200 7).time_taken + 8 * cfg64.OOB_READ_DELAY + 32 * (1 + 2) ∧
      o.event.time_taken <
        (ev64 event_type.WRITE 200 7).time_taken + 8 * cfg64.OOB_READ_DELAY + 32 * (1 + 2) +
          5 := by
  obtain ⟨hW, hP, hN, hhas, hcpo⟩ := s5_frontier
  obtain ⟨o, ho, _, htime, hroom⟩ := cleanup_block_time cfg64 (by decide) _ hW
    (ev64 event_type.WRITE 200 7) 0 s5_state (s5_resp 1 2)
  obtain ⟨o1, sfx, ho1, hs, hty⟩ := cleanup_block_trace cfg64 (by decide) _ hW
    (ev64 event_type.WRITE 200 7) 0 s5_state (s5_resp 1 2)
  rw [ho] at ho1
  simp only [Option.some.injEq] at ho1
  subst ho1
  have hreq := hroom hhas (by
    rw [hcpo, hP]
    show 32 + valid_pages s5_state 64 ≤ 64
    rw [valid_pages_s5])
  have ht : o.event.time_taken =
      (ev64 event_type.WRITE 200 7).time_taken + 8 * cfg64.OOB_READ_DELAY + 32 * (1 + 2) := by
    rw [htime hreq, hN]
    show (0 : ℚ) + ((8 : Nat) : ℚ) * 1 + copy_time s5_state (s5_resp 1 2) 64 =
      (0 : ℚ) + 8 * 1 + 32 * (1 + 2)
    rw [copy_time_s5]
    norm_num
  refine ⟨hN, valid_pages_s5, o, sfx, ho, hs, ?_, ht, ?_⟩
  · intro e he hE
    rcases hty e he with h1 | h1 <;> rw [h1] at hE <;> cases hE
  · rw [ht]
    norm_num

theorem run_append (cfg : Config) :
    ∀ (a b : List Op) (m m1 : Machine), run cfg m a = some m1 →
      run cfg m (a ++ b) = run cfg m1 b
  | [], b, m, m1, h => by
    simp only [run, Option.some.injEq] at h
    subst h
    rfl
  | op :: a, b, m, m1, h => by
    cases hs : step cfg m op with
    | none =>
      have : run cfg m (op :: a) = none := by
        show (match step cfg m op with
          | none => none
          | some m1 => run cfg m1 a) = none
        rw [hs]
      rw [this] at h
      exact Option.noConfusion h
    | some m2 =>
      have hr : run cfg m (op :: a) = run cfg m2 a := by
        show (match step cfg m op with
          | none => none
          | some m1 => run cfg m1 a) = _
        rw [hs]
      rw [hr] at h
      show (match step cfg m op with
        | none => none
        | some m1 => run cfg m1 (a ++ b)) = _
      rw [hs]
      exact run_append cfg a b m2 m1 h

theorem seq_writes_succ (lpn0 ppn0 n : Nat) :
    seq_writes lpn0 ppn0 (n + 1) = seq_writes lpn0 ppn0 n ++
      [Op.write (ev64 event_type.WRITE (lpn0 + n) 0) (fb64 (ppn0 / 64)) (pg64 (ppn0 + n))
        (ok64 1)] := by
  unfold seq_writes
  rw [List.range_succ, List.map_append]
  rfl

/-- The mapping store of scenario S4 under `cfg64`, after the writes of LPN 0 to `n - 1`
landed on the pages 0 to `n - 1` of block 0: `rmap` records page `p < n` as slot `p % 8` of
fragment `(0, p / 8)` and has no other entry. -/
theorem after_fill : ∀ n, n ≤ 64 →
    ∃ m, run cfg64 m64 (seq_writes 0 0 n) = some m ∧ WF m.ftl ∧ m.ftl.P = 64 ∧ m.ftl.Q = 8 ∧
      (∀ p, m.ftl.rmap p = if p < n then some ⟨0, p / 8, p % 8⟩ else none) ∧
      (∀ L i s x, PMT_get m.ftl L i s = some x → x ≠ -1 → 8 * i + s < n)
  | 0, _ => ⟨m64, rfl, WF_m64, rfl, rfl, fun _ => rfl, fun L i s x hx => by cases hx⟩
  | n + 1, hn => by
    obtain ⟨m, hm, hW, hP, hQ, hR, hT⟩ := after_fill n (by omega)
    have e1 : lbn_of m.ftl.P (ev64 event_type.WRITE (0 + n) 0).logical_address = 0 := by
      rw [hP]
      show ((0 + n) / 64) % 4294967296 = 0
      omega
    have e2 : pmd_index_of m.ftl.P m.ftl.Q
        (ev64 event_type.WRITE (0 + n) 0).logical_address = n / 8 := by
      rw [hP, hQ]
      show (((0 + n) % 64) % 4294967296) / 8 = n / 8
      omega
    have e3 : map_slot_of m.ftl.P m.ftl.Q
        (ev64 event_type.WRITE (0 + n) 0).logical_address = n % 8 := by
      rw [hP, hQ]
      show (((0 + n) % 64) % 4294967296) % 8 = n % 8
      omega
    have e4 : (pg64 (0 + n)).get_linear_address = n := by
      show (0 + n) % 18446744073709551616 = n
      omega
    have hold : (PMT_get m.ftl 0 (n / 8) (n % 8)).getD (-1) = -1 := by
      cases hg : PMT_get m.ftl 0 (n / 8) (n % 8) with
      | none => rfl
      | some x =>
        by_cases hx : x = -1
        · rw [hx]; rfl
        · have := hT 0 (n / 8) (n % 8) x hg hx
          omega
    obtain ⟨o, hw, w1, w2, _, w4, w5, w6, _⟩ :=
      write_view cfg64 m (ev64 event_type.WRITE (0 + n) 0) (fb64 (0 / 64)) (pg64 (0 + n))
        (ok64 1) hW 0 (n / 8) (n % 8) n (-1) _ e1.symm e2.symm e3.symm e4.symm hold.symm rfl
    have hs : step cfg64 m (Op.write (ev64 event_type.WRITE (0 + n) 0) (fb64 (0 / 64))
        (pg64 (0 + n)) (ok64 1)) = some o.m := by
      show Option.map (fun o => o.m) (write cfg64 m _ _ _ _) = some o.m
      rw [hw]; rfl
    refine ⟨o.m, ?_, w1, by rw [w5, hP], by rw [w6, hQ], ?_, ?_⟩
    · rw [seq_writes_succ, run_append cfg64 _ _ m64 m hm]
      show (match step cfg64 m _ with
        | none => none
        | some m1 => run cfg64 m1 []) = _
      rw [hs]; rfl
    · intro p
      rw [w4 p, hR p]
      by_cases hp : p = n
      · subst hp
        rw [if_pos rfl, if_pos (by omega)]
      · rw [if_neg hp, if_neg (fun hc => hc.1 rfl)]
        by_cases hlt : p < n
        · rw [if_pos hlt, if_pos (by omega)]
        · rw [if_neg hlt, if_neg (by omega)]
    · intro L i s x hx hne
      rw [w2 L i s] at hx
      split at hx
      · rename_i hc
        obtain ⟨_, hi, hs'⟩ := hc
        subst hi; subst hs'
        omega
      · split at hx
        · split at hx
          · simp only [Option.some.injEq] at hx
            exact absurd hx.symm hne
          · cases hx
        · have := hT L i s x hx hne
          omega

/-- C14 at the concrete input of scenario S4, under `cfg64`: after the writes of LPN 0 to 63
filled block 0, `cleanup_block` of block 0, all of whose pages are VALID and page `j` of which
is copied to page `64 + j`, leaves `PMD[0][0]` at page 71, the copy of page 7, the
highest-offset page of fragment `(0, 0)`; the anchor of fragment `(5, 0)`, which owns no page
of the victim, is as on entry. -/
theorem C14_cleanup_anchor_rule_witness :
    0 < cfg64.BLOCK_SIZE ∧ WF (Machine.after cfg64 m64 (seq_writes 0 0 64)).ftl ∧
    ∃ o, cleanup_block cfg64 (Machine.after cfg64 m64 (seq_writes 0 0 64))
        (ev64 event_type.WRITE 200 7) 0 (fun _ => page_state.VALID)
        (fun j => { rd := ok64 1, fb := fb64 1, newAddr := pg64 (64 + j), wr := ok64 1 }) =
          some o ∧
      PMD_get o.m.ftl 0 0 = some 71 ∧
      PMD_get o.m.ftl 5 0 = PMD_get (Machine.after cfg64 m64 (seq_writes 0 0 64)).ftl 5 0 := by
  obtain ⟨m, hm, hW, _, _, hR, _⟩ := after_fill 64 (by decide)
  have hafter : Machine.after cfg64 m64 (seq_writes 0 0 64) = m := by
    unfold Machine.after
    rw [hm]; rfl
  rw [hafter]
  obtain ⟨o, ho, _, hanch, hentry⟩ := C14_cleanup_anchor_rule cfg64 (by decide) m hW
    (ev64 event_type.WRITE 200 7) 0 (fun _ => page_state.VALID)
    (fun j => { rd := ok64 1, fb := fb64 1, newAddr := pg64 (64 + j), wr := ok64 1 })
  have hul : ∀ j : Nat, j < 64 → toUlong (0 + (j : Int)) = j := by
    intro j hj
    unfold toUlong
    omega
  have hown := hentry (by decide) (by
    intro j k hj hk _
    have hj' : j < 64 := hj
    have hk' : k < 64 := hk
    rw [hul k hk']
    show (64 + j) % 18446744073709551616 ≠ k
    omega)
  have hrm : ∀ j : Nat, j < 64 →
      m.ftl.rmap (toUlong (0 + (j : Int))) = some ⟨0, j / 8, j % 8⟩ := by
    intro j hj
    rw [hul j hj, hR j, if_pos hj]
  refine ⟨by decide, hW, o, ho, ?_, ?_⟩
  · have h7 := (hanch 0 0).1 7 (by decide)
      ((hown 0 0 7 (by decide)).mpr ⟨rfl, 7, hrm 7 (by decide)⟩)
      (by
        intro k hk1 hk2 hc
        have hk' : k < 64 := hk2
        obtain ⟨_, s, hs⟩ := (hown 0 0 k hk2).mp hc
        rw [hrm k hk'] at hs
        simp only [Option.some.injEq, RmapEntry.mk.injEq] at hs
        omega)
    rw [h7]
    decide
  · apply (hanch 5 0).2
    intro j hj hc
    have hj' : j < 64 := hj
    obtain ⟨_, s, hs⟩ := (hown 5 0 j hj).mp hc
    rw [hrm j hj'] at hs
    simp only [Option.some.injEq, RmapEntry.mk.injEq] at hs
    omega

/-- The result of `write` is the issue of one event on one machine, both independent of what
the Device answers. -/
theorem write_issue (cfg : Config) (m : Machine) (event : Event) (fb : BlockResp)
    (newAddr : Address) (h : WF m.ftl) :
    ∃ M ev, ∀ dev, write cfg m event fb newAddr dev = some (issue M ev dev) := by
  generalize hm1e : ({ m with stats := { m.stats with
    numFTLWrite := m.stats.numFTLWrite + 1 } } : Machine) = m1
  have hf1 : m1.ftl = m.ftl := by rw [← hm1e]
  have hm1 : WF m1.ftl := by rw [hf1]; exact h
  obtain ⟨e1, e2, e3, e4, e5, e6, e7⟩ := ensure_frontier_ftl m1 event fb
  have hWF2 : WF (ensure_frontier m1 event fb).1.ftl := WF_of_fields _ _ hm1 e1 e2 e3 e4 e5 e6
  generalize hm2e : (ensure_frontier m1 event fb).1 = m2 at *
  generalize hev2 : (ensure_frontier m1 event fb).2 = event2 at *
  obtain ⟨v1, v2, v3, v4, v5, v6, v7, v8, v9, v10, v11, v12, v13, v14, v15, v16⟩ :=
    ensure_rows_view m2 hWF2 (lbn_of m.ftl.P event.logical_address)
  generalize hm3e : ensure_rows m2 (lbn_of m.ftl.P event.logical_address) = m3 at *
  have hi : pmd_index_of m.ftl.P m.ftl.Q event.logical_address < m3.ftl.num_pmd := by
    rw [v9, e3, hf1]; exact pmd_index_lt m.ftl h _
  have hs : map_slot_of m.ftl.P m.ftl.Q event.logical_address < m3.ftl.Q := by
    rw [v8, e2, hf1]; exact map_slot_lt m.ftl h _
  have hcur : m3.ftl.has_current_block = true := by rw [v11, e7]
  have hwrite : ∀ dev, write cfg m event fb newAddr dev =
      write_core cfg m3 event2 (lbn_of m.ftl.P event.logical_address)
        (pmd_index_of m.ftl.P m.ftl.Q event.logical_address)
        (map_slot_of m.ftl.P m.ftl.Q event.logical_address) newAddr dev := by
    intro dev
    unfold write
    have hP : m1.ftl.P ≠ 0 := by have := hm1.P_pos; omega
    have hQ : m2.ftl.Q ≠ 0 := by have := hWF2.Q_pos; omega
    have hP2 : m.ftl.P ≠ 0 := by have := h.P_pos; omega
    simp only [hm1e, hP, hP2, if_false, hm2e, hQ, hev2]
    rw [e1, e2, hf1, hm3e]
  obtain ⟨anchor1, old1, ha, ho, hw⟩ :=
    write_core_view cfg m3 event2 (lbn_of m.ftl.P event.logical_address)
      (pmd_index_of m.ftl.P m.ftl.Q event.logical_address)
      (map_slot_of m.ftl.P m.ftl.Q event.logical_address) newAddr
      { ret := status.SUCCESS, delay := 0 } v1 v2 hi hs hcur
  refine ⟨?M, ?ev, fun dev => ?_⟩
  pick_goal 3
  obtain ⟨anchor2, old2, ha2, ho2, hw2⟩ :=
    write_core_view cfg m3 event2 (lbn_of m.ftl.P event.logical_address)
      (pmd_index_of m.ftl.P m.ftl.Q event.logical_address)
      (map_slot_of m.ftl.P m.ftl.Q event.logical_address) newAddr dev v1 v2 hi hs hcur
  rw [ha] at ha2
  rw [ho] at ho2
  simp only [Option.some.injEq] at ha2 ho2
  rw [← ha2, ← ho2] at hw2
  rw [hwrite dev]
  exact hw2

/-- The overwrite of scenario S3 under `cfg64`, whatever the Device answers: after
`write(5)` landed on page 0, a second `write(5)` that is allocated page 1 leaves
`PMT[0][0][5] = PMD[0][0] = 1`, `rmap[1] = (0, 0, 5)` and no `rmap` entry for page 0. -/
theorem second_write_view (dev : IssueResp) :
    ∃ o, write cfg64 (Machine.after cfg64 m64
          [Op.write (ev64 event_type.WRITE 5 0) (fb64 0) (pg64 0) (ok64 1)])
        (ev64 event_type.WRITE 5 3) (fb64 0) (pg64 1) dev = some o ∧
      o.ret = dev.ret ∧ PMT_get o.m.ftl 0 0 5 = some 1 ∧ PMD_get o.m.ftl 0 0 = some 1 ∧
      o.m.ftl.rmap 0 = none ∧ o.m.ftl.rmap 1 = some ⟨0, 0, 5⟩ := by
  obtain ⟨hW, hP, hQ, hT, hD, hR⟩ := after_first_write 5 0 0 1 (by decide) (by decide)
  have e1 : lbn_of (Machine.after cfg64 m64
      [Op.write (ev64 event_type.WRITE 5 0) (fb64 0) (pg64 0) (ok64 1)]).ftl.P
      (ev64 event_type.WRITE 5 3).logical_address = 0 := by rw [hP]; decide
  have e2 : pmd_index_of (Machine.after cfg64 m64
      [Op.write (ev64 event_type.WRITE 5 0) (fb64 0) (pg64 0) (ok64 1)]).ftl.P
      (Machine.after cfg64 m64
      [Op.write (ev64 event_type.WRITE 5 0) (fb64 0) (pg64 0) (ok64 1)]).ftl.Q
      (ev64 event_type.WRITE 5 3).logical_address = 0 := by rw [hP, hQ]; decide
  have e3 : map_slot_of (Machine.after cfg64 m64
      [Op.write (ev64 event_type.WRITE 5 0) (fb64 0) (pg64 0) (ok64 1)]).ftl.P
      (Machine.after cfg64 m64
      [Op.write (ev64 event_type.WRITE 5 0) (fb64 0) (pg64 0) (ok64 1)]).ftl.Q
      (ev64 event_type.WRITE 5 3).logical_address = 5 := by rw [hP, hQ]; decide
  have e4 : (pg64 1).get_linear_address = 1 := by decide
  have hT' : PMT_get (Machine.after cfg64 m64
      [Op.write (ev64 event_type.WRITE 5 0) (fb64 0) (pg64 0) (ok64 1)]).ftl 0 0 5 =
      some 0 := hT
  obtain ⟨o, hw, _, w2, w3, w4, _, _, _, _, _, _, _, w12, _⟩ :=
    write_view cfg64 _ (ev64 event_type.WRITE 5 3) (fb64 0) (pg64 1) dev hW 0 0 5 1 0 _
      e1.symm e2.symm e3.symm e4.symm (by rw [hT']; rfl) rfl
  refine ⟨o, hw, w12, ?_, ?_, ?_, ?_⟩
  · rw [w2 0 0 5, if_pos ⟨rfl, rfl, rfl⟩]; rfl
  · rw [w3 0 0, if_pos ⟨rfl, rfl⟩]; rfl
  · rw [w4 0, if_neg (by decide), if_pos ⟨by decide, by decide⟩]
  · rw [w4 1, if_pos rfl]

/-- C21, counterexample.  Under `cfg64`, after `write(5)` landed on page 0, a second
`write(5)` is allocated page 1 and the Device answers FAILURE to its issue: `write` returns
FAILURE, and afterwards `PMT[0][0][5]` and `PMD[0][0]` are page 1, not page 0 as before the
write, `rmap` has lost its entry for page 0 and has an entry for page 1. -/
theorem C21_rollback_counterexample :
    PMT_get (Machine.after cfg64 m64
      [Op.write (ev64 event_type.WRITE 5 0) (fb64 0) (pg64 0) (ok64 1)]).ftl 0 0 5 = some 0 ∧
    PMD_get (Machine.after cfg64 m64
      [Op.write (ev64 event_type.WRITE 5 0) (fb64 0) (pg64 0) (ok64 1)]).ftl 0 0 = some 0 ∧
    (Machine.after cfg64 m64
      [Op.write (ev64 event_type.WRITE 5 0) (fb64 0) (pg64 0) (ok64 1)]).ftl.rmap 0 =
        some ⟨0, 0, 5⟩ ∧
    ∃ o, write cfg64 (Machine.after cfg64 m64
          [Op.write (ev64 event_type.WRITE 5 0) (fb64 0) (pg64 0) (ok64 1)])
        (ev64 event_type.WRITE 5 3) (fb64 0) (pg64 1)
        { ret := status.FAILURE, delay := 1 } = some o ∧
      o.ret = status.FAILURE ∧ PMT_get o.m.ftl 0 0 5 = some 1 ∧
      PMD_get o.m.ftl 0 0 = some 1 ∧ o.m.ftl.rmap 0 = none ∧
      o.m.ftl.rmap 1 = some ⟨0, 0, 5⟩ := by
  obtain ⟨_, _, _, hT, hD, hR⟩ := after_first_write 5 0 0 1 (by decide) (by decide)
  exact ⟨hT, hD, hR, second_write_view { ret := status.FAILURE, delay := 1 }⟩

/-- C21, amended.  In every well-formed state, when the Device answers FAILURE to the issue
of the write event, `write` returns FAILURE and restores nothing: the machine it leaves is the
one the same call leaves when the Device answers SUCCESS, so `PMT[LBN][PMD_INDEX][MAP_SLOT]`
and `PMD[LBN][PMD_INDEX]` hold the allocated page and `rmap` maps the allocated page to
`(LBN, PMD_INDEX, MAP_SLOT)`. -/
theorem C21_write_keeps_mapping_on_failure (cfg : Config) (m : Machine) (event : Event)
    (fb : BlockResp) (newAddr : Address) (dev : IssueResp) (h : WF m.ftl)
    (hfail : dev.ret = status.FAILURE) :
    ∃ o o1, write cfg m event fb newAddr dev = some o ∧
      write cfg m event fb newAddr { ret := status.SUCCESS, delay := dev.delay } = some o1 ∧
      o.ret = status.FAILURE ∧ o.m = o1.m ∧
      PMT_get o.m.ftl (lbn_of m.ftl.P event.logical_address)
        (pmd_index_of m.ftl.P m.ftl.Q event.logical_address)
        (map_slot_of m.ftl.P m.ftl.Q event.logical_address) =
          some (toLong newAddr.get_linear_address) ∧
      PMD_get o.m.ftl (lbn_of m.ftl.P event.logical_address)
        (pmd_index_of m.ftl.P m.ftl.Q event.logical_address) =
          some (toLong newAddr.get_linear_address) ∧
      o.m.ftl.rmap newAddr.get_linear_address =
        some ⟨lbn_of m.ftl.P event.logical_address,
          pmd_index_of m.ftl.P m.ftl.Q event.logical_address,
          map_slot_of m.ftl.P m.ftl.Q event.logical_address⟩ := by
  obtain ⟨M, ev, hall⟩ := write_issue cfg m event fb newAddr h
  obtain ⟨o, hw, _, w2, w3, w4, _⟩ :=
    write_view cfg m event fb newAddr dev h _ _ _ _ _ _ rfl rfl rfl rfl rfl rfl
  have ho : o = issue M ev dev := by
    have := hall dev
    rw [hw] at this
    simp only [Option.some.injEq] at this
    exact this
  refine ⟨o, _, hw, hall _, ?_, ?_, ?_, ?_, ?_⟩
  · rw [ho]; exact hfail
  · rw [ho]; rfl
  · rw [w2, if_pos ⟨rfl, rfl, rfl⟩]
  · rw [w3, if_pos ⟨rfl, rfl⟩]
  · rw [w4, if_pos rfl]

/-- C21, amended, at a concrete input under `cfg64`: the overwrite of LPN 5, allocated page
1 and answered FAILURE by the Device, returns FAILURE and leaves the machine of the
successful overwrite. -/
theorem C21_write_keeps_mapping_on_failure_witness :
    WF (Machine.after cfg64 m64
      [Op.write (ev64 event_type.WRITE 5 0) (fb64 0) (pg64 0) (ok64 1)]).ftl ∧
    ({ ret := status.FAILURE, delay := 1 } : IssueResp).ret = status.FAILURE ∧
    ∃ o o1, write cfg64 (Machine.after cfg64 m64
          [Op.write (ev64 event_type.WRITE 5 0) (fb64 0) (pg64 0) (ok64 1)])
        (ev64 event_type.WRITE 5 3) (fb64 0) (pg64 1)
        { ret := status.FAILURE, delay := 1 } = some o ∧
      write cfg64 (Machine.after cfg64 m64
          [Op.write (ev64 event_type.WRITE 5 0) (fb64 0) (pg64 0) (ok64 1)])
        (ev64 event_type.WRITE 5 3) (fb64 0) (pg64 1)
        { ret := status.SUCCESS, delay := 1 } = some o1 ∧
      o.ret = status.FAILURE ∧ o.m = o1.m := by
  obtain ⟨hW, _⟩ := after_first_write 5 0 0 1 (by decide) (by decide)
  obtain ⟨o, o1, h1, h2, h3, h4, _⟩ := C21_write_keeps_mapping_on_failure cfg64 _
    (ev64 event_type.WRITE 5 3) (fb64 0) (pg64 1) { ret := status.FAILURE, delay := 1 } hW rfl
  exact ⟨hW, rfl, o, o1, h1, h2, h3, h4⟩

/-- The status returned by `read`, `write` and `trim`, for every logical address. -/
theorem status_view (cfg : Config) (m : Machine) (h : WF m.ftl) (event : Event)
    (fb : BlockResp) (newAddr : Address) (dev : IssueResp) :
    (∃ o, read cfg m event dev = some o ∧ o.ret = dev.ret ∧ o.m.ftl = m.ftl) ∧
    (∃ o, write cfg m event fb newAddr dev = some o ∧ o.ret = dev.ret) ∧
    (∃ o, trim cfg m event dev = some o ∧
      (m.ftl.PMD (lbn_of m.ftl.P event.logical_address) ≠ none → o.ret = dev.ret) ∧
      (m.ftl.PMD (lbn_of m.ftl.P event.logical_address) = none →
        o.ret = status.SUCCESS ∧ o.m.ftl = m.ftl)) := by
  obtain ⟨o1, _, h1, hf1, _, _, hr1, _⟩ := read_view cfg m event dev h _ _ _ rfl rfl rfl
  obtain ⟨o2, h2, _, _, _, _, _, _, _, _, _, _, _, hr2, _⟩ :=
    write_view cfg m event fb newAddr dev h _ _ _ _ _ _ rfl rfl rfl rfl rfl rfl
  obtain ⟨o3, h3, _, t1, t2⟩ := trim_view cfg m event dev h _ _ _ rfl rfl rfl
  refine ⟨⟨o1, h1, hr1, hf1⟩, ⟨o2, h2, hr2⟩, o3, h3, ?_, ?_⟩
  · intro hD
    obtain ⟨old, _, _, _, hr, _⟩ := t2 hD
    exact hr
  · intro hD
    obtain ⟨hf, _, hr, _⟩ := t1 hD
    exact ⟨hr, hf⟩

/-- C23. Device status propagation in the rmap-based engine.  In every well-formed state
`read` and `write` are defined and return exactly the status the Device returned for the
issue of the event, FAILURE included; `trim` is defined and does so whenever `PMD[LBN]`
exists (when it is absent, `trim` returns SUCCESS without a Device call). -/
theorem C23_status_propagation (cfg : Config) (m : Machine) (h : WF m.ftl) (event : Event)
    (fb : BlockResp) (newAddr : Address) (dev : IssueResp) :
    (∃ o, read cfg m event dev = some o ∧ o.ret = dev.ret) ∧
    (∃ o, write cfg m event fb newAddr dev = some o ∧ o.ret = dev.ret) ∧
    (∃ o, trim cfg m event dev = some o ∧
      (m.ftl.PMD (lbn_of m.ftl.P event.logical_address) ≠ none → o.ret = dev.ret) ∧
      (m.ftl.PMD (lbn_of m.ftl.P event.logical_address) = none →
        o.ret = status.SUCCESS ∧ o.m.trace = m.trace)) := by
  obtain ⟨⟨o1, h1, r1, _⟩, hw, _⟩ := status_view cfg m h event fb newAddr dev
  obtain ⟨o3, h3, _, t1, t2⟩ := trim_view cfg m event dev h _ _ _ rfl rfl rfl
  refine ⟨⟨o1, h1, r1⟩, hw, o3, h3, ?_, ?_⟩
  · intro hD
    obtain ⟨old, _, _, _, hr, _⟩ := t2 hD
    exact hr
  · intro hD
    obtain ⟨_, _, hr, ht⟩ := t1 hD
    exact ⟨hr, ht⟩

/-- C23 at a concrete input under `cfg64`: after `write(5)` landed on page 0, with a Device
that answers FAILURE, `read(5)`, `write(5)` and `trim(5)` all return FAILURE. -/
theorem C23_status_propagation_witness :
    WF (Machine.after cfg64 m64
      [Op.write (ev64 event_type.WRITE 5 0) (fb64 0) (pg64 0) (ok64 1)]).ftl ∧
    (∃ o, read cfg64 (Machine.after cfg64 m64
          [Op.write (ev64 event_type.WRITE 5 0) (fb64 0) (pg64 0) (ok64 1)])
        (ev64 event_type.READ 5 3) { ret := status.FAILURE, delay := 1 } = some o ∧
      o.ret = status.FAILURE) ∧
    (∃ o, write cfg64 (Machine.after cfg64 m64
          [Op.write (ev64 event_type.WRITE 5 0) (fb64 0) (pg64 0) (ok64 1)])
        (ev64 event_type.READ 5 3) (fb64 0) (pg64 1) { ret := status.FAILURE, delay := 1 } =
          some o ∧
      o.ret = status.FAILURE) ∧
    (∃ o, trim cfg64 (Machine.after cfg64 m64
          [Op.write (ev64 event_type.WRITE 5 0) (fb64 0) (pg64 0) (ok64 1)])
        (ev64 event_type.READ 5 3) { ret := status.FAILURE, delay := 1 } = some o ∧
      o.ret = status.FAILURE) := by
  obtain ⟨hW, hP, _, _, hD, _⟩ := after_first_write 5 0 0 1 (by decide) (by decide)
  obtain ⟨hr, hw, o3, h3, t1, _⟩ := C23_status_propagation cfg64 _ hW
    (ev64 event_type.READ 5 3) (fb64 0) (pg64 1) { ret := status.FAILURE, delay := 1 }
  refine ⟨hW, hr, hw, o3, h3, t1 ?_⟩
  rw [hP]
  intro hn
  have hD0 : PMD_get (Machine.after cfg64 m64
      [Op.write (ev64 event_type.WRITE 5 0) (fb64 0) (pg64 0) (ok64 1)]).ftl 0 0 = some 0 := hD
  unfold PMD_get at hD0
  have hl : lbn_of 64 (ev64 event_type.READ 5 3).logical_address = 0 := by decide
  rw [hl] at hn
  rw [hn] at hD0
  cases hD0

/-- C22, counterexample.  Under `cfg64` take `NUMBER_OF_ADDRESSABLE_BLOCKS = 4`, so that
`LPN = 1000` lies outside the addressable range `4 * 64 = 256`.  On the fresh engine, with a
Device that answers SUCCESS, `read(1000)`, `write(1000)` and `trim(1000)` all return SUCCESS,
and `write(1000)` creates the rows of LBN 15, takes the first page of a new frontier block and
maps slot `(15, 5, 0)` to it. -/
theorem C22_invalid_lpn_counterexample :
    4 * cfg64.BLOCK_SIZE ≤ (ev64 event_type.WRITE 1000 0).logical_address ∧
    (∃ o, read cfg64 m64 (ev64 event_type.READ 1000 0) (ok64 1) = some o ∧
      o.ret = status.SUCCESS) ∧
    (∃ o, trim cfg64 m64 (ev64 event_type.TRIM 1000 0) (ok64 1) = some o ∧
      o.ret = status.SUCCESS) ∧
    m64.ftl.PMD 15 = none ∧ m64.ftl.current_page_offset = 0 ∧
    ∃ o, write cfg64 m64 (ev64 event_type.WRITE 1000 0) (fb64 0) (pg64 0) (ok64 1) = some o ∧
      o.ret = status.SUCCESS ∧ o.m.ftl.PMD 15 ≠ none ∧ o.m.ftl.current_page_offset = 1 ∧
      PMT_get o.m.ftl 15 5 0 = some 0 := by
  obtain ⟨⟨o1, h1, r1, _⟩, _, _⟩ := status_view cfg64 m64 WF_m64
    (ev64 event_type.READ 1000 0) (fb64 0) (pg64 0) (ok64 1)
  obtain ⟨_, _, o3, h3, _, t3⟩ := status_view cfg64 m64 WF_m64
    (ev64 event_type.TRIM 1000 0) (fb64 0) (pg64 0) (ok64 1)
  obtain ⟨o2, h2, _, w2, _, _, _, _, _, w8, _, _, _, w12, _, w14, _⟩ :=
    write_view cfg64 m64 (ev64 event_type.WRITE 1000 0) (fb64 0) (pg64 0) (ok64 1) WF_m64
      15 5 0 0 _ _ (by decide) (by decide) (by decide) (by decide) rfl rfl
  refine ⟨by decide, ⟨o1, h1, r1⟩, ⟨o3, h3, (t3 rfl).1⟩, rfl, rfl, o2, h2, w12, ?_, ?_, ?_⟩
  · intro hn
    exact ((w8 15).mp hn).1 rfl
  · rw [w14]; rfl
  · rw [w2 15 5 0, if_pos ⟨rfl, rfl, rfl⟩]; rfl

/-- C22, amended.  The rmap-based engine makes no range check on the logical address and
never reads `NUMBER_OF_ADDRESSABLE_BLOCKS`: in every well-formed state and for every logical
address, `read` and `write` return the status of the Device's issue, and `trim` returns it
when `PMD[LBN]` exists and SUCCESS otherwise; `read` leaves the engine state unchanged, `trim`
does so when `PMD[LBN]` is absent, and `write` leaves the rows `PMD[LBN]` and `PMT[LBN]` of
`LBN = (LPN / P) mod 2^32` in place, takes one page of the frontier and maps the slot of the
address to it. -/
theorem C22_no_range_check (cfg : Config) (m : Machine) (h : WF m.ftl) (event : Event)
    (fb : BlockResp) (newAddr : Address) (dev : IssueResp) :
    (∃ o, read cfg m event dev = some o ∧ o.ret = dev.ret ∧ o.m.ftl = m.ftl) ∧
    (∃ o, trim cfg m event dev = some o ∧
      (m.ftl.PMD (lbn_of m.ftl.P event.logical_address) ≠ none → o.ret = dev.ret) ∧
      (m.ftl.PMD (lbn_of m.ftl.P event.logical_address) = none →
        o.ret = status.SUCCESS ∧ o.m.ftl = m.ftl)) ∧
    (∃ o, write cfg m event fb newAddr dev = some o ∧ o.ret = dev.ret ∧
      o.m.ftl.PMD (lbn_of m.ftl.P event.logical_address) ≠ none ∧
      o.m.ftl.PMT (lbn_of m.ftl.P event.logical_address) ≠ none ∧
      o.m.ftl.current_page_offset =
        (if m.ftl.has_current_block = false ∨ m.ftl.current_page_offset = m.ftl.P then 0
          else m.ftl.current_page_offset) + 1 ∧
      PMT_get o.m.ftl (lbn_of m.ftl.P event.logical_address)
        (pmd_index_of m.ftl.P m.ftl.Q event.logical_address)
        (map_slot_of m.ftl.P m.ftl.Q event.logical_address) =
          some (toLong newAddr.get_linear_address)) := by
  obtain ⟨hr, _, ht⟩ := status_view cfg m h event fb newAddr dev
  obtain ⟨o, hw, w1, w2, _, _, _, _, _, w8, _, _, _, w12, _, w14, _⟩ :=
    write_view cfg m event fb newAddr dev h _ _ _ _ _ _ rfl rfl rfl rfl rfl rfl
  have hD : o.m.ftl.PMD (lbn_of m.ftl.P event.logical_address) ≠ none :=
    fun hn => ((w8 _).mp hn).1 rfl
  refine ⟨hr, ht, o, hw, w12, hD, ?_, w14, ?_⟩
  · intro hn
    exact hD ((w1.keys _).mpr hn)
  · rw [w2, if_pos ⟨rfl, rfl, rfl⟩]

/-- C22, amended, at the concrete input of the counterexample: on the fresh engine under
`cfg64`, `write(1000)` returns the SUCCESS of the Device and leaves the row `PMD[15]` in
place with the offset of the frontier at 1. -/
theorem C22_no_range_check_witness :
    WF m64.ftl ∧
    ∃ o, write cfg64 m64 (ev64 event_type.WRITE 1000 0) (fb64 0) (pg64 0) (ok64 1) = some o ∧
      o.ret = status.SUCCESS ∧ o.m.ftl.PMD 15 ≠ none ∧ o.m.ftl.current_page_offset = 1 := by
  obtain ⟨_, _, o, hw, hr, hD, _, hc, _⟩ := C22_no_range_check cfg64 m64 WF_m64
    (ev64 event_type.WRITE 1000 0) (fb64 0) (pg64 0) (ok64 1)
  exact ⟨WF_m64, o, hw, hr, hD, hc⟩

/-- C25.  For `P = BLOCK_SIZE ≥ 1` and `Q = MNFTL_OOB_SIZE / MNFTL_ENTRY_SIZE ≥ 1` (integer
quotient, `MNFTL_ENTRY_SIZE ≠ 0`) with `P + Q - 1 < 2^32`, the constructor returns an engine
with `P = BLOCK_SIZE`, `Q` that quotient and `num_pmd = (P + Q - 1) / Q`, which is
`ceil(P / Q)`: `num_pmd * Q ≥ P`, and every `n` with `n * Q ≥ P` is at least `num_pmd`. -/
theorem C25_num_pmd_is_ceil (cfg : Config) (hP : 1 ≤ cfg.BLOCK_SIZE)
    (hE : cfg.MNFTL_ENTRY_SIZE ≠ 0) (hQ : 1 ≤ cfg.MNFTL_OOB_SIZE / cfg.MNFTL_ENTRY_SIZE)
    (hlt : cfg.BLOCK_SIZE + cfg.MNFTL_OOB_SIZE / cfg.MNFTL_ENTRY_SIZE - 1 < 4294967296) :
    ∃ f, FtlImpl_MNftl.new cfg = some f ∧ f.P = cfg.BLOCK_SIZE ∧
      f.Q = cfg.MNFTL_OOB_SIZE / cfg.MNFTL_ENTRY_SIZE ∧
      f.num_pmd = (f.P + f.Q - 1) / f.Q ∧
      f.P ≤ f.num_pmd * f.Q ∧ ∀ n, f.P ≤ n * f.Q → f.num_pmd ≤ n := by
  have hQ0 : cfg.MNFTL_OOB_SIZE / cfg.MNFTL_ENTRY_SIZE ≠ 0 := by omega
  have hmod : (cfg.BLOCK_SIZE + cfg.MNFTL_OOB_SIZE / cfg.MNFTL_ENTRY_SIZE + 4294967296 - 1)
      % 4294967296 = cfg.BLOCK_SIZE + cfg.MNFTL_OOB_SIZE / cfg.MNFTL_ENTRY_SIZE - 1 := by
    omega
  unfold FtlImpl_MNftl.new
  rw [if_neg hE]
  simp only
  rw [if_neg hQ0]
  refine ⟨_, rfl, rfl, rfl, ?_, ?_, ?_⟩
  · exact congrArg (fun x => x / (cfg.MNFTL_OOB_SIZE / cfg.MNFTL_ENTRY_SIZE)) hmod
  · show cfg.BLOCK_SIZE ≤ _ / (cfg.MNFTL_OOB_SIZE / cfg.MNFTL_ENTRY_SIZE) *
      (cfg.MNFTL_OOB_SIZE / cfg.MNFTL_ENTRY_SIZE)
    rw [hmod]
    generalize cfg.MNFTL_OOB_SIZE / cfg.MNFTL_ENTRY_SIZE = Q at hQ
    generalize cfg.BLOCK_SIZE = P
    have h1 := Nat.div_add_mod (P + Q - 1) Q
    have h2 := Nat.mod_lt (P + Q - 1) (show 0 < Q by omega)
    have h3 : Q * ((P + Q - 1) / Q) = (P + Q - 1) / Q * Q := Nat.mul_comm _ _
    omega
  · intro n hn
    show _ / (cfg.MNFTL_OOB_SIZE / cfg.MNFTL_ENTRY_SIZE) ≤ n
    rw [hmod]
    change cfg.BLOCK_SIZE ≤ n * (cfg.MNFTL_OOB_SIZE / cfg.MNFTL_ENTRY_SIZE) at hn
    generalize cfg.MNFTL_OOB_SIZE / cfg.MNFTL_ENTRY_SIZE = Q at hQ hn
    generalize cfg.BLOCK_SIZE = P at hn
    have hlt2 : P + Q - 1 < (n + 1) * Q := by
      rw [Nat.add_mul, Nat.one_mul]; omega
    have := (Nat.div_lt_iff_lt_mul (show 0 < Q by omega)).mpr hlt2
    omega

/-- C25 at `P = 64`, `Q = 64 / 8 = 8`: the constructor computes `num_pmd = 8`. -/
theorem C25_num_pmd_is_ceil_witness :
    ∃ f, FtlImpl_MNftl.new cfg64 = some f ∧ f.P = 64 ∧ f.Q = 8 ∧ f.num_pmd = 8 := by
  obtain ⟨f, hf, hP, hQ, hn, _⟩ := C25_num_pmd_is_ceil cfg64 (by decide) (by decide)
    (by decide) (by decide)
  refine ⟨f, hf, hP, hQ, ?_⟩
  rw [hn, hP, hQ]
  rfl

/-- C30.  In a well-formed state `trim(LPN)` returns, and with `(LBN, PMD_INDEX, MAP_SLOT)`
the decomposition of `LPN`: every PMT slot other than `PMT[LBN][PMD_INDEX][MAP_SLOT]` keeps
its value; every `rmap` entry whose key is not the page number that slot held keeps its
value; PMD, the write frontier (`has_current_block`, `current_page_offset`, `current_block`),
BML and `current_blocks` are unchanged; PMD and PMT keep exactly their keys; the event keeps
its `replace_address`, and so does the event issued to the Device; when `PMD[LBN]` is absent
the call returns SUCCESS with the engine state, the event and the trace unchanged. -/
theorem C30_trim_frame (cfg : Config) (m : Machine) (h : WF m.ftl) (event : Event)
    (dev : IssueResp) :
    ∃ o, trim cfg m event dev = some o ∧
      (∀ L i s, ¬ (L = lbn_of m.ftl.P event.logical_address ∧
          i = pmd_index_of m.ftl.P m.ftl.Q event.logical_address ∧
          s = map_slot_of m.ftl.P m.ftl.Q event.logical_address) →
        PMT_get o.m.ftl L i s = PMT_get m.ftl L i s) ∧
      (∀ p, (∀ old, PMT_get m.ftl (lbn_of m.ftl.P event.logical_address)
          (pmd_index_of m.ftl.P m.ftl.Q event.logical_address)
          (map_slot_of m.ftl.P m.ftl.Q event.logical_address) = some old → p ≠ toUlong old) →
        o.m.ftl.rmap p = m.ftl.rmap p) ∧
      o.m.ftl.PMD = m.ftl.PMD ∧
      o.m.ftl.has_current_block = m.ftl.has_current_block ∧
      o.m.ftl.current_page_offset = m.ftl.current_page_offset ∧
      o.m.ftl.current_block = m.ftl.current_block ∧
      o.m.ftl.BML = m.ftl.BML ∧ o.m.ftl.current_blocks = m.ftl.current_blocks ∧
      (∀ L, o.m.ftl.PMT L = none ↔ m.ftl.PMT L = none) ∧
      o.event.replace_address = event.replace_address ∧
      (∃ sfx, o.m.trace = m.trace ++ sfx ∧
        ∀ e, e ∈ issued sfx → e.replace_address = event.replace_address) ∧
      (m.ftl.PMD (lbn_of m.ftl.P event.logical_address) = none →
        o.ret = status.SUCCESS ∧ o.m.ftl = m.ftl ∧ o.event = event ∧ o.m.trace = m.trace) := by
  obtain ⟨o, ho, hW, t1, t2⟩ := trim_view cfg m event dev h _ _ _ rfl rfl rfl
  refine ⟨o, ho, ?_⟩
  by_cases hD : m.ftl.PMD (lbn_of m.ftl.P event.logical_address) = none
  · obtain ⟨hf, he, hr, ht⟩ := t1 hD
    rw [hf, he, ht]
    refine ⟨fun _ _ _ _ => rfl, fun _ _ => rfl, rfl, rfl, rfl, rfl, rfl, rfl, fun _ => Iff.rfl,
      rfl, ⟨[], (List.append_nil _).symm, ?_⟩, fun _ => ⟨hr, rfl, rfl, rfl⟩⟩
    intro e he
    exact absurd he (List.not_mem_nil e)
  · obtain ⟨old, hp, hf, he, _, ht⟩ := t2 hD
    rw [hf, he, ht]
    have hiss : ∀ e, e ∈ issued ((if old ≠ -1 then
        [Action.rmap_erase (toUlong old),
          Action.pmt_store (lbn_of m.ftl.P event.logical_address)
            (pmd_index_of m.ftl.P m.ftl.Q event.logical_address)
            (map_slot_of m.ftl.P m.ftl.Q event.logical_address) (-1)] else []) ++
        [Action.issue ((event.set_noop true).set_address
          (cfg.mkAddress 0 address_valid.PAGE))]) →
        e.replace_address = event.replace_address := by
      intro e hmem
      by_cases hold : old ≠ -1
      · rw [if_pos hold] at hmem
        simp only [issued, List.cons_append, List.nil_append, List.mem_singleton] at hmem
        rw [hmem]; rfl
      · rw [if_neg hold] at hmem
        simp only [issued, List.nil_append, List.mem_singleton] at hmem
        rw [hmem]; rfl
    by_cases hold : old ≠ -1
    · rw [if_pos hold]
      refine ⟨?_, ?_, rfl, rfl, rfl, rfl, rfl, rfl, ?_, rfl,
        ⟨_, List.append_assoc _ _ _, hiss⟩, fun hc => absurd hc hD⟩
      · intro L i s hne
        rw [PMT_get_PMT_set, if_neg hne]
        rfl
      · intro p hpne
        have := hpne old hp
        show (if p = toUlong old then none else m.ftl.rmap p) = m.ftl.rmap p
        rw [if_neg this]
      · intro L
        show (if L = lbn_of m.ftl.P event.logical_address then
          (m.ftl.PMT L).map _ else m.ftl.PMT L) = none ↔ _
        by_cases hL : L = lbn_of m.ftl.P event.logical_address
        · rw [if_pos hL]
          cases m.ftl.PMT L <;> simp
        · rw [if_neg hL]
    · rw [if_neg hold]
      exact ⟨fun _ _ _ _ => rfl, fun _ _ => rfl, rfl, rfl, rfl, rfl, rfl, rfl, fun _ => Iff.rfl,
        rfl, ⟨_, List.append_assoc _ _ _, hiss⟩, fun hc => absurd hc hD⟩

/-- C30 on the state after the first `write(5)` of the scenario under `cfg64`: `trim(6)`
leaves the slot of logical page 5, which holds page 0, and the entry `rmap[0]` in place. -/
theorem C30_trim_frame_witness :
    WF (m64.after cfg64 [Op.write (ev64 event_type.WRITE 5 0) (fb64 0) (pg64 0) (ok64 1)]).ftl ∧
    ∃ o, trim cfg64
        (m64.after cfg64 [Op.write (ev64 event_type.WRITE 5 0) (fb64 0) (pg64 0) (ok64 1)])
        (ev64 event_type.TRIM 6 2) (ok64 0) = some o ∧
      PMT_get o.m.ftl 0 0 5 = some 0 := by
  obtain ⟨hW, hP, hQ, hpmt, _⟩ := after_first_write 5 0 0 1 (by decide) (by decide)
  obtain ⟨o, ho, hslots, _⟩ := C30_trim_frame cfg64 _ hW (ev64 event_type.TRIM 6 2) (ok64 0)
  refine ⟨hW, o, ho, ?_⟩
  rw [hslots 0 0 5 ?_]
  · exact hpmt
  · rw [hP, hQ]
    decide

/-- The loop of `cleanup_block` keeps the keys of PMD. -/
theorem cleanup_pages_pmd_keys (cfg : Config) (pa : Int) (get_state : Nat → page_state)
    (resp : Nat → CopyResp) (c : Outcome Unit) (h : WF c.m.ftl) (n : Nat) :
    ∃ c1, cleanup_pages cfg pa get_state resp c n = some c1 ∧ WF c1.m.ftl ∧
      ∀ L, c1.m.ftl.PMD L = none ↔ c.m.ftl.PMD L = none := by
  refine cleanup_pages_induct cfg pa get_state resp c h
    (fun _ c1 => ∀ L, c1.m.ftl.PMD L = none ↔ c.m.ftl.PMD L = none)
    (fun _ => Iff.rfl) (fun _ _ _ _ hR _ => hR) ?_ n
  intro k c1 c2 hW _ hR _ hc2 L
  obtain ⟨c3, hc3, _, _, _, _, hk, _⟩ :=
    cleanup_page_view cfg pa k page_state.VALID (resp k) c1 hW
  rw [hc3] at hc2
  simp only [Option.some.injEq] at hc2
  subst hc2
  exact (hk L).trans (hR L)

/-- Every call is defined in a well-formed state and removes no key of PMD. -/
theorem pmd_keys_step (cfg : Config) (hB : 0 < cfg.BLOCK_SIZE) (m : Machine) (h : WF m.ftl)
    (op : Op) :
    ∃ m1, step cfg m op = some m1 ∧ WF m1.ftl ∧
      ∀ L, m.ftl.PMD L ≠ none → m1.ftl.PMD L ≠ none := by
  cases op with
  | read event dev =>
    obtain ⟨o, ho, hf⟩ := Inv_read cfg m event dev h
    refine ⟨o.m, by simp [step, ho], by rw [hf]; exact h, ?_⟩
    rw [hf]
    exact fun _ hL => hL
  | write event fb newAddr dev =>
    obtain ⟨o, ho, hW, _, _, _, _, _, _, hk, _⟩ :=
      write_view cfg m event fb newAddr dev h _ _ _ _ _ _ rfl rfl rfl rfl rfl rfl
    refine ⟨o.m, by simp [step, ho], hW, ?_⟩
    intro L hL hn
    exact hL ((hk L).mp hn).2
  | trim event dev =>
    obtain ⟨o, ho, hW, t1, t2⟩ := trim_view cfg m event dev h _ _ _ rfl rfl rfl
    refine ⟨o.m, by simp [step, ho], hW, ?_⟩
    by_cases hD : m.ftl.PMD (lbn_of m.ftl.P event.logical_address) = none
    · rw [(t1 hD).1]
      exact fun _ hL => hL
    · obtain ⟨old, _, hf, _⟩ := t2 hD
      rw [hf]
      by_cases hold : old ≠ -1
      · rw [if_pos hold]
        exact fun _ hL => hL
      · rw [if_neg hold]
        exact fun _ hL => hL
  | cleanup_block event pa get_state resp =>
    obtain ⟨c, hc, hW, hk⟩ := cleanup_pages_pmd_keys cfg pa get_state resp
      { m := m, event := event.incr_time_taken ((m.ftl.num_pmd : ℚ) * cfg.OOB_READ_DELAY),
        ret := () } h cfg.BLOCK_SIZE
    have ho := cleanup_block_some cfg m event pa get_state resp hB c hc
    show ∃ m1, Option.map (fun o => o.m) (cleanup_block cfg m event pa get_state resp) =
      some m1 ∧ _
    rw [ho]
    refine ⟨_, rfl, WF_of_fields c.m.ftl _ hW rfl rfl rfl rfl rfl rfl, ?_⟩
    intro L hL hn
    exact hL ((hk L).mp hn)

/-- C27.  Under an accepted configuration the engine can be constructed, with no key in PMD
or PMT, and every sequence of `read`, `write`, `trim` and `cleanup_block` calls is defined.
In the state `m` it reaches: the geometry is that of the constructed engine; PMD and PMT have
the same keys, every `PMD[L]` has `num_pmd` entries and every `PMT[L]` is a grid of `num_pmd`
rows of `Q` entries; a `write` to an LPN whose `PMD[LBN]` is absent performs `pmd_create` and
`pmt_create` before the stores into the slot, the anchor and `rmap`, and afterwards every
entry of `PMD[LBN]` and `PMT[LBN]` other than the written anchor and slot is `UNMAPPED`;
every call is defined and leaves every key of PMD and of PMT in place. -/
theorem C27_store_shape (cfg : Config) (hok : cfg.ok) :
    ∃ m0, Machine.new cfg = some m0 ∧ m0.ftl.PMD = (fun _ => none) ∧
      m0.ftl.PMT = (fun _ => none) ∧
      ∀ ops, ∃ m, run cfg m0 ops = some m ∧
        m.ftl.Q = m0.ftl.Q ∧ m.ftl.num_pmd = m0.ftl.num_pmd ∧
        (∀ L, m.ftl.PMD L = none ↔ m.ftl.PMT L = none) ∧
        (∀ L row, m.ftl.PMD L = some row → row.length = m.ftl.num_pmd) ∧
        (∀ L grid, m.ftl.PMT L = some grid →
          grid.length = m.ftl.num_pmd ∧ ∀ row, row ∈ grid → row.length = m.ftl.Q) ∧
        (∀ event fb newAddr dev,
          m.ftl.PMD (lbn_of m.ftl.P event.logical_address) = none →
          ∃ o ev, write cfg m event fb newAddr dev = some o ∧
            o.m.trace = m.trace ++
              (if m.ftl.has_current_block = false ∨ m.ftl.current_page_offset = m.ftl.P then
                [Action.get_free_block] else []) ++
              [Action.pmd_create (lbn_of m.ftl.P event.logical_address),
               Action.pmt_create (lbn_of m.ftl.P event.logical_address),
               Action.get_free_page,
               Action.pmt_store (lbn_of m.ftl.P event.logical_address)
                 (pmd_index_of m.ftl.P m.ftl.Q event.logical_address)
                 (map_slot_of m.ftl.P m.ftl.Q event.logical_address)
                 (toLong newAddr.get_linear_address),
               Action.pmd_store (lbn_of m.ftl.P event.logical_address)
                 (pmd_index_of m.ftl.P m.ftl.Q event.logical_address)
                 (toLong newAddr.get_linear_address),
               Action.rmap_store newAddr.get_linear_address
                 ⟨lbn_of m.ftl.P event.logical_address,
                  pmd_index_of m.ftl.P m.ftl.Q event.logical_address,
                  map_slot_of m.ftl.P m.ftl.Q event.logical_address⟩,
               Action.issue ev] ∧
            (∀ i, PMD_get o.m.ftl (lbn_of m.ftl.P event.logical_address) i =
              if i = pmd_index_of m.ftl.P m.ftl.Q event.logical_address then
                some (toLong newAddr.get_linear_address)
              else if i < m.ftl.num_pmd then some UNMAPPED else none) ∧
            (∀ i s, PMT_get o.m.ftl (lbn_of m.ftl.P event.logical_address) i s =
              if i = pmd_index_of m.ftl.P m.ftl.Q event.logical_address ∧
                  s = map_slot_of m.ftl.P m.ftl.Q event.logical_address then
                some (toLong newAddr.get_linear_address)
              else if i < m.ftl.num_pmd ∧ s < m.ftl.Q then some UNMAPPED else none)) ∧
        (∀ op, ∃ m1, step cfg m op = some m1 ∧
          ∀ L, (m.ftl.PMD L ≠ none → m1.ftl.PMD L ≠ none) ∧
            (m.ftl.PMT L ≠ none → m1.ftl.PMT L ≠ none)) := by
  obtain ⟨m0, h0, hI, _, _, hD0, hT0, _⟩ := Inv_new cfg hok
  refine ⟨m0, h0, hD0, hT0, fun ops => ?_⟩
  obtain ⟨m, hm, hW, _, hQ, hN⟩ := static_run cfg hok.1 ops m0 hI.wf
  refine ⟨m, hm, hQ, hN, hW.keys, hW.pmd_len, hW.pmt_len, ?_, ?_⟩
  · intro event fb newAddr dev hD
    have hT : m.ftl.PMT (lbn_of m.ftl.P event.logical_address) = none := (hW.keys _).mp hD
    have hold : (PMT_get m.ftl (lbn_of m.ftl.P event.logical_address)
        (pmd_index_of m.ftl.P m.ftl.Q event.logical_address)
        (map_slot_of m.ftl.P m.ftl.Q event.logical_address)).getD (-1) = -1 := by
      unfold PMT_get
      rw [hT]
      rfl
    obtain ⟨o, ev, ho, _, ht⟩ := write_trace cfg m event fb newAddr dev hW _ _ _ (-1)
      rfl rfl rfl hold.symm
    obtain ⟨o1, ho1, _, w2, w3, _⟩ :=
      write_view cfg m event fb newAddr dev hW _ _ _ _ _ _ rfl rfl rfl rfl rfl rfl
    rw [ho] at ho1
    simp only [Option.some.injEq] at ho1
    subst ho1
    refine ⟨o, ev, ho, ?_, ?_, ?_⟩
    · rw [ht, if_pos hD, if_pos hT]
      simp only [store_mapping_actions, ne_eq, not_true_eq_false, if_false, List.nil_append,
        List.append_assoc, List.cons_append]
    · intro i
      rw [w3]
      by_cases hi : i = pmd_index_of m.ftl.P m.ftl.Q event.logical_address
      · rw [if_pos ⟨rfl, hi⟩, if_pos hi]
      · rw [if_neg (fun hc => hi hc.2), if_neg hi, if_pos ⟨rfl, hD⟩]
        rfl
    · intro i s
      rw [w2]
      by_cases hi : i = pmd_index_of m.ftl.P m.ftl.Q event.logical_address ∧
          s = map_slot_of m.ftl.P m.ftl.Q event.logical_address
      · rw [if_pos ⟨rfl, hi⟩, if_pos hi]
      · rw [if_neg (fun hc => hi hc.2), if_neg hi, if_pos ⟨rfl, hT⟩]
        rfl
  · intro op
    obtain ⟨m1, hs, hW1, hk⟩ := pmd_keys_step cfg hok.1 m hW op
    refine ⟨m1, hs, fun L => ⟨hk L, ?_⟩⟩
    intro hL hn
    exact hk L (fun hc => hL ((hW.keys L).mp hc)) ((hW1.keys L).mpr hn)

/-- C27 under `cfg64`: the engine is constructed without keys, and after `write(5)` the rows
of LBN 0 exist in both PMD and PMT, with `num_pmd = 8` entries in `PMD[0]`. -/
theorem C27_store_shape_witness :
    cfg64.ok ∧
    ∃ m, run cfg64 m64 [Op.write (ev64 event_type.WRITE 5 0) (fb64 0) (pg64 0) (ok64 1)] =
        some m ∧ m.ftl.num_pmd = 8 ∧
      (m.ftl.PMD 0 = none ↔ m.ftl.PMT 0 = none) ∧
      ∀ row, m.ftl.PMD 0 = some row → row.length = 8 := by
  obtain ⟨m0, h0, _, _, hrun⟩ := C27_store_shape cfg64 cfg64_ok
  rw [new_cfg64] at h0
  simp only [Option.some.injEq] at h0
  subst h0
  obtain ⟨m, hm, _, hN, hk, hlen, _⟩ :=
    hrun [Op.write (ev64 event_type.WRITE 5 0) (fb64 0) (pg64 0) (ok64 1)]
  have hN8 : m.ftl.num_pmd = 8 := hN
  refine ⟨cfg64_ok, m, hm, hN8, hk 0, ?_⟩
  intro row hrow
  rw [← hN8]
  exact hlen 0 row hrow

/-- The actions of one copy of the loop of `cleanup_block`, around its two issues: the READ
sub-event, the actions `pre` of the allocation (no issue, no update of the mapping store),
the WRITE sub-event, and the actions `post` of the mapping rewrite (none when the old page is
absent from `rmap`). -/
theorem cleanup_page_actions (cfg : Config) (pa : Int) (i : Nat) (r : CopyResp)
    (c : Outcome Unit) (h : WF c.m.ftl) :
    ∃ c1 pre post, cleanup_page cfg pa i page_state.VALID r c = some c1 ∧
      c1.event.logical_address = c.event.logical_address ∧
      c1.event.start_time = c.event.start_time ∧
      c1.m.trace = c.m.trace ++
        [Action.issue ((Event.new cfg event_type.READ c.event.logical_address 1
          c.event.start_time).set_address (cfg.mkAddress
            (toUlong (pa + (i : Int)) % 4294967296) address_valid.PAGE))] ++ pre ++
        [Action.get_free_page,
         Action.issue (((Event.new cfg event_type.WRITE c.event.logical_address 1
          (c.event.start_time + r.rd.delay)).set_address r.newAddr).set_replace_address
            (cfg.mkAddress (toUlong (pa + (i : Int)) % 4294967296)
              address_valid.PAGE))] ++ post ∧
      issued pre = [] ∧ issued post = [] ∧
      (∀ a, a ∈ pre → a.is_mutation = false) ∧
      (c.m.ftl.rmap (toUlong (pa + (i : Int))) = none → post = []) ∧
      (∀ e, c.m.ftl.rmap (toUlong (pa + (i : Int))) = some e →
        post = [Action.pmt_store e.lbn e.pmd e.slot (toLong r.newAddr.get_linear_address),
          Action.pmd_store e.lbn e.pmd (toLong r.newAddr.get_linear_address),
          Action.rmap_erase (toUlong (pa + (i : Int))),
          Action.rmap_store r.newAddr.get_linear_address e]) := by
  obtain ⟨c1, hc1, q1, _, _, _, _, q6, _⟩ := cleanup_page_extra cfg pa i r c h
  refine ⟨c1, _, _, hc1, by rw [q1], by rw [q1], q6, ?_, ?_, ?_, ?_, ?_⟩
  · split <;> rfl
  · cases c.m.ftl.rmap (toUlong (pa + (i : Int))) <;> rfl
  · intro a ha
    split at ha
    · rw [List.mem_singleton] at ha
      rw [ha]; rfl
    · exact absurd ha (List.not_mem_nil a)
  · intro hn
    rw [hn]
  · intro e he
    rw [he]

/-- The sub-events of the loop of `cleanup_block`, for a triggering event `t` with the logical
address and the start time of the event the loop carries. -/
theorem cleanup_pages_sub_events (cfg : Config) (pa : Int) (get_state : Nat → page_state)
    (resp : Nat → CopyResp) (c : Outcome Unit) (h : WF c.m.ftl) (t : Event)
    (hl : c.event.logical_address = t.logical_address)
    (hs : c.event.start_time = t.start_time) (n : Nat) :
    ∃ c1, cleanup_pages cfg pa get_state resp c n = some c1 ∧ WF c1.m.ftl ∧
      c1.event.logical_address = t.logical_address ∧ c1.event.start_time = t.start_time ∧
      ∃ sfx, c1.m.trace = c.m.trace ++ sfx ∧
        issued sfx = spec_copy_events cfg t pa get_state resp n := by
  refine cleanup_pages_induct cfg pa get_state resp c h
    (fun n c1 => c1.event.logical_address = t.logical_address ∧
      c1.event.start_time = t.start_time ∧
      ∃ sfx, c1.m.trace = c.m.trace ++ sfx ∧
        issued sfx = spec_copy_events cfg t pa get_state resp n)
    ⟨hl, hs, [], (List.append_nil _).symm, rfl⟩ ?_ ?_ n
  · intro k c1 _ _ hR hst
    obtain ⟨r1, r2, sfx, r3, r4⟩ := hR
    refine ⟨r1, r2, sfx, r3, ?_⟩
    show issued sfx = spec_copy_events cfg t pa get_state resp k ++ _
    rw [if_neg hst, List.append_nil]
    exact r4
  · intro k c1 c2 hW _ hR hst hc2
    obtain ⟨r1, r2, sfx, r3, r4⟩ := hR
    obtain ⟨c3, pre, post, hc3, a1, a2, a3, a4, a5, _⟩ :=
      cleanup_page_actions cfg pa k (resp k) c1 hW
    rw [hc3] at hc2
    simp only [Option.some.injEq] at hc2
    subst hc2
    rw [r3] at a3
    simp only [List.append_assoc] at a3
    refine ⟨a1.trans r1, a2.trans r2, _, a3, ?_⟩
    · show _ = spec_copy_events cfg t pa get_state resp k ++ _
      rw [if_pos hst, ← r4, r1, r2]
      simp only [issued_append, a4, a5, List.nil_append, List.append_nil]
      rfl

/-- C28.  In a well-formed state and for `BLOCK_SIZE ≥ 1`, `cleanup_block` returns, and the
events it hands to the Device are, in this order, those of `spec_copy_events`: for the page
indices `0, …, BLOCK_SIZE - 1` in ascending order and for each index whose state is VALID,
and for no other index, one READ sub-event at `old_ppn = physical_base + i` followed by one
WRITE sub-event at the newly allocated page with `replace_address = (old_ppn, PAGE)` and
`start_time` the start time of the triggering event plus the time the Device took for the
READ.  No assumption is made on `rmap`, so this includes the VALID pages absent from it. -/
theorem C28_cleanup_sub_events (cfg : Config) (hB : 0 < cfg.BLOCK_SIZE) (m : Machine)
    (h : WF m.ftl) (event : Event) (pa : Int) (get_state : Nat → page_state)
    (resp : Nat → CopyResp) :
    ∃ o sfx, cleanup_block cfg m event pa get_state resp = some o ∧
      o.m.trace = m.trace ++ sfx ∧
      issued sfx = spec_copy_events cfg event pa get_state resp cfg.BLOCK_SIZE := by
  obtain ⟨c, hc, _, _, _, sfx, ht, hi⟩ := cleanup_pages_sub_events cfg pa get_state resp
    { m := m, event := event.incr_time_taken ((m.ftl.num_pmd : ℚ) * cfg.OOB_READ_DELAY),
      ret := () } h event rfl rfl cfg.BLOCK_SIZE
  exact ⟨_, sfx, cleanup_block_some cfg m event pa get_state resp hB c hc, ht, hi⟩

/-- C28 on the fresh engine under `cfg2x2` (one page per block): the only page of the victim
is VALID and absent from `rmap`; `cleanup_block` hands to the Device its READ sub-event
followed by its WRITE sub-event. -/
theorem C28_cleanup_sub_events_witness :
    0 < cfg2x2.BLOCK_SIZE ∧ WF m2x2.ftl ∧ m2x2.ftl.rmap 0 = none ∧
    ∃ o sfx, cleanup_block cfg2x2 m2x2 (Event.new cfg2x2 event_type.WRITE 0 1 0) 0
        (fun _ => page_state.VALID) (fun _ => copy2x2 1 1 2) = some o ∧
      o.m.trace = m2x2.trace ++ sfx ∧
      issued sfx =
        [spec_read_sub_event cfg2x2 (Event.new cfg2x2 event_type.WRITE 0 1 0) 0 0,
         spec_write_sub_event cfg2x2 (Event.new cfg2x2 event_type.WRITE 0 1 0) 0 0
           (copy2x2 1 1 2)] :=
  ⟨by decide, WF_m2x2, rfl,
    C28_cleanup_sub_events cfg2x2 (by decide) m2x2 WF_m2x2
      (Event.new cfg2x2 event_type.WRITE 0 1 0) 0 (fun _ => page_state.VALID)
      (fun _ => copy2x2 1 1 2)⟩

/-- The actions of `write` before its single issue hand nothing to the Device. -/
theorem write_issue_last (cfg : Config) (m : Machine) (event : Event) (fb : BlockResp)
    (newAddr : Address) (dev : IssueResp) (h : WF m.ftl) :
    ∃ o pre ev, write cfg m event fb newAddr dev = some o ∧
      o.m.trace = m.trace ++ pre ++ [Action.issue ev] ∧ issued pre = [] := by
  obtain ⟨o, ev, ho, _, ht⟩ := write_trace cfg m event fb newAddr dev h _ _ _ _ rfl rfl rfl rfl
  simp only [List.append_assoc] at ht
  rw [← List.append_assoc, ← List.append_assoc, ← List.append_assoc, ← List.append_assoc,
    ← List.append_assoc] at ht
  simp only [List.append_assoc m.trace] at ht
  rw [← List.append_assoc m.trace] at ht
  refine ⟨o, _, ev, ho, ht, ?_⟩
  simp only [issued_append]
  have h1 : ∀ L, issued (if m.ftl.PMD L = none then [Action.pmd_create L] else []) = [] := by
    intro L; split <;> rfl
  have h2 : ∀ L, issued (if m.ftl.PMT L = none then [Action.pmt_create L] else []) = [] := by
    intro L; split <;> rfl
  have h3 : ∀ L i s old new, issued (store_mapping_actions L i s old new) = [] := by
    intro L i s old new
    unfold store_mapping_actions
    rw [issued_append]
    split <;> rfl
  have h4 : issued (if m.ftl.has_current_block = false ∨
      m.ftl.current_page_offset = m.ftl.P then [Action.get_free_block] else []) = [] := by
    split <;> rfl
  rw [h1, h2, h3, h4]
  rfl

/-- Regrouping of the actions of one copy around the issue of the WRITE sub-event. -/
theorem copy_actions_split (t a pre post : List Action) (g w : Action) :
    t ++ a ++ pre ++ [g, w] ++ post = t ++ a ++ (pre ++ [g]) ++ [w] ++ post := by
  simp

/-- Regrouping of the actions of one copy: everything before the issue of the WRITE
sub-event, then that issue and what follows it. -/
theorem copy_actions_tail (t a pre post : List Action) (g w : Action) :
    t ++ a ++ pre ++ [g, w] ++ post = (t ++ a ++ pre ++ [g]) ++ w :: post := by
  simp

/-- C26, counterexample.  Under `cfg2x2` (one page per block), after `write(0)` landed on
page 0, `cleanup_block` of block 0 relocates that page to page 1: the trace ends with the
issue of the WRITE sub-event followed by the four updates of the mapping store for the
relocated page, so the mapping rewrite comes after the issue. -/
theorem C26_rewrite_after_issue_counterexample :
    ∃ o pre wr, cleanup_block cfg2x2 (Machine.after cfg2x2 m2x2 [write2x2 0 0])
        (Event.new cfg2x2 event_type.WRITE 0 1 0) 0 (fun _ => page_state.VALID)
        (fun _ => copy2x2 1 1 2) = some o ∧
      o.m.trace = pre ++ [Action.issue wr, Action.pmt_store 0 0 0 1, Action.pmd_store 0 0 1,
        Action.rmap_erase 0, Action.rmap_store 1 ⟨0, 0, 0⟩] ∧
      wr.type = event_type.WRITE ∧ wr.address = (copy2x2 1 1 2).newAddr := by
  obtain ⟨hW, _, _, hr, _⟩ := after_write2x2 0 (by decide)
  obtain ⟨c1, pre, post, hc1, _, _, ht, _, _, _, _, hpost⟩ :=
    cleanup_page_actions cfg2x2 0 0 (copy2x2 1 1 2)
      { m := Machine.after cfg2x2 m2x2 [write2x2 0 0],
        event := (Event.new cfg2x2 event_type.WRITE 0 1 0).incr_time_taken
          (((Machine.after cfg2x2 m2x2 [write2x2 0 0]).ftl.num_pmd : ℚ) *
            cfg2x2.OOB_READ_DELAY),
        ret := () } hW
  have hloop := cleanup_pages_succ cfg2x2 0 (fun _ => page_state.VALID)
    (fun _ => copy2x2 1 1 2)
    { m := Machine.after cfg2x2 m2x2 [write2x2 0 0],
      event := (Event.new cfg2x2 event_type.WRITE 0 1 0).incr_time_taken
        (((Machine.after cfg2x2 m2x2 [write2x2 0 0]).ftl.num_pmd : ℚ) *
          cfg2x2.OOB_READ_DELAY),
      ret := () } 0 _ rfl
  have ho := cleanup_block_some cfg2x2 (Machine.after cfg2x2 m2x2 [write2x2 0 0])
    (Event.new cfg2x2 event_type.WRITE 0 1 0) 0 (fun _ => page_state.VALID)
    (fun _ => copy2x2 1 1 2) (by decide) c1 (hloop.trans hc1)
  have hp := hpost ⟨0, 0, 0⟩ hr
  rw [hp] at ht
  exact ⟨_, _, _, ho, ht.trans (copy_actions_tail _ _ _ _ _ _), rfl, rfl⟩

/-- C26, amended.  In a well-formed state: `write` performs all its actions, among them
every update of PMT, PMD and `rmap`, before the single event it issues; so does `trim` when
`PMD[LBN]` exists, and it performs no action when it is absent; one copy of the loop of
`cleanup_block` issues the READ sub-event, then performs actions `pre` that update nothing in
the mapping store and issue nothing, then issues the WRITE sub-event at the new page, and
only then performs the actions `post` of the mapping rewrite: none when the old page is
absent from `rmap`, the stores into the PMT slot and the PMD anchor and the move of the
`rmap` entry when it is present. -/
theorem C26_mutations_and_issues (cfg : Config) (m : Machine) (h : WF m.ftl) (event : Event)
    (fb : BlockResp) (newAddr : Address) (dev : IssueResp) (pa : Int) (i : Nat)
    (r : CopyResp) :
    (∃ o pre ev, write cfg m event fb newAddr dev = some o ∧
      o.m.trace = m.trace ++ pre ++ [Action.issue ev] ∧ issued pre = []) ∧
    (∃ o pre ev, trim cfg m event dev = some o ∧ issued pre = [] ∧
      (m.ftl.PMD (lbn_of m.ftl.P event.logical_address) = none → o.m.trace = m.trace) ∧
      (m.ftl.PMD (lbn_of m.ftl.P event.logical_address) ≠ none →
        o.m.trace = m.trace ++ pre ++ [Action.issue ev])) ∧
    (∃ c1 rd pre wr post,
      cleanup_page cfg pa i page_state.VALID r { m := m, event := event, ret := () } =
        some c1 ∧
      c1.m.trace = m.trace ++ [Action.issue rd] ++ pre ++ [Action.issue wr] ++ post ∧
      rd.type = event_type.READ ∧ wr.type = event_type.WRITE ∧ wr.address = r.newAddr ∧
      issued pre = [] ∧ (∀ a, a ∈ pre → a.is_mutation = false) ∧ issued post = [] ∧
      (m.ftl.rmap (toUlong (pa + (i : Int))) = none → post = []) ∧
      (∀ e, m.ftl.rmap (toUlong (pa + (i : Int))) = some e →
        post = [Action.pmt_store e.lbn e.pmd e.slot (toLong r.newAddr.get_linear_address),
          Action.pmd_store e.lbn e.pmd (toLong r.newAddr.get_linear_address),
          Action.rmap_erase (toUlong (pa + (i : Int))),
          Action.rmap_store r.newAddr.get_linear_address e])) := by
  refine ⟨write_issue_last cfg m event fb newAddr dev h, ?_, ?_⟩
  · obtain ⟨o, ho, _, t1, t2⟩ := trim_view cfg m event dev h _ _ _ rfl rfl rfl
    by_cases hD : m.ftl.PMD (lbn_of m.ftl.P event.logical_address) = none
    · exact ⟨o, [], event, ho, rfl, fun _ => (t1 hD).2.2.2, fun hc => absurd hD hc⟩
    · obtain ⟨old, _, _, _, _, ht⟩ := t2 hD
      refine ⟨o, _, _, ho, ?_, fun hc => absurd hc hD, fun _ => ht⟩
      split <;> rfl
  · obtain ⟨c1, pre, post, hc1, _, _, ht, a4, a5, a6, a7, a8⟩ :=
      cleanup_page_actions cfg pa i r { m := m, event := event, ret := () } h
    refine ⟨c1, _, pre ++ [Action.get_free_page], _, post, hc1,
      ht.trans (copy_actions_split _ _ _ _ _ _), rfl, rfl, rfl, ?_, ?_, a5, a7, a8⟩
    · rw [issued_append, a4]
      rfl
    · intro a ha
      rw [List.mem_append, List.mem_singleton] at ha
      cases ha with
      | inl hl => exact a6 a hl
      | inr hr => rw [hr]; rfl

/-- C26, amended, on the state of the counterexample: the copy of page 0 issues its READ and
WRITE sub-events and rewrites the slot, the anchor and the `rmap` entry afterwards. -/
theorem C26_mutations_and_issues_witness :
    WF (Machine.after cfg2x2 m2x2 [write2x2 0 0]).ftl ∧
    ∃ c1 rd pre wr, cleanup_page cfg2x2 0 0 page_state.VALID (copy2x2 1 1 2)
        { m := Machine.after cfg2x2 m2x2 [write2x2 0 0],
          event := Event.new cfg2x2 event_type.WRITE 0 1 0, ret := () } = some c1 ∧
      issued pre = [] ∧
      c1.m.trace = (Machine.after cfg2x2 m2x2 [write2x2 0 0]).trace ++ [Action.issue rd] ++
        pre ++ [Action.issue wr] ++
        [Action.pmt_store 0 0 0 1, Action.pmd_store 0 0 1, Action.rmap_erase 0,
          Action.rmap_store 1 ⟨0, 0, 0⟩] := by
  obtain ⟨hW, _, _, hr, _⟩ := after_write2x2 0 (by decide)
  obtain ⟨_, _, c1, rd, pre, wr, post, hc1, ht, _, _, _, hpre, _, _, _, hpost⟩ :=
    C26_mutations_and_issues cfg2x2 (Machine.after cfg2x2 m2x2 [write2x2 0 0]) hW
      (Event.new cfg2x2 event_type.WRITE 0 1 0) (copy2x2 1 1 2).fb (copy2x2 1 1 2).newAddr
      (copy2x2 1 1 2).wr 0 0 (copy2x2 1 1 2)
  refine ⟨hW, c1, rd, pre, wr, hc1, hpre, ?_⟩
  rw [ht, hpost ⟨0, 0, 0⟩ hr]
  rfl

/-- The getter of PMT only looks at the field `PMT`. -/
theorem PMT_get_congr (f g : FtlImpl_MNftl) (h : g.PMT = f.PMT) (L i s : Nat) :
    PMT_get g L i s = PMT_get f L i s := by
  unfold PMT_get; rw [h]

/-- The getter of PMD only looks at the field `PMD`. -/
theorem PMD_get_congr (f g : FtlImpl_MNftl) (h : g.PMD = f.PMD) (L i : Nat) :
    PMD_get g L i = PMD_get f L i := by
  unfold PMD_get; rw [h]

/-- A state that agrees with an anchored one on PMD and PMT is anchored. -/
theorem anchored_of_fields (f g : FtlImpl_MNftl) (h : anchored f) (hD : g.PMD = f.PMD)
    (hT : g.PMT = f.PMT) : anchored g := by
  intro L i s v hv hne
  rw [PMT_get_congr f g hT] at hv
  rw [PMD_get_congr f g hD]
  exact h L i s v hv hne

/-- The call `write` keeps every mapped slot anchored when the allocated page is a page
number. -/
theorem anchored_write (cfg : Config) (m : Machine) (event : Event) (fb : BlockResp)
    (newAddr : Address) (dev : IssueResp) (h : WF m.ftl) (ha : anchored m.ftl)
    (hp : isPage newAddr.get_linear_address) :
    ∃ o, write cfg m event fb newAddr dev = some o ∧ anchored o.m.ftl := by
  obtain ⟨o, ho, _, w2, w3, _⟩ :=
    write_view cfg m event fb newAddr dev h _ _ _ _ _ _ rfl rfl rfl rfl rfl rfl
  refine ⟨o, ho, ?_⟩
  intro L i s v hv hne
  rw [w2] at hv
  rw [w3]
  by_cases hLi : L = lbn_of m.ftl.P event.logical_address ∧
      i = pmd_index_of m.ftl.P m.ftl.Q event.logical_address
  · rw [if_pos hLi]
    exact ⟨_, rfl, hp⟩
  · rw [if_neg hLi]
    have hns : ¬ (L = lbn_of m.ftl.P event.logical_address ∧
        i = pmd_index_of m.ftl.P m.ftl.Q event.logical_address ∧
        s = map_slot_of m.ftl.P m.ftl.Q event.logical_address) :=
      fun hc => hLi ⟨hc.1, hc.2.1⟩
    rw [if_neg hns] at hv
    by_cases hT : L = lbn_of m.ftl.P event.logical_address ∧
        m.ftl.PMT (lbn_of m.ftl.P event.logical_address) = none
    · rw [if_pos hT] at hv
      split at hv
      · simp only [Option.some.injEq] at hv
        exact absurd hv.symm hne
      · exact Option.noConfusion hv
    · rw [if_neg hT] at hv
      have hD : ¬ (L = lbn_of m.ftl.P event.logical_address ∧
          m.ftl.PMD (lbn_of m.ftl.P event.logical_address) = none) :=
        fun hc => hT ⟨hc.1, (h.keys _).mp hc.2⟩
      rw [if_neg hD]
      exact ha L i s v hv hne

/-- The call `trim` keeps every mapped slot anchored. -/
theorem anchored_trim (cfg : Config) (m : Machine) (event : Event) (dev : IssueResp)
    (h : WF m.ftl) (ha : anchored m.ftl) :
    ∃ o, trim cfg m event dev = some o ∧ anchored o.m.ftl := by
  obtain ⟨o, ho, _, t1, t2⟩ := trim_view cfg m event dev h _ _ _ rfl rfl rfl
  refine ⟨o, ho, ?_⟩
  by_cases hD : m.ftl.PMD (lbn_of m.ftl.P event.logical_address) = none
  · rw [(t1 hD).1]
    exact ha
  · obtain ⟨old, hp, hf, _⟩ := t2 hD
    rw [hf]
    by_cases hold : old ≠ -1
    · rw [if_pos hold]
      intro L i s v hv hne
      rw [PMT_get_PMT_set] at hv
      rw [PMD_get_PMT_set]
      split at hv
      · have hp2 : PMT_get (rmap_erase m.ftl (toUlong old))
            (lbn_of m.ftl.P event.logical_address)
            (pmd_index_of m.ftl.P m.ftl.Q event.logical_address)
            (map_slot_of m.ftl.P m.ftl.Q event.logical_address) = some old := hp
        rw [hp2] at hv
        simp only [Option.map_some', Option.some.injEq] at hv
        exact absurd hv.symm hne
      · exact ha L i s v hv hne
    · rw [if_neg hold]
      exact ha

/-- One iteration of the loop of `cleanup_block` keeps every mapped slot anchored when the
page allocated for the copy is a page number. -/
theorem anchored_cleanup_page (cfg : Config) (pa : Int) (i : Nat) (st : page_state)
    (r : CopyResp) (c : Outcome Unit) (h : WF c.m.ftl) (ha : anchored c.m.ftl)
    (hp : st = page_state.VALID → isPage r.newAddr.get_linear_address) :
    ∃ c1, cleanup_page cfg pa i st r c = some c1 ∧ anchored c1.m.ftl := by
  obtain ⟨c1, hc1, _, _, _, _, _, hskip, hcopy⟩ := cleanup_page_view cfg pa i st r c h
  refine ⟨c1, hc1, ?_⟩
  by_cases hst : st = page_state.VALID
  · obtain ⟨hnone, hsome⟩ := hcopy hst
    cases hr : c.m.ftl.rmap (toUlong (pa + (i : Int))) with
    | none =>
      obtain ⟨e1, e2, _⟩ := hnone hr
      exact anchored_of_fields c.m.ftl c1.m.ftl ha e1 e2
    | some e =>
      obtain ⟨v1, v2, _⟩ := hsome e hr
      intro L j s v hv hne
      rw [v1] at hv
      rw [v2]
      by_cases hLj : L = e.lbn ∧ j = e.pmd
      · rw [if_pos hLj]
        exact ⟨_, rfl, hp hst⟩
      · rw [if_neg hLj]
        rw [if_neg (fun hc => hLj ⟨hc.1, hc.2.1⟩)] at hv
        exact ha L j s v hv hne
  · rw [hskip hst]
    exact ha

/-- The loop of `cleanup_block` keeps the invariant and every mapped slot anchored when the
pages allocated for the copies are fresh page numbers. -/
theorem anchored_cleanup_pages (cfg : Config) (pa : Int) (get_state : Nat → page_state)
    (resp : Nat → CopyResp) (c : Outcome Unit) (h : Inv c.m.ftl) (ha : anchored c.m.ftl) :
    ∀ n, cleanup_allocs cfg pa get_state resp c (fun f _ a => allocFresh f a) n →
      ∃ c1, cleanup_pages cfg pa get_state resp c n = some c1 ∧ Inv c1.m.ftl ∧
        anchored c1.m.ftl
  | 0, _ => ⟨c, rfl, h, ha⟩
  | n + 1, hal => by
    obtain ⟨ha1, ha2⟩ := hal
    obtain ⟨c1, hc1, hI, hA⟩ := anchored_cleanup_pages cfg pa get_state resp c h ha n ha1
    obtain ⟨c2, hc2, hI2⟩ := Inv_cleanup_page cfg pa n (get_state n) (resp n) c1 hI
      (fun hst => ha2 hst c1 hc1)
    obtain ⟨c3, hc3, hA3⟩ := anchored_cleanup_page cfg pa n (get_state n) (resp n) c1 hI.wf hA
      (fun hst => (ha2 hst c1 hc1).1)
    rw [hc2] at hc3
    simp only [Option.some.injEq] at hc3
    subst hc3
    refine ⟨c2, ?_, hI2, hA3⟩
    rw [cleanup_pages_succ cfg pa get_state resp c n c1 hc1]
    exact hc2

/-- Every call whose allocations are fresh page numbers keeps the invariant and every mapped
slot anchored. -/
theorem anchored_step (cfg : Config) (hB : 0 < cfg.BLOCK_SIZE) (m : Machine) (h : Inv m.ftl)
    (ha : anchored m.ftl) (op : Op) (hf : opFresh cfg m op) :
    ∃ m1, step cfg m op = some m1 ∧ Inv m1.ftl ∧ anchored m1.ftl := by
  obtain ⟨m1, hs, hI⟩ := Inv_step cfg hB m h op hf
  refine ⟨m1, hs, hI, ?_⟩
  cases op with
  | read event dev =>
    obtain ⟨o, ho, hfe⟩ := Inv_read cfg m event dev h.wf
    have : step cfg m (Op.read event dev) = some o.m := by simp [step, ho]
    rw [hs] at this
    simp only [Option.some.injEq] at this
    rw [this, hfe]
    exact ha
  | write event fb newAddr dev =>
    obtain ⟨o, ho, hA⟩ := anchored_write cfg m event fb newAddr dev h.wf ha hf.1
    have : step cfg m (Op.write event fb newAddr dev) = some o.m := by simp [step, ho]
    rw [hs] at this
    simp only [Option.some.injEq] at this
    rw [this]
    exact hA
  | trim event dev =>
    obtain ⟨o, ho, hA⟩ := anchored_trim cfg m event dev h.wf ha
    have : step cfg m (Op.trim event dev) = some o.m := by simp [step, ho]
    rw [hs] at this
    simp only [Option.some.injEq] at this
    rw [this]
    exact hA
  | cleanup_block event pa get_state resp =>
    obtain ⟨c, hc, _, hA⟩ := anchored_cleanup_pages cfg pa get_state resp
      { m := m, event := event.incr_time_taken ((m.ftl.num_pmd : ℚ) * cfg.OOB_READ_DELAY),
        ret := () } h ha cfg.BLOCK_SIZE hf
    have ho := cleanup_block_some cfg m event pa get_state resp hB c hc
    have hs2 : Option.map (fun o => o.m) (cleanup_block cfg m event pa get_state resp) =
        some m1 := hs
    rw [ho] at hs2
    simp only [Option.map_some', Option.some.injEq] at hs2
    rw [← hs2]
    exact anchored_of_fields c.m.ftl _ hA rfl rfl

/-- Every sequence of calls whose allocations are fresh page numbers keeps the invariant and
every mapped slot anchored. -/
theorem anchored_run (cfg : Config) (hB : 0 < cfg.BLOCK_SIZE) :
    ∀ (ops : List Op) (m : Machine), Inv m.ftl → anchored m.ftl → runFresh cfg m ops →
      ∃ m1, run cfg m ops = some m1 ∧ Inv m1.ftl ∧ anchored m1.ftl
  | [], m, h, ha, _ => ⟨m, rfl, h, ha⟩
  | op :: ops, m, h, ha, hf => by
    obtain ⟨hf1, hf2⟩ := hf
    obtain ⟨m1, hm1, hI, hA⟩ := anchored_step cfg hB m h ha op hf1
    obtain ⟨m2, hm2, hI2, hA2⟩ := anchored_run cfg hB ops m1 hI hA (hf2 m1 hm1)
    refine ⟨m2, ?_, hI2, hA2⟩
    show (match step cfg m op with
      | none => none
      | some m1 => run cfg m1 ops) = some m2
    rw [hm1]; exact hm2

/-- In the constructed engine no slot is mapped. -/
theorem anchored_new (cfg : Config) (m0 : Machine) (h0 : Machine.new cfg = some m0) :
    anchored m0.ftl := by
  unfold Machine.new FtlImpl_MNftl.new at h0
  simp only at h0
  split at h0
  · exact Option.noConfusion h0
  · split at h0
    · exact Option.noConfusion h0
    · simp only [Option.map_some', Option.some.injEq] at h0
      subst h0
      intro L i s v hv _
      exact Option.noConfusion hv

/-- The frame of the loop of `cleanup_block` over the first `n ≤ BLOCK_SIZE` pages: every
entry of `rmap` is an entry on entry or the entry of a VALID page of the victim; a PMT slot
or a PMD anchor differs from its value on entry only where `rmap` recorded a VALID page of
the victim on entry; an entry of `rmap` differs only at a VALID page of the victim or at the
page allocated for the copy of one. -/
theorem cleanup_pages_moved (cfg : Config) (pa : Int) (get_state : Nat → page_state)
    (resp : Nat → CopyResp) (c : Outcome Unit) (h : WF c.m.ftl) (n : Nat) :
    ∃ c1, cleanup_pages cfg pa get_state resp c n = some c1 ∧ WF c1.m.ftl ∧
      (n ≤ cfg.BLOCK_SIZE →
        (∀ k e, c1.m.ftl.rmap k = some e →
          c.m.ftl.rmap k = some e ∨ moved cfg pa get_state c.m.ftl e) ∧
        (∀ L i s, PMT_get c1.m.ftl L i s ≠ PMT_get c.m.ftl L i s →
          moved cfg pa get_state c.m.ftl ⟨L, i, s⟩) ∧
        (∀ L i, PMD_get c1.m.ftl L i ≠ PMD_get c.m.ftl L i →
          ∃ s, moved cfg pa get_state c.m.ftl ⟨L, i, s⟩) ∧
        (∀ k, c1.m.ftl.rmap k ≠ c.m.ftl.rmap k →
          ∃ j, j < n ∧ get_state j = page_state.VALID ∧
            (k = toUlong (pa + (j : Int)) ∨ k = (resp j).newAddr.get_linear_address))) := by
  refine cleanup_pages_induct cfg pa get_state resp c h
    (fun n c1 => n ≤ cfg.BLOCK_SIZE →
        (∀ k e, c1.m.ftl.rmap k = some e →
          c.m.ftl.rmap k = some e ∨ moved cfg pa get_state c.m.ftl e) ∧
        (∀ L i s, PMT_get c1.m.ftl L i s ≠ PMT_get c.m.ftl L i s →
          moved cfg pa get_state c.m.ftl ⟨L, i, s⟩) ∧
        (∀ L i, PMD_get c1.m.ftl L i ≠ PMD_get c.m.ftl L i →
          ∃ s, moved cfg pa get_state c.m.ftl ⟨L, i, s⟩) ∧
        (∀ k, c1.m.ftl.rmap k ≠ c.m.ftl.rmap k →
          ∃ j, j < n ∧ get_state j = page_state.VALID ∧
            (k = toUlong (pa + (j : Int)) ∨ k = (resp j).newAddr.get_linear_address)))
    ?_ ?_ ?_ n
  · intro _
    exact ⟨fun k e he => Or.inl he, fun _ _ _ hne => absurd rfl hne,
      fun _ _ hne => absurd rfl hne, fun _ hne => absurd rfl hne⟩
  · intro k c1 _ _ hR _ hle
    obtain ⟨r1, r2, r3, r4⟩ := hR (by omega)
    refine ⟨r1, r2, r3, ?_⟩
    intro q hq
    obtain ⟨j, hj, hv⟩ := r4 q hq
    exact ⟨j, by omega, hv⟩
  · intro k c1 c2 hW _ hR hst hc2 hle
    obtain ⟨r1, r2, r3, r4⟩ := hR (by omega)
    obtain ⟨c3, hc3, _, _, _, _, _, _, hcopy⟩ :=
      cleanup_page_view cfg pa k page_state.VALID (resp k) c1 hW
    rw [hc3] at hc2
    simp only [Option.some.injEq] at hc2
    subst hc2
    obtain ⟨hnone, hsome⟩ := hcopy rfl
    cases hr : c1.m.ftl.rmap (toUlong (pa + (k : Int))) with
    | none =>
      obtain ⟨e1, e2, e3⟩ := hnone hr
      refine ⟨?_, ?_, ?_, ?_⟩
      · intro q e he
        rw [e3] at he
        exact r1 q e he
      · intro L i s hne
        rw [PMT_get_congr c1.m.ftl c3.m.ftl e2] at hne
        exact r2 L i s hne
      · intro L i hne
        rw [PMD_get_congr c1.m.ftl c3.m.ftl e1] at hne
        exact r3 L i hne
      · intro q hq
        rw [e3] at hq
        obtain ⟨j, hj, hv⟩ := r4 q hq
        exact ⟨j, by omega, hv⟩
    | some e =>
      obtain ⟨v1, v2, v3⟩ := hsome e hr
      have hmv : moved cfg pa get_state c.m.ftl e := by
        cases r1 _ e hr with
        | inl h0 => exact ⟨k, by omega, hst, h0⟩
        | inr h1 => exact h1
      have heta : (⟨e.lbn, e.pmd, e.slot⟩ : RmapEntry) = e := by cases e; rfl
      refine ⟨?_, ?_, ?_, ?_⟩
      · intro q e1 he1
        rw [v3] at he1
        by_cases hq : q = (resp k).newAddr.get_linear_address
        · rw [if_pos hq] at he1
          simp only [Option.some.injEq] at he1
          rw [← he1]
          exact Or.inr hmv
        · rw [if_neg hq] at he1
          by_cases hq2 : q = toUlong (pa + (k : Int))
          · rw [if_pos hq2] at he1
            exact Option.noConfusion he1
          · rw [if_neg hq2] at he1
            exact r1 q e1 he1
      · intro L i s hne
        rw [v1] at hne
        by_cases ht : L = e.lbn ∧ i = e.pmd ∧ s = e.slot
        · obtain ⟨t1, t2, t3⟩ := ht
          rw [t1, t2, t3, heta]
          exact hmv
        · rw [if_neg ht] at hne
          exact r2 L i s hne
      · intro L i hne
        rw [v2] at hne
        by_cases ht : L = e.lbn ∧ i = e.pmd
        · obtain ⟨t1, t2⟩ := ht
          refine ⟨e.slot, ?_⟩
          rw [t1, t2, heta]
          exact hmv
        · rw [if_neg ht] at hne
          exact r3 L i hne
      · intro q hq
        rw [v3] at hq
        by_cases hq1 : q = (resp k).newAddr.get_linear_address
        · exact ⟨k, by omega, hst, Or.inr hq1⟩
        · rw [if_neg hq1] at hq
          by_cases hq2 : q = toUlong (pa + (k : Int))
          · exact ⟨k, by omega, hst, Or.inl hq2⟩
          · rw [if_neg hq2] at hq
            obtain ⟨j, hj, hv⟩ := r4 q hq
            exact ⟨j, by omega, hv⟩

/-- When `rmap` records no VALID page of the victim on entry, the loop of `cleanup_block`
leaves PMD, PMT and `rmap` as they are. -/
theorem cleanup_pages_orphans (cfg : Config) (pa : Int) (get_state : Nat → page_state)
    (resp : Nat → CopyResp) (c : Outcome Unit) (h : WF c.m.ftl)
    (horph : ∀ j, j < cfg.BLOCK_SIZE → get_state j = page_state.VALID →
      c.m.ftl.rmap (toUlong (pa + (j : Int))) = none) (n : Nat) :
    ∃ c1, cleanup_pages cfg pa get_state resp c n = some c1 ∧ WF c1.m.ftl ∧
      (n ≤ cfg.BLOCK_SIZE → c1.m.ftl.PMD = c.m.ftl.PMD ∧ c1.m.ftl.PMT = c.m.ftl.PMT ∧
        c1.m.ftl.rmap = c.m.ftl.rmap) := by
  refine cleanup_pages_induct cfg pa get_state resp c h
    (fun n c1 => n ≤ cfg.BLOCK_SIZE → c1.m.ftl.PMD = c.m.ftl.PMD ∧
      c1.m.ftl.PMT = c.m.ftl.PMT ∧ c1.m.ftl.rmap = c.m.ftl.rmap)
    (fun _ => ⟨rfl, rfl, rfl⟩) (fun k c1 _ _ hR _ hle => hR (by omega)) ?_ n
  intro k c1 c2 hW _ hR hst hc2 hle
  obtain ⟨r1, r2, r3⟩ := hR (by omega)
  obtain ⟨c3, hc3, _, _, _, _, _, _, hcopy⟩ :=
    cleanup_page_view cfg pa k page_state.VALID (resp k) c1 hW
  rw [hc3] at hc2
  simp only [Option.some.injEq] at hc2
  subst hc2
  have hr : c1.m.ftl.rmap (toUlong (pa + (k : Int))) = none := by
    rw [r3]
    exact horph k (by omega) hst
  obtain ⟨e1, e2, e3⟩ := (hcopy rfl).1 hr
  exact ⟨e1.trans r1, e2.trans r2, e3.trans r3⟩

/-- In a state that satisfies the invariant and whose mapped slots are anchored, every slot
recorded in `rmap` is mapped and anchored. -/
theorem rmap_mapped_of_Inv (f : FtlImpl_MNftl) (h : Inv f) (ha : anchored f) :
    rmap_mapped f := by
  intro k e he
  obtain ⟨hk, hp⟩ := h.pages k e he
  have heta : (⟨e.lbn, e.pmd, e.slot⟩ : RmapEntry) = e := by cases e; rfl
  have hs : PMT_get f e.lbn e.pmd e.slot = some (toLong k) :=
    (h.i1 k e.lbn e.pmd e.slot hk hp).mp (by rw [he, heta])
  obtain ⟨a, ha1, ha2⟩ := ha e.lbn e.pmd e.slot (toLong k) hs hp
  refine ⟨?_, ?_⟩
  · rw [hs]
    intro hc
    simp only [Option.some.injEq] at hc
    exact hp hc
  · rw [ha1]
    intro hc
    simp only [Option.some.injEq] at hc
    exact ha2 hc

/-- While the pages allocated for the copies are page numbers, the loop of `cleanup_block`
keeps every slot recorded in `rmap` mapped and anchored, and changes for no slot whether
`read` marks the event noop. -/
theorem cleanup_pages_noop (cfg : Config) (pa : Int) (get_state : Nat → page_state)
    (resp : Nat → CopyResp) (c : Outcome Unit) (h : WF c.m.ftl) (hK : rmap_mapped c.m.ftl)
    (hp : ∀ j, j < cfg.BLOCK_SIZE → get_state j = page_state.VALID →
      isPage (resp j).newAddr.get_linear_address) (n : Nat) :
    ∃ c1, cleanup_pages cfg pa get_state resp c n = some c1 ∧ WF c1.m.ftl ∧
      c1.m.ftl.P = c.m.ftl.P ∧ c1.m.ftl.Q = c.m.ftl.Q ∧
      (n ≤ cfg.BLOCK_SIZE → rmap_mapped c1.m.ftl ∧
        ∀ L i s, read_noop_cond c1.m.ftl L i s ↔ read_noop_cond c.m.ftl L i s) := by
  refine cleanup_pages_induct cfg pa get_state resp c h
    (fun n c1 => c1.m.ftl.P = c.m.ftl.P ∧ c1.m.ftl.Q = c.m.ftl.Q ∧
      (n ≤ cfg.BLOCK_SIZE → rmap_mapped c1.m.ftl ∧
        ∀ L i s, read_noop_cond c1.m.ftl L i s ↔ read_noop_cond c.m.ftl L i s))
    ⟨rfl, rfl, fun _ => ⟨hK, fun _ _ _ => Iff.rfl⟩⟩
    (fun k c1 _ _ hR _ => ⟨hR.1, hR.2.1, fun hle => hR.2.2 (by omega)⟩) ?_ n
  intro k c1 c2 hW _ hR hst hc2
  obtain ⟨c3, hc3, _, hP, hQ, _, hkeys, _, hcopy⟩ :=
    cleanup_page_view cfg pa k page_state.VALID (resp k) c1 hW
  rw [hc3] at hc2
  simp only [Option.some.injEq] at hc2
  subst hc2
  refine ⟨hP.trans hR.1, hQ.trans hR.2.1, fun hle => ?_⟩
  obtain ⟨rK, rN⟩ := hR.2.2 (by omega)
  have hnew : toLong (resp k).newAddr.get_linear_address ≠ -1 := hp k (by omega) hst
  obtain ⟨hnone, hsome⟩ := hcopy rfl
  cases hr : c1.m.ftl.rmap (toUlong (pa + (k : Int))) with
  | none =>
    obtain ⟨e1, e2, e3⟩ := hnone hr
    refine ⟨?_, ?_⟩
    · intro q e he
      rw [e3] at he
      rw [PMT_get_congr c1.m.ftl c3.m.ftl e2, PMD_get_congr c1.m.ftl c3.m.ftl e1]
      exact rK q e he
    · intro L i s
      unfold read_noop_cond
      rw [PMT_get_congr c1.m.ftl c3.m.ftl e2, PMD_get_congr c1.m.ftl c3.m.ftl e1, e1]
      exact rN L i s
  | some e =>
    obtain ⟨v1, v2, v3⟩ := hsome e hr
    obtain ⟨k1, k2⟩ := rK _ e hr
    have hsn : (some (toLong (resp k).newAddr.get_linear_address) : Option Int) ≠
        some (-1) := by
      intro hc
      simp only [Option.some.injEq] at hc
      exact hnew hc
    refine ⟨?_, ?_⟩
    · intro q e1 he1
      rw [v1, v2]
      rw [v3] at he1
      by_cases hq : q = (resp k).newAddr.get_linear_address
      · rw [if_pos hq] at he1
        simp only [Option.some.injEq] at he1
        subst he1
        rw [if_pos ⟨rfl, rfl, rfl⟩, if_pos ⟨rfl, rfl⟩]
        exact ⟨hsn, hsn⟩
      · rw [if_neg hq] at he1
        by_cases hq2 : q = toUlong (pa + (k : Int))
        · rw [if_pos hq2] at he1
          exact Option.noConfusion he1
        · rw [if_neg hq2] at he1
          obtain ⟨j1, j2⟩ := rK q e1 he1
          refine ⟨?_, ?_⟩
          · split
            · exact hsn
            · exact j1
          · split
            · exact hsn
            · exact j2
    · intro L i s
      refine Iff.trans ?_ (rN L i s)
      unfold read_noop_cond
      rw [v1, v2]
      have hD : PMD_get c1.m.ftl L i = some (-1) ↔
          (if L = e.lbn ∧ i = e.pmd then
            some (toLong (resp k).newAddr.get_linear_address)
          else PMD_get c1.m.ftl L i) = some (-1) := by
        by_cases ht : L = e.lbn ∧ i = e.pmd
        · rw [if_pos ht, ht.1, ht.2]
          exact ⟨fun hc => absurd hc k2, fun hc => absurd hc hsn⟩
        · rw [if_neg ht]
      have hT : PMT_get c1.m.ftl L i s = some (-1) ↔
          (if L = e.lbn ∧ i = e.pmd ∧ s = e.slot then
            some (toLong (resp k).newAddr.get_linear_address)
          else PMT_get c1.m.ftl L i s) = some (-1) := by
        by_cases ht : L = e.lbn ∧ i = e.pmd ∧ s = e.slot
        · rw [if_pos ht, ht.1, ht.2.1, ht.2.2]
          exact ⟨fun hc => absurd hc k1, fun hc => absurd hc hsn⟩
        · rw [if_neg ht]
      rw [← hD, ← hT, hkeys L]

/-- Two well-formed states with the same geometry in which `read` marks the same slots noop
give the event of a `read` the same noop flag. -/
theorem read_noop_eq (cfg : Config) (m g : Machine) (h : WF m.ftl) (hg : WF g.ftl)
    (hP : g.ftl.P = m.ftl.P) (hQ : g.ftl.Q = m.ftl.Q)
    (hN : ∀ L i s, read_noop_cond g.ftl L i s ↔ read_noop_cond m.ftl L i s)
    (event : Event) (dev : IssueResp) :
    ∃ r1 r2, read cfg m event dev = some r1 ∧ read cfg g event dev = some r2 ∧
      r1.event.noop = r2.event.noop := by
  obtain ⟨r1, e1, h1, _, _, a1, _, a2, a3, _⟩ := read_view cfg m event dev h _ _ _ rfl rfl rfl
  obtain ⟨r2, e2, h2, _, _, b1, _, b2, b3, _⟩ := read_view cfg g event dev hg _ _ _ rfl rfl rfl
  rw [hP, hQ] at b2 b3
  refine ⟨r1, r2, h1, h2, ?_⟩
  rw [a1, b1]
  show e1.noop = e2.noop
  by_cases hc : read_noop_cond m.ftl (lbn_of m.ftl.P event.logical_address)
      (pmd_index_of m.ftl.P m.ftl.Q event.logical_address)
      (map_slot_of m.ftl.P m.ftl.Q event.logical_address)
  · rw [(a2 hc).1, (b2 ((hN _ _ _).mpr hc)).1]
  · obtain ⟨_, _, x1, _⟩ := a3 hc
    obtain ⟨_, _, y1, _⟩ := b3 (fun hc2 => hc ((hN _ _ _).mp hc2))
    rw [x1, y1]

/-- C29.  In a well-formed state and for `BLOCK_SIZE ≥ 1`, `cleanup_block` of the victim with
base `physical_address` returns, and: a PMT slot `(L, i, s)` differs from its value on entry
only if `rmap` recorded `(L, i, s)` for a VALID page of the victim on entry, and a PMD anchor
`(L, i)` only if it recorded some `(L, i, s)` so; an entry of `rmap` differs only at a VALID
page of the victim or at the page allocated for the copy of one, and every entry present
afterwards is an entry on entry or what `rmap` recorded for a VALID page of the victim; when
`rmap` records no VALID page of the victim, PMD, PMT and `rmap` are unchanged; the copy of a
VALID page that is absent from `rmap` when the loop reaches it changes none of them.  In a
state reached from the constructed engine by calls whose allocations are fresh page numbers,
and when the pages allocated for the copies are page numbers, `read` of any logical address
gives the event the same noop flag after the cleanup as before. -/
theorem C29_cleanup_frame (cfg : Config) (hB : 0 < cfg.BLOCK_SIZE) (m : Machine)
    (h : WF m.ftl) (event : Event) (pa : Int) (get_state : Nat → page_state)
    (resp : Nat → CopyResp) :
    ∃ o, cleanup_block cfg m event pa get_state resp = some o ∧
      (∀ L i s, PMT_get o.m.ftl L i s ≠ PMT_get m.ftl L i s →
        moved cfg pa get_state m.ftl ⟨L, i, s⟩) ∧
      (∀ L i, PMD_get o.m.ftl L i ≠ PMD_get m.ftl L i →
        ∃ s, moved cfg pa get_state m.ftl ⟨L, i, s⟩) ∧
      (∀ k, o.m.ftl.rmap k ≠ m.ftl.rmap k →
        ∃ j, j < cfg.BLOCK_SIZE ∧ get_state j = page_state.VALID ∧
          (k = toUlong (pa + (j : Int)) ∨ k = (resp j).newAddr.get_linear_address)) ∧
      (∀ k e, o.m.ftl.rmap k = some e →
        m.ftl.rmap k = some e ∨ moved cfg pa get_state m.ftl e) ∧
      ((∀ j, j < cfg.BLOCK_SIZE → get_state j = page_state.VALID →
          m.ftl.rmap (toUlong (pa + (j : Int))) = none) →
        o.m.ftl.PMD = m.ftl.PMD ∧ o.m.ftl.PMT = m.ftl.PMT ∧ o.m.ftl.rmap = m.ftl.rmap) ∧
      (∀ (c : Outcome Unit) (i : Nat) (r : CopyResp), WF c.m.ftl →
        c.m.ftl.rmap (toUlong (pa + (i : Int))) = none →
        ∃ c1, cleanup_page cfg pa i page_state.VALID r c = some c1 ∧
          c1.m.ftl.PMD = c.m.ftl.PMD ∧ c1.m.ftl.PMT = c.m.ftl.PMT ∧
          c1.m.ftl.rmap = c.m.ftl.rmap) ∧
      (cfg.ok → ∀ m0 ops, Machine.new cfg = some m0 → run cfg m0 ops = some m →
        runFresh cfg m0 ops →
        (∀ j, j < cfg.BLOCK_SIZE → get_state j = page_state.VALID →
          isPage (resp j).newAddr.get_linear_address) →
        ∀ ev dev, ∃ r1 r2, read cfg m ev dev = some r1 ∧ read cfg o.m ev dev = some r2 ∧
          r1.event.noop = r2.event.noop) := by
  obtain ⟨c, hc, hW, hfr⟩ := cleanup_pages_moved cfg pa get_state resp
    { m := m, event := event.incr_time_taken ((m.ftl.num_pmd : ℚ) * cfg.OOB_READ_DELAY),
      ret := () } h cfg.BLOCK_SIZE
  obtain ⟨f1, f2, f3, f4⟩ := hfr (Nat.le_refl _)
  have ho := cleanup_block_some cfg m event pa get_state resp hB c hc
  refine ⟨_, ho, f2, f3, f4, f1, ?_, ?_, ?_⟩
  · intro horph
    obtain ⟨c2, hc2, _, hfe⟩ := cleanup_pages_orphans cfg pa get_state resp
      { m := m, event := event.incr_time_taken ((m.ftl.num_pmd : ℚ) * cfg.OOB_READ_DELAY),
        ret := () } h horph cfg.BLOCK_SIZE
    rw [hc] at hc2
    simp only [Option.some.injEq] at hc2
    subst hc2
    exact hfe (Nat.le_refl _)
  · intro c0 i r hW0 hr
    obtain ⟨c1, hc1, _, _, _, _, _, _, hcopy⟩ :=
      cleanup_page_view cfg pa i page_state.VALID r c0 hW0
    exact ⟨c1, hc1, (hcopy rfl).1 hr⟩
  · intro hok m0 ops h0 hrun hfresh hp ev dev
    obtain ⟨m0a, h0a, hI0, _⟩ := Inv_new cfg hok
    rw [h0] at h0a
    simp only [Option.some.injEq] at h0a
    subst h0a
    obtain ⟨m1, hm1, hI, hA⟩ :=
      anchored_run cfg hB ops m0 hI0 (anchored_new cfg m0 h0) hfresh
    rw [hrun] at hm1
    simp only [Option.some.injEq] at hm1
    subst hm1
    obtain ⟨c2, hc2, hW2, hP, hQ, hN⟩ := cleanup_pages_noop cfg pa get_state resp
      { m := m, event := event.incr_time_taken ((m.ftl.num_pmd : ℚ) * cfg.OOB_READ_DELAY),
        ret := () } h (rmap_mapped_of_Inv m.ftl hI hA) hp cfg.BLOCK_SIZE
    rw [hc] at hc2
    simp only [Option.some.injEq] at hc2
    subst hc2
    refine read_noop_eq cfg m _ h ?_ ?_ ?_ ?_ ev dev
    · exact WF_of_fields c.m.ftl _ hW rfl rfl rfl rfl rfl rfl
    · exact hP
    · exact hQ
    · exact (hN (Nat.le_refl _)).2

/-- C29 under `cfg2x2`, on the state after `write(0)` landed on page 0: `cleanup_block` of
block 0, which copies page 0 to page 1, returns; a PMT slot differs afterwards only if `rmap`
recorded it for the VALID page of the victim; and `read(0)` gives the event the same noop
flag after the cleanup as before. -/
theorem C29_cleanup_frame_witness :
    0 < cfg2x2.BLOCK_SIZE ∧ WF (Machine.after cfg2x2 m2x2 [write2x2 0 0]).ftl ∧
    ∃ o, cleanup_block cfg2x2 (Machine.after cfg2x2 m2x2 [write2x2 0 0])
        (Event.new cfg2x2 event_type.WRITE 0 1 0) 0 (fun _ => page_state.VALID)
        (fun _ => copy2x2 1 1 2) = some o ∧
      (∀ L i s, PMT_get o.m.ftl L i s ≠
          PMT_get (Machine.after cfg2x2 m2x2 [write2x2 0 0]).ftl L i s →
        moved cfg2x2 0 (fun _ => page_state.VALID)
          (Machine.after cfg2x2 m2x2 [write2x2 0 0]).ftl ⟨L, i, s⟩) ∧
      ∃ r1 r2, read cfg2x2 (Machine.after cfg2x2 m2x2 [write2x2 0 0])
          (Event.new cfg2x2 event_type.READ 0 1 0) { ret := status.SUCCESS, delay := 1 } =
            some r1 ∧
        read cfg2x2 o.m (Event.new cfg2x2 event_type.READ 0 1 0)
          { ret := status.SUCCESS, delay := 1 } = some r2 ∧
        r1.event.noop = r2.event.noop := by
  obtain ⟨hW, _⟩ := after_write2x2 0 (by decide)
  obtain ⟨o, ho, hf, _, _, _, _, _, hread⟩ := C29_cleanup_frame cfg2x2 (by decide)
    (Machine.after cfg2x2 m2x2 [write2x2 0 0]) hW (Event.new cfg2x2 event_type.WRITE 0 1 0) 0
    (fun _ => page_state.VALID) (fun _ => copy2x2 1 1 2)
  refine ⟨by decide, hW, o, ho, hf, ?_⟩
  refine hread cfg2x2_ok m2x2 [write2x2 0 0] new_cfg2x2
    (run_eq_after cfg2x2 (by decide) m2x2 WF_m2x2 _) ?_ ?_ _ _
  · refine ⟨⟨?_, ?_⟩, fun _ _ => trivial⟩
    · show toLong (0 % 18446744073709551616) ≠ -1
      unfold toLong; split <;> omega
    · intro L i s; simp [PMT_get, m2x2]
  · intro j _ _
    show toLong (1 % 18446744073709551616) ≠ -1
    unfold toLong; split <;> omega

/-- A `uint` page number is not the bit pattern of the sentinel. -/
theorem toLong_uint_ne (p : Nat) (h : p < 4294967296) : toLong p ≠ -1 := by
  unfold toLong; split <;> omega

/-- Along a run of writes against the Device every mapped slot holds a VALID page. -/
theorem writes_value (m : Machine) (D : Nat → page_state) (W V : Finset Nat)
    (hG : WritesInv m D W V) (L i s : Nat) (v : Int) (hv : PMT_get m.ftl L i s = some v)
    (hne : v ≠ -1) : ∃ p, p ∈ V ∧ v = toLong p := by
  obtain ⟨lpn, hl, e1, e2, e3⟩ := hG.lpn_of_slot L i s v hv hne
  obtain ⟨p, hp, hs⟩ := hG.slot_of_lpn lpn hl
  rw [← e1, ← e2, ← e3, hv] at hs
  simp only [Option.some.injEq] at hs
  exact ⟨p, hp, hs⟩

/-- The engine side of one `write` of a run against the Device: the slots after the call,
with the page the written slot held before removed from the VALID pages and the allocated
page added. -/
theorem writes_engine (cfg : Config) (m : Machine) (D : Nat → page_state) (W V : Finset Nat)
    (hG : WritesInv m D W V) (event : Event) (fb : BlockResp) (newAddr : Address)
    (dev : IssueResp) (lbn idx slot : Nat)
    (hlbn : lbn = lbn_of m.ftl.P event.logical_address)
    (hidx : idx = pmd_index_of m.ftl.P m.ftl.Q event.logical_address)
    (hslot : slot = map_slot_of m.ftl.P m.ftl.Q event.logical_address)
    (h3 : newAddr.get_linear_address < 4294967296)
    (h4 : D newAddr.get_linear_address = page_state.EMPTY) :
    ∃ o, write cfg m event fb newAddr dev = some o ∧ Inv o.m.ftl ∧
      o.m.ftl.P = m.ftl.P ∧ o.m.ftl.Q = m.ftl.Q ∧ o.event.address = newAddr ∧
      o.event.replace_address =
        (if (PMT_get m.ftl lbn idx slot).getD (-1) ≠ -1 then
          cfg.mkAddress (toUlong ((PMT_get m.ftl lbn idx slot).getD (-1)) % 4294967296)
            address_valid.PAGE
        else event.replace_address) ∧
      newAddr.get_linear_address ∉ V ∧
      (∀ lpn, lpn ∈ insert event.logical_address W →
        ∃ p, (p = newAddr.get_linear_address ∨
            (p ∈ V ∧ PMT_get m.ftl lbn idx slot ≠ some (toLong p))) ∧
          PMT_get o.m.ftl (lbn_of m.ftl.P lpn) (pmd_index_of m.ftl.P m.ftl.Q lpn)
            (map_slot_of m.ftl.P m.ftl.Q lpn) = some (toLong p)) ∧
      (∀ L i s v, PMT_get o.m.ftl L i s = some v → v ≠ -1 →
        ∃ lpn, lpn ∈ insert event.logical_address W ∧ L = lbn_of m.ftl.P lpn ∧
          i = pmd_index_of m.ftl.P m.ftl.Q lpn ∧ s = map_slot_of m.ftl.P m.ftl.Q lpn) ∧
      (∀ p, (p = newAddr.get_linear_address ∨
          (p ∈ V ∧ PMT_get m.ftl lbn idx slot ≠ some (toLong p))) →
        ∃ L i s, PMT_get o.m.ftl L i s = some (toLong p)) := by
  have hW := hG.inv.wf
  have hn1 : toLong newAddr.get_linear_address ≠ -1 := toLong_uint_ne _ h3
  have hnV : newAddr.get_linear_address ∉ V := by
    intro hc
    have := (hG.valid _).mpr hc
    rw [h4] at this
    exact page_state.noConfusion this
  have hfresh : fresh m.ftl newAddr.get_linear_address := by
    intro L i s hc
    obtain ⟨p, hp, he⟩ := writes_value m D W V hG L i s _ hc hn1
    have hlt := hG.page_lt p hp
    have : newAddr.get_linear_address = p :=
      toLong_inj _ p (get_linear_address_lt _) (by omega) he
    rw [this] at hnV
    exact hnV hp
  obtain ⟨o, ho, hI⟩ := Inv_write cfg m event fb newAddr dev hG.inv ⟨hn1, hfresh⟩
  obtain ⟨o1, ho1, _, w2, _, _, wP, wQ, _, _, _, wA, wR, _⟩ :=
    write_view cfg m event fb newAddr dev hW lbn idx slot _ _ _ hlbn hidx hslot rfl rfl rfl
  rw [ho] at ho1
  simp only [Option.some.injEq] at ho1
  subst ho1
  have hkeep : ∀ L i s v, ¬ (L = lbn ∧ i = idx ∧ s = slot) →
      PMT_get m.ftl L i s = some v → PMT_get o.m.ftl L i s = some v := by
    intro L i s v hne hv
    rw [w2, if_neg hne]
    split
    · rename_i hc
      exfalso
      unfold PMT_get at hv
      rw [hc.1, hc.2] at hv
      exact Option.noConfusion hv
    · exact hv
  have hback : ∀ L i s v, ¬ (L = lbn ∧ i = idx ∧ s = slot) →
      PMT_get o.m.ftl L i s = some v → v ≠ -1 → PMT_get m.ftl L i s = some v := by
    intro L i s v hne hv hv1
    rw [w2, if_neg hne] at hv
    split at hv
    · split at hv
      · simp only [Option.some.injEq] at hv
        exact absurd hv.symm hv1
      · exact Option.noConfusion hv
    · exact hv
  have hI3 := I3_of_Inv m.ftl hG.inv
  refine ⟨o, ho, hI, wP, wQ, wA, wR, hnV, ?_, ?_, ?_⟩
  · intro lpn hl
    by_cases hsame : lbn_of m.ftl.P lpn = lbn ∧ pmd_index_of m.ftl.P m.ftl.Q lpn = idx ∧
        map_slot_of m.ftl.P m.ftl.Q lpn = slot
    · refine ⟨newAddr.get_linear_address, Or.inl rfl, ?_⟩
      rw [w2, if_pos hsame]
    · have hlW : lpn ∈ W := by
        rw [Finset.mem_insert] at hl
        cases hl with
        | inl he =>
          exfalso
          apply hsame
          rw [he]
          exact ⟨hlbn.symm, hidx.symm, hslot.symm⟩
        | inr hw => exact hw
      obtain ⟨p, hp, hs⟩ := hG.slot_of_lpn lpn hlW
      refine ⟨p, Or.inr ⟨hp, ?_⟩, hkeep _ _ _ _ hsame hs⟩
      intro hg
      have := hI3 _ _ _ _ _ _ _ (toLong_uint_ne p (hG.page_lt p hp)) hs hg
      exact hsame this
  · intro L i s v hv hv1
    by_cases hsame : L = lbn ∧ i = idx ∧ s = slot
    · refine ⟨event.logical_address, Finset.mem_insert_self _ _, ?_, ?_, ?_⟩
      · rw [hsame.1, hlbn]
      · rw [hsame.2.1, hidx]
      · rw [hsame.2.2, hslot]
    · obtain ⟨lpn, hl, e⟩ := hG.lpn_of_slot L i s v (hback L i s v hsame hv hv1) hv1
      exact ⟨lpn, Finset.mem_insert_of_mem hl, e⟩
  · intro p hp
    cases hp with
    | inl he =>
      refine ⟨lbn, idx, slot, ?_⟩
      rw [w2, if_pos ⟨rfl, rfl, rfl⟩, he]
    | inr hr =>
      obtain ⟨L, i, s, hs⟩ := hG.slot_of_page p hr.1
      refine ⟨L, i, s, hkeep L i s _ ?_ hs⟩
      intro hc
      apply hr.2
      rw [← hc.1, ← hc.2.1, ← hc.2.2]
      exact hs

/-- The Device side of one `write` of a run against the Device: the VALID pages after the
Device executed the event, and their number. -/
theorem writes_device (cfg : Config) (hadr : cfg.addr_ok) (m : Machine)
    (D : Nat → page_state) (W V : Finset Nat) (hG : WritesInv m D W V) (event : Event)
    (newAddr : Address) (lbn idx slot : Nat)
    (hlbn : lbn = lbn_of m.ftl.P event.logical_address)
    (hidx : idx = pmd_index_of m.ftl.P m.ftl.Q event.logical_address)
    (hslot : slot = map_slot_of m.ftl.P m.ftl.Q event.logical_address)
    (h1 : event.logical_address / m.ftl.P < 4294967296)
    (h2 : event.replace_address.valid = address_valid.NONE)
    (hnV : newAddr.get_linear_address ∉ V) (e : Event) (hA : e.address = newAddr)
    (hR : e.replace_address =
      (if (PMT_get m.ftl lbn idx slot).getD (-1) ≠ -1 then
        cfg.mkAddress (toUlong ((PMT_get m.ftl lbn idx slot).getD (-1)) % 4294967296)
          address_valid.PAGE
      else event.replace_address)) :
    ∃ V1 : Finset Nat,
      (∀ p, p ∈ V1 ↔ (p = newAddr.get_linear_address ∨
        (p ∈ V ∧ PMT_get m.ftl lbn idx slot ≠ some (toLong p)))) ∧
      V1.card = (insert event.logical_address W).card ∧
      ∀ p, dev_write D e p = page_state.VALID ↔ p ∈ V1 := by
  have hW := hG.inv.wf
  have hmem : ∀ p, p ∈ insert newAddr.get_linear_address
      (V.filter (fun p => PMT_get m.ftl lbn idx slot ≠ some (toLong p))) ↔
      (p = newAddr.get_linear_address ∨
        (p ∈ V ∧ PMT_get m.ftl lbn idx slot ≠ some (toLong p))) := by
    intro p
    rw [Finset.mem_insert, Finset.mem_filter]
  have hnF : newAddr.get_linear_address ∉
      V.filter (fun p => PMT_get m.ftl lbn idx slot ≠ some (toLong p)) := by
    intro hc
    exact hnV (Finset.mem_filter.mp hc).1
  refine ⟨_, hmem, ?_, ?_⟩
  · rw [Finset.card_insert_of_not_mem hnF]
    by_cases hex : ∃ q, q ∈ V ∧ PMT_get m.ftl lbn idx slot = some (toLong q)
    · obtain ⟨q, hq, hg⟩ := hex
      have hlt := hG.page_lt q hq
      have hne := toLong_uint_ne q hlt
      have hfilter : V.filter (fun p => PMT_get m.ftl lbn idx slot ≠ some (toLong p)) =
          V.erase q := by
        ext p
        rw [Finset.mem_filter, Finset.mem_erase]
        constructor
        · rintro ⟨hp, hng⟩
          refine ⟨?_, hp⟩
          intro he
          apply hng
          rw [he]
          exact hg
        · rintro ⟨hpne, hp⟩
          refine ⟨hp, ?_⟩
          intro hc
          rw [hg] at hc
          simp only [Option.some.injEq] at hc
          have hpl := hG.page_lt p hp
          exact hpne (toLong_inj p q (by omega) (by omega) hc.symm)
      obtain ⟨lpn1, hl1, e1, e2, e3⟩ := hG.lpn_of_slot lbn idx slot _ hg hne
      have hsame : event.logical_address = lpn1 :=
        decomp_inj m.ftl.P m.ftl.Q hW.P_pos hW.P_uint _ _ h1 (hG.lpn_lt lpn1 hl1)
          (hlbn.symm.trans e1) (hidx.symm.trans e2) (hslot.symm.trans e3)
      have hlW : event.logical_address ∈ W := by rw [hsame]; exact hl1
      rw [Finset.insert_eq_of_mem hlW, hfilter, Finset.card_erase_of_mem hq, ← hG.card]
      have := Finset.card_pos.mpr ⟨q, hq⟩
      omega
    · have hng : ∀ p, p ∈ V → PMT_get m.ftl lbn idx slot ≠ some (toLong p) :=
        fun p hp hc => hex ⟨p, hp, hc⟩
      have hlW : event.logical_address ∉ W := by
        intro hl
        obtain ⟨p, hp, hs⟩ := hG.slot_of_lpn _ hl
        rw [← hlbn, ← hidx, ← hslot] at hs
        exact hng p hp hs
      rw [Finset.filter_true_of_mem hng, Finset.card_insert_of_not_mem hlW, hG.card]
  · intro p
    rw [hmem]
    unfold dev_write
    rw [hA]
    by_cases hpn : p = newAddr.get_linear_address
    · rw [if_pos hpn]
      exact ⟨fun _ => Or.inl hpn, fun _ => rfl⟩
    · rw [if_neg hpn]
      by_cases hex : ∃ q, q ∈ V ∧ PMT_get m.ftl lbn idx slot = some (toLong q)
      · obtain ⟨q, hq, hg⟩ := hex
        have hlt := hG.page_lt q hq
        have hne := toLong_uint_ne q hlt
        have hold : (PMT_get m.ftl lbn idx slot).getD (-1) = toLong q := by rw [hg]; rfl
        rw [hold, if_pos hne, toUlong_toLong q (by omega), Nat.mod_eq_of_lt hlt] at hR
        obtain ⟨a1, a2⟩ := hadr.1 q address_valid.PAGE hlt
        rw [hR, a1, a2]
        by_cases hpq : p = q
        · rw [if_pos ⟨by decide, hpq⟩]
          constructor
          · intro hc
            exact page_state.noConfusion hc
          · intro hc
            cases hc with
            | inl h0 => exact absurd h0 hpn
            | inr h0 =>
              exfalso
              apply h0.2
              rw [hpq]
              exact hg
        · rw [if_neg (fun hc => hpq hc.2), hG.valid p]
          constructor
          · intro hp
            refine Or.inr ⟨hp, ?_⟩
            intro hc
            rw [hg] at hc
            simp only [Option.some.injEq] at hc
            have hpl := hG.page_lt p hp
            exact hpq (toLong_inj p q (by omega) (by omega) hc.symm)
          · intro hc
            cases hc with
            | inl h0 => exact absurd h0 hpn
            | inr h0 => exact h0.1
      · have hng : ∀ p, p ∈ V → PMT_get m.ftl lbn idx slot ≠ some (toLong p) :=
          fun p hp hc => hex ⟨p, hp, hc⟩
        have hold : (PMT_get m.ftl lbn idx slot).getD (-1) = -1 := by
          cases hget : PMT_get m.ftl lbn idx slot with
          | none => rfl
          | some v =>
            by_cases hv : v = -1
            · rw [hv]; rfl
            · exfalso
              obtain ⟨q, hq, he⟩ := writes_value m D W V hG lbn idx slot v hget hv
              apply hex
              exact ⟨q, hq, by rw [hget, he]⟩
        rw [hold, if_neg (fun hc => hc rfl)] at hR
        rw [hR, if_neg (fun hc => hc.1 h2), hG.valid p]
        constructor
        · intro hp
          exact Or.inr ⟨hp, hng p hp⟩
        · intro hc
          cases hc with
          | inl h0 => exact absurd h0 hpn
          | inr h0 => exact h0.1

/-- One `write` of a run against the Device keeps the invariant of the run. -/
theorem writes_step (cfg : Config) (hadr : cfg.addr_ok) (m : Machine) (D : Nat → page_state)
    (W V : Finset Nat) (hG : WritesInv m D W V) (event : Event) (fb : BlockResp)
    (newAddr : Address) (dev : IssueResp)
    (h1 : event.logical_address / m.ftl.P < 4294967296)
    (h2 : event.replace_address.valid = address_valid.NONE)
    (h3 : newAddr.get_linear_address < 4294967296)
    (h4 : D newAddr.get_linear_address = page_state.EMPTY) :
    ∃ o V1, write cfg m event fb newAddr dev = some o ∧
      WritesInv o.m (dev_write D o.event) (insert event.logical_address W) V1 := by
  obtain ⟨o, ho, hI, wP, wQ, wA, wR, hnV, s1, s2, s3⟩ :=
    writes_engine cfg m D W V hG event fb newAddr dev _ _ _ rfl rfl rfl h3 h4
  obtain ⟨V1, hmem, hcard, hvalid⟩ :=
    writes_device cfg hadr m D W V hG event newAddr _ _ _ rfl rfl rfl h1 h2 hnV o.event wA wR
  refine ⟨o, V1, ho,
    { inv := hI, valid := hvalid, card := hcard, lpn_lt := ?_, page_lt := ?_,
      slot_of_lpn := ?_, lpn_of_slot := ?_, slot_of_page := ?_ }⟩
  · intro lpn hl
    rw [wP]
    rw [Finset.mem_insert] at hl
    cases hl with
    | inl he => rw [he]; exact h1
    | inr hw => exact hG.lpn_lt lpn hw
  · intro p hp
    cases (hmem p).mp hp with
    | inl he => rw [he]; exact h3
    | inr hr => exact hG.page_lt p hr.1
  · intro lpn hl
    rw [wP, wQ]
    obtain ⟨p, hp, hs⟩ := s1 lpn hl
    exact ⟨p, (hmem p).mpr hp, hs⟩
  · intro L i s v hv hne
    rw [wP, wQ]
    exact s2 L i s v hv hne
  · intro p hp
    exact s3 p ((hmem p).mp hp)

/-- A run of `write` calls against the Device is defined and keeps the invariant of the run,
the logical pages written being added to `W`. -/
theorem writes_run (cfg : Config) (hadr : cfg.addr_ok) :
    ∀ (ops : List Op) (m : Machine) (D : Nat → page_state) (W V : Finset Nat),
      WritesInv m D W V → writes_ok cfg m D ops →
      ∃ m1 D1 V1, run_writes cfg m D ops = some (m1, D1) ∧
        WritesInv m1 D1 (W ∪ written ops) V1 := by
  intro ops
  induction ops with
  | nil =>
    intro m D W V hG _
    refine ⟨m, D, V, rfl, ?_⟩
    show WritesInv m D (W ∪ ∅) V
    rw [Finset.union_empty]
    exact hG
  | cons op ops ih =>
    intro m D W V hG hok
    cases op with
    | read event dev => exact False.elim hok
    | trim event dev => exact False.elim hok
    | cleanup_block event pa get_state resp => exact False.elim hok
    | write event fb newAddr dev =>
      obtain ⟨h1, h2, h3, h4, hrest⟩ := hok
      obtain ⟨o, V1, ho, hG1⟩ := writes_step cfg hadr m D W V hG event fb newAddr dev h1 h2 h3 h4
      obtain ⟨m1, D1, V2, hr, hG2⟩ := ih o.m (dev_write D o.event)
        (insert event.logical_address W) V1 hG1 (hrest o ho)
      refine ⟨m1, D1, V2, ?_, ?_⟩
      · show (match write cfg m event fb newAddr dev with
          | none => none
          | some o => run_writes cfg o.m (dev_write D o.event) ops) = some (m1, D1)
        rw [ho]
        exact hr
      · show WritesInv m1 D1 (W ∪ insert event.logical_address (written ops)) V2
        rw [Finset.union_insert, ← Finset.insert_union]
        exact hG2

/-- The constructed engine and a Device with every page EMPTY satisfy the invariant of a run
of writes, with nothing written and no VALID page. -/
theorem writes_init (cfg : Config) (hok : cfg.ok) (m0 : Machine)
    (h0 : Machine.new cfg = some m0) :
    WritesInv m0 (fun _ => page_state.EMPTY) ∅ ∅ := by
  obtain ⟨m0a, h0a, hI0, _, _, _, hT0, _⟩ := Inv_new cfg hok
  rw [h0] at h0a
  simp only [Option.some.injEq] at h0a
  subst h0a
  exact
    { inv := hI0
      valid := fun p => ⟨fun hc => page_state.noConfusion hc,
        fun hc => absurd hc (Finset.not_mem_empty p)⟩
      card := rfl
      lpn_lt := fun lpn hl => absurd hl (Finset.not_mem_empty lpn)
      page_lt := fun p hp => absurd hp (Finset.not_mem_empty p)
      slot_of_lpn := fun lpn hl => absurd hl (Finset.not_mem_empty lpn)
      lpn_of_slot := by
        intro L i s v hv _
        unfold PMT_get at hv
        rw [hT0] at hv
        exact Option.noConfusion hv
      slot_of_page := fun p hp => absurd hp (Finset.not_mem_empty p) }

/-- C24, amended.  Under an accepted configuration whose `Address` constructors keep `uint`
linear addresses, start from the constructed engine and a Device with every page EMPTY, and
run a sequence of `write` calls against the Device, which executes each event as `write`
issued it (`dev_write`).  If every logical address has `LPN / P < 2^32`, every event arrives
without a replace address and every allocated page is a `uint` page number that is EMPTY on
the Device when it is allocated (`writes_ok`), then the run is defined and the set `V` of the
pages that are VALID on the Device has as many elements as the set of logical pages written;
`V` is also the set of keys of `rmap`, every page of `V` is held by exactly one PMT slot and
every mapped PMT slot holds a page of `V`. -/
theorem C24_valid_pages_of_writes (cfg : Config) (hok : cfg.ok) (hadr : cfg.addr_ok)
    (m0 : Machine) (h0 : Machine.new cfg = some m0) (ops : List Op)
    (hw : writes_ok cfg m0 (fun _ => page_state.EMPTY) ops) :
    ∃ (m : Machine) (D : Nat → page_state) (V : Finset Nat),
      run_writes cfg m0 (fun _ => page_state.EMPTY) ops = some (m, D) ∧
      (∀ p, D p = page_state.VALID ↔ p ∈ V) ∧ V.card = (written ops).card ∧
      (∀ p, (∃ e, m.ftl.rmap p = some e) ↔ p ∈ V) ∧
      (∀ p, p ∈ V → ∃ L i s, PMT_get m.ftl L i s = some (toLong p) ∧
        ∀ L1 i1 s1, PMT_get m.ftl L1 i1 s1 = some (toLong p) → L1 = L ∧ i1 = i ∧ s1 = s) ∧
      (∀ L i s v, PMT_get m.ftl L i s = some v → v ≠ UNMAPPED → ∃ p, p ∈ V ∧ v = toLong p) := by
  obtain ⟨m, D, V, hr, hG⟩ := writes_run cfg hadr ops m0 (fun _ => page_state.EMPTY) ∅ ∅
    (writes_init cfg hok m0 h0) hw
  rw [Finset.empty_union] at hG
  have hI3 := I3_of_Inv m.ftl hG.inv
  refine ⟨m, D, V, hr, hG.valid, hG.card, ?_, ?_,
    fun L i s v hv hne => writes_value m D _ V hG L i s v hv hne⟩
  · intro p
    constructor
    · rintro ⟨e, he⟩
      obtain ⟨hk, hp⟩ := hG.inv.pages p e he
      have heta : (⟨e.lbn, e.pmd, e.slot⟩ : RmapEntry) = e := by cases e; rfl
      have hs : PMT_get m.ftl e.lbn e.pmd e.slot = some (toLong p) :=
        (hG.inv.i1 p e.lbn e.pmd e.slot hk hp).mp (by rw [he, heta])
      obtain ⟨q, hq, hv⟩ := writes_value m D _ V hG _ _ _ _ hs hp
      have hql := hG.page_lt q hq
      have : p = q := toLong_inj p q hk (by omega) hv
      rw [this]
      exact hq
    · intro hp
      obtain ⟨L, i, s, hs⟩ := hG.slot_of_page p hp
      have hpl := hG.page_lt p hp
      exact ⟨_, (hG.inv.i1 p L i s (by omega) (toLong_uint_ne p hpl)).mpr hs⟩
  · intro p hp
    obtain ⟨L, i, s, hs⟩ := hG.slot_of_page p hp
    refine ⟨L, i, s, hs, ?_⟩
    intro L1 i1 s1 hs1
    exact hI3 _ _ _ _ _ _ _ (toLong_uint_ne p (hG.page_lt p hp)) hs1 hs

/-- The `Address` constructors of `cfg64` keep `uint` linear addresses. -/
theorem cfg64_addr_ok : cfg64.addr_ok := by
  refine ⟨fun a v ha => ⟨?_, rfl⟩, rfl⟩
  show a % 18446744073709551616 = a
  omega

/-- The first `write` of the scenarios run against a Device: the call `write(lpn)` for
`lpn < 64` to the fresh engine `m64` that lands on page 0 issues an event at page 0 without
replace address and leaves page 0 in slot `(0, lpn / 8, lpn % 8)`. -/
theorem first_write_event (lpn : Nat) (hl : lpn < 64) :
    ∃ o, write cfg64 m64 (ev64 event_type.WRITE lpn 0) (fb64 0) (pg64 0) (ok64 1) = some o ∧
      WF o.m.ftl ∧ o.m.ftl.P = 64 ∧ o.m.ftl.Q = 8 ∧
      PMT_get o.m.ftl 0 (lpn / 8) (lpn % 8) = some 0 ∧
      o.event.address = pg64 0 ∧ o.event.replace_address = cfg64.voidAddress := by
  have e1 : lpn / 8 = pmd_index_of m64.ftl.P m64.ftl.Q
      (ev64 event_type.WRITE lpn 0).logical_address := by
    show lpn / 8 = lpn % 64 % 4294967296 / 8
    omega
  have e2 : lpn % 8 = map_slot_of m64.ftl.P m64.ftl.Q
      (ev64 event_type.WRITE lpn 0).logical_address := by
    show lpn % 8 = lpn % 64 % 4294967296 % 8
    omega
  have e0 : 0 = lbn_of m64.ftl.P (ev64 event_type.WRITE lpn 0).logical_address := by
    show 0 = lpn / 64 % 4294967296
    omega
  obtain ⟨o, hw, hW, w2, _, _, wP, wQ, _, _, _, wA, wR, _⟩ :=
    write_view cfg64 m64 (ev64 event_type.WRITE lpn 0) (fb64 0) (pg64 0) (ok64 1) WF_m64
      0 (lpn / 8) (lpn % 8) 0 (-1) (-1) e0 e1 e2 (by decide) rfl rfl
  refine ⟨o, hw, hW, wP, wQ, ?_, wA, ?_⟩
  · rw [w2 0 (lpn / 8) (lpn % 8), if_pos ⟨rfl, rfl, rfl⟩]
    rfl
  · rw [wR, if_neg (fun hc => hc rfl)]
    rfl

/-- C24, counterexample.  Under `cfg64`, start from the fresh engine and a Device with every
page EMPTY and run two writes against the Device: `write(0)`, allocated page 0, and
`write(2^38)`, allocated page 1.  The two logical pages are distinct, but `2^38 / 64 = 2^32`
is truncated to `LBN = 0`, so the second write replaces page 0: afterwards page 0 is INVALID
and page 1 is the only VALID page, one VALID page for two distinct logical pages written. -/
theorem C24_alias_counterexample :
    ∃ (m : Machine) (D : Nat → page_state),
      run_writes cfg64 m64 (fun _ => page_state.EMPTY)
        [Op.write (ev64 event_type.WRITE 0 0) (fb64 0) (pg64 0) (ok64 1),
         Op.write (ev64 event_type.WRITE 274877906944 0) (fb64 0) (pg64 1) (ok64 1)] =
        some (m, D) ∧
      (∀ p, D p = page_state.VALID ↔ p = 1) ∧ D 0 = page_state.INVALID ∧
      (written
        [Op.write (ev64 event_type.WRITE 0 0) (fb64 0) (pg64 0) (ok64 1),
         Op.write (ev64 event_type.WRITE 274877906944 0) (fb64 0) (pg64 1) (ok64 1)]).card =
        2 := by
  obtain ⟨o1, hw1, hW1, hP, hQ, hT, aA, aR⟩ := first_write_event 0 (by decide)
  have hT0 : PMT_get o1.m.ftl 0 0 0 = some 0 := hT
  have e0 : 0 = lbn_of o1.m.ftl.P (ev64 event_type.WRITE 274877906944 0).logical_address := by
    rw [hP]; decide
  have e1 : 0 = pmd_index_of o1.m.ftl.P o1.m.ftl.Q
      (ev64 event_type.WRITE 274877906944 0).logical_address := by
    rw [hP, hQ]; decide
  have e2 : 0 = map_slot_of o1.m.ftl.P o1.m.ftl.Q
      (ev64 event_type.WRITE 274877906944 0).logical_address := by
    rw [hP, hQ]; decide
  obtain ⟨o2, hw2, _, _, _, _, _, _, _, _, _, bA, bR, _⟩ :=
    write_view cfg64 o1.m (ev64 event_type.WRITE 274877906944 0) (fb64 0) (pg64 1) (ok64 1)
      hW1 0 0 0 1 0 _ e0 e1 e2 (by decide) (by rw [hT0]; rfl) rfl
  rw [if_pos (by decide)] at bR
  have hD : ∀ p, dev_write (dev_write (fun _ => page_state.EMPTY) o1.event) o2.event p =
      if p = 1 then page_state.VALID
      else if p = 0 then page_state.INVALID else page_state.EMPTY := by
    intro p
    unfold dev_write
    rw [aA, aR, bA, bR]
    show (if p = 1 then page_state.VALID
      else if address_valid.PAGE ≠ address_valid.NONE ∧ p = 0 then page_state.INVALID
      else if p = 0 then page_state.VALID
      else if address_valid.NONE ≠ address_valid.NONE ∧ p = 0 then page_state.INVALID
      else page_state.EMPTY) = _
    by_cases h1 : p = 1
    · rw [if_pos h1, if_pos h1]
    · rw [if_neg h1, if_neg h1]
      by_cases h0 : p = 0
      · rw [if_pos ⟨by decide, h0⟩, if_pos h0]
      · rw [if_neg (fun hc => h0 hc.2), if_neg h0, if_neg h0, if_neg (fun hc => h0 hc.2)]
  refine ⟨o2.m, dev_write (dev_write (fun _ => page_state.EMPTY) o1.event) o2.event,
    ?_, ?_, ?_, ?_⟩
  · show (match write cfg64 m64 (ev64 event_type.WRITE 0 0) (fb64 0) (pg64 0) (ok64 1) with
      | none => none
      | some o => run_writes cfg64 o.m (dev_write (fun _ => page_state.EMPTY) o.event)
          [Op.write (ev64 event_type.WRITE 274877906944 0) (fb64 0) (pg64 1) (ok64 1)]) = _
    rw [hw1]
    show (match write cfg64 o1.m (ev64 event_type.WRITE 274877906944 0) (fb64 0) (pg64 1)
        (ok64 1) with
      | none => none
      | some o => run_writes cfg64 o.m
          (dev_write (dev_write (fun _ => page_state.EMPTY) o1.event) o.event) []) = _
    rw [hw2]
    rfl
  · intro p
    rw [hD]
    by_cases h1 : p = 1
    · rw [if_pos h1]
      exact ⟨fun _ => h1, fun _ => rfl⟩
    · rw [if_neg h1]
      constructor
      · intro hc
        split at hc
        · exact page_state.noConfusion hc
        · exact page_state.noConfusion hc
      · intro hc
        exact absurd hc h1
  · rw [hD]
    rfl
  · decide

/-- C24, amended, under `cfg64`: `write(5)`, allocated page 0, followed by a second
`write(5)`, allocated page 1, run against a Device with every page EMPTY; the premises hold,
and afterwards the Device has one VALID page for the one logical page written. -/
theorem C24_valid_pages_of_writes_witness :
    cfg64.ok ∧ cfg64.addr_ok ∧ Machine.new cfg64 = some m64 ∧
    writes_ok cfg64 m64 (fun _ => page_state.EMPTY)
      [Op.write (ev64 event_type.WRITE 5 0) (fb64 0) (pg64 0) (ok64 1),
       Op.write (ev64 event_type.WRITE 5 0) (fb64 0) (pg64 1) (ok64 1)] ∧
    ∃ (m : Machine) (D : Nat → page_state) (V : Finset Nat),
      run_writes cfg64 m64 (fun _ => page_state.EMPTY)
        [Op.write (ev64 event_type.WRITE 5 0) (fb64 0) (pg64 0) (ok64 1),
         Op.write (ev64 event_type.WRITE 5 0) (fb64 0) (pg64 1) (ok64 1)] = some (m, D) ∧
      (∀ p, D p = page_state.VALID ↔ p ∈ V) ∧ V.card = 1 := by
  have hok : writes_ok cfg64 m64 (fun _ => page_state.EMPTY)
      [Op.write (ev64 event_type.WRITE 5 0) (fb64 0) (pg64 0) (ok64 1),
       Op.write (ev64 event_type.WRITE 5 0) (fb64 0) (pg64 1) (ok64 1)] := by
    refine ⟨by decide, rfl, by decide, rfl, ?_⟩
    intro o ho
    obtain ⟨o1, hw1, _, hP, _, _, aA, aR⟩ := first_write_event 5 (by decide)
    rw [hw1] at ho
    simp only [Option.some.injEq] at ho
    subst ho
    refine ⟨?_, rfl, by decide, ?_, fun _ _ => trivial⟩
    · rw [hP]; decide
    · unfold dev_write
      rw [aA, aR]
      rfl
  obtain ⟨m, D, V, hr, hv, hc, _⟩ := C24_valid_pages_of_writes cfg64 cfg64_ok cfg64_addr_ok
    m64 new_cfg64 _ hok
  exact ⟨cfg64_ok, cfg64_addr_ok, new_cfg64, hok, m, D, V, hr, hv, hc.trans (by decide)⟩

/-- C31.  After `allocate_new_current_block`, whatever the state and whatever block the
Block manager returned: `current_block` is that block with its validity set to BLOCK,
`current_page_offset = 0`, `has_current_block = true`, `BML` is the list on entry followed by
the block's number, the block's number belongs to `current_blocks` together with every member
on entry, and `PMD`, `PMT`, `rmap` and the geometry are unchanged. -/
theorem C31_allocate_postcondition (m : Machine) (event : Event) (fb : BlockResp) :
    (allocate_new_current_block m event fb).1.ftl.current_block =
        { fb.blk with valid := address_valid.BLOCK } ∧
    (allocate_new_current_block m event fb).1.ftl.current_page_offset = 0 ∧
    (allocate_new_current_block m event fb).1.ftl.has_current_block = true ∧
    (allocate_new_current_block m event fb).1.ftl.BML = m.ftl.BML ++ [fb.blk.block] ∧
    ((fb.blk.block : Int) ∈ (allocate_new_current_block m event fb).1.ftl.current_blocks) ∧
    (∀ k, k ∈ m.ftl.current_blocks →
      k ∈ (allocate_new_current_block m event fb).1.ftl.current_blocks) ∧
    (allocate_new_current_block m event fb).1.ftl.PMD = m.ftl.PMD ∧
    (allocate_new_current_block m event fb).1.ftl.PMT = m.ftl.PMT ∧
    (allocate_new_current_block m event fb).1.ftl.rmap = m.ftl.rmap ∧
    (allocate_new_current_block m event fb).1.ftl.P = m.ftl.P ∧
    (allocate_new_current_block m event fb).1.ftl.Q = m.ftl.Q ∧
    (allocate_new_current_block m event fb).1.ftl.num_pmd = m.ftl.num_pmd := by
  refine ⟨rfl, rfl, rfl, rfl, ?_, ?_, rfl, rfl, rfl, rfl, rfl, rfl⟩
  · exact Finset.mem_insert_self _ _
  · intro k hk
    exact Finset.mem_insert_of_mem hk

/-- The counters after a `read` that returns: only `numFTLRead` has moved, by one. -/
theorem read_stats_of_some (cfg : Config) (m : Machine) (event : Event) (dev : IssueResp)
    (o : Outcome status) (h : read cfg m event dev = some o) :
    o.m.stats = { m.stats with numFTLRead := m.stats.numFTLRead + 1 } := by
  unfold read at h
  simp only [issue, Machine.log] at h
  repeat' split at h
  all_goals first
    | exact Option.noConfusion h
    | (simp only [Option.some.injEq] at h; subst h; rfl)

/-- C35.  Whenever `read` returns, it leaves the whole engine state as it was: `PMD`, `PMT`
(so no row is created for an absent LBN), `rmap`, `has_current_block`, `current_block`,
`current_page_offset`, `BML` and `current_blocks`; of the counters only `numFTLRead` moves, by
one; the trace gains the one issue.  In every well-formed state `read` does return. -/
theorem C35_read_frame (cfg : Config) (m : Machine) (event : Event) (dev : IssueResp) :
    (∀ o, read cfg m event dev = some o →
      o.m.ftl = m.ftl ∧ o.m.ftl.PMD = m.ftl.PMD ∧ o.m.ftl.PMT = m.ftl.PMT ∧
      o.m.ftl.rmap = m.ftl.rmap ∧ o.m.ftl.has_current_block = m.ftl.has_current_block ∧
      o.m.ftl.current_block = m.ftl.current_block ∧
      o.m.ftl.current_page_offset = m.ftl.current_page_offset ∧
      o.m.ftl.BML = m.ftl.BML ∧ o.m.ftl.current_blocks = m.ftl.current_blocks ∧
      o.m.stats = { m.stats with numFTLRead := m.stats.numFTLRead + 1 }) ∧
    (WF m.ftl → ∃ o e, read cfg m event dev = some o ∧
      o.m.trace = m.trace ++ [Action.issue e]) := by
  constructor
  · intro o ho
    have hf := read_ftl_of_some cfg m event dev o ho
    refine ⟨hf, ?_, ?_, ?_, ?_, ?_, ?_, ?_, ?_, read_stats_of_some cfg m event dev o ho⟩
    all_goals rw [hf]
  · intro h
    obtain ⟨o, e, ho, _, ht, _⟩ := read_view cfg m event dev h _ _ _ rfl rfl rfl
    exact ⟨o, e, ho, ht⟩

/-- C36.  In a well-formed state `write(LPN)` returns, and with `(L, i, s)` the decomposition
of `LPN`, `new_ppn` the allocated page and `old_ppn` the value of `PMT[L][i][s]` on entry
(`UNMAPPED` when the row is absent): every PMT slot other than `(L, i, s)` of a row that
existed on entry and every PMD anchor other than `(L, i)` of a row that existed on entry keep
their values; `rmap` has the entry `(L, i, s)` at `new_ppn`, has no entry at `old_ppn` when
the slot was mapped and `old_ppn` is not `new_ppn`, and is unchanged at every other key. -/
theorem C36_write_frame (cfg : Config) (m : Machine) (h : WF m.ftl) (event : Event)
    (fb : BlockResp) (newAddr : Address) (dev : IssueResp) :
    ∃ o, write cfg m event fb newAddr dev = some o ∧
      (∀ L i s, m.ftl.PMT L ≠ none →
        ¬ (L = lbn_of m.ftl.P event.logical_address ∧
          i = pmd_index_of m.ftl.P m.ftl.Q event.logical_address ∧
          s = map_slot_of m.ftl.P m.ftl.Q event.logical_address) →
        PMT_get o.m.ftl L i s = PMT_get m.ftl L i s) ∧
      (∀ L i, m.ftl.PMD L ≠ none →
        ¬ (L = lbn_of m.ftl.P event.logical_address ∧
          i = pmd_index_of m.ftl.P m.ftl.Q event.logical_address) →
        PMD_get o.m.ftl L i = PMD_get m.ftl L i) ∧
      o.m.ftl.rmap newAddr.get_linear_address =
        some ⟨lbn_of m.ftl.P event.logical_address,
          pmd_index_of m.ftl.P m.ftl.Q event.logical_address,
          map_slot_of m.ftl.P m.ftl.Q event.logical_address⟩ ∧
      (∀ old, PMT_get m.ftl (lbn_of m.ftl.P event.logical_address)
          (pmd_index_of m.ftl.P m.ftl.Q event.logical_address)
          (map_slot_of m.ftl.P m.ftl.Q event.logical_address) = some old → old ≠ UNMAPPED →
        toUlong old ≠ newAddr.get_linear_address → o.m.ftl.rmap (toUlong old) = none) ∧
      (∀ k, k ≠ newAddr.get_linear_address →
        (∀ old, PMT_get m.ftl (lbn_of m.ftl.P event.logical_address)
          (pmd_index_of m.ftl.P m.ftl.Q event.logical_address)
          (map_slot_of m.ftl.P m.ftl.Q event.logical_address) = some old → old ≠ UNMAPPED →
          k ≠ toUlong old) →
        o.m.ftl.rmap k = m.ftl.rmap k) := by
  obtain ⟨o, ho, _, w2, w3, w4, _⟩ :=
    write_view cfg m event fb newAddr dev h _ _ _ _ _ _ rfl rfl rfl rfl rfl rfl
  refine ⟨o, ho, ?_, ?_, ?_, ?_, ?_⟩
  · intro L i s hL hne
    rw [w2, if_neg hne]
    split
    · rename_i hc
      exfalso
      apply hL
      rw [hc.1]
      exact hc.2
    · rfl
  · intro L i hL hne
    rw [w3, if_neg hne]
    split
    · rename_i hc
      exfalso
      apply hL
      rw [hc.1]
      exact hc.2
    · rfl
  · rw [w4, if_pos rfl]
  · intro old hold hne hk
    rw [w4, if_neg hk, hold]
    exact if_pos ⟨hne, rfl⟩
  · intro k hk hold
    rw [w4, if_neg hk]
    cases hg : PMT_get m.ftl (lbn_of m.ftl.P event.logical_address)
        (pmd_index_of m.ftl.P m.ftl.Q event.logical_address)
        (map_slot_of m.ftl.P m.ftl.Q event.logical_address) with
    | none => exact if_neg (fun hc => hc.1 rfl)
    | some old =>
      by_cases hne : old = -1
      · exact if_neg (fun hc => hc.1 hne)
      · exact if_neg (fun hc => hold old hg hne hc.2)

/-- C36 under `cfg64`, after `write(5)` landed on page 0: `write(6)`, allocated page 1,
leaves the slot of logical page 5 and the entry `rmap[0]` in place. -/
theorem C36_write_frame_witness :
    WF (Machine.after cfg64 m64
      [Op.write (ev64 event_type.WRITE 5 0) (fb64 0) (pg64 0) (ok64 1)]).ftl ∧
    ∃ o, write cfg64 (Machine.after cfg64 m64
          [Op.write (ev64 event_type.WRITE 5 0) (fb64 0) (pg64 0) (ok64 1)])
        (ev64 event_type.WRITE 6 2) (fb64 0) (pg64 1) (ok64 1) = some o ∧
      PMT_get o.m.ftl 0 0 5 = some 0 := by
  obtain ⟨hW, hP, hQ, hT, _⟩ := after_first_write 5 0 0 1 (by decide) (by decide)
  obtain ⟨o, ho, hs, _⟩ := C36_write_frame cfg64 _ hW (ev64 event_type.WRITE 6 2) (fb64 0)
    (pg64 1) (ok64 1)
  refine ⟨hW, o, ho, ?_⟩
  rw [hs 0 0 5 ?_ ?_]
  · exact hT
  · intro hn
    have hT0 : PMT_get (Machine.after cfg64 m64
      [Op.write (ev64 event_type.WRITE 5 0) (fb64 0) (pg64 0) (ok64 1)]).ftl 0 0 5 =
        some 0 := hT
    unfold PMT_get at hT0
    rw [hn] at hT0
    exact Option.noConfusion hT0
  · rw [hP, hQ]
    decide

/-- C37.  For `1 ≤ P < 2^32` (a `uint`), `Q ≥ 1` and `LPN / P < 2^32`, the triple computed by
`read`, `write` and `trim` is `(LPN / P, (LPN % P) / Q, (LPN % P) % Q)` and recomposes to
`LPN = LBN * P + PMD_INDEX * Q + MAP_SLOT`; so another such logical page with the same triple
is the same logical page. -/
theorem C37_decomposition_injective (P Q lpn : Nat) (hP : 1 ≤ P) (hP32 : P < 4294967296)
    (_hQ : 1 ≤ Q) (hl : lpn / P < 4294967296) :
    lbn_of P lpn = lpn / P ∧ pmd_index_of P Q lpn = lpn % P / Q ∧
    map_slot_of P Q lpn = lpn % P % Q ∧
    lpn = lbn_of P lpn * P + pmd_index_of P Q lpn * Q + map_slot_of P Q lpn ∧
    ∀ lpn1, lpn1 / P < 4294967296 → lbn_of P lpn1 = lbn_of P lpn →
      pmd_index_of P Q lpn1 = pmd_index_of P Q lpn →
      map_slot_of P Q lpn1 = map_slot_of P Q lpn → lpn1 = lpn := by
  have hb : bo_of P lpn = lpn % P := by
    unfold bo_of
    have := Nat.mod_lt lpn (show 0 < P by omega)
    exact Nat.mod_eq_of_lt (by omega)
  have h1 : lbn_of P lpn = lpn / P := Nat.mod_eq_of_lt hl
  have h2 : pmd_index_of P Q lpn = lpn % P / Q := by unfold pmd_index_of; rw [hb]
  have h3 : map_slot_of P Q lpn = lpn % P % Q := by unfold map_slot_of; rw [hb]
  refine ⟨h1, h2, h3, ?_, ?_⟩
  · rw [h1, h2, h3]
    have e1 := Nat.div_add_mod lpn P
    have e2 := Nat.div_add_mod (lpn % P) Q
    have e3 : P * (lpn / P) = lpn / P * P := Nat.mul_comm _ _
    have e4 : Q * (lpn % P / Q) = lpn % P / Q * Q := Nat.mul_comm _ _
    omega
  · intro lpn1 hl1 a1 a2 a3
    exact decomp_inj P Q (by omega) hP32 lpn1 lpn hl1 hl a1 a2 a3

/-- C37 at `P = 64`, `Q = 8`, `LPN = 1000`: the triple is `(15, 5, 0)` and
`1000 = 15 * 64 + 5 * 8 + 0`. -/
theorem C37_decomposition_injective_witness :
    lbn_of 64 1000 = 15 ∧ pmd_index_of 64 8 1000 = 5 ∧ map_slot_of 64 8 1000 = 0 ∧
    1000 = lbn_of 64 1000 * 64 + pmd_index_of 64 8 1000 * 8 + map_slot_of 64 8 1000 := by
  obtain ⟨h1, h2, h3, h4, _⟩ := C37_decomposition_injective 64 8 1000 (by decide) (by decide)
    (by decide) (by decide)
  exact ⟨h1, h2, h3, h4⟩

/-- Under an accepted configuration the constructor computes `num_pmd = (P + Q - 1) / Q`
without wrapping. -/
theorem new_num_pmd (cfg : Config) (hok : cfg.ok) (m0 : Machine)
    (h0 : Machine.new cfg = some m0) :
    m0.ftl.num_pmd = (m0.ftl.P + m0.ftl.Q - 1) / m0.ftl.Q := by
  obtain ⟨h1, h2, h3, h4⟩ := hok
  have hmod : (cfg.BLOCK_SIZE + cfg.MNFTL_OOB_SIZE / cfg.MNFTL_ENTRY_SIZE + 4294967296 - 1)
      % 4294967296 = cfg.BLOCK_SIZE + cfg.MNFTL_OOB_SIZE / cfg.MNFTL_ENTRY_SIZE - 1 := by
    omega
  unfold Machine.new FtlImpl_MNftl.new at h0
  simp only at h0
  split at h0
  · exact Option.noConfusion h0
  · split at h0
    · exact Option.noConfusion h0
    · simp only [Option.map_some', Option.some.injEq] at h0
      subst h0
      exact congrArg (fun x => x / (cfg.MNFTL_OOB_SIZE / cfg.MNFTL_ENTRY_SIZE)) hmod

/-- C38.  Under an accepted configuration (`P ≥ 1`, `Q ≥ 1`, `P + Q - 1 < 2^32`) the engine
is constructed with `num_pmd = (P + Q - 1) / Q`, and in every state reached by `read`,
`write`, `trim` and `cleanup_block` calls: for every logical page, `PMD_INDEX < num_pmd` and
`MAP_SLOT < Q`; the expressions `PMD[lbn][pmd_index]` and `PMT[lbn][pmd_index][map_slot]` are
defined whenever the row `PMD[lbn]` exists (and `write` creates it otherwise); the
expressions `PMD[e.lbn][e.pmd]` and `PMT[e.lbn][e.pmd][e.slot]` that `cleanup_block` evaluates
for an entry `e` of `rmap` are defined; and every call is defined, that is, none indexes a
vector out of range. -/
theorem C38_index_safety (cfg : Config) (hok : cfg.ok) :
    ∃ m0, Machine.new cfg = some m0 ∧
      m0.ftl.num_pmd = (m0.ftl.P + m0.ftl.Q - 1) / m0.ftl.Q ∧
      ∀ ops, ∃ m, run cfg m0 ops = some m ∧
        m.ftl.P = m0.ftl.P ∧ m.ftl.Q = m0.ftl.Q ∧ m.ftl.num_pmd = m0.ftl.num_pmd ∧
        (∀ lpn, pmd_index_of m.ftl.P m.ftl.Q lpn < m.ftl.num_pmd ∧
          map_slot_of m.ftl.P m.ftl.Q lpn < m.ftl.Q) ∧
        (∀ lpn, m.ftl.PMD (lbn_of m.ftl.P lpn) ≠ none →
          (∃ a, PMD_get m.ftl (lbn_of m.ftl.P lpn) (pmd_index_of m.ftl.P m.ftl.Q lpn) =
            some a) ∧
          ∃ v, PMT_get m.ftl (lbn_of m.ftl.P lpn) (pmd_index_of m.ftl.P m.ftl.Q lpn)
            (map_slot_of m.ftl.P m.ftl.Q lpn) = some v) ∧
        (∀ p e, m.ftl.rmap p = some e →
          (∃ a, PMD_get m.ftl e.lbn e.pmd = some a) ∧
          ∃ v, PMT_get m.ftl e.lbn e.pmd e.slot = some v) ∧
        ∀ op, ∃ m1, step cfg m op = some m1 := by
  obtain ⟨m0, h0, hI0, _⟩ := Inv_new cfg hok
  refine ⟨m0, h0, new_num_pmd cfg hok m0 h0, fun ops => ?_⟩
  obtain ⟨m, hm, hW, hP, hQ, hN⟩ := static_run cfg hok.1 ops m0 hI0.wf
  refine ⟨m, hm, hP, hQ, hN, ?_, ?_, ?_, ?_⟩
  · intro lpn
    exact ⟨pmd_index_lt m.ftl hW lpn, map_slot_lt m.ftl hW lpn⟩
  · intro lpn hD
    have hT : m.ftl.PMT (lbn_of m.ftl.P lpn) ≠ none := fun hc => hD ((hW.keys _).mpr hc)
    exact ⟨PMD_get_some_of_WF m.ftl hW _ _ hD (pmd_index_lt m.ftl hW lpn),
      PMT_get_some_of_WF m.ftl hW _ _ _ hT (pmd_index_lt m.ftl hW lpn)
        (map_slot_lt m.ftl hW lpn)⟩
  · intro p e he
    obtain ⟨d1, d2, d3⟩ := hW.rmap_dom p e he
    have hD : m.ftl.PMD e.lbn ≠ none := fun hc => d1 ((hW.keys _).mp hc)
    exact ⟨PMD_get_some_of_WF m.ftl hW _ _ hD d2, PMT_get_some_of_WF m.ftl hW _ _ _ d1 d2 d3⟩
  · intro op
    obtain ⟨m1, hs, _⟩ := WF_step cfg hok.1 m hW op
    exact ⟨m1, hs⟩

/-- C38 under `cfg64`: after `write(1000)` the engine has `num_pmd = 8`, and the fragment
index 5 and the slot 0 of logical page 1000 are below `num_pmd` and `Q`. -/
theorem C38_index_safety_witness :
    cfg64.ok ∧
    ∃ m, run cfg64 m64 [Op.write (ev64 event_type.WRITE 1000 0) (fb64 0) (pg64 0) (ok64 1)] =
        some m ∧
      pmd_index_of m.ftl.P m.ftl.Q 1000 < m.ftl.num_pmd ∧
      map_slot_of m.ftl.P m.ftl.Q 1000 < m.ftl.Q := by
  obtain ⟨m0, h0, _, hrun⟩ := C38_index_safety cfg64 cfg64_ok
  rw [new_cfg64] at h0
  simp only [Option.some.injEq] at h0
  subst h0
  obtain ⟨m, hm, _, _, _, hidx, _⟩ :=
    hrun [Op.write (ev64 event_type.WRITE 1000 0) (fb64 0) (pg64 0) (ok64 1)]
  exact ⟨cfg64_ok, m, hm, hidx 1000⟩

/-- After the frontier test of `write` and `cleanup_block`, in a state with
`current_page_offset ≤ P` and `P ≥ 1`: a frontier block is open and has a page left. -/
theorem ensure_frontier_ready (m : Machine) (hP : 0 < m.ftl.P)
    (hle : m.ftl.current_page_offset ≤ m.ftl.P) (event : Event) (fb : BlockResp) :
    (ensure_frontier m event fb).1.ftl.has_current_block = true ∧
      (ensure_frontier m event fb).1.ftl.current_page_offset <
        (ensure_frontier m event fb).1.ftl.P := by
  obtain ⟨e1, _, _, _, _, _, e7⟩ := ensure_frontier_ftl m event fb
  obtain ⟨c1, _⟩ := ensure_frontier_fields m event fb
  refine ⟨e7, ?_⟩
  rw [c1, e1]
  by_cases hA : m.ftl.has_current_block = false ∨ m.ftl.current_page_offset = m.ftl.P
  · rw [if_pos hA]; exact hP
  · rw [if_neg hA]
    have : m.ftl.current_page_offset ≠ m.ftl.P := fun hh => hA (Or.inr hh)
    omega

/-- The lazy creation of the rows leaves `has_current_block` alone. -/
theorem ensure_rows_has (m : Machine) (L : Nat) :
    (ensure_rows m L).ftl.has_current_block = m.ftl.has_current_block := by
  unfold ensure_rows
  cases hD : m.ftl.PMD L <;> cases hT : m.ftl.PMT L <;>
    simp [Machine.log, Machine.setFtl, hD, hT]

/-- C32.  For `P = BLOCK_SIZE ≥ 1`, in every state `m` reached from the constructed engine by
`read`, `write`, `trim` and `cleanup_block` calls: the state in which `write` calls
`alloc_page_in_current_block` (after the frontier test and the lazy creation of the rows) and
the state in which an iteration of the loop of `cleanup_block` calls it (after the READ
sub-event and the frontier test) have `has_current_block = true` and
`current_page_offset < P`, so the assertion holds and the call returns the page.  Under an
accepted configuration the engine can be constructed and every call sequence is defined, so
such states exist. -/
theorem C32_alloc_precondition (cfg : Config) (hP : 0 < cfg.BLOCK_SIZE) (m0 : Machine)
    (ops : List Op) (m : Machine) (h0 : Machine.new cfg = some m0)
    (hr : run cfg m0 ops = some m) :
    (∀ event fb L newAddr,
      (ensure_rows (ensure_frontier
        ({ m with stats := { m.stats with numFTLWrite := m.stats.numFTLWrite + 1 } } : Machine)
        event fb).1 L).ftl.has_current_block = true ∧
      (ensure_rows (ensure_frontier
        ({ m with stats := { m.stats with numFTLWrite := m.stats.numFTLWrite + 1 } } : Machine)
        event fb).1 L).ftl.current_page_offset <
      (ensure_rows (ensure_frontier
        ({ m with stats := { m.stats with numFTLWrite := m.stats.numFTLWrite + 1 } } : Machine)
        event fb).1 L).ftl.P ∧
      alloc_page_in_current_block (ensure_rows (ensure_frontier
        ({ m with stats := { m.stats with numFTLWrite := m.stats.numFTLWrite + 1 } } : Machine)
        event fb).1 L) newAddr ≠ none) ∧
    (∀ event fb newAddr dev, m.ftl.Q ≠ 0 →
      write cfg m event fb newAddr dev =
        write_core cfg (ensure_rows (ensure_frontier
          ({ m with stats := { m.stats with numFTLWrite := m.stats.numFTLWrite + 1 } } :
            Machine) event fb).1 (lbn_of m.ftl.P event.logical_address))
          (ensure_frontier
          ({ m with stats := { m.stats with numFTLWrite := m.stats.numFTLWrite + 1 } } :
            Machine) event fb).2
          (lbn_of m.ftl.P event.logical_address)
          (pmd_index_of m.ftl.P m.ftl.Q event.logical_address)
          (map_slot_of m.ftl.P m.ftl.Q event.logical_address) newAddr dev) ∧
    (∀ event pa get_state resp n c1,
      cleanup_pages cfg pa get_state resp { m := m, event := event, ret := () } n =
        some c1 →
      ∀ rEv,
        (ensure_frontier (issue c1.m rEv (resp n).rd).m c1.event
          (resp n).fb).1.ftl.has_current_block = true ∧
        (ensure_frontier (issue c1.m rEv (resp n).rd).m c1.event
          (resp n).fb).1.ftl.current_page_offset <
        (ensure_frontier (issue c1.m rEv (resp n).rd).m c1.event (resp n).fb).1.ftl.P ∧
        alloc_page_in_current_block
          (ensure_frontier (issue c1.m rEv (resp n).rd).m c1.event (resp n).fb).1
          (resp n).newAddr ≠ none) ∧
    (cfg.ok → ∃ m0, Machine.new cfg = some m0 ∧ ∀ ops, ∃ m, run cfg m0 ops = some m) := by
  obtain ⟨n1, n2⟩ := new_frontier cfg m0 h0
  have hP0 : 0 < m0.ftl.P := by rw [n1]; exact hP
  obtain ⟨r1, r2⟩ := run_frontier_of_some cfg ops m0 m hP0 hr
  have hle : m.ftl.current_page_offset ≤ m.ftl.P := r2 (by rw [n2]; exact Nat.zero_le _)
  have hPm : 0 < m.ftl.P := by rw [r1]; exact hP0
  refine ⟨?_, ?_, ?_, ?_⟩
  · intro event fb L newAddr
    obtain ⟨a1, a2⟩ := ensure_frontier_ready
      ({ m with stats := { m.stats with numFTLWrite := m.stats.numFTLWrite + 1 } } : Machine)
      hPm hle event fb
    obtain ⟨b1, b2⟩ := ensure_rows_frontier (ensure_frontier
      ({ m with stats := { m.stats with numFTLWrite := m.stats.numFTLWrite + 1 } } : Machine)
      event fb).1 L
    have b3 := ensure_rows_has (ensure_frontier
      ({ m with stats := { m.stats with numFTLWrite := m.stats.numFTLWrite + 1 } } : Machine)
      event fb).1 L
    refine ⟨b3.trans a1, by rw [b1, b2]; exact a2, ?_⟩
    unfold alloc_page_in_current_block
    rw [if_pos (b3.trans a1)]
    exact Option.some_ne_none _
  · intro event fb newAddr dev hQ
    have hP1 : m.ftl.P ≠ 0 := by omega
    have hQ2 : (ensure_frontier
        ({ m with stats := { m.stats with numFTLWrite := m.stats.numFTLWrite + 1 } } :
          Machine) event fb).1.ftl.Q = m.ftl.Q :=
      (ensure_frontier_ftl _ event fb).2.1
    have hP2 : (ensure_frontier
        ({ m with stats := { m.stats with numFTLWrite := m.stats.numFTLWrite + 1 } } :
          Machine) event fb).1.ftl.P = m.ftl.P :=
      (ensure_frontier_ftl _ event fb).1
    unfold write
    simp only [hP1, if_false, hQ2, hQ, hP2]
  · intro event pa get_state resp n c1 hc1 rEv
    obtain ⟨s1, s2⟩ := cleanup_pages_frontier_of_some cfg pa get_state resp
      { m := m, event := event, ret := () } hPm n c1 hc1
    have hPc : 0 < c1.m.ftl.P := by rw [s1]; exact hPm
    obtain ⟨a1, a2⟩ := ensure_frontier_ready (issue c1.m rEv (resp n).rd).m hPc (s2 hle)
      c1.event (resp n).fb
    refine ⟨a1, a2, ?_⟩
    unfold alloc_page_in_current_block
    rw [if_pos a1]
    exact Option.some_ne_none _
  · intro hok
    obtain ⟨m0, h0, _, _, htot⟩ := run_total cfg hok
    refine ⟨m0, h0, fun ops => ?_⟩
    obtain ⟨m, hm, _⟩ := htot ops
    exact ⟨m, hm⟩

/-- C32 under `cfg64`, in the state after `write(5)`: the state in which a second `write`
calls `alloc_page_in_current_block` has a frontier block with a page left, so the call
returns. -/
theorem C32_alloc_precondition_witness :
    0 < cfg64.BLOCK_SIZE ∧ Machine.new cfg64 = some m64 ∧
    run cfg64 m64 [Op.write (ev64 event_type.WRITE 5 0) (fb64 0) (pg64 0) (ok64 1)] =
      some (Machine.after cfg64 m64
        [Op.write (ev64 event_type.WRITE 5 0) (fb64 0) (pg64 0) (ok64 1)]) ∧
    ∀ (event : Event) (fb : BlockResp) (L : Nat) (newAddr : Address),
      alloc_page_in_current_block (ensure_rows (ensure_frontier
        ({ Machine.after cfg64 m64
            [Op.write (ev64 event_type.WRITE 5 0) (fb64 0) (pg64 0) (ok64 1)] with
          stats := { (Machine.after cfg64 m64
            [Op.write (ev64 event_type.WRITE 5 0) (fb64 0) (pg64 0) (ok64 1)]).stats with
            numFTLWrite := (Machine.after cfg64 m64
              [Op.write (ev64 event_type.WRITE 5 0) (fb64 0) (pg64 0)
                (ok64 1)]).stats.numFTLWrite + 1 } } : Machine)
        event fb).1 L) newAddr ≠ none :=
  ⟨by decide, new_cfg64,
    run_eq_after cfg64 (by decide) m64 WF_m64
      [Op.write (ev64 event_type.WRITE 5 0) (fb64 0) (pg64 0) (ok64 1)],
    fun event fb L newAddr =>
      ((C32_alloc_precondition cfg64 (by decide) m64 _ _ new_cfg64
        (run_eq_after cfg64 (by decide) m64 WF_m64
          [Op.write (ev64 event_type.WRITE 5 0) (fb64 0) (pg64 0) (ok64 1)])).1
        event fb L newAddr).2.2⟩

/-! ## The cache-based variant -/

theorem resolve_out_of_range (cfg : CacheConfig) (m : CacheMachine) (event : Event) (w : Bool)
    (h : m.ftl.trans_map.length ≤ event.logical_address % 4294967296) :
    resolve_mapping_mn cfg m event w = (m, event) := by
  unfold resolve_mapping_mn
  simp only [dif_pos h]

/-- C33 (out-of-range write of the cache-based variant): when `dlpn`, the `uint` of the
logical address, is at least `trans_map.size()`, and the helper `get_free_data_page` leaves
`trans_map`, `cmt` and the logical address of the event as they are, `FtlImpl_Mnftl::write`
returns `FAILURE`, issues nothing (the trace is unchanged), leaves `trans_map` (every entry
with its `ppn`, `cached` and `last_visited_time`) and `cmt` unchanged, as well as the
statistics, and hands back the event as the helper left it. -/
theorem C33_out_of_range_write (cfg : CacheConfig) (m : CacheMachine) (event : Event)
    (dev : IssueResp)
    (hg : (cfg.get_free_data_page m.ftl event).1 = m.ftl)
    (hl : (cfg.get_free_data_page m.ftl event).2.1.logical_address = event.logical_address)
    (h : m.ftl.trans_map.length ≤ event.logical_address % 4294967296) :
    (cache_write cfg m event dev).ret = status.FAILURE ∧
    (cache_write cfg m event dev).m.trace = m.trace ∧
    (cache_write cfg m event dev).m.ftl.trans_map = m.ftl.trans_map ∧
    (cache_write cfg m event dev).m.ftl.cmt = m.ftl.cmt ∧
    (cache_write cfg m event dev).m.stats = m.stats ∧
    (cache_write cfg m event dev).event = (cfg.get_free_data_page m.ftl event).2.1 := by
  have hm : ({ m with ftl := (cfg.get_free_data_page m.ftl event).1 } : CacheMachine) = m := by
    rw [hg]
  have h1 : m.ftl.trans_map.length ≤
      (cfg.get_free_data_page m.ftl event).2.1.logical_address % 4294967296 := by
    rw [hl]; exact h
  have hr : resolve_mapping_mn cfg { m with ftl := (cfg.get_free_data_page m.ftl event).1 }
      (cfg.get_free_data_page m.ftl event).2.1 true
        = (m, (cfg.get_free_data_page m.ftl event).2.1) := by
    rw [hm]; exact resolve_out_of_range cfg m _ true h1
  unfold cache_write
  simp only [hr, dif_pos h1, and_self]

theorem C33_out_of_range_write_witness :
    cacheM.ftl.trans_map.length ≤ (ev64 event_type.WRITE 5 0).logical_address % 4294967296 ∧
    (cache_write cacheCfg cacheM (ev64 event_type.WRITE 5 0) (ok64 1)).ret = status.FAILURE ∧
    (cache_write cacheCfg cacheM (ev64 event_type.WRITE 5 0) (ok64 1)).m.trace = [] :=
  ⟨by decide,
   (C33_out_of_range_write cacheCfg cacheM (ev64 event_type.WRITE 5 0) (ok64 1) rfl rfl
      (by decide)).1,
   (C33_out_of_range_write cacheCfg cacheM (ev64 event_type.WRITE 5 0) (ok64 1) rfl rfl
      (by decide)).2.1⟩

theorem cache_read_congr (cfg : CacheConfig) (m m1 : CacheMachine) (ev : Event) (d : IssueResp)
    (h : m1.ftl = m.ftl) :
    (cache_read cfg m1 ev d).event = (cache_read cfg m ev d).event ∧
    (cache_read cfg m1 ev d).ret = (cache_read cfg m ev d).ret ∧
    (cache_read cfg m1 ev d).m.ftl = (cache_read cfg m ev d).m.ftl := by
  obtain ⟨f1, s1, t1⟩ := m1
  obtain ⟨f, s0, t0⟩ := m
  have h1 : f1 = f := h
  subst h1
  have hr : (resolve_mapping_mn cfg ⟨f1, s1, t1⟩ ev false).2
        = (resolve_mapping_mn cfg ⟨f1, s0, t0⟩ ev false).2 ∧
      (resolve_mapping_mn cfg ⟨f1, s1, t1⟩ ev false).1.ftl
        = (resolve_mapping_mn cfg ⟨f1, s0, t0⟩ ev false).1.ftl := by
    unfold resolve_mapping_mn
    dsimp only
    split
    · exact ⟨rfl, rfl⟩
    · split
      · exact ⟨rfl, rfl⟩
      · exact ⟨rfl, rfl⟩
  unfold cache_read cache_issue
  revert hr
  generalize resolve_mapping_mn cfg ⟨f1, s1, t1⟩ ev false = ra
  generalize resolve_mapping_mn cfg ⟨f1, s0, t0⟩ ev false = rb
  rintro ⟨h1, h2⟩
  obtain ⟨⟨fa, sa, ta⟩, ea⟩ := ra
  obtain ⟨⟨fb, sb, tb⟩, eb⟩ := rb
  dsimp only at h1 h2
  subst h1
  subst h2
  exact ⟨rfl, rfl, rfl⟩

/-- C34 (trim of the cache-based variant is a no-op on the mapping): for every state and
every event, `FtlImpl_Mnftl::trim` leaves `trans_map` and `cmt` unchanged, marks the event
noop, returns the status of `controller.issue`, issues the event once and moves only the
counter `numFTLTrim`; and a `read` of any logical address after the trim leaves the event
(address, noop flag, time), the status and the engine state exactly as the same `read`
before the trim does, so it resolves to the same ppn. -/
theorem C34_trim_noop (cfg : CacheConfig) (m : CacheMachine) (event : Event) (dev : IssueResp) :
    (cache_trim m event dev).m.ftl.trans_map = m.ftl.trans_map ∧
    (cache_trim m event dev).m.ftl.cmt = m.ftl.cmt ∧
    (cache_trim m event dev).event.noop = true ∧
    (cache_trim m event dev).ret = dev.ret ∧
    (cache_trim m event dev).m.trace = m.trace ++ [Action.issue (event.set_noop true)] ∧
    (cache_trim m event dev).m.stats =
      { m.stats with numFTLTrim := m.stats.numFTLTrim + 1 } ∧
    ∀ ev d,
      (cache_read cfg (cache_trim m event dev).m ev d).event = (cache_read cfg m ev d).event ∧
      (cache_read cfg (cache_trim m event dev).m ev d).ret = (cache_read cfg m ev d).ret ∧
      (cache_read cfg (cache_trim m event dev).m ev d).m.ftl = (cache_read cfg m ev d).m.ftl :=
  ⟨rfl, rfl, rfl, rfl, rfl, rfl,
   fun ev d => cache_read_congr cfg m (cache_trim m event dev).m ev d rfl⟩

/-! ## The scan-based engine against the rmap-based engine -/

theorem toUlong_mod_uint (z : Int) : toUlong z % 4294967296 = toUint z := by
  unfold toUlong toUint
  omega

theorem issued_rw_append (a b : List Action) :
    issued_rw (a ++ b) = issued_rw a ++ issued_rw b := by
  unfold issued_rw
  rw [issued_append, List.filter_append]

theorem issued_rw_congr (a b c d : List Action) (h : issued_rw a = issued_rw b)
    (h1 : issued_rw c = issued_rw d) : issued_rw (a ++ c) = issued_rw (b ++ d) := by
  rw [issued_rw_append, issued_rw_append, h, h1]

@[simp]
theorem mapping_part_P (f : FtlImpl_MNftl) : (mapping_part f).P = f.P := rfl
@[simp]
theorem mapping_part_Q (f : FtlImpl_MNftl) : (mapping_part f).Q = f.Q := rfl
@[simp]
theorem mapping_part_num_pmd (f : FtlImpl_MNftl) :
    (mapping_part f).num_pmd = f.num_pmd := rfl
@[simp]
theorem mapping_part_PMD (f : FtlImpl_MNftl) : (mapping_part f).PMD = f.PMD := rfl
@[simp]
theorem mapping_part_PMT (f : FtlImpl_MNftl) : (mapping_part f).PMT = f.PMT := rfl
@[simp]
theorem mapping_part_has (f : FtlImpl_MNftl) :
    (mapping_part f).has_current_block = f.has_current_block := rfl
@[simp]
theorem mapping_part_offset (f : FtlImpl_MNftl) :
    (mapping_part f).current_page_offset = f.current_page_offset := rfl
@[simp]
theorem mapping_part_block (f : FtlImpl_MNftl) :
    (mapping_part f).current_block = f.current_block := rfl
@[simp]
theorem mapping_part_BML (f : FtlImpl_MNftl) : (mapping_part f).BML = f.BML := rfl
@[simp]
theorem PMD_get_mapping_part (f : FtlImpl_MNftl) (L i : Nat) :
    PMD_get (mapping_part f) L i = PMD_get f L i := rfl
@[simp]
theorem PMT_get_mapping_part (f : FtlImpl_MNftl) (L i s : Nat) :
    PMT_get (mapping_part f) L i s = PMT_get f L i s := rfl

theorem mapping_part_PMT_set (f : FtlImpl_MNftl) (L i s : Nat) (v : Int) :
    mapping_part (PMT_set f L i s v) = PMT_set (mapping_part f) L i s v := rfl

theorem mapping_part_PMD_set (f : FtlImpl_MNftl) (L i : Nat) (v : Int) :
    mapping_part (PMD_set f L i v) = PMD_set (mapping_part f) L i v := rfl

theorem mapping_part_rmap_erase (f : FtlImpl_MNftl) (k : Nat) :
    mapping_part (rmap_erase f k) = mapping_part f := rfl

theorem mapping_part_rmap_set (f : FtlImpl_MNftl) (k : Nat) (e : RmapEntry) :
    mapping_part (rmap_set f k e) = mapping_part f := rfl

/-- The two `read` methods agree: same event, same status, same state, same issue. -/
theorem sim_read (cfg : Config) (s m : Machine) (h : Sim s m) (ev : Event) (dev : IssueResp) :
    (scan_read cfg s ev dev).map (fun o => (o.event, o.ret, o.m.ftl, issued_rw o.m.trace)) =
    (read cfg m ev dev).map
      (fun o => (o.event, o.ret, mapping_part o.m.ftl, issued_rw o.m.trace)) := by
  obtain ⟨sf, ss, st⟩ := s
  obtain ⟨hf, ht⟩ := h
  dsimp only at hf ht
  subst hf
  unfold scan_read read
  dsimp only
  simp only [mapping_part_P, mapping_part_Q, mapping_part_PMD, PMD_get_mapping_part,
    PMT_get_mapping_part]
  by_cases hP : m.ftl.P = 0
  · simp only [hP, if_true, Option.map_none']
  simp only [hP, if_false]
  by_cases hQ : m.ftl.Q = 0
  · simp only [hQ, if_true, Option.map_none']
  simp only [hQ, if_false]
  have hi : ∀ e, issued_rw (st ++ [Action.issue e]) = issued_rw (m.trace ++ [Action.issue e]) :=
    fun e => issued_rw_congr _ _ _ _ ht rfl
  cases hD : m.ftl.PMD (lbn_of m.ftl.P ev.logical_address) with
  | none => simp [issue, Machine.log, hi]
  | some row =>
    dsimp only
    cases hA : PMD_get m.ftl (lbn_of m.ftl.P ev.logical_address)
        (pmd_index_of m.ftl.P m.ftl.Q ev.logical_address) with
    | none => simp
    | some a =>
      dsimp only
      by_cases ha : a = -1
      · simp [ha, issue, Machine.log, hi]
      simp only [ha, if_false]
      cases hT : PMT_get m.ftl (lbn_of m.ftl.P ev.logical_address)
          (pmd_index_of m.ftl.P m.ftl.Q ev.logical_address)
          (map_slot_of m.ftl.P m.ftl.Q ev.logical_address) with
      | none => simp
      | some p =>
        dsimp only
        by_cases hp : p = -1
        · simp [hp, issue, Machine.log, hi]
        simp [hp, issue, Machine.log, hi, toUlong_mod_uint]

theorem sim_ensure_frontier (s m : Machine) (h : Sim s m) (ev : Event) (fb : BlockResp) :
    Sim (scan_ensure_frontier s ev fb).1 (ensure_frontier m ev fb).1 ∧
    (scan_ensure_frontier s ev fb).2 = (ensure_frontier m ev fb).2 := by
  obtain ⟨sf, ss, st⟩ := s
  obtain ⟨hf, ht⟩ := h
  dsimp only at hf ht
  subst hf
  unfold scan_ensure_frontier ensure_frontier
  simp only [mapping_part_has, mapping_part_offset, mapping_part_P]
  by_cases hc : m.ftl.has_current_block = false ∨ m.ftl.current_page_offset = m.ftl.P
  · rw [if_pos hc, if_pos hc]
    refine ⟨⟨rfl, ?_⟩, rfl⟩
    exact issued_rw_congr _ _ _ _ ht rfl
  · rw [if_neg hc, if_neg hc]
    exact ⟨⟨rfl, ht⟩, rfl⟩

theorem sim_ensure_rows (s m : Machine) (h : Sim s m) (L : Nat) :
    Sim (ensure_rows s L) (ensure_rows m L) := by
  obtain ⟨sf, ss, st⟩ := s
  obtain ⟨hf, ht⟩ := h
  dsimp only at hf ht
  subst hf
  unfold ensure_rows
  dsimp only
  simp only [mapping_part_PMD]
  cases hD : m.ftl.PMD L with
  | none =>
    dsimp only [Machine.log, Machine.setFtl]
    simp only [mapping_part_PMT]
    cases hT : m.ftl.PMT L with
    | none =>
      dsimp only
      refine ⟨rfl, ?_⟩
      exact issued_rw_congr _ _ _ _ (issued_rw_congr _ _ _ _ ht rfl) rfl
    | some g =>
      dsimp only
      refine ⟨rfl, ?_⟩
      exact issued_rw_congr _ _ _ _ ht rfl
  | some row =>
    dsimp only
    simp only [mapping_part_PMT]
    cases hT : m.ftl.PMT L with
    | none =>
      dsimp only [Machine.log, Machine.setFtl]
      refine ⟨rfl, ?_⟩
      exact issued_rw_congr _ _ _ _ ht rfl
    | some g => exact ⟨rfl, ht⟩

theorem sim_alloc_page (s m : Machine) (h : Sim s m) (a : Address) :
    (alloc_page_in_current_block s a = none ∧ alloc_page_in_current_block m a = none) ∨
    ∃ s1 m1, alloc_page_in_current_block s a = some (s1, a.get_linear_address, a) ∧
      alloc_page_in_current_block m a = some (m1, a.get_linear_address, a) ∧ Sim s1 m1 := by
  unfold alloc_page_in_current_block
  have hh : s.ftl.has_current_block = m.ftl.has_current_block := by rw [h.1]; rfl
  rw [hh]
  by_cases hc : m.ftl.has_current_block = true
  · right
    rw [if_pos hc, if_pos hc]
    exact ⟨_, _, rfl, rfl, h.1, issued_rw_congr _ _ _ _ h.2 rfl⟩
  · left
    rw [if_neg hc, if_neg hc]
    exact ⟨rfl, rfl⟩

theorem sim_incr_offset (s m : Machine) (h : Sim s m) : Sim (incr_offset s) (incr_offset m) := by
  obtain ⟨sf, ss, st⟩ := s
  obtain ⟨hf, ht⟩ := h
  dsimp only at hf ht
  subst hf
  exact ⟨rfl, ht⟩

theorem sim_issue (s m : Machine) (h : Sim s m) (e : Event) (dev : IssueResp) :
    Sim (issue s e dev).m (issue m e dev).m ∧ (issue s e dev).event = (issue m e dev).event ∧
    (issue s e dev).ret = (issue m e dev).ret :=
  ⟨⟨h.1, issued_rw_congr _ _ _ _ h.2 rfl⟩, rfl, rfl⟩

theorem issued_rw_store (lbn i sl : Nat) (old : Int) (new : Nat) :
    issued_rw (store_mapping_actions lbn i sl old new) = [] := by
  unfold store_mapping_actions
  by_cases h : old ≠ -1
  · rw [if_pos h]; rfl
  · rw [if_neg h]; rfl

theorem mapping_part_store (f : FtlImpl_MNftl) (lbn i sl : Nat) (old : Int) (new : Nat) :
    mapping_part (store_mapping f lbn i sl old new) =
      PMD_set (PMT_set (mapping_part f) lbn i sl (toLong new)) lbn i (toLong new) := by
  unfold store_mapping
  by_cases h : old ≠ -1
  · rw [if_pos h]; rfl
  · rw [if_neg h]; rfl

theorem sim_write_core (cfg : Config) (s m : Machine) (h : Sim s m) (ev : Event)
    (lbn i sl : Nat) (a : Address) (dev : IssueResp) :
    (scan_write_core cfg s ev lbn i sl a dev).map
      (fun o => (o.event, o.ret, o.m.ftl, issued_rw o.m.trace)) =
    (write_core cfg m ev lbn i sl a dev).map
      (fun o => (o.event, o.ret, mapping_part o.m.ftl, issued_rw o.m.trace)) := by
  unfold scan_write_core write_core
  have hD : PMD_get s.ftl lbn i = PMD_get m.ftl lbn i := by rw [h.1]; rfl
  rw [hD]
  cases hA : PMD_get m.ftl lbn i with
  | none => rfl
  | some anchor =>
    dsimp only
    rcases sim_alloc_page s m h a with ⟨h1, h2⟩ | ⟨s1, m1, h1, h2, h3⟩
    · rw [h1, h2]; rfl
    · rw [h1, h2]
      dsimp only
      have h5 := sim_incr_offset s1 m1 h3
      have hT : PMT_get (incr_offset s1).ftl lbn i sl = PMT_get (incr_offset m1).ftl lbn i sl := by
        rw [h5.1]; rfl
      rw [hT]
      cases hO : PMT_get (incr_offset m1).ftl lbn i sl with
      | none => rfl
      | some old =>
        dsimp only [Option.map_some', issue, Machine.log, Machine.setFtl]
        rw [mapping_part_store, h5.1]
        refine congrArg some ?_
        refine Prod.ext rfl (Prod.ext rfl (Prod.ext rfl ?_))
        dsimp only
        refine issued_rw_congr _ _ _ _ (issued_rw_congr _ _ _ _ h5.2 ?_) rfl
        rw [issued_rw_store]; rfl

/-- The two `write` methods agree: same event, same status, same state, same issue. -/
theorem sim_write (cfg : Config) (s m : Machine) (h : Sim s m) (ev : Event) (fb : BlockResp)
    (a : Address) (dev : IssueResp) :
    (scan_write cfg s ev fb a dev).map
      (fun o => (o.event, o.ret, o.m.ftl, issued_rw o.m.trace)) =
    (write cfg m ev fb a dev).map
      (fun o => (o.event, o.ret, mapping_part o.m.ftl, issued_rw o.m.trace)) := by
  unfold scan_write write
  dsimp only
  have h1 : Sim { s with stats := { s.stats with numFTLWrite := s.stats.numFTLWrite + 1 } }
      { m with stats := { m.stats with numFTLWrite := m.stats.numFTLWrite + 1 } } := h
  have hP : s.ftl.P = m.ftl.P := by rw [h.1]; rfl
  rw [hP]
  by_cases hP0 : m.ftl.P = 0
  · rw [if_pos hP0, if_pos hP0]; rfl
  rw [if_neg hP0, if_neg hP0]
  obtain ⟨h2, h3⟩ := sim_ensure_frontier _ _ h1 ev fb
  have hQ := congrArg FtlImpl_MNftl.Q h2.1
  have hP2 := congrArg FtlImpl_MNftl.P h2.1
  rw [mapping_part_Q] at hQ
  rw [mapping_part_P] at hP2
  rw [hQ, hP2, h3]
  by_cases hQ0 : (ensure_frontier
      { m with stats := { m.stats with numFTLWrite := m.stats.numFTLWrite + 1 } } ev fb).1.ftl.Q = 0
  · rw [if_pos hQ0, if_pos hQ0]; rfl
  rw [if_neg hQ0, if_neg hQ0]
  exact sim_write_core cfg _ _ (sim_ensure_rows _ _ h2 _) _ _ _ _ _ _

theorem list_set_same {α : Type} (l : List α) (i : Nat) (v : α) (h : l[i]? = some v) :
    l.set i v = l := by
  induction l generalizing i with
  | nil => rfl
  | cons x xs ih =>
    cases i with
    | zero =>
      simp only [List.getElem?_cons_zero, Option.some.injEq] at h
      subst h; rfl
    | succ j =>
      simp only [List.getElem?_cons_succ] at h
      simp only [List.set_cons_succ, ih j h]

theorem list_getD_of_get {α : Type} (l : List α) (i : Nat) (v d : α) (h : l[i]? = some v) :
    l.getD i d = v := by
  simp [List.getD, h]

theorem issued_rw_skip (a b c : List Action) (h : issued_rw a = issued_rw b)
    (h1 : issued_rw c = []) : issued_rw (a ++ c) = issued_rw b := by
  rw [issued_rw_append, h, h1, List.append_nil]

/-- Storing in a slot the value it holds changes nothing. -/
theorem PMT_set_same (f : FtlImpl_MNftl) (L i s : Nat) (v : Int)
    (h : PMT_get f L i s = some v) : PMT_set f L i s v = f := by
  unfold PMT_get at h
  cases hT : f.PMT L with
  | none => rw [hT] at h; exact absurd h (by simp)
  | some grid =>
    rw [hT] at h
    dsimp only at h
    cases hg : grid[i]? with
    | none => rw [hg] at h; exact absurd h (by simp)
    | some row =>
      rw [hg] at h
      dsimp only at h
      have e1 : grid.getD i [] = row := list_getD_of_get grid i row [] hg
      have e2 : row.set s v = row := list_set_same row s v h
      have e3 : grid.set i row = grid := list_set_same grid i row hg
      have e4 : (fun k => if k = L then
          (f.PMT k).map (fun grid => grid.set i ((grid.getD i []).set s v))
          else f.PMT k) = f.PMT := by
        funext k
        by_cases hk : k = L
        · subst hk
          rw [if_pos rfl, hT]
          simp only [Option.map_some', e1, e2, e3]
        · rw [if_neg hk]
      unfold PMT_set
      rw [e4]

/-- The two `trim` methods agree: same event, same status, same state, same issue. -/
theorem sim_trim (cfg : Config) (s m : Machine) (h : Sim s m) (ev : Event) (dev : IssueResp) :
    (scan_trim cfg s ev dev).map (fun o => (o.event, o.ret, o.m.ftl, issued_rw o.m.trace)) =
    (trim cfg m ev dev).map
      (fun o => (o.event, o.ret, mapping_part o.m.ftl, issued_rw o.m.trace)) := by
  obtain ⟨sf, ss, st⟩ := s
  obtain ⟨hf, ht⟩ := h
  dsimp only at hf ht
  subst hf
  unfold scan_trim trim
  dsimp only
  simp only [mapping_part_P, mapping_part_Q, mapping_part_PMD, PMT_get_mapping_part]
  by_cases hP : m.ftl.P = 0
  · simp only [hP, if_true, Option.map_none']
  simp only [hP, if_false]
  have hi : ∀ e, issued_rw (st ++ [Action.issue e]) = issued_rw (m.trace ++ [Action.issue e]) :=
    fun e => issued_rw_congr _ _ _ _ ht rfl
  cases hD : m.ftl.PMD (lbn_of m.ftl.P ev.logical_address) with
  | none =>
    dsimp only [Option.map_some']
    rw [ht]
  | some row =>
    dsimp only
    by_cases hQ : m.ftl.Q = 0
    · simp only [hQ, if_true, Option.map_none']
    simp only [hQ, if_false]
    by_cases hl : pmd_index_of m.ftl.P m.ftl.Q ev.logical_address < row.length
    · simp only [hl, if_true]
      cases hT : PMT_get m.ftl (lbn_of m.ftl.P ev.logical_address)
          (pmd_index_of m.ftl.P m.ftl.Q ev.logical_address)
          (map_slot_of m.ftl.P m.ftl.Q ev.logical_address) with
      | none => rfl
      | some old =>
        dsimp only
        by_cases ho : old = -1
        · subst ho
          have hsame := PMT_set_same (mapping_part m.ftl) _ _ _ _
            ((PMT_get_mapping_part m.ftl _ _ _).trans hT)
          simp only [ne_eq, not_true_eq_false, if_false, Option.map_some', issue, Machine.log,
            Machine.setFtl, hsame]
          refine congrArg some ?_
          refine Prod.ext rfl (Prod.ext rfl (Prod.ext rfl ?_))
          dsimp only
          exact issued_rw_congr _ _ _ _ (issued_rw_skip _ _ _ ht rfl) rfl
        · simp only [ne_eq, ho, not_false_eq_true, if_true, Option.map_some', issue, Machine.log,
            Machine.setFtl]
          refine congrArg some ?_
          refine Prod.ext rfl (Prod.ext rfl (Prod.ext rfl ?_))
          dsimp only
          exact issued_rw_congr _ _ _ _ (issued_rw_congr _ _ _ _ ht rfl) rfl
    · simp only [hl, if_false, Option.map_some', issue, Machine.log]
      refine congrArg some ?_
      refine Prod.ext rfl (Prod.ext rfl (Prod.ext rfl ?_))
      exact hi _

theorem scan_row_sound (v : Int) :
    ∀ (row : List Int) (k n : Nat), scan_row row v k = some n →
      ∃ j, n = k + j ∧ row[j]? = some v
  | [], _, _, h => by simp [scan_row] at h
  | x :: xs, k, n, h => by
    unfold scan_row at h
    by_cases hx : x = v
    · rw [if_pos hx] at h
      simp only [Option.some.injEq] at h
      exact ⟨0, by omega, by simp [hx]⟩
    · rw [if_neg hx] at h
      obtain ⟨j, hj, hr⟩ := scan_row_sound v xs (k + 1) n h
      exact ⟨j + 1, by omega, by simpa using hr⟩

theorem scan_row_none (v : Int) :
    ∀ (row : List Int) (k : Nat), scan_row row v k = none → ∀ j : Nat, row[j]? ≠ some v
  | [], _, _, j => by simp
  | x :: xs, k, h, j => by
    unfold scan_row at h
    by_cases hx : x = v
    · rw [if_pos hx] at h; exact absurd h (by simp)
    · rw [if_neg hx] at h
      cases j with
      | zero => simpa using hx
      | succ j => simpa using scan_row_none v xs (k + 1) h j

theorem scan_grid_sound (v : Int) :
    ∀ (grid : List (List Int)) (i a s : Nat), scan_grid grid v i = some (a, s) →
      ∃ j row, a = i + j ∧ grid[j]? = some row ∧ row[s]? = some v
  | [], _, _, _, h => by simp [scan_grid] at h
  | r :: rs, i, a, s, h => by
    unfold scan_grid at h
    cases hr : scan_row r v 0 with
    | some n =>
      rw [hr] at h
      simp only [Option.some.injEq, Prod.mk.injEq] at h
      obtain ⟨j, hj, hv⟩ := scan_row_sound v r 0 n hr
      have hn : n = j := by omega
      subst hn
      refine ⟨0, r, by omega, by simp, ?_⟩
      rw [← h.2]; exact hv
    | none =>
      rw [hr] at h
      obtain ⟨j, row, hj, hg, hv⟩ := scan_grid_sound v rs (i + 1) a s h
      exact ⟨j + 1, row, by omega, by simpa using hg, hv⟩

theorem scan_grid_none (v : Int) :
    ∀ (grid : List (List Int)) (i : Nat), scan_grid grid v i = none →
      ∀ (j : Nat) (row : List Int) (s : Nat), grid[j]? = some row → row[s]? ≠ some v
  | [], _, _, j, row, s, hg => by simp at hg
  | r :: rs, i, h, j, row, s, hg => by
    unfold scan_grid at h
    cases hr : scan_row r v 0 with
    | some n => rw [hr] at h; exact absurd h (by simp)
    | none =>
      rw [hr] at h
      cases j with
      | zero =>
        simp only [List.getElem?_cons_zero, Option.some.injEq] at hg
        subst hg
        exact scan_row_none v r 0 hr s
      | succ j =>
        simp only [List.getElem?_cons_succ] at hg
        exact scan_grid_none v rs (i + 1) h j row s hg

theorem scan_keys_sound (PMT : Nat → Option (List (List Int))) (v : Int) :
    ∀ (fuel L K i s : Nat), scan_keys PMT v fuel L = some (K, i, s) →
      ∃ grid row, PMT K = some grid ∧ grid[i]? = some row ∧ row[s]? = some v
  | 0, _, _, _, _, h => by simp [scan_keys] at h
  | fuel + 1, L, K, i, s, h => by
    unfold scan_keys at h
    cases hT : PMT L with
    | none =>
      rw [hT] at h
      exact scan_keys_sound PMT v fuel (L + 1) K i s h
    | some grid =>
      rw [hT] at h
      dsimp only at h
      cases hg : scan_grid grid v 0 with
      | some p =>
        obtain ⟨a, b⟩ := p
        rw [hg] at h
        simp only [Option.some.injEq, Prod.mk.injEq] at h
        obtain ⟨j, row, hj, hr, hv⟩ := scan_grid_sound v grid 0 a b hg
        have ha : a = j := by omega
        subst ha
        obtain ⟨h1, h2, h3⟩ := h
        subst h1; subst h2; subst h3
        exact ⟨grid, row, hT, hr, hv⟩
      | none =>
        rw [hg] at h
        exact scan_keys_sound PMT v fuel (L + 1) K i s h

theorem scan_keys_none (PMT : Nat → Option (List (List Int))) (v : Int) :
    ∀ (fuel L : Nat), scan_keys PMT v fuel L = none →
      ∀ K, L ≤ K → K < L + fuel → ∀ (grid : List (List Int)) (row : List Int) (i s : Nat),
        PMT K = some grid → grid[i]? = some row → row[s]? ≠ some v
  | 0, L, _, K, h1, h2 => by omega
  | fuel + 1, L, h, K, h1, h2 => by
    intro grid row i s hK hg
    unfold scan_keys at h
    by_cases hKL : K = L
    · subst hKL
      rw [hK] at h
      dsimp only at h
      cases hs : scan_grid grid v 0 with
      | some p =>
        obtain ⟨a, b⟩ := p
        rw [hs] at h; exact absurd h (by simp)
      | none => exact scan_grid_none v grid 0 hs i row s hg
    · have hrec : scan_keys PMT v fuel (L + 1) = none := by
        cases hT : PMT L with
        | none => rw [hT] at h; exact h
        | some g =>
          rw [hT] at h
          dsimp only at h
          cases hs : scan_grid g v 0 with
          | some p =>
            obtain ⟨a, b⟩ := p
            rw [hs] at h; exact absurd h (by simp)
          | none => rw [hs] at h; exact h
      exact scan_keys_none PMT v fuel (L + 1) hrec K (by omega) (by omega) grid row i s hK hg

theorem PMT_get_of_rows (f : FtlImpl_MNftl) (K i s : Nat) (v : Int) (grid : List (List Int))
    (row : List Int) (h1 : f.PMT K = some grid) (h2 : grid[i]? = some row)
    (h3 : row[s]? = some v) : PMT_get f K i s = some v := by
  unfold PMT_get
  rw [h1]
  dsimp only
  rw [h2]
  exact h3

theorem rows_of_PMT_get (f : FtlImpl_MNftl) (K i s : Nat) (v : Int)
    (h : PMT_get f K i s = some v) :
    ∃ grid row, f.PMT K = some grid ∧ grid[i]? = some row ∧ row[s]? = some v := by
  unfold PMT_get at h
  cases hT : f.PMT K with
  | none => rw [hT] at h; exact absurd h (by simp)
  | some grid =>
    rw [hT] at h
    dsimp only at h
    cases hg : grid[i]? with
    | none => rw [hg] at h; exact absurd h (by simp)
    | some row =>
      rw [hg] at h
      exact ⟨grid, row, rfl, hg, h⟩

/-- The scan stops at a slot that holds the value. -/
theorem scan_find_sound (f : FtlImpl_MNftl) (v : Int) (K i s : Nat)
    (h : scan_find f v = some (K, i, s)) : PMT_get f K i s = some v := by
  obtain ⟨grid, row, h1, h2, h3⟩ := scan_keys_sound f.PMT v _ _ K i s h
  exact PMT_get_of_rows f K i s v grid row h1 h2 h3

/-- A scan that finds nothing has met no slot with the value under a `uint` key. -/
theorem scan_find_none (f : FtlImpl_MNftl) (v : Int) (h : scan_find f v = none) (K i s : Nat)
    (hK : K < 4294967296) : PMT_get f K i s ≠ some v := by
  intro hc
  obtain ⟨grid, row, h1, h2, h3⟩ := rows_of_PMT_get f K i s v hc
  exact scan_keys_none f.PMT v _ _ h K (Nat.zero_le K) (by omega) grid row i s h1 h2 h3

/-- On a state with invariant I1 whose keys are `uint`s, the scan for a page number finds
the slot recorded in `rmap`, and finds nothing exactly when `rmap` has no entry. -/
theorem scan_find_eq_rmap (f : FtlImpl_MNftl) (hI : I1 f)
    (hK : ∀ L, f.PMT L ≠ none → L < 4294967296) (old : Nat)
    (ho : old < 18446744073709551616) (hp : isPage old) :
    scan_find (mapping_part f) (toLong old) =
      (f.rmap old).map (fun e => (e.lbn, e.pmd, e.slot)) := by
  cases hr : f.rmap old with
  | none =>
    cases hs : scan_find (mapping_part f) (toLong old) with
    | none => rfl
    | some p =>
      obtain ⟨K, i, s⟩ := p
      have hg : PMT_get f K i s = some (toLong old) := scan_find_sound _ _ K i s hs
      have := (hI old K i s ho hp).mpr hg
      rw [hr] at this
      exact absurd this (by simp)
  | some e =>
    obtain ⟨eL, ei, es⟩ := e
    have hg : PMT_get f eL ei es = some (toLong old) := (hI old eL ei es ho hp).mp hr
    cases hs : scan_find (mapping_part f) (toLong old) with
    | none =>
      obtain ⟨grid, _, hT, _, _⟩ := rows_of_PMT_get f eL ei es _ hg
      have hL : eL < 4294967296 := hK eL (by rw [hT]; simp)
      exact absurd hg (scan_find_none (mapping_part f) _ hs eL ei es hL)
    | some p =>
      obtain ⟨K, i, s⟩ := p
      have hg2 : PMT_get f K i s = some (toLong old) := scan_find_sound _ _ K i s hs
      have h2 := (hI old K i s ho hp).mpr hg2
      rw [hr] at h2
      simp only [Option.some.injEq, RmapEntry.mk.injEq] at h2
      obtain ⟨a, b, c⟩ := h2
      subst a; subst b; subst c
      rfl

/-- The mapping rewrite of the two `cleanup_block` methods for one copied page. -/
theorem sim_remap (s m : Machine) (h : Sim s m) (hI : I1 m.ftl)
    (hK : ∀ L, m.ftl.PMT L ≠ none → L < 4294967296) (old new : Nat)
    (ho : old < 18446744073709551616) (hp : isPage old) :
    (scan_remap s old new).map (fun s1 => (s1.ftl, issued_rw s1.trace)) =
    (remap m old new).map (fun m1 => (mapping_part m1.ftl, issued_rw m1.trace)) := by
  obtain ⟨sf, ss, st⟩ := s
  obtain ⟨hf, ht⟩ := h
  dsimp only at hf ht
  subst hf
  unfold scan_remap remap
  dsimp only
  rw [scan_find_eq_rmap m.ftl hI hK old ho hp]
  cases hr : m.ftl.rmap old with
  | none =>
    dsimp only [Option.map_none', Option.map_some']
    rw [ht]
  | some e =>
    dsimp only [Option.map_some']
    have hg : PMT_get m.ftl e.lbn e.pmd e.slot = some (toLong old) := by
      have := hI old e.lbn e.pmd e.slot ho hp
      exact this.mp hr
    rw [hg]
    dsimp only
    rw [PMD_get_PMT_set, PMD_get_PMT_set, PMD_get_mapping_part]
    cases hA : PMD_get m.ftl e.lbn e.pmd with
    | none => rfl
    | some a =>
      dsimp only [Option.map_some', Machine.log, Machine.setFtl]
      refine congrArg some ?_
      refine Prod.ext rfl ?_
      dsimp only
      exact issued_rw_congr _ _ _ _ ht rfl

theorem map_eq_cases {α β γ : Type} (a : Option α) (b : Option β) (f : α → γ) (g : β → γ)
    (h : a.map f = b.map g) :
    (a = none ∧ b = none) ∨ ∃ x y, a = some x ∧ b = some y ∧ f x = g y := by
  cases a with
  | none =>
    cases b with
    | none => exact Or.inl ⟨rfl, rfl⟩
    | some y => simp at h
  | some x =>
    cases b with
    | none => simp at h
    | some y =>
      simp only [Option.map_some', Option.some.injEq] at h
      exact Or.inr ⟨x, y, rfl, rfl, h⟩

theorem I1_of_eq (f g : FtlImpl_MNftl) (hT : g.PMT = f.PMT) (hR : g.rmap = f.rmap)
    (h : I1 f) : I1 g := by
  intro p L i s hp hne
  rw [hR, PMT_get_congr f g hT]
  exact h p L i s hp hne

theorem alloc_page_some (m : Machine) (a : Address) (m1 : Machine) (n : Nat) (a1 : Address)
    (h : alloc_page_in_current_block m a = some (m1, n, a1)) :
    m1 = m.log [Action.get_free_page] ∧ n = a.get_linear_address ∧ a1 = a := by
  unfold alloc_page_in_current_block at h
  split at h
  · simp only [Option.some.injEq, Prod.mk.injEq] at h
    exact ⟨h.1.symm, h.2.1.symm, h.2.2.symm⟩
  · exact absurd h (by simp)

/-- One iteration of the loops of the two `cleanup_block` methods. -/
theorem sim_cleanup_page (cfg : Config) (pa : Int) (i : Nat) (st : page_state) (r : CopyResp)
    (sc c : Outcome Unit) (h : Sim sc.m c.m) (he : sc.event = c.event) (hI : I1 c.m.ftl)
    (hK : ∀ L, c.m.ftl.PMT L ≠ none → L < 4294967296)
    (hp : st = page_state.VALID → isPage (toUlong (pa + (i : Int)))) :
    (scan_cleanup_page cfg pa i st r sc).map
      (fun o => (o.event, o.m.ftl, issued_rw o.m.trace)) =
    (cleanup_page cfg pa i st r c).map
      (fun o => (o.event, mapping_part o.m.ftl, issued_rw o.m.trace)) := by
  obtain ⟨sm, sev, su⟩ := sc
  obtain ⟨cm, cev, cu⟩ := c
  dsimp only at h he hI hK
  subst he
  unfold scan_cleanup_page cleanup_page
  by_cases hst : st = page_state.VALID
  · simp only [hst, ne_eq, not_true_eq_false, if_false]
    have hp1 := hp hst
    obtain ⟨h1, h1e, _⟩ := sim_issue sm cm h
      ((Event.new cfg event_type.READ sev.logical_address 1 sev.start_time).set_address
        (cfg.mkAddress (toUlong (pa + (i : Int)) % 4294967296) address_valid.PAGE)) r.rd
    have hf1 : (issue cm
      ((Event.new cfg event_type.READ sev.logical_address 1 sev.start_time).set_address
        (cfg.mkAddress (toUlong (pa + (i : Int)) % 4294967296) address_valid.PAGE)) r.rd).m.ftl
        = cm.ftl := rfl
    rw [h1e]
    generalize (issue sm _ r.rd).m = s1 at *
    generalize (issue cm _ r.rd) = o1 at *
    obtain ⟨h2, h2e⟩ := sim_ensure_frontier s1 o1.m h1 sev r.fb
    obtain ⟨_, _, _, _, d5, d6, _⟩ := ensure_frontier_ftl o1.m sev r.fb
    generalize scan_ensure_frontier s1 sev r.fb = sef at *
    generalize ensure_frontier o1.m sev r.fb = ef at *
    obtain ⟨s2, se2⟩ := sef
    obtain ⟨m2, e2⟩ := ef
    dsimp only at h2 h2e d5 d6 ⊢
    subst h2e
    rcases sim_alloc_page s2 m2 h2 r.newAddr with ⟨a1, a2⟩ | ⟨s3, m3, a1, a2, h3⟩
    · rw [a1, a2]; rfl
    · rw [a1, a2]
      dsimp only
      obtain ⟨hm3, _, _⟩ := alloc_page_some m2 r.newAddr m3 _ _ a2
      have h4 := sim_incr_offset s3 m3 h3
      obtain ⟨h5, h5e, _⟩ := sim_issue _ _ h4
        (((Event.new cfg event_type.WRITE se2.logical_address 1
          (se2.start_time + o1.event.time_taken)).set_address r.newAddr).set_replace_address
            (cfg.mkAddress (toUlong (pa + (i : Int)) % 4294967296) address_valid.PAGE)) r.wr
      have hT6 : (issue (incr_offset m3)
        (((Event.new cfg event_type.WRITE se2.logical_address 1
          (se2.start_time + o1.event.time_taken)).set_address r.newAddr).set_replace_address
            (cfg.mkAddress (toUlong (pa + (i : Int)) % 4294967296) address_valid.PAGE))
          r.wr).m.ftl.PMT = cm.ftl.PMT := by
        rw [hm3]
        exact d5.trans (congrArg FtlImpl_MNftl.PMT hf1)
      have hR6 : (issue (incr_offset m3)
        (((Event.new cfg event_type.WRITE se2.logical_address 1
          (se2.start_time + o1.event.time_taken)).set_address r.newAddr).set_replace_address
            (cfg.mkAddress (toUlong (pa + (i : Int)) % 4294967296) address_valid.PAGE))
          r.wr).m.ftl.rmap = cm.ftl.rmap := by
        rw [hm3]
        exact d6.trans (congrArg FtlImpl_MNftl.rmap hf1)
      rw [h5e]
      generalize (issue (incr_offset s3) _ r.wr).m = s5 at *
      generalize (issue (incr_offset m3) _ r.wr) = o5 at *
      have h6 : Sim { s5 with stats := { s5.stats with
          valid_page_copies := s5.stats.valid_page_copies + 1 } }
        { o5.m with stats := { o5.m.stats with
          valid_page_copies := o5.m.stats.valid_page_copies + 1 } } := h5
      have hI6 : I1 ({ o5.m with stats := { o5.m.stats with
          valid_page_copies := o5.m.stats.valid_page_copies + 1 } } : Machine).ftl :=
        I1_of_eq cm.ftl _ hT6 hR6 hI
      have hK6 : ∀ L, ({ o5.m with stats := { o5.m.stats with
          valid_page_copies := o5.m.stats.valid_page_copies + 1 } } : Machine).ftl.PMT L ≠ none →
          L < 4294967296 := by
        intro L hL
        apply hK L
        rw [← hT6]; exact hL
      rcases map_eq_cases _ _ _ _ (sim_remap _ _ h6 hI6 hK6 (toUlong (pa + (i : Int)))
        r.newAddr.get_linear_address (toUlong_lt _) hp1) with ⟨b1, b2⟩ | ⟨s7, m7, b1, b2, b3⟩
      · rw [b1, b2]; rfl
      · rw [b1, b2]
        simp only [Prod.mk.injEq] at b3
        dsimp only [Option.map_some']
        refine congrArg some ?_
        exact Prod.ext rfl (Prod.ext b3.1 b3.2)
  · simp only [hst, ne_eq, not_false_eq_true, if_true, Option.map_some']
    rw [h.1, h.2]

theorem keys_PMT_of_PMD (f : FtlImpl_MNftl) (hW : WF f) (hK : keys_uint f) :
    ∀ L, f.PMT L ≠ none → L < 4294967296 :=
  fun L hL => hK L (fun hn => hL ((hW.keys L).mp hn))

theorem keys_uint_of_keys (f g : FtlImpl_MNftl) (hK : keys_uint f)
    (h : ∀ L, g.PMD L = none ↔ f.PMD L = none) : keys_uint g :=
  fun L hL => hK L (fun hn => hL ((h L).mpr hn))

/-- The loops of the two `cleanup_block` methods over the pages `0, …, n - 1`. -/
theorem sim_cleanup_pages (cfg : Config) (pa : Int) (gs : Nat → page_state)
    (resp : Nat → CopyResp) (sc c : Outcome Unit) (h : Sim sc.m c.m) (he : sc.event = c.event)
    (hI : Inv c.m.ftl) (hK : keys_uint c.m.ftl) :
    ∀ n, cleanup_allocs cfg pa gs resp c (fun f _ a => allocFresh f a) n →
      (∀ j, j < n → gs j = page_state.VALID → isPage (toUlong (pa + (j : Int)))) →
      ∃ c1 sc1, cleanup_pages cfg pa gs resp c n = some c1 ∧
        scan_cleanup_pages cfg pa gs resp sc n = some sc1 ∧
        Sim sc1.m c1.m ∧ sc1.event = c1.event ∧ Inv c1.m.ftl ∧ keys_uint c1.m.ftl
  | 0, _, _ => ⟨c, sc, rfl, rfl, h, he, hI, hK⟩
  | n + 1, ha, hv => by
    obtain ⟨ha1, ha2⟩ := ha
    obtain ⟨c1, sc1, hc1, hsc1, hS, hE, hI1, hK1⟩ :=
      sim_cleanup_pages cfg pa gs resp sc c h he hI hK n ha1
        (fun j hj => hv j (Nat.lt_succ_of_lt hj))
    obtain ⟨c2, hc2, hI2⟩ := Inv_cleanup_page cfg pa n (gs n) (resp n) c1 hI1
      (fun hst => ha2 hst c1 hc1)
    obtain ⟨c3, hc3, _, _, _, _, hk, _⟩ :=
      cleanup_page_view cfg pa n (gs n) (resp n) c1 hI1.wf
    rw [hc2] at hc3
    simp only [Option.some.injEq] at hc3
    subst hc3
    have hsim := sim_cleanup_page cfg pa n (gs n) (resp n) sc1 c1 hS hE hI1.i1
      (keys_PMT_of_PMD _ hI1.wf hK1) (fun hst => hv n (Nat.lt_succ_self n) hst)
    rcases map_eq_cases _ _ _ _ hsim with ⟨_, b2⟩ | ⟨sc2, c4, b1, b2, b3⟩
    · rw [hc2] at b2; exact absurd b2 (by simp)
    · rw [hc2] at b2
      simp only [Option.some.injEq] at b2
      subst b2
      simp only [Prod.mk.injEq] at b3
      refine ⟨c2, sc2, ?_, ?_, ⟨b3.2.1, b3.2.2⟩, b3.1, hI2, keys_uint_of_keys _ _ hK1 hk⟩
      · rw [cleanup_pages_succ cfg pa gs resp c n c1 hc1]; exact hc2
      · show (match scan_cleanup_pages cfg pa gs resp sc n with
          | none => none
          | some c1 => scan_cleanup_page cfg pa n (gs n) (resp n) c1) = some sc2
        rw [hsc1]; exact b1

/-- The result of the scan-based `cleanup_block` from the result of its loop: one ERASE
event is issued, the trigger event and the engine state are those of the loop. -/
theorem scan_cleanup_block_some (cfg : Config) (s : Machine) (ev : Event) (pa : Int)
    (gs : Nat → page_state) (resp : Nat → CopyResp) (er : IssueResp) (sc1 : Outcome Unit)
    (hsc1 : scan_cleanup_pages cfg pa gs resp
      { m := s, event := ev.incr_time_taken ((s.ftl.num_pmd : ℚ) * cfg.OOB_READ_DELAY),
        ret := () } cfg.BLOCK_SIZE = some sc1) :
    ∃ so, scan_cleanup_block cfg s ev pa gs resp er = some so ∧ so.m.ftl = sc1.m.ftl ∧
      so.event = sc1.event ∧
      (∃ e, e.type = event_type.ERASE ∧ so.m.trace = sc1.m.trace ++ [Action.issue e]) ∧
      so.m.stats = { sc1.m.stats with numFTLErase := sc1.m.stats.numFTLErase + 1 } := by
  unfold scan_cleanup_block
  dsimp only
  rw [hsc1]
  exact ⟨_, rfl, rfl, rfl, ⟨_, rfl, rfl⟩, rfl⟩

/-- The two `cleanup_block` methods agree on the trigger event and on the state; the
scan-based one issues one ERASE event more. -/
theorem sim_cleanup_block (cfg : Config) (hB : 0 < cfg.BLOCK_SIZE) (s m : Machine)
    (h : Sim s m) (hI : Inv m.ftl) (hK : keys_uint m.ftl) (ev : Event) (pa : Int)
    (gs : Nat → page_state) (resp : Nat → CopyResp) (er : IssueResp)
    (ha : opFresh cfg m (Op.cleanup_block ev pa gs resp))
    (hv : victim_pages cfg (Op.cleanup_block ev pa gs resp)) :
    ∃ o so, cleanup_block cfg m ev pa gs resp = some o ∧
      scan_cleanup_block cfg s ev pa gs resp er = some so ∧
      Sim so.m o.m ∧ so.event = o.event ∧ Inv o.m.ftl ∧ keys_uint o.m.ftl := by
  have hn : s.ftl.num_pmd = m.ftl.num_pmd := by rw [h.1]; rfl
  obtain ⟨c1, sc1, hc1, hsc1, hS, hE, hI1, hK1⟩ :=
    sim_cleanup_pages cfg pa gs resp
      { m := s, event := ev.incr_time_taken ((s.ftl.num_pmd : ℚ) * cfg.OOB_READ_DELAY),
        ret := () }
      { m := m, event := ev.incr_time_taken ((m.ftl.num_pmd : ℚ) * cfg.OOB_READ_DELAY),
        ret := () } h (by rw [hn]) hI hK cfg.BLOCK_SIZE ha hv
  have ho := cleanup_block_some cfg m ev pa gs resp hB c1 hc1
  obtain ⟨so, hso, hf, hev, ⟨e, het, htr⟩, _⟩ :=
    scan_cleanup_block_some cfg s ev pa gs resp er sc1 hsc1
  refine ⟨_, so, ho, hso, ⟨?_, ?_⟩, ?_, ?_, ?_⟩
  · rw [hf]; exact hS.1
  · rw [htr]
    refine issued_rw_skip _ _ _ hS.2 ?_
    simp [issued_rw, issued, het]
  · rw [hev]; exact hE
  · exact Inv_of_fields c1.m.ftl _ hI1 rfl rfl rfl rfl rfl rfl
  · exact hK1

theorem lbn_of_lt (P lpn : Nat) : lbn_of P lpn < 4294967296 := by
  unfold lbn_of
  exact Nat.mod_lt _ (by norm_num)

/-- The calls of the rmap-based engine create PMD rows under `uint` keys only. -/
theorem keys_uint_step (cfg : Config) (m : Machine) (hW : WF m.ftl)
    (hK : keys_uint m.ftl) (op : Op) (hc : notCleanup op) (m1 : Machine)
    (hs : step cfg m op = some m1) : keys_uint m1.ftl := by
  cases op with
  | read event dev =>
    obtain ⟨o, ho, hf⟩ := Inv_read cfg m event dev hW
    simp only [step, ho, Option.map_some', Option.some.injEq] at hs
    subst hs
    rw [hf]; exact hK
  | write event fb newAddr dev =>
    obtain ⟨o, ho, _, _, _, _, _, _, _, hk, _⟩ :=
      write_view cfg m event fb newAddr dev hW _ _ _ _ _ _ rfl rfl rfl rfl rfl rfl
    simp only [step, ho, Option.map_some', Option.some.injEq] at hs
    subst hs
    intro L hL
    by_cases hLl : L = lbn_of m.ftl.P event.logical_address
    · rw [hLl]; exact lbn_of_lt _ _
    · exact hK L (fun hn => hL ((hk L).mpr ⟨hLl, hn⟩))
  | trim event dev =>
    obtain ⟨o, ho, _, t1, t2⟩ := trim_view cfg m event dev hW _ _ _ rfl rfl rfl
    simp only [step, ho, Option.map_some', Option.some.injEq] at hs
    subst hs
    by_cases hD : m.ftl.PMD (lbn_of m.ftl.P event.logical_address) = none
    · rw [(t1 hD).1]; exact hK
    · obtain ⟨old, _, hf, _⟩ := t2 hD
      rw [hf]
      by_cases hold : old ≠ -1
      · rw [if_pos hold]; exact hK
      · rw [if_neg hold]; exact hK
  | cleanup_block event pa gs resp => exact hc.elim

/-- One call of the two engines from related states. -/
theorem sim_step (cfg : Config) (hB : 0 < cfg.BLOCK_SIZE) (s m : Machine) (h : Sim s m)
    (hI : Inv m.ftl) (hK : keys_uint m.ftl) (op : Op) (ha : opFresh cfg m op)
    (hv : victim_pages cfg op) (er : IssueResp) :
    ∃ m1 s1, step cfg m op = some m1 ∧ scan_step cfg er s op = some s1 ∧ Sim s1 m1 ∧
      Inv m1.ftl ∧ keys_uint m1.ftl := by
  obtain ⟨m1, hm1, hI1⟩ := Inv_step cfg hB m hI op ha
  cases op with
  | read event dev =>
    have hK1 := keys_uint_step cfg m hI.wf hK (Op.read event dev) trivial m1 hm1
    rcases map_eq_cases _ _ _ _ (sim_read cfg s m h event dev) with ⟨_, b2⟩ | ⟨so, o, b1, b2, b3⟩
    · simp [step, b2] at hm1
    · simp only [step, b2, Option.map_some', Option.some.injEq] at hm1
      subst hm1
      simp only [Prod.mk.injEq] at b3
      exact ⟨_, so.m, by simp [step, b2], by simp [scan_step, b1], ⟨b3.2.2.1, b3.2.2.2⟩, hI1, hK1⟩
  | write event fb newAddr dev =>
    have hK1 := keys_uint_step cfg m hI.wf hK (Op.write event fb newAddr dev) trivial m1 hm1
    rcases map_eq_cases _ _ _ _ (sim_write cfg s m h event fb newAddr dev) with
      ⟨_, b2⟩ | ⟨so, o, b1, b2, b3⟩
    · simp [step, b2] at hm1
    · simp only [step, b2, Option.map_some', Option.some.injEq] at hm1
      subst hm1
      simp only [Prod.mk.injEq] at b3
      exact ⟨_, so.m, by simp [step, b2], by simp [scan_step, b1], ⟨b3.2.2.1, b3.2.2.2⟩, hI1, hK1⟩
  | trim event dev =>
    have hK1 := keys_uint_step cfg m hI.wf hK (Op.trim event dev) trivial m1 hm1
    rcases map_eq_cases _ _ _ _ (sim_trim cfg s m h event dev) with ⟨_, b2⟩ | ⟨so, o, b1, b2, b3⟩
    · simp [step, b2] at hm1
    · simp only [step, b2, Option.map_some', Option.some.injEq] at hm1
      subst hm1
      simp only [Prod.mk.injEq] at b3
      exact ⟨_, so.m, by simp [step, b2], by simp [scan_step, b1], ⟨b3.2.2.1, b3.2.2.2⟩, hI1, hK1⟩
  | cleanup_block event pa gs resp =>
    obtain ⟨o, so, ho, hso, hS, _, hI2, hK2⟩ :=
      sim_cleanup_block cfg hB s m h hI hK event pa gs resp er ha hv
    exact ⟨o.m, so.m, by simp [step, ho], by simp [scan_step, hso], hS, hI2, hK2⟩

/-- A sequence of calls of the two engines from related states. -/
theorem sim_run (cfg : Config) (hB : 0 < cfg.BLOCK_SIZE) :
    ∀ (ops : List Op) (s m : Machine) (er : Nat → IssueResp), Sim s m → Inv m.ftl →
      keys_uint m.ftl → runFresh cfg m ops → (∀ op, op ∈ ops → victim_pages cfg op) →
      ∃ m1 s1, run cfg m ops = some m1 ∧ scan_run cfg s ops er = some s1 ∧ Sim s1 m1 ∧
        Inv m1.ftl ∧ keys_uint m1.ftl
  | [], s, m, _, h, hI, hK, _, _ => ⟨m, s, rfl, rfl, h, hI, hK⟩
  | op :: ops, s, m, er, h, hI, hK, ha, hv => by
    obtain ⟨ha1, ha2⟩ := ha
    obtain ⟨m1, s1, hm1, hs1, hS, hI1, hK1⟩ :=
      sim_step cfg hB s m h hI hK op ha1 (hv op (List.mem_cons_self _ _)) (er 0)
    obtain ⟨m2, s2, hm2, hs2, hS2, hI2, hK2⟩ :=
      sim_run cfg hB ops s1 m1 (fun k => er (k + 1)) hS hI1 hK1 (ha2 m1 hm1)
        (fun o ho => hv o (List.mem_cons_of_mem _ ho))
    refine ⟨m2, s2, ?_, ?_, hS2, hI2, hK2⟩
    · show (match step cfg m op with
        | none => none
        | some m1 => run cfg m1 ops) = some m2
      rw [hm1]; exact hm2
    · show (match scan_step cfg (er 0) s op with
        | none => none
        | some m1 => scan_run cfg m1 ops (fun k => er (k + 1))) = some s2
      rw [hs1]; exact hs2

theorem new_mapping_part (cfg : Config) (m0 : Machine) (h0 : Machine.new cfg = some m0) :
    m0.ftl = mapping_part m0.ftl := by
  unfold Machine.new FtlImpl_MNftl.new at h0
  split at h0
  · simp at h0
  · dsimp only at h0
    split at h0
    · simp at h0
    · simp only [Option.map_some', Option.some.injEq] at h0
      subst h0
      rfl

/-- C39 (the scan-based engine of `src/mn_ftl.cpp` against the rmap-based engine of
`src/mn_ftl_v3.cpp`).  Under an accepted configuration, both engines are constructed alike
and fed the same sequence `ops` of `read`, `write`, `trim` and `cleanup_block` calls with
the same answers of the allocator, the Block manager and the Device (`er` answers the ERASE
issues, which only the scan-based engine makes).  If every page allocated along the run is
fresh when it is allocated and the VALID pages of every victim are page numbers (not the bit
pattern of the sentinel), then both runs are defined and end with identical `PMD`, `PMT`,
`current_page_offset`, `BML`, `has_current_block` and `current_block`, and have issued the
same events in the same order, ERASE events apart.  In the states reached, every further
`read`, `write` and `trim` call, and every further `cleanup_block` call with fresh
allocations and page numbers as VALID victim pages, is defined in both engines and leaves
the same event (address, replace_address, noop flag, time taken) and the same status.  The
first-match scan of `cleanup_block` finds, for every page number, exactly the slot that
`rmap` records for it and nothing exactly when `rmap` has no entry, so the mapping rewrite
of one copied page leaves the same `PMD` and `PMT` in both engines. -/
theorem C39_scan_equivalent (cfg : Config) (hok : cfg.ok) (m0 : Machine)
    (h0 : Machine.new cfg = some m0) (ops : List Op) (er : Nat → IssueResp)
    (hf : runFresh cfg m0 ops) (hv : ∀ op, op ∈ ops → victim_pages cfg op) :
    ∃ m s, run cfg m0 ops = some m ∧ scan_run cfg m0 ops er = some s ∧
      s.ftl.PMD = m.ftl.PMD ∧ s.ftl.PMT = m.ftl.PMT ∧
      s.ftl.current_page_offset = m.ftl.current_page_offset ∧ s.ftl.BML = m.ftl.BML ∧
      s.ftl.has_current_block = m.ftl.has_current_block ∧
      s.ftl.current_block = m.ftl.current_block ∧
      issued_rw s.trace = issued_rw m.trace ∧
      (∀ ev dev, ∃ o so, read cfg m ev dev = some o ∧ scan_read cfg s ev dev = some so ∧
        so.event = o.event ∧ so.ret = o.ret) ∧
      (∀ ev fb newAddr dev, ∃ o so, write cfg m ev fb newAddr dev = some o ∧
        scan_write cfg s ev fb newAddr dev = some so ∧ so.event = o.event ∧ so.ret = o.ret) ∧
      (∀ ev dev, ∃ o so, trim cfg m ev dev = some o ∧ scan_trim cfg s ev dev = some so ∧
        so.event = o.event ∧ so.ret = o.ret) ∧
      (∀ ev pa gs resp e1, opFresh cfg m (Op.cleanup_block ev pa gs resp) →
        victim_pages cfg (Op.cleanup_block ev pa gs resp) →
        ∃ o so, cleanup_block cfg m ev pa gs resp = some o ∧
          scan_cleanup_block cfg s ev pa gs resp e1 = some so ∧ so.event = o.event ∧
          so.m.ftl.PMD = o.m.ftl.PMD ∧ so.m.ftl.PMT = o.m.ftl.PMT) ∧
      (∀ old, old < 18446744073709551616 → isPage old →
        scan_find s.ftl (toLong old) = (m.ftl.rmap old).map (fun e => (e.lbn, e.pmd, e.slot))) ∧
      (∀ old new, old < 18446744073709551616 → isPage old →
        (scan_remap s old new).map (fun x => (x.ftl.PMD, x.ftl.PMT)) =
          (remap m old new).map (fun x => (x.ftl.PMD, x.ftl.PMT))) := by
  obtain ⟨m0a, h0a, hI0, _, _, hD0, _⟩ := Inv_new cfg hok
  rw [h0] at h0a
  simp only [Option.some.injEq] at h0a
  subst h0a
  have hK0 : keys_uint m0.ftl := by
    intro L hL
    rw [hD0] at hL
    exact absurd rfl hL
  have hS0 : Sim m0 m0 := ⟨new_mapping_part cfg m0 h0, rfl⟩
  obtain ⟨m, s, hm, hs, hS, hI, hK⟩ := sim_run cfg hok.1 ops m0 m0 er hS0 hI0 hK0 hf hv
  have hKT := keys_PMT_of_PMD m.ftl hI.wf hK
  refine ⟨m, s, hm, hs, by rw [hS.1]; rfl, by rw [hS.1]; rfl, by rw [hS.1]; rfl,
    by rw [hS.1]; rfl, by rw [hS.1]; rfl, by rw [hS.1]; rfl, hS.2, ?_, ?_, ?_, ?_, ?_, ?_⟩
  · intro ev dev
    obtain ⟨o, ho, _⟩ := Inv_read cfg m ev dev hI.wf
    rcases map_eq_cases _ _ _ _ (sim_read cfg s m hS ev dev) with ⟨_, b2⟩ | ⟨so, o1, b1, b2, b3⟩
    · rw [ho] at b2; exact absurd b2 (by simp)
    · rw [ho] at b2
      simp only [Option.some.injEq] at b2
      subst b2
      simp only [Prod.mk.injEq] at b3
      exact ⟨o, so, ho, b1, b3.1, b3.2.1⟩
  · intro ev fb newAddr dev
    obtain ⟨o, ho, _⟩ :=
      write_view cfg m ev fb newAddr dev hI.wf _ _ _ _ _ _ rfl rfl rfl rfl rfl rfl
    rcases map_eq_cases _ _ _ _ (sim_write cfg s m hS ev fb newAddr dev) with
      ⟨_, b2⟩ | ⟨so, o1, b1, b2, b3⟩
    · rw [ho] at b2; exact absurd b2 (by simp)
    · rw [ho] at b2
      simp only [Option.some.injEq] at b2
      subst b2
      simp only [Prod.mk.injEq] at b3
      exact ⟨o, so, ho, b1, b3.1, b3.2.1⟩
  · intro ev dev
    obtain ⟨o, ho, _⟩ := trim_view cfg m ev dev hI.wf _ _ _ rfl rfl rfl
    rcases map_eq_cases _ _ _ _ (sim_trim cfg s m hS ev dev) with ⟨_, b2⟩ | ⟨so, o1, b1, b2, b3⟩
    · rw [ho] at b2; exact absurd b2 (by simp)
    · rw [ho] at b2
      simp only [Option.some.injEq] at b2
      subst b2
      simp only [Prod.mk.injEq] at b3
      exact ⟨o, so, ho, b1, b3.1, b3.2.1⟩
  · intro ev pa gs resp e1 ha hv1
    obtain ⟨o, so, ho, hso, hS1, he1, _, _⟩ :=
      sim_cleanup_block cfg hok.1 s m hS hI hK ev pa gs resp e1 ha hv1
    exact ⟨o, so, ho, hso, he1, by rw [hS1.1]; rfl, by rw [hS1.1]; rfl⟩
  · intro old ho hp
    rw [hS.1]
    exact scan_find_eq_rmap m.ftl hI.i1 hKT old ho hp
  · intro old new ho hp
    rcases map_eq_cases _ _ _ _ (sim_remap s m hS hI.i1 hKT old new ho hp) with
      ⟨b1, b2⟩ | ⟨x, y, b1, b2, b3⟩
    · rw [b1, b2]
    · rw [b1, b2]
      simp only [Prod.mk.injEq] at b3
      simp only [Option.map_some', b3.1]
      rfl

/-- Witness of C39: with `P = 64`, `Q = 8`, after `write(LPN=5)` to page 0 and the cleaning
of block 0, whose only VALID page is copied to page 64, both engines are defined and hold
the same `PMD` and `PMT`. -/
theorem C39_scan_equivalent_witness :
    ∃ m s, run cfg64 m64 ops_copy = some m ∧
      scan_run cfg64 m64 ops_copy (fun _ => ok64 1) = some s ∧
      s.ftl.PMD = m.ftl.PMD ∧ s.ftl.PMT = m.ftl.PMT := by
  have hslots := after_first_write_slots 5 0 0 1 (by decide) (by decide)
  obtain ⟨m, s, hm, hs, h1, h2, _⟩ := C39_scan_equivalent cfg64 cfg64_ok m64 new_cfg64 ops_copy
    (fun _ => ok64 1)
    (by
      refine ⟨⟨by unfold isPage; decide, ?_⟩, ?_⟩
      · intro L i s; simp [PMT_get, m64]
      · intro m1 hm1
        rw [step_first_write 5 0 0 1] at hm1
        simp only [Option.some.injEq] at hm1
        subst hm1
        refine ⟨?_, fun _ _ => trivial⟩
        apply cleanup_allocs_of_forall
        intro n _ hv c1 hc1
        have hn0 : n = 0 := by
          by_contra hne
          simp [hne] at hv
        subst hn0
        simp only [cleanup_pages, Option.some.injEq] at hc1
        subst hc1
        refine ⟨by unfold isPage; decide, ?_⟩
        intro L i s hs
        rcases hslots L i s _ hs with hx | hx
        · exact absurd hx.2.2.2 (by decide)
        · exact absurd hx (by decide))
    (by
      intro op hop
      simp only [ops_copy, List.mem_cons, List.mem_singleton, List.not_mem_nil, or_false] at hop
      rcases hop with hop | hop
      · subst hop; trivial
      · subst hop
        intro j hj _
        show toLong (toUlong (0 + (j : Int))) ≠ -1
        have hj1 : j < 64 := hj
        unfold toLong toUlong
        split <;> omega)
  exact ⟨m, s, hm, hs, h1, h2⟩

end MnFtl
